import Mathlib

/-!
# BusTub storage core: extendible hash index, LRU-K replacer, buffer pool

A shallow embedding of the page accessors
(`extendible_htable_header_page.cpp`, `extendible_htable_directory_page.cpp`,
`extendible_htable_bucket_page.cpp`), of the disk extendible hash table
(`disk_extendible_hash_table.cpp`), of the LRU-K replacer
(`lru_k_replacer.cpp`) and of the buffer pool manager
(`buffer_pool_manager.cpp`).

Conventions.
* Fixed C arrays are functions from the index; an access past the declared
  length of the array is a `Fault`, as is every other undefined behaviour
  (null dereference, shift by a negative amount, a mutex locked twice by its
  owner, an erase through an iterator that points nowhere) and, in the hash
  index, every thrown exception.
* In the replacer and the buffer pool a thrown `std::exception` is an `Ending`
  of the call; the object keeps the state it has at the throw, and the caller
  may go on.
* `uint32_t` values are natural numbers; the template instance embedded is
  `<int, int, IntComparator>`, keys and values are integers and the
  comparator returns 0 exactly on equal keys.
* Recursion of the source (`Insert` calls itself after a split) is embedded
  with a fuel argument; running out of fuel is the fault `out_of_fuel`.
* The hash table is embedded twice.  Over `PagePool`, a pool with enough
  frames that no page is evicted, for what a script of calls returns and for
  the split of the directory.  Over `BufferPoolManager` itself (namespace
  `Pooled`), where `FetchPage` and `NewPage` evict and hand back `nullptr`
  and a `Page *` is a frame, for the states reachable from a constructed
  table.  There the bytes of a page of another kind read through a `Page *`
  are the fault `bad_cast`.
-/

namespace bustub

/-! ## Faults -/

/-- The ways a call can fail to return a value. -/
inductive Fault where
  /-- the fuel of a recursive embedding ran out -/
  | out_of_fuel
  /-- a C++ exception was thrown -/
  | exception
  /-- a null `Page *` was dereferenced -/
  | null_deref
  /-- an array was indexed past its declared length -/
  | out_of_bounds
  /-- a shift by a negative or too large amount -/
  | bad_shift
  /-- page bytes were reinterpreted as a page of another kind -/
  | bad_cast
  /-- a non-recursive mutex was locked twice by the same thread -/
  | deadlock
  /-- a list was erased through an iterator that points at none of its entries -/
  | bad_iterator
  deriving DecidableEq, Repr

abbrev page_id_t := Int
abbrev frame_id_t := Int

def INVALID_PAGE_ID : page_id_t := -1

def HTABLE_HEADER_MAX_DEPTH : Nat := 9
def HTABLE_HEADER_ARRAY_SIZE : Nat := 1 <<< HTABLE_HEADER_MAX_DEPTH
def HTABLE_DIRECTORY_MAX_DEPTH : Nat := 9
def HTABLE_DIRECTORY_ARRAY_SIZE : Nat := 1 <<< HTABLE_DIRECTORY_MAX_DEPTH

/-- A counted loop `for (i = 0; i < n; ++i) s = body i s`. -/
def forLoop {σ : Type} (body : Nat → σ → σ) : Nat → σ → σ
  | 0, s => s
  | n + 1, s => body n (forLoop body n s)

/-- How a call ends when nothing undefined happens: it returns, or it throws
`std::exception`, which the caller may catch.  The object keeps the state it
has at the throw. -/
inductive Ending where
  | returned
  | thrown
  deriving DecidableEq, Repr

/-! ## Header page -/

structure ExtendibleHTableHeaderPage where
  directory_page_ids_ : Nat → page_id_t
  max_depth_ : Nat

namespace ExtendibleHTableHeaderPage

def MaxSize (h : ExtendibleHTableHeaderPage) : Nat := 1 <<< h.max_depth_

/-- `Init`: the loop writes `directory_page_ids_[0 .. 2^max_depth)`; the array
has `HTABLE_HEADER_ARRAY_SIZE` slots. -/
def Init (h : ExtendibleHTableHeaderPage) (max_depth : Nat) :
    Except Fault ExtendibleHTableHeaderPage :=
  if 1 <<< max_depth ≤ HTABLE_HEADER_ARRAY_SIZE then
    .ok { max_depth_ := max_depth,
          directory_page_ids_ :=
            forLoop (fun i ids => Function.update ids i INVALID_PAGE_ID) (1 <<< max_depth)
              h.directory_page_ids_ }
  else .error .out_of_bounds

def HashToDirectoryIndex (h : ExtendibleHTableHeaderPage) (hash : Nat) : Nat :=
  if h.max_depth_ = 0 then 0 else hash >>> (32 - h.max_depth_)

def GetDirectoryPageId (h : ExtendibleHTableHeaderPage) (directory_idx : Nat) : page_id_t :=
  if directory_idx ≥ h.MaxSize then INVALID_PAGE_ID else h.directory_page_ids_ directory_idx

def SetDirectoryPageId (h : ExtendibleHTableHeaderPage) (directory_idx : Nat)
    (directory_page_id : page_id_t) : ExtendibleHTableHeaderPage :=
  if directory_idx ≥ h.MaxSize then h
  else { h with directory_page_ids_ := Function.update h.directory_page_ids_ directory_idx directory_page_id }

end ExtendibleHTableHeaderPage

/-! ## Directory page -/

structure ExtendibleHTableDirectoryPage where
  max_depth_ : Nat
  global_depth_ : Nat
  local_depths_ : Nat → Nat
  bucket_page_ids_ : Nat → page_id_t

namespace ExtendibleHTableDirectoryPage

/-- `Init`: both `std::fill` calls write the first `2^max_depth` slots of
arrays of `HTABLE_DIRECTORY_ARRAY_SIZE` slots. -/
def Init (d : ExtendibleHTableDirectoryPage) (max_depth : Nat) :
    Except Fault ExtendibleHTableDirectoryPage :=
  if 1 <<< max_depth ≤ HTABLE_DIRECTORY_ARRAY_SIZE then
    .ok { max_depth_ := max_depth,
          global_depth_ := 0,
          local_depths_ := forLoop (fun i a => Function.update a i 0) (1 <<< max_depth) d.local_depths_,
          bucket_page_ids_ :=
            forLoop (fun i a => Function.update a i INVALID_PAGE_ID) (1 <<< max_depth) d.bucket_page_ids_ }
  else .error .out_of_bounds

def GetGlobalDepth (d : ExtendibleHTableDirectoryPage) : Nat := d.global_depth_

def GetMaxDepth (d : ExtendibleHTableDirectoryPage) : Nat := d.max_depth_

/-- `(1 << depth) - 1` (the source is defined for `depth < 31`; `Init` bounds
the depth by 9). -/
def GetGlobalDepthMask (d : ExtendibleHTableDirectoryPage) : Nat := (1 <<< d.global_depth_) - 1

def HashToBucketIndex (d : ExtendibleHTableDirectoryPage) (hash : Nat) : Nat :=
  hash &&& d.GetGlobalDepthMask

def Size (d : ExtendibleHTableDirectoryPage) : Nat := 1 <<< d.global_depth_

def GetBucketPageId (d : ExtendibleHTableDirectoryPage) (bucket_idx : Nat) : Except Fault page_id_t :=
  if bucket_idx < HTABLE_DIRECTORY_ARRAY_SIZE then .ok (d.bucket_page_ids_ bucket_idx)
  else .error .out_of_bounds

def SetBucketPageId (d : ExtendibleHTableDirectoryPage) (bucket_idx : Nat) (bucket_page_id : page_id_t) :
    Except Fault ExtendibleHTableDirectoryPage :=
  if bucket_idx < HTABLE_DIRECTORY_ARRAY_SIZE then
    .ok { d with bucket_page_ids_ := Function.update d.bucket_page_ids_ bucket_idx bucket_page_id }
  else .error .out_of_bounds

/-- `bucket_idx + (1 << (global_depth_ - 1))`; with `global_depth_ = 0` the
shift amount is `0u - 1`. -/
def GetSplitImageIndex (d : ExtendibleHTableDirectoryPage) (bucket_idx : Nat) : Except Fault Nat :=
  if d.global_depth_ = 0 ∨ 31 < d.global_depth_ then .error .bad_shift
  else .ok ((bucket_idx + 1 <<< (d.global_depth_ - 1)) % 2 ^ 32)

def GetLocalDepth (d : ExtendibleHTableDirectoryPage) (bucket_idx : Nat) : Except Fault Nat :=
  if bucket_idx < HTABLE_DIRECTORY_ARRAY_SIZE then .ok (d.local_depths_ bucket_idx)
  else .error .out_of_bounds

/-- The local depth is stored in a `uint8_t`. -/
def SetLocalDepth (d : ExtendibleHTableDirectoryPage) (bucket_idx : Nat) (local_depth : Nat) :
    Except Fault ExtendibleHTableDirectoryPage :=
  if bucket_idx < HTABLE_DIRECTORY_ARRAY_SIZE then
    .ok { d with local_depths_ := Function.update d.local_depths_ bucket_idx (local_depth % 256) }
  else .error .out_of_bounds

def GetLocalDepthMask (d : ExtendibleHTableDirectoryPage) (bucket_idx : Nat) : Except Fault Nat :=
  if bucket_idx ≥ 1 <<< d.global_depth_ then .error .exception
  else
    let local_depth := d.local_depths_ bucket_idx
    if local_depth = 0 ∨ 31 < local_depth then .error .bad_shift
    else .ok (1 <<< (local_depth - 1))

/-- The body of the loop of `IncrGlobalDepth`: slot `i` is copied to slot
`(1 << global_depth_) + i`. -/
def copySlot (i : Nat) (s : ExtendibleHTableDirectoryPage) : ExtendibleHTableDirectoryPage :=
  { s with
    bucket_page_ids_ := Function.update s.bucket_page_ids_ ((1 <<< s.global_depth_) + i) (s.bucket_page_ids_ i),
    local_depths_ := Function.update s.local_depths_ ((1 <<< s.global_depth_) + i) (s.local_depths_ i) }

def IncrGlobalDepth (d : ExtendibleHTableDirectoryPage) : Except Fault ExtendibleHTableDirectoryPage :=
  if d.global_depth_ ≥ d.max_depth_ then .ok d
  else if 1 <<< (d.global_depth_ + 1) ≤ HTABLE_DIRECTORY_ARRAY_SIZE then
    let d1 := forLoop copySlot (1 <<< d.global_depth_) d
    .ok { d1 with global_depth_ := d1.global_depth_ + 1 }
  else .error .out_of_bounds

def DecrGlobalDepth (d : ExtendibleHTableDirectoryPage) : ExtendibleHTableDirectoryPage :=
  if d.global_depth_ ≤ 0 then d else { d with global_depth_ := d.global_depth_ - 1 }

/-- `CanShrink`: false at depth 0, false as soon as one slot below `Size()`
has local depth equal to the global depth. -/
def CanShrink (d : ExtendibleHTableDirectoryPage) : Bool :=
  if d.global_depth_ = 0 then false
  else forLoop (fun i ok => ok && !(d.local_depths_ i == d.global_depth_)) d.Size true

def IncrLocalDepth (d : ExtendibleHTableDirectoryPage) (bucket_idx : Nat) :
    Except Fault ExtendibleHTableDirectoryPage :=
  if bucket_idx < HTABLE_DIRECTORY_ARRAY_SIZE then
    if d.local_depths_ bucket_idx < d.global_depth_ then
      .ok { d with local_depths_ :=
              Function.update d.local_depths_ bucket_idx ((d.local_depths_ bucket_idx + 1) % 256) }
    else .ok d
  else .error .out_of_bounds

def DecrLocalDepth (d : ExtendibleHTableDirectoryPage) (bucket_idx : Nat) :
    Except Fault ExtendibleHTableDirectoryPage :=
  if bucket_idx < HTABLE_DIRECTORY_ARRAY_SIZE then
    if d.local_depths_ bucket_idx > 0 then
      .ok { d with local_depths_ :=
              Function.update d.local_depths_ bucket_idx (d.local_depths_ bucket_idx - 1) }
    else .ok d
  else .error .out_of_bounds

end ExtendibleHTableDirectoryPage

/-! ## Bucket page -/

/-- A bucket page of the instance `<int, int, IntComparator>`.  `array_` is the
whole physical array: slots at and above `size_` keep whatever was written
there last (zero bytes on a fresh page).  `bucket_max_size` is taken to be at
most the capacity of the array, as the constructor's default is. -/
structure ExtendibleHTableBucketPage where
  size_ : Nat
  max_size_ : Nat
  array_ : Nat → Int × Int

namespace ExtendibleHTableBucketPage

def Init (b : ExtendibleHTableBucketPage) (max_size : Nat) : ExtendibleHTableBucketPage :=
  { b with max_size_ := max_size, size_ := 0 }

/-- The scan `for (i = 0; i < n; ++i) if (cmp(array_[i].first, key) == 0)`:
the first index below `n` holding `key`. -/
def scan (a : Nat → Int × Int) (key : Int) : Nat → Option Nat
  | 0 => none
  | n + 1 =>
    match scan a key n with
    | some i => some i
    | none => if (a n).1 = key then some n else none

def Lookup (b : ExtendibleHTableBucketPage) (key : Int) : Option Int :=
  match scan b.array_ key b.size_ with
  | some i => some (b.array_ i).2
  | none => none

def IsFull (b : ExtendibleHTableBucketPage) : Bool := b.size_ == b.max_size_

def IsEmpty (b : ExtendibleHTableBucketPage) : Bool := b.size_ == 0

def Size (b : ExtendibleHTableBucketPage) : Nat := b.size_

def EntryAt (b : ExtendibleHTableBucketPage) (bucket_idx : Nat) : Int × Int := b.array_ bucket_idx

def KeyAt (b : ExtendibleHTableBucketPage) (bucket_idx : Nat) : Int := (b.EntryAt bucket_idx).1

def ValueAt (b : ExtendibleHTableBucketPage) (bucket_idx : Nat) : Int := (b.EntryAt bucket_idx).2

def Insert (b : ExtendibleHTableBucketPage) (key value : Int) : Bool × ExtendibleHTableBucketPage :=
  if b.IsFull then (false, b)
  else
    match scan b.array_ key b.size_ with
    | some _ => (false, b)
    | none =>
      (true, { b with array_ := Function.update b.array_ b.size_ (key, value), size_ := b.size_ + 1 })

/-- `Remove`: at the first match `i` the inner loop copies `array_[j]` to
`array_[j - 1]` for `j = i + 1 .. size_ - 1`, then `size_--`. -/
def Remove (b : ExtendibleHTableBucketPage) (key : Int) : Bool × ExtendibleHTableBucketPage :=
  match scan b.array_ key b.size_ with
  | none => (false, b)
  | some i =>
    (true, { b with
      array_ := forLoop (fun t a => Function.update a (i + t) (a (i + 1 + t))) (b.size_ - (i + 1)) b.array_,
      size_ := b.size_ - 1 })

end ExtendibleHTableBucketPage

/-! ## The buffer pool as the hash table sees it -/

/-- What the bytes of a page currently are. -/
inductive PageData where
  /-- all bytes zero (`ResetMemory`) -/
  | zero
  | header (p : ExtendibleHTableHeaderPage)
  | directory (p : ExtendibleHTableDirectoryPage)
  | bucket (p : ExtendibleHTableBucketPage)

namespace PageData

def asHeader : PageData → Except Fault ExtendibleHTableHeaderPage
  | zero => .ok { directory_page_ids_ := fun _ => 0, max_depth_ := 0 }
  | header p => .ok p
  | _ => .error .bad_cast

def asDirectory : PageData → Except Fault ExtendibleHTableDirectoryPage
  | zero => .ok { max_depth_ := 0, global_depth_ := 0, local_depths_ := fun _ => 0,
                  bucket_page_ids_ := fun _ => 0 }
  | directory p => .ok p
  | _ => .error .bad_cast

def asBucket : PageData → Except Fault ExtendibleHTableBucketPage
  | zero => .ok { size_ := 0, max_size_ := 0, array_ := fun _ => (0, 0) }
  | bucket p => .ok p
  | _ => .error .bad_cast

end PageData

/-- The buffer pool manager (`buffer_pool_manager.cpp`) with enough frames
that no page is ever evicted: every page keeps its bytes while it is in the
pool, so the pool is a map from page id to page bytes and pin count.  Dirty
flags and latches play no part without eviction and are left out. -/
structure PagePool where
  pages_ : page_id_t → PageData
  pin_count_ : page_id_t → Nat
  next_page_id_ : page_id_t

namespace PagePool

/-- An empty pool. -/
def empty : PagePool :=
  { pages_ := fun _ => .zero, pin_count_ := fun _ => 0, next_page_id_ := 0 }

/-- `NewPage`: a fresh page id, zeroed bytes, pin count 1. -/
def NewPage (bpm : PagePool) : page_id_t × PagePool :=
  (bpm.next_page_id_,
   { pages_ := Function.update bpm.pages_ bpm.next_page_id_ .zero,
     pin_count_ := Function.update bpm.pin_count_ bpm.next_page_id_ 1,
     next_page_id_ := bpm.next_page_id_ + 1 })

/-- `FetchPage`: `none` is the null pointer returned for `INVALID_PAGE_ID`. -/
def FetchPage (bpm : PagePool) (page_id : page_id_t) : Option PagePool :=
  if page_id = INVALID_PAGE_ID then none
  else some { bpm with pin_count_ := Function.update bpm.pin_count_ page_id (bpm.pin_count_ page_id + 1) }

/-- `FetchPageRead`: the pool after the fetch; the guard holds the page, or
`nullptr` when `FetchPage` returned it. -/
def FetchPageRead (bpm : PagePool) (page_id : page_id_t) : PagePool :=
  match bpm.FetchPage page_id with
  | none => bpm
  | some bpm' => bpm'

/-- `UnpinPage`; its boolean result is ignored by every caller embedded here. -/
def UnpinPage (bpm : PagePool) (page_id : page_id_t) : PagePool :=
  if page_id = INVALID_PAGE_ID then bpm
  else if bpm.pin_count_ page_id = 0 then bpm
  else { bpm with pin_count_ := Function.update bpm.pin_count_ page_id (bpm.pin_count_ page_id - 1) }

/-- `DeletePage`: refuses a pinned page. -/
def DeletePage (bpm : PagePool) (page_id : page_id_t) : Bool × PagePool :=
  if page_id = INVALID_PAGE_ID then (true, bpm)
  else if bpm.pin_count_ page_id > 0 then (false, bpm)
  else (true, { bpm with pages_ := Function.update bpm.pages_ page_id .zero })

/-- Store through a `Page *` obtained earlier. -/
def write (bpm : PagePool) (page_id : page_id_t) (data : PageData) : PagePool :=
  { bpm with pages_ := Function.update bpm.pages_ page_id data }

end PagePool

/-! ## Disk extendible hash table -/

/-- The table object: its members and the pool its pages live in.
`hash_fn_` is the supplied 64-bit hash function. -/
structure DiskExtendibleHashTable where
  hash_fn_ : Int → Nat
  header_max_depth_ : Nat
  directory_max_depth_ : Nat
  bucket_max_size_ : Nat
  header_page_id_ : page_id_t
  bpm_ : PagePool

namespace DiskExtendibleHashTable

/-- Modelled from the spec: `Hash` is declared in the header and defined
elsewhere; the supplied 64-bit hash is projected to 32 bits. -/
def Hash (t : DiskExtendibleHashTable) (key : Int) : Nat := t.hash_fn_ key % 2 ^ 32

/-- The constructor.  The three page guards unpin their pages when the
constructor returns. -/
def new (bpm : PagePool) (hash_fn : Int → Nat) (header_max_depth directory_max_depth bucket_max_size : Nat) :
    Except Fault DiskExtendibleHashTable := do
  let (header_page_id, bpm) := bpm.NewPage
  let header_page ← (← (bpm.pages_ header_page_id).asHeader).Init header_max_depth
  let bpm := bpm.write header_page_id (.header header_page)
  let (directory_page_id, bpm) := bpm.NewPage
  let directory_page ← (← (bpm.pages_ directory_page_id).asDirectory).Init directory_max_depth
  let bpm := bpm.write directory_page_id (.directory directory_page)
  let (bucket_page_id, bpm) := bpm.NewPage
  let bucket_page := (← (bpm.pages_ bucket_page_id).asBucket).Init bucket_max_size
  let bpm := bpm.write bucket_page_id (.bucket bucket_page)
  let header_page := header_page.SetDirectoryPageId 0 directory_page_id
  let bpm := bpm.write header_page_id (.header header_page)
  let directory_page ← directory_page.SetBucketPageId 0 bucket_page_id
  let bpm := bpm.write directory_page_id (.directory directory_page)
  let bpm := ((bpm.UnpinPage bucket_page_id).UnpinPage directory_page_id).UnpinPage header_page_id
  pure { hash_fn_ := hash_fn, header_max_depth_ := header_max_depth,
         directory_max_depth_ := directory_max_depth, bucket_max_size_ := bucket_max_size,
         header_page_id_ := header_page_id, bpm_ := bpm }

/-- `GetValue`: the value found, and the table afterwards (the read guards
pin and unpin). -/
def GetValue (t : DiskExtendibleHashTable) (key : Int) : Except Fault (Option Int × DiskExtendibleHashTable) := do
  match t.bpm_.FetchPage t.header_page_id_ with
  | none => throw .null_deref
  | some bpm =>
    let header_page ← (bpm.pages_ t.header_page_id_).asHeader
    let hash := t.Hash key
    let dirIndex := header_page.HashToDirectoryIndex hash
    let directory_page_id := header_page.GetDirectoryPageId dirIndex
    if directory_page_id = INVALID_PAGE_ID then
      pure (none, { t with bpm_ := bpm.UnpinPage t.header_page_id_ })
    else
      let bpm := bpm.UnpinPage t.header_page_id_
      match bpm.FetchPage directory_page_id with
      | none => throw .null_deref
      | some bpm =>
        let directory_page ← (bpm.pages_ directory_page_id).asDirectory
        let bucket_index := directory_page.HashToBucketIndex hash
        let bucket_page_id ← directory_page.GetBucketPageId bucket_index
        if bucket_page_id = INVALID_PAGE_ID then
          pure (none, { t with bpm_ := bpm.UnpinPage directory_page_id })
        else
          match bpm.FetchPage bucket_page_id with
          | none => throw .null_deref
          | some bpm =>
            let bpm := bpm.UnpinPage directory_page_id
            let bucket_page ← (bpm.pages_ bucket_page_id).asBucket
            pure (bucket_page.Lookup key, { t with bpm_ := bpm.UnpinPage bucket_page_id })

def InsertToNewBucket (t : DiskExtendibleHashTable) (directory : ExtendibleHTableDirectoryPage)
    (bucket_idx : Nat) (key value : Int) : Except Fault (Bool × DiskExtendibleHashTable) := do
  let bucket_page_id ← directory.GetBucketPageId bucket_idx
  match t.bpm_.FetchPage bucket_page_id with
  | none => throw .exception
  | some bpm =>
    let bucket_page ← (bpm.pages_ bucket_page_id).asBucket
    let (insert_result, bucket_page) := bucket_page.Insert key value
    let bpm := if insert_result then bpm.write bucket_page_id (.bucket bucket_page) else bpm
    pure (insert_result, { t with bpm_ := bpm.UnpinPage bucket_page_id })

def InsertToNewDirectory (t : DiskExtendibleHashTable) (header : ExtendibleHTableHeaderPage)
    (hash : Nat) (key value : Int) : Except Fault (Bool × DiskExtendibleHashTable) := do
  let new_directory_index := header.HashToDirectoryIndex hash
  let new_directory_page_id := header.GetDirectoryPageId new_directory_index
  match t.bpm_.FetchPage new_directory_page_id with
  | none => throw .exception
  | some bpm =>
    let new_directory_page ← (bpm.pages_ new_directory_page_id).asDirectory
    let new_bucket_idx := new_directory_page.HashToBucketIndex hash
    let (insert_result, t1) ← InsertToNewBucket { t with bpm_ := bpm } new_directory_page new_bucket_idx key value
    pure (insert_result, { t1 with bpm_ := t1.bpm_.UnpinPage new_directory_page_id })

def UpdateDirectoryMapping (directory : ExtendibleHTableDirectoryPage) (new_bucket_idx : Nat)
    (new_bucket_page_id : page_id_t) (new_local_depth local_depth_mask : Nat) :
    Except Fault ExtendibleHTableDirectoryPage :=
  forLoop
    (fun i (r : Except Fault ExtendibleHTableDirectoryPage) => do
      let directory ← r
      if (← directory.GetBucketPageId i) = (← directory.GetBucketPageId new_bucket_idx) then
        if i &&& local_depth_mask ≠ 0 then
          let directory ← directory.SetBucketPageId i new_bucket_page_id
          directory.SetLocalDepth i new_local_depth
        else
          directory.SetLocalDepth i new_local_depth
      else pure directory)
    (1 <<< directory.GetGlobalDepth) (pure directory)

/-- The redistribution loop of `Insert`: `size` is read once before the loop;
after `Remove` the entry at index `i` is read again for the insertion into
the new bucket. -/
def rehash (t : DiskExtendibleHashTable) (directory_page : ExtendibleHTableDirectoryPage)
    (split_bucket_idx : Nat) (bucket_page new_bucket_page : ExtendibleHTableBucketPage) :
    ExtendibleHTableBucketPage × ExtendibleHTableBucketPage :=
  forLoop
    (fun i (s : ExtendibleHTableBucketPage × ExtendibleHTableBucketPage) =>
      let bucket_key := s.1.KeyAt i
      let key_hash := t.Hash bucket_key
      let bucketIndex := directory_page.HashToBucketIndex key_hash
      if split_bucket_idx = bucketIndex then
        let b := (s.1.Remove bucket_key).2
        (b, (s.2.Insert (b.KeyAt i) (b.ValueAt i)).2)
      else s)
    bucket_page.Size (bucket_page, new_bucket_page)

/-- What the first part of `Insert` has found: the header page, the directory
page id read from it, the bucket index and bucket page id read from the
directory page, and the pool with the bucket page fetched. -/
structure Located where
  header_page : ExtendibleHTableHeaderPage
  directory_page_id : page_id_t
  bucket_index : Nat
  bucket_page_id : page_id_t
  bpm : PagePool

/-- The first part of `Insert`, up to the fetch of the bucket page: the header
page is fetched through a read guard and raw (a null raw page throws), the
directory page likewise (a null raw page is dereferenced), then the bucket
page (dereferenced too). -/
def locate (t : DiskExtendibleHashTable) (key : Int) : Except Fault Located := do
  let hash := t.Hash key
  let bpm := t.bpm_.FetchPageRead t.header_page_id_
  match bpm.FetchPage t.header_page_id_ with
  | none => throw .exception
  | some bpm =>
    let header_page ← (bpm.pages_ t.header_page_id_).asHeader
    let directory_index := header_page.HashToDirectoryIndex hash
    let directory_page_id := header_page.GetDirectoryPageId directory_index
    let bpm := (bpm.UnpinPage t.header_page_id_).UnpinPage t.header_page_id_
    let bpm := bpm.FetchPageRead directory_page_id
    match bpm.FetchPage directory_page_id with
    | none => throw .null_deref
    | some bpm =>
      let directory_page ← (bpm.pages_ directory_page_id).asDirectory
      let bucket_index := directory_page.HashToBucketIndex hash
      let bucket_page_id ← directory_page.GetBucketPageId bucket_index
      let bpm := (bpm.UnpinPage directory_page_id).UnpinPage directory_page_id
      match bpm.FetchPage bucket_page_id with
      | none => throw .null_deref
      | some bpm =>
        pure { header_page := header_page, directory_page_id := directory_page_id,
               bucket_index := bucket_index, bucket_page_id := bucket_page_id, bpm := bpm }

/-- The part of `Insert` between the refused `InsertToNewDirectory` and the
recursive call: `none` when the insert is refused at the maximum depth,
otherwise the id of the new bucket page and the pool after the directory has
been grown, the bucket split and its entries redistributed. -/
def splitPhase (t : DiskExtendibleHashTable) (bpm1 : PagePool) (directory_page_id bucket_page_id : page_id_t)
    (bucket_index hash : Nat) : Except Fault (Option (page_id_t × PagePool)) := do
  let directory_page ← (bpm1.pages_ directory_page_id).asDirectory
  let grow := (← directory_page.GetLocalDepth bucket_index) = directory_page.GetGlobalDepth
  if grow ∧ directory_page.GetGlobalDepth = t.directory_max_depth_ then
    pure none
  else
    let directory_page ← (if grow then directory_page.IncrGlobalDepth else .ok directory_page)
    let original_bucket_idx := directory_page.HashToBucketIndex hash
    let split_bucket_idx ← directory_page.GetSplitImageIndex original_bucket_idx
    let (new_bucket_page_id, bpm) := bpm1.NewPage
    let new_bucket_page := (← (bpm.pages_ new_bucket_page_id).asBucket).Init t.bucket_max_size_
    let directory_page ← directory_page.IncrLocalDepth original_bucket_idx
    let directory_page ←
      directory_page.SetLocalDepth split_bucket_idx (← directory_page.GetLocalDepth original_bucket_idx)
    let new_local_depth ← directory_page.GetLocalDepth original_bucket_idx
    let local_depth_mask ← directory_page.GetLocalDepthMask original_bucket_idx
    let directory_page ← directory_page.SetBucketPageId split_bucket_idx new_bucket_page_id
    let directory_page ←
      UpdateDirectoryMapping directory_page split_bucket_idx new_bucket_page_id new_local_depth
        local_depth_mask
    let bucket_page ← (bpm.pages_ bucket_page_id).asBucket
    let (bucket_page, new_bucket_page) :=
      rehash t directory_page split_bucket_idx bucket_page new_bucket_page
    let bpm := bpm.write directory_page_id (.directory directory_page)
    let bpm := bpm.write bucket_page_id (.bucket bucket_page)
    let bpm := bpm.write new_bucket_page_id (.bucket new_bucket_page)
    pure (some (new_bucket_page_id, bpm))

/-- `Insert`: the result and the table afterwards.  The body of the source
function is `locate`, then `InsertToNewDirectory`, then on refusal
`splitPhase` and the recursive call; the guard of the new bucket page unpins
it when the recursive call has returned. -/
def Insert : Nat → DiskExtendibleHashTable → Int → Int → Except Fault (Bool × DiskExtendibleHashTable)
  | 0, _, _, _ => throw .out_of_fuel
  | fuel + 1, t, key, value =>
    match t.locate key with
    | .error e => .error e
    | .ok loc =>
      match InsertToNewDirectory { t with bpm_ := loc.bpm } loc.header_page (t.Hash key) key value with
      | .error e => .error e
      | .ok (true, t1) => .ok (true, { t1 with bpm_ := t1.bpm_.UnpinPage loc.bucket_page_id })
      | .ok (false, t1) =>
        match t.splitPhase t1.bpm_ loc.directory_page_id loc.bucket_page_id loc.bucket_index (t.Hash key) with
        | .error e => .error e
        | .ok none => .ok (false, t1)
        | .ok (some (new_bucket_page_id, bpm)) =>
          match Insert fuel { t with bpm_ := bpm } key value with
          | .error e => .error e
          | .ok (r, t2) => .ok (r, { t2 with bpm_ := t2.bpm_.UnpinPage new_bucket_page_id })

/-- The merge loop of `Remove`: every slot holding `bucket_page_id` is
assigned `GetBucketPageId(bucket_index)`. -/
def mergeLoop (directory_page : ExtendibleHTableDirectoryPage) (bucket_index : Nat)
    (bucket_page_id : page_id_t) : Except Fault ExtendibleHTableDirectoryPage :=
  forLoop
    (fun i (r : Except Fault ExtendibleHTableDirectoryPage) => do
      let directory_page ← r
      if (← directory_page.GetBucketPageId i) = bucket_page_id then
        directory_page.SetBucketPageId i (← directory_page.GetBucketPageId bucket_index)
      else pure directory_page)
    (1 <<< directory_page.GetGlobalDepth) (pure directory_page)

/-- The loop of `Remove` that invalidates the slots `2^new_global_depth ..
2^old_global_depth - 1`. -/
def shrinkLoop (directory_page : ExtendibleHTableDirectoryPage) (new_global_depth ole_global_depth : Nat) :
    Except Fault ExtendibleHTableDirectoryPage :=
  forLoop
    (fun t (r : Except Fault ExtendibleHTableDirectoryPage) => do
      let directory_page ← r
      directory_page.SetBucketPageId ((1 <<< new_global_depth) + t) INVALID_PAGE_ID)
    ((1 <<< ole_global_depth) - (1 <<< new_global_depth)) (pure directory_page)

/-- The merge branch of `Remove` on the directory page: the split image's
local depth is decremented, the merge loop runs, and the slot of the emptied
bucket is set to `INVALID_PAGE_ID`. -/
def mergeBranch (directory_page : ExtendibleHTableDirectoryPage) (bucket_index split_index : Nat)
    (bucket_page_id : page_id_t) : Except Fault ExtendibleHTableDirectoryPage := do
  let directory_page ← directory_page.DecrLocalDepth split_index
  let directory_page ← mergeLoop directory_page bucket_index bucket_page_id
  directory_page.SetBucketPageId bucket_index INVALID_PAGE_ID

/-- The shrink branch of `Remove` on the directory page. -/
def shrinkBranch (directory_page : ExtendibleHTableDirectoryPage) :
    Except Fault ExtendibleHTableDirectoryPage :=
  let ole_global_depth := directory_page.GetGlobalDepth
  let directory_page := directory_page.DecrGlobalDepth
  let new_global_depth := directory_page.GetGlobalDepth
  shrinkLoop directory_page new_global_depth ole_global_depth

/-- What `Remove` does to the directory page once the bucket has become
empty: the directory page afterwards, and whether the merge branch ran. -/
def emptiedBucket (directory_page : ExtendibleHTableDirectoryPage) (bucket_index : Nat)
    (bucket_page_id : page_id_t) : Except Fault (ExtendibleHTableDirectoryPage × Bool) := do
  let directory_page ← directory_page.DecrLocalDepth bucket_index
  let split_index ← directory_page.GetSplitImageIndex bucket_index
  let merge : Bool :=
    decide ((← directory_page.GetLocalDepth split_index) = (← directory_page.GetLocalDepth bucket_index) + 1)
  let directory_page ←
    (if merge then mergeBranch directory_page bucket_index split_index bucket_page_id else .ok directory_page)
  let directory_page ← (if directory_page.CanShrink then shrinkBranch directory_page else .ok directory_page)
  pure (directory_page, merge)

/-- `Remove`: the result and the table afterwards.  In the merge branch the
source calls `DeletePage` a second time and unpins the directory page. -/
def Remove (t : DiskExtendibleHashTable) (key : Int) : Except Fault (Bool × DiskExtendibleHashTable) := do
  let hash := t.Hash key
  match t.bpm_.FetchPage t.header_page_id_ with
  | none => throw .null_deref
  | some bpm =>
    let header_page ← (bpm.pages_ t.header_page_id_).asHeader
    let directory_index := header_page.HashToDirectoryIndex hash
    let directory_page_id := header_page.GetDirectoryPageId directory_index
    if directory_page_id = INVALID_PAGE_ID then
      pure (false, { t with bpm_ := bpm })
    else
      let bpm := bpm.UnpinPage t.header_page_id_
      match bpm.FetchPage directory_page_id with
      | none => throw .null_deref
      | some bpm =>
        let directory_page ← (bpm.pages_ directory_page_id).asDirectory
        let bucket_index := directory_page.HashToBucketIndex hash
        let bucket_page_id ← directory_page.GetBucketPageId bucket_index
        if bucket_page_id = INVALID_PAGE_ID then
          pure (false, { t with bpm_ := bpm })
        else
          let bpm := bpm.UnpinPage directory_page_id
          match bpm.FetchPage bucket_page_id with
          | none => throw .null_deref
          | some bpm =>
            let bucket_page ← (bpm.pages_ bucket_page_id).asBucket
            let (removed, bucket_page) := bucket_page.Remove key
            if removed then
              let bpm := bpm.write bucket_page_id (.bucket bucket_page)
              if bucket_page.IsEmpty then
                let bpm := (bpm.DeletePage bucket_page_id).2
                let directory_page ← (bpm.pages_ directory_page_id).asDirectory
                let (directory_page, merge) ← emptiedBucket directory_page bucket_index bucket_page_id
                let bpm := if merge then ((bpm.DeletePage bucket_page_id).2).UnpinPage directory_page_id else bpm
                let bpm := bpm.write directory_page_id (.directory directory_page)
                pure (true, { t with bpm_ := bpm.UnpinPage bucket_page_id })
              else
                pure (true, { t with bpm_ := bpm.UnpinPage bucket_page_id })
            else
              pure (false, { t with bpm_ := bpm })

end DiskExtendibleHashTable

/-! ## Scripts of calls

Running a list of calls from a freshly constructed table, to state what the
code does on concrete inputs. -/

/-- One call on the table. -/
inductive Op where
  | insert (key value : Int)
  | remove (key : Int)
  | get (key : Int)

/-- What a call returned. -/
inductive Out where
  | bool (b : Bool)
  | value (v : Option Int)
  | fault (f : Fault)
  deriving DecidableEq, Repr

/-- The table after one call, with what the call returned. -/
def step (fuel : Nat) (t : DiskExtendibleHashTable) : Op → Except Fault (Out × DiskExtendibleHashTable)
  | .insert k v => (DiskExtendibleHashTable.Insert fuel t k v).map (fun r => (.bool r.1, r.2))
  | .remove k => (DiskExtendibleHashTable.Remove t k).map (fun r => (.bool r.1, r.2))
  | .get k => (DiskExtendibleHashTable.GetValue t k).map (fun r => (.value r.1, r.2))

/-- Run a script: the outputs of the calls (a fault ends the run) and the
table after the last call that returned. -/
def run (fuel : Nat) : DiskExtendibleHashTable → List Op → List Out × DiskExtendibleHashTable
  | t, [] => ([], t)
  | t, op :: ops =>
    match step fuel t op with
    | .ok (o, t') => let r := run fuel t' ops; (o :: r.1, r.2)
    | .error f => ([.fault f], t)

/-- A table constructed over an empty pool by the constructor, if it returns. -/
def fresh (hash_fn : Int → Nat) (header_max_depth directory_max_depth bucket_max_size : Nat) :
    Except Fault DiskExtendibleHashTable :=
  DiskExtendibleHashTable.new PagePool.empty hash_fn header_max_depth directory_max_depth bucket_max_size

/-- Outputs of a script run on a fresh table (fuel 16 is more than the 9
levels a directory can have). -/
def outputs (hash_fn : Int → Nat) (hmd dmd bms : Nat) (ops : List Op) : List Out :=
  match fresh hash_fn hmd dmd bms with
  | .ok t => (run 16 t ops).1
  | .error f => [.fault f]

/-- The table after a script run on a fresh table. -/
def after (hash_fn : Int → Nat) (hmd dmd bms : Nat) (ops : List Op) : Option DiskExtendibleHashTable :=
  match fresh hash_fn hmd dmd bms with
  | .ok t => some (run 16 t ops).2
  | .error _ => none

/-- Global depth and the `(local depth, bucket page id)` pairs of the first
`n` slots of the directory page `page_id`. -/
def directoryView (t : DiskExtendibleHashTable) (page_id : page_id_t) (n : Nat) :
    Option (Nat × List (Nat × page_id_t)) :=
  match t.bpm_.pages_ page_id with
  | .directory d => some (d.global_depth_, (List.range n).map (fun i => (d.local_depths_ i, d.bucket_page_ids_ i)))
  | _ => none

/-- The entries `0 .. size_ - 1` of the bucket page `page_id`. -/
def bucketView (t : DiskExtendibleHashTable) (page_id : page_id_t) : Option (List (Int × Int)) :=
  match t.bpm_.pages_ page_id with
  | .bucket b => some ((List.range b.size_).map b.array_)
  | _ => none

/-- States reachable from a freshly constructed table by calls that return. -/
inductive Reachable : DiskExtendibleHashTable → Prop where
  | fresh {hash_fn : Int → Nat} {hmd dmd bms : Nat} {t : DiskExtendibleHashTable} :
      fresh hash_fn hmd dmd bms = .ok t → Reachable t
  | step {fuel : Nat} {t t' : DiskExtendibleHashTable} {op : Op} {o : Out} :
      Reachable t → step fuel t op = .ok (o, t') → Reachable t'

namespace DiskExtendibleHashTable
/-- What `GetValue` finds, as a function of the page contents alone. -/
def find (t : DiskExtendibleHashTable) (key : Int) : Except Fault (Option Int) := do
  if t.header_page_id_ = INVALID_PAGE_ID then throw .null_deref
  let header_page ← (t.bpm_.pages_ t.header_page_id_).asHeader
  let directory_page_id := header_page.GetDirectoryPageId (header_page.HashToDirectoryIndex (t.Hash key))
  if directory_page_id = INVALID_PAGE_ID then pure none
  else
    let directory_page ← (t.bpm_.pages_ directory_page_id).asDirectory
    let bucket_page_id ← directory_page.GetBucketPageId (directory_page.HashToBucketIndex (t.Hash key))
    if bucket_page_id = INVALID_PAGE_ID then pure none
    else
      let bucket_page ← (t.bpm_.pages_ bucket_page_id).asBucket
      pure (bucket_page.Lookup key)
end DiskExtendibleHashTable

/-- EHT.1 on one directory page. -/
def EHT1 (d : ExtendibleHTableDirectoryPage) : Prop :=
  ∀ i, i < 2 ^ d.global_depth_ → d.local_depths_ i ≤ d.global_depth_

/-- EHT.1 on every page of a pool that reads as a directory page. -/
def DirsOk (pages : page_id_t → PageData) : Prop :=
  ∀ pid d, (pages pid).asDirectory = .ok d → EHT1 d

/-- A table object over an empty pool with no pages, used where a table is
needed as a default value. -/
def blank : DiskExtendibleHashTable :=
  { hash_fn_ := fun _ => 0, header_max_depth_ := 0, directory_max_depth_ := 0, bucket_max_size_ := 0,
    header_page_id_ := INVALID_PAGE_ID, bpm_ := PagePool.empty }

/-- The table after a returning call. -/
def tableOf {α : Type} (r : Except Fault (α × DiskExtendibleHashTable)) : DiskExtendibleHashTable :=
  match r with
  | .ok (_, t) => t
  | .error _ => blank

/-- Whether a call returned the given boolean. -/
def returns (r : Except Fault (Bool × DiskExtendibleHashTable)) (b : Bool) : Bool :=
  match r with
  | .ok (b', _) => b' == b
  | .error _ => false

/-- The table after a script run on a fresh table. -/
def stateAfter (hash_fn : Int → Nat) (hmd dmd bms : Nat) (ops : List Op) : DiskExtendibleHashTable :=
  (after hash_fn hmd dmd bms ops).getD blank

/-- The directory page `Insert` consults for `key` (the zeroed directory when
the header or directory page cannot be read). -/
def dirFor (t : DiskExtendibleHashTable) (key : Int) : ExtendibleHTableDirectoryPage :=
  match (t.bpm_.pages_ t.header_page_id_).asHeader with
  | .ok hdr =>
    match (t.bpm_.pages_ (hdr.GetDirectoryPageId (hdr.HashToDirectoryIndex (t.Hash key)))).asDirectory with
    | .ok d => d
    | .error _ => { max_depth_ := 0, global_depth_ := 0, local_depths_ := fun _ => 0, bucket_page_ids_ := fun _ => 0 }
  | .error _ => { max_depth_ := 0, global_depth_ := 0, local_depths_ := fun _ => 0, bucket_page_ids_ := fun _ => 0 }

/-- The page `page_id` read as a directory page (the zeroed directory when it
is a page of another kind). -/
def dirAt (t : DiskExtendibleHashTable) (page_id : page_id_t) : ExtendibleHTableDirectoryPage :=
  match (t.bpm_.pages_ page_id).asDirectory with
  | .ok d => d
  | .error _ => { max_depth_ := 0, global_depth_ := 0, local_depths_ := fun _ => 0, bucket_page_ids_ := fun _ => 0 }

/-- The id of the directory page that `Insert`, `Remove` and `GetValue` read
from the header page for `key` (`INVALID_PAGE_ID` when the header page cannot
be read). -/
def dirIdFor (t : DiskExtendibleHashTable) (key : Int) : page_id_t :=
  match (t.bpm_.pages_ t.header_page_id_).asHeader with
  | .ok hdr => hdr.GetDirectoryPageId (hdr.HashToDirectoryIndex (t.Hash key))
  | .error _ => INVALID_PAGE_ID

/-! ## LRU-K replacer -/

/-- The replacer (`lru_k_replacer.h`).  `alltime` holds, per frame, the kept
timestamps, oldest first; `unfull_frame_` has the most recently first-seen
frame at the front; `full_frame_` holds `(frame, k-th most recent timestamp)`
in the order `upper_bound` inserts.  The iterator maps `unfull_hist_map` and
`full_hist_map` hold the position of each frame's entry in its list; erasing
through them is erasing that frame's entry, and doing so for a frame without
an entry is the fault `bad_iterator`.  The mutex is left out, except that
locking it twice is a fault.  The 64-bit timestamp and access counters are
taken not to wrap (fewer than `2^64` accesses); `curr_size_` and `MaxSize`
wrap as `size_t` does. -/
structure LRUKReplacer where
  current_timestamp_ : Nat
  curr_size_ : Nat
  replacer_size_ : Nat
  k_ : Nat
  MaxSize : Nat
  alltime : frame_id_t → List Nat
  record_count_ : frame_id_t → Nat
  evictable_ : frame_id_t → Bool
  unfull_frame_ : List frame_id_t
  full_frame_ : List (frame_id_t × Nat)

namespace LRUKReplacer

/-- `x++` on a `size_t`. -/
@[irreducible]
def incr (x : Nat) : Nat := (x + 1) % 2 ^ 64

/-- `x--` on a `size_t`. -/
@[irreducible]
def decr (x : Nat) : Nat := (x + 2 ^ 64 - 1) % 2 ^ 64

/-- The constructor. -/
def new (num_frames k : Nat) : LRUKReplacer :=
  { current_timestamp_ := 0, curr_size_ := 0, replacer_size_ := num_frames, k_ := k, MaxSize := num_frames,
    alltime := fun _ => [], record_count_ := fun _ => 0, evictable_ := fun _ => false,
    unfull_frame_ := [], full_frame_ := [] }

def Size (s : LRUKReplacer) : Nat := s.curr_size_

/-- `unfull_frame_.erase(unfull_hist_map[frame_id])`. -/
def eraseFrame (frame_id : frame_id_t) (l : List frame_id_t) : Except Fault (List frame_id_t) :=
  if frame_id ∈ l then .ok (l.erase frame_id) else .error .bad_iterator

/-- `full_frame_.erase(full_hist_map[frame_id])`. -/
def eraseEntry (frame_id : frame_id_t) (l : List (frame_id_t × Nat)) : Except Fault (List (frame_id_t × Nat)) :=
  match l.find? (fun p => p.1 = frame_id) with
  | some p => .ok (l.erase p)
  | none => .error .bad_iterator

/-- `full_frame_.insert(upper_bound(begin, end, new_cache, CompareTime), new_cache)`:
the entry goes before the first entry with a larger timestamp. -/
def insertUpperBound (new_cache : frame_id_t × Nat) : List (frame_id_t × Nat) → List (frame_id_t × Nat)
  | [] => [new_cache]
  | p :: l => if new_cache.2 < p.2 then new_cache :: p :: l else p :: insertUpperBound new_cache l

/-- `alltime[frame_id].front()`. -/
def front (l : List Nat) : Except Fault Nat :=
  match l with
  | [] => .error .null_deref
  | ts :: _ => .ok ts

/-- `Evict`: the victim, if any, and the replacer afterwards.  The unfull list
is scanned from its back, then the full list from its front. -/
def Evict (s : LRUKReplacer) : Option frame_id_t × LRUKReplacer :=
  if s.Size = 0 then (none, s)
  else
    match s.unfull_frame_.reverse.find? (fun frame => s.evictable_ frame) with
    | some frame =>
      (some frame,
        { s with
          record_count_ := Function.update s.record_count_ frame 0,
          unfull_frame_ := s.unfull_frame_.filter (fun x => x ≠ frame),
          curr_size_ := decr s.curr_size_,
          alltime := Function.update s.alltime frame [] })
    | none =>
      match s.full_frame_.find? (fun p => s.evictable_ p.1) with
      | some p =>
        (some p.1,
          { s with
            record_count_ := Function.update s.record_count_ p.1 0,
            full_frame_ := s.full_frame_.erase p,
            curr_size_ := decr s.curr_size_,
            alltime := Function.update s.alltime p.1 [] })
      | none => (none, s)

/-- `RecordAccess`.  When the frame is new and `curr_size_ == MaxSize` the
source calls `Evict`, which locks the mutex `RecordAccess` already holds.
The guard of the source compares with `static_cast<frame_id_t>(replacer_size_)`;
`replacer_size_` is compared here as it is, which is the same value for
`replacer_size_ < 2^31`. -/
def RecordAccess (s : LRUKReplacer) (frame_id : frame_id_t) : Except Fault (Ending × LRUKReplacer) :=
  if frame_id > (s.replacer_size_ : Int) then .ok (.thrown, s)
  else do
  let ts := s.current_timestamp_ + 1
  let cnt := s.record_count_ frame_id + 1
  let s := { s with
    current_timestamp_ := ts,
    record_count_ := Function.update s.record_count_ frame_id cnt,
    alltime := Function.update s.alltime frame_id (s.alltime frame_id ++ [ts]) }
  let s ←
    (if cnt = 1 then
      if s.curr_size_ = s.MaxSize then .error .deadlock
      else .ok { s with
        evictable_ := Function.update s.evictable_ frame_id true,
        curr_size_ := incr s.curr_size_,
        unfull_frame_ := frame_id :: s.unfull_frame_ }
    else .ok s)
  if cnt = s.k_ then
    let unfull ← eraseFrame frame_id s.unfull_frame_
    let kth_time ← front (s.alltime frame_id)
    pure (.returned,
      { s with unfull_frame_ := unfull, full_frame_ := insertUpperBound (frame_id, kth_time) s.full_frame_ })
  else if cnt > s.k_ then
    let history := (s.alltime frame_id).tail
    let full ← eraseEntry frame_id s.full_frame_
    let kth_time ← front history
    pure (.returned,
      { s with
        alltime := Function.update s.alltime frame_id history,
        full_frame_ := insertUpperBound (frame_id, kth_time) full })
  else pure (.returned, s)

def SetEvictable (s : LRUKReplacer) (frame_id : frame_id_t) (set_evictable : Bool) : LRUKReplacer :=
  if s.record_count_ frame_id = 0 then s
  else
    let status := s.evictable_ frame_id
    let s := { s with evictable_ := Function.update s.evictable_ frame_id set_evictable }
    let s := if status && !set_evictable then { s with MaxSize := decr s.MaxSize, curr_size_ := decr s.curr_size_ }
      else s
    if !status && set_evictable then { s with MaxSize := incr s.MaxSize, curr_size_ := incr s.curr_size_ }
    else s

def Remove (s : LRUKReplacer) (frame_id : frame_id_t) : Except Fault (Ending × LRUKReplacer) :=
  if frame_id > (s.replacer_size_ : Int) then .ok (.thrown, s)
  else
    let cnt := s.record_count_ frame_id
    if cnt = 0 then .ok (.returned, s)
    else if !s.evictable_ frame_id then .ok (.thrown, s)
    else if cnt < s.k_ then do
      let unfull ← eraseFrame frame_id s.unfull_frame_
      pure (.returned,
        { s with
          unfull_frame_ := unfull,
          record_count_ := Function.update s.record_count_ frame_id 0,
          alltime := Function.update s.alltime frame_id [],
          curr_size_ := decr s.curr_size_ })
    else do
      let full ← eraseEntry frame_id s.full_frame_
      pure (.returned,
        { s with
          full_frame_ := full,
          record_count_ := Function.update s.record_count_ frame_id 0,
          alltime := Function.update s.alltime frame_id [],
          curr_size_ := decr s.curr_size_ })

/-- One call on the replacer. -/
inductive Call where
  | record_access (frame_id : frame_id_t)
  | set_evictable (frame_id : frame_id_t) (flag : Bool)
  | evict
  | remove (frame_id : frame_id_t)

/-- How a call ends, and the replacer afterwards. -/
def call (s : LRUKReplacer) : Call → Except Fault (Ending × LRUKReplacer)
  | .record_access f => s.RecordAccess f
  | .set_evictable f b => .ok (.returned, s.SetEvictable f b)
  | .evict => .ok (.returned, s.Evict.2)
  | .remove f => s.Remove f

/-- States reachable from a new replacer by calls that return or throw (the
caller may catch the exception and go on).  The constructor's `num_frames` is
a `size_t`. -/
inductive Reachable : LRUKReplacer → Prop where
  | new (num_frames k : Nat) : num_frames < 2 ^ 64 → Reachable (LRUKReplacer.new num_frames k)
  | call {s s' : LRUKReplacer} (c : Call) (e : Ending) :
    Reachable s → s.call c = .ok (e, s') → Reachable s'

/-- Run a list of calls (a call with undefined behaviour is skipped). -/
def runCalls (s : LRUKReplacer) : List Call → LRUKReplacer
  | [] => s
  | c :: cs =>
    match s.call c with
    | .ok (_, s') => runCalls s' cs
    | .error _ => runCalls s cs

/-- A frame the replacer may evict: evictable bit set and accesses recorded. -/
def IsEvictable (s : LRUKReplacer) (frame_id : frame_id_t) : Prop :=
  s.evictable_ frame_id = true ∧ s.record_count_ frame_id ≠ 0

/-- The timestamp of the first recorded access of a frame. -/
def firstAccess (s : LRUKReplacer) (frame_id : frame_id_t) : Nat := (s.alltime frame_id).headD 0

/-- The backward k-distance in the words of the specification: `none`, for
`+∞`, with fewer than K recorded accesses, otherwise the current time minus
the K-th most recent access timestamp. -/
def backwardKDistance (s : LRUKReplacer) (frame_id : frame_id_t) : Option Nat :=
  if s.record_count_ frame_id < s.k_ then none
  else some (s.current_timestamp_ - (s.alltime frame_id).reverse.getD (s.k_ - 1) 0)

/-- `a ≤ b` on distances, `none` being `+∞`. -/
def distLE : Option Nat → Option Nat → Prop
  | _, none => True
  | none, some _ => False
  | some a, some b => a ≤ b

/-- The invariant of the replacer's lists and histories: the unfull list holds
exactly the frames with between 1 and `k_ - 1` recorded accesses, newest first
access at the front; the full list holds exactly the frames with at least
`k_` accesses, each with the oldest kept timestamp, in ascending order of it;
a frame's kept history has as many timestamps as accesses while it is in the
unfull list and `k_` in the full list; no timestamp is in the future. -/
structure Inv (s : LRUKReplacer) : Prop where
  unfull_nodup : s.unfull_frame_.Nodup
  full_nodup : (s.full_frame_.map Prod.fst).Nodup
  unfull_cnt : ∀ f, f ∈ s.unfull_frame_ → 0 < s.record_count_ f ∧ s.record_count_ f < s.k_
  cnt_unfull : ∀ f, 0 < s.record_count_ f → s.record_count_ f < s.k_ → f ∈ s.unfull_frame_
  full_cnt : ∀ p, p ∈ s.full_frame_ → s.k_ ≤ s.record_count_ p.1 ∧ 0 < s.record_count_ p.1 ∧
    (s.alltime p.1).length = s.k_ ∧ (s.alltime p.1).head? = some p.2
  cnt_full : ∀ f, 0 < s.record_count_ f → s.k_ ≤ s.record_count_ f → f ∈ s.full_frame_.map Prod.fst
  unfull_len : ∀ f, f ∈ s.unfull_frame_ → (s.alltime f).length = s.record_count_ f
  untracked : ∀ f, s.record_count_ f = 0 → s.alltime f = []
  ts_le : ∀ f ts, ts ∈ s.alltime f → ts ≤ s.current_timestamp_
  unfull_order : s.unfull_frame_.Pairwise (fun a b => s.firstAccess b < s.firstAccess a)
  full_sorted : s.full_frame_.Pairwise (fun p q => p.2 ≤ q.2)

/-- The calls of the example: frames 1, 2 and 3 are accessed, frame 1 a second
time, and frame 2 is made non-evictable. -/
def sampleCalls : List Call :=
  [.record_access 1, .record_access 2, .record_access 3, .record_access 1, .set_evictable 2 false]

end LRUKReplacer

/-! ## The replacer's counters -/

namespace LRUKReplacer

/-- The frames the replacer tracks: those of its two lists. -/
def tracked (s : LRUKReplacer) : Finset frame_id_t :=
  (s.unfull_frame_ ++ s.full_frame_.map Prod.fst).toFinset

/-- The tracked frames whose evictable bit has the given value. -/
def trackedWith (s : LRUKReplacer) (bit : Bool) : Finset frame_id_t :=
  (tracked s).filter (fun f => s.evictable_ f = bit)

/-- The invariant of the replacer's counters: `curr_size_` counts the tracked
evictable frames, `MaxSize` is `replacer_size_` less the tracked frames that
are not evictable, neither has wrapped, and every tracked frame id is at most
`replacer_size_`. -/
structure SizeInv (s : LRUKReplacer) : Prop where
  inv : Inv s
  bound : s.replacer_size_ < 2 ^ 64
  size_eq : s.curr_size_ = (trackedWith s true).card
  max_eq : s.MaxSize + (trackedWith s false).card = s.replacer_size_
  le_max : s.curr_size_ ≤ s.MaxSize
  range : ∀ f, s.record_count_ f ≠ 0 → f ≤ (s.replacer_size_ : Int)

/-- How a call ended, when it ended. -/
def ending (r : Except Fault (Ending × LRUKReplacer)) : Option Ending :=
  match r with
  | .ok (e, _) => some e
  | .error _ => none

end LRUKReplacer

/-! ## Buffer pool manager -/

/-- Modelled from the spec: the `Page` class (`page.h` is not among the
sources).  "A page carries: raw bytes, current page id, pin count, dirty
flag."  The pin count is a C++ `int`, taken not to overflow. -/
structure Page where
  data_ : PageData
  page_id_ : page_id_t
  pin_count_ : Int
  is_dirty_ : Bool

/-- Modelled from the spec: the disk that the disk scheduler writes to and
reads from (the scheduler's implementation and the disk manager are not among
the sources): a map from page id to the bytes last written under it, all
zero before the first write.  A scheduled request is complete when
`future.get()` returns. -/
abbrev Disk := page_id_t → PageData

/-- Modelled from the spec: the members of the buffer pool manager
(`buffer_pool_manager.h` is not among the sources), "array of `pool_size`
frames, free list of frame indices, page table (page id → frame index),
embedded replacer, embedded disk scheduler, next-page-id counter", under the
names `buffer_pool_manager.cpp` uses.  `pages_` is the frame array, indexed by
frame id; `free_list_` has its back at the end of the list; `next_page_id_`
starts at 0 and is taken not to wrap.  The latch is left out. -/
structure BufferPoolManager where
  pool_size_ : Nat
  next_page_id_ : page_id_t
  pages_ : frame_id_t → Page
  page_table_ : page_id_t → Option frame_id_t
  free_list_ : List frame_id_t
  replacer_ : LRUKReplacer
  disk_ : Disk

namespace BufferPoolManager

/-- The constructor: every frame holds no page and is in the free list, in
ascending order. -/
def new (pool_size replacer_k : Nat) : BufferPoolManager :=
  { pool_size_ := pool_size,
    next_page_id_ := 0,
    pages_ := fun _ => { data_ := .zero, page_id_ := INVALID_PAGE_ID, pin_count_ := 0, is_dirty_ := false },
    page_table_ := fun _ => none,
    free_list_ := (List.range pool_size).map Int.ofNat,
    replacer_ := LRUKReplacer.new pool_size replacer_k,
    disk_ := fun _ => .zero }

/-- `pages_ + frame_id` points into the frame array. -/
def inPool (b : BufferPoolManager) (frame_id : frame_id_t) : Prop :=
  0 ≤ frame_id ∧ frame_id < (b.pool_size_ : Int)

instance (b : BufferPoolManager) (frame_id : frame_id_t) : Decidable (b.inPool frame_id) := by
  unfold inPool
  exact inferInstance

/-- The choice of a frame in `NewPage` and `FetchPage`: the back of the free
list, popped, or else the replacer's victim. -/
def pickFrame (b : BufferPoolManager) : Option frame_id_t × BufferPoolManager :=
  match b.free_list_.getLast? with
  | some frame_id => (some frame_id, { b with free_list_ := b.free_list_.dropLast })
  | none =>
    match b.replacer_.Evict with
    | (some frame_id, r) => (some frame_id, { b with replacer_ := r })
    | (none, r) => (none, { b with replacer_ := r })

/-- The write of a dirty page to disk before its frame is reused. -/
def writeBack (b : BufferPoolManager) (frame_id : frame_id_t) : BufferPoolManager :=
  if (b.pages_ frame_id).is_dirty_ then
    { b with
      disk_ := Function.update b.disk_ (b.pages_ frame_id).page_id_ (b.pages_ frame_id).data_,
      pages_ := Function.update b.pages_ frame_id { b.pages_ frame_id with is_dirty_ := false } }
  else b

/-- `page_table_.emplace(page_id, frame_id)`: nothing is stored when the key
is already there. -/
def emplace (table : page_id_t → Option frame_id_t) (page_id : page_id_t) (frame_id : frame_id_t) :
    page_id_t → Option frame_id_t :=
  match table page_id with
  | some _ => table
  | none => Function.update table page_id (some frame_id)

/-- The lines that `NewPage` and `FetchPage` share after the page id is known:
the old mapping is erased, the new one emplaced, the page's fields set, its
memory reset, and the replacer told. -/
def install (b : BufferPoolManager) (frame_id : frame_id_t) (page_id : page_id_t) :
    Except Fault (Ending × BufferPoolManager) :=
  let table := Function.update b.page_table_ (b.pages_ frame_id).page_id_ none
  let b1 : BufferPoolManager :=
    { b with
      page_table_ := emplace table page_id frame_id,
      pages_ := Function.update b.pages_ frame_id
        { b.pages_ frame_id with page_id_ := page_id, pin_count_ := 1, data_ := .zero } }
  match b1.replacer_.RecordAccess frame_id with
  | .error e => .error e
  | .ok (.thrown, r) => .ok (.thrown, { b1 with replacer_ := r })
  | .ok (.returned, r) => .ok (.returned, { b1 with replacer_ := r.SetEvictable frame_id false })

/-- `NewPage`: the frame of the new page and its page id, or none for `nullptr`. -/
def NewPage (b : BufferPoolManager) :
    Except Fault (Ending × Option (frame_id_t × page_id_t) × BufferPoolManager) :=
  match b.pickFrame with
  | (none, b0) => .ok (.returned, none, b0)
  | (some frame_id, b0) =>
    if ¬ b0.inPool frame_id then .error .out_of_bounds
    else
      let b1 := b0.writeBack frame_id
      let page_id := b1.next_page_id_
      let b2 := { b1 with next_page_id_ := b1.next_page_id_ + 1 }
      match b2.install frame_id page_id with
      | .error e => .error e
      | .ok (.thrown, b3) => .ok (.thrown, none, b3)
      | .ok (.returned, b3) => .ok (.returned, some (frame_id, page_id), b3)

/-- `FetchPage`: the frame that holds the page, or none for `nullptr`. -/
def FetchPage (b : BufferPoolManager) (page_id : page_id_t) :
    Except Fault (Ending × Option frame_id_t × BufferPoolManager) :=
  if page_id = INVALID_PAGE_ID then .ok (.returned, none, b)
  else
    match b.page_table_ page_id with
    | some frame_id =>
      if ¬ b.inPool frame_id then .error .out_of_bounds
      else
        match b.replacer_.RecordAccess frame_id with
        | .error e => .error e
        | .ok (.thrown, r) => .ok (.thrown, none, { b with replacer_ := r })
        | .ok (.returned, r) =>
          .ok (.returned, some frame_id,
            { b with
              replacer_ := r.SetEvictable frame_id false,
              pages_ := Function.update b.pages_ frame_id
                { b.pages_ frame_id with pin_count_ := (b.pages_ frame_id).pin_count_ + 1 } })
    | none =>
      match b.pickFrame with
      | (none, b0) => .ok (.returned, none, b0)
      | (some frame_id, b0) =>
        if ¬ b0.inPool frame_id then .error .out_of_bounds
        else
          let b1 := b0.writeBack frame_id
          match b1.install frame_id page_id with
          | .error e => .error e
          | .ok (.thrown, b3) => .ok (.thrown, none, b3)
          | .ok (.returned, b3) =>
            .ok (.returned, some frame_id,
              { b3 with
                pages_ := Function.update b3.pages_ frame_id
                  { b3.pages_ frame_id with data_ := b3.disk_ (b3.pages_ frame_id).page_id_ } })

/-- `UnpinPage`. -/
def UnpinPage (b : BufferPoolManager) (page_id : page_id_t) (is_dirty : Bool) :
    Except Fault (Bool × BufferPoolManager) :=
  if page_id = INVALID_PAGE_ID then .ok (false, b)
  else
    match b.page_table_ page_id with
    | none => .ok (false, b)
    | some frame_id =>
      if ¬ b.inPool frame_id then .error .out_of_bounds
      else
        let page := { b.pages_ frame_id with is_dirty_ := is_dirty || (b.pages_ frame_id).is_dirty_ }
        if page.pin_count_ = 0 then .ok (false, { b with pages_ := Function.update b.pages_ frame_id page })
        else
          let page := { page with pin_count_ := page.pin_count_ - 1 }
          let b1 := { b with pages_ := Function.update b.pages_ frame_id page }
          if page.pin_count_ = 0 then
            .ok (true, { b1 with replacer_ := b1.replacer_.SetEvictable frame_id true })
          else .ok (true, b1)

/-- The write of one frame's page to disk in `FlushPage` and `FlushAllPages`. -/
def flushFrame (b : BufferPoolManager) (frame_id : frame_id_t) : BufferPoolManager :=
  { b with
    disk_ := Function.update b.disk_ (b.pages_ frame_id).page_id_ (b.pages_ frame_id).data_,
    pages_ := Function.update b.pages_ frame_id { b.pages_ frame_id with is_dirty_ := false } }

/-- `FlushPage`. -/
def FlushPage (b : BufferPoolManager) (page_id : page_id_t) : Except Fault (Bool × BufferPoolManager) :=
  if page_id = INVALID_PAGE_ID then .ok (false, b)
  else
    match b.page_table_ page_id with
    | none => .ok (false, b)
    | some frame_id =>
      if ¬ b.inPool frame_id then .error .out_of_bounds
      else .ok (true, b.flushFrame frame_id)

/-- `FlushAllPages`. -/
def FlushAllPages (b : BufferPoolManager) : BufferPoolManager :=
  forLoop (fun current_size b =>
    if (b.pages_ (current_size : Int)).page_id_ = INVALID_PAGE_ID then b
    else b.flushFrame (current_size : Int)) b.pool_size_ b

/-- `DeletePage`.  `DeallocatePage` does nothing to the pool. -/
def DeletePage (b : BufferPoolManager) (page_id : page_id_t) :
    Except Fault (Ending × Bool × BufferPoolManager) :=
  if page_id = INVALID_PAGE_ID then .ok (.returned, true, b)
  else
    match b.page_table_ page_id with
    | none => .ok (.returned, true, b)
    | some frame_id =>
      if ¬ b.inPool frame_id then .error .out_of_bounds
      else if (b.pages_ frame_id).pin_count_ > 0 then .ok (.returned, false, b)
      else
        let b1 := { b with
          page_table_ := Function.update b.page_table_ page_id none,
          free_list_ := b.free_list_ ++ [frame_id] }
        match b1.replacer_.Remove frame_id with
        | .error e => .error e
        | .ok (.thrown, r) => .ok (.thrown, false, { b1 with replacer_ := r })
        | .ok (.returned, r) =>
          .ok (.returned, true,
            { b1 with
              replacer_ := r,
              pages_ := Function.update b1.pages_ frame_id
                { data_ := .zero, page_id_ := INVALID_PAGE_ID, is_dirty_ := false, pin_count_ := 0 } })

/-- Modelled from the spec: a store by the holder of a `Page *` to the bytes
of the page in frame `frame_id`, through `GetData()` (`page.h` is not among
the sources).  The pool's own code has no part in it. -/
def WriteData (b : BufferPoolManager) (frame_id : frame_id_t) (data : PageData) :
    Except Fault BufferPoolManager :=
  if ¬ b.inPool frame_id then .error .out_of_bounds
  else
    .ok { b with pages_ := Function.update b.pages_ frame_id { b.pages_ frame_id with data_ := data } }

/-- One call on the buffer pool, or one store to the bytes of a page. -/
inductive Call where
  | new_page
  | fetch_page (page_id : page_id_t)
  | unpin_page (page_id : page_id_t) (is_dirty : Bool)
  | flush_page (page_id : page_id_t)
  | flush_all
  | delete_page (page_id : page_id_t)
  | write_data (frame_id : frame_id_t) (data : PageData)

/-- What a call hands back. -/
inductive Result where
  | page (frame_id : Option frame_id_t)
  | new_page (r : Option (frame_id_t × page_id_t))
  | bool (r : Bool)
  | unit
  deriving DecidableEq, Repr

/-- How a call ends, what it hands back, and the pool afterwards. -/
def call (b : BufferPoolManager) : Call → Except Fault (Ending × Result × BufferPoolManager)
  | .new_page =>
    match b.NewPage with
    | .error e => .error e
    | .ok (e, r, b') => .ok (e, .new_page r, b')
  | .fetch_page p =>
    match b.FetchPage p with
    | .error e => .error e
    | .ok (e, r, b') => .ok (e, .page r, b')
  | .unpin_page p d =>
    match b.UnpinPage p d with
    | .error e => .error e
    | .ok (r, b') => .ok (.returned, .bool r, b')
  | .flush_page p =>
    match b.FlushPage p with
    | .error e => .error e
    | .ok (r, b') => .ok (.returned, .bool r, b')
  | .flush_all => .ok (.returned, .unit, b.FlushAllPages)
  | .delete_page p =>
    match b.DeletePage p with
    | .error e => .error e
    | .ok (e, r, b') => .ok (e, .bool r, b')
  | .write_data f d =>
    match b.WriteData f d with
    | .error e => .error e
    | .ok b' => .ok (.returned, .unit, b')

/-- States reachable from a fresh pool by calls that return or throw, and by
stores to the bytes of pages.  The pool size is a `size_t` whose frame
indices are cast to `int`. -/
inductive Reachable : BufferPoolManager → Prop where
  | new (pool_size replacer_k : Nat) : pool_size < 2 ^ 31 →
    Reachable (BufferPoolManager.new pool_size replacer_k)
  | call {b b' : BufferPoolManager} (c : Call) (e : Ending) (r : Result) :
    Reachable b → b.call c = .ok (e, r, b') → Reachable b'

/-- Run a list of calls, collecting what they hand back (a call with undefined
behaviour is skipped). -/
def runCalls (b : BufferPoolManager) : List Call → List Result × BufferPoolManager
  | [] => ([], b)
  | c :: cs =>
    match b.call c with
    | .ok (_, r, b') => ((runCalls b' cs).1.cons r, (runCalls b' cs).2)
    | .error _ => runCalls b cs

/-- The invariant of the pool: the replacer's own invariant, for a replacer
of `pool_size_` frames; the free list has no frame twice, and its frames are
frames of the pool that the replacer does not track and that hold no page; a
frame of the pool outside the free list is tracked by the replacer, holds a
page, has a pin count that is not negative, and is evictable exactly when its
pin count is 0; the replacer tracks no other frame; and a page-table entry
points to a frame of the pool outside the free list that holds that page. -/
structure PoolInv (b : BufferPoolManager) : Prop where
  rep : LRUKReplacer.SizeInv b.replacer_
  rep_size : b.replacer_.replacer_size_ = b.pool_size_
  free_nodup : b.free_list_.Nodup
  free_ok : ∀ f, f ∈ b.free_list_ → b.inPool f ∧ b.replacer_.record_count_ f = 0 ∧
    (b.pages_ f).page_id_ = INVALID_PAGE_ID ∧ (b.pages_ f).pin_count_ = 0
  used_ok : ∀ f, b.inPool f → f ∉ b.free_list_ → b.replacer_.record_count_ f ≠ 0 ∧
    (b.replacer_.evictable_ f = true ↔ (b.pages_ f).pin_count_ = 0) ∧
    0 ≤ (b.pages_ f).pin_count_ ∧ (b.pages_ f).page_id_ ≠ INVALID_PAGE_ID
  tracked_ok : ∀ f, b.replacer_.record_count_ f ≠ 0 → b.inPool f ∧ f ∉ b.free_list_
  table_ok : ∀ p f, b.page_table_ p = some f →
    b.inPool f ∧ f ∉ b.free_list_ ∧ (b.pages_ f).page_id_ = p
  next_nonneg : 0 ≤ b.next_page_id_

/-- What `NewPage` and `FetchPage` do to the pool `b` when they put page
`page_id` into frame `g`, giving the pool `b'`. -/
structure Installed (b b' : BufferPoolManager) (g : frame_id_t) (page_id : page_id_t) : Prop where
  in_pool : b.inPool g
  source : g ∈ b.free_list_ ∨ (b.free_list_ = [] ∧ b.replacer_.IsEvictable g)
  pool_size : b'.pool_size_ = b.pool_size_
  free_list : b'.free_list_ = b.free_list_.erase g
  page_table : b'.page_table_ =
    emplace (Function.update b.page_table_ (b.pages_ g).page_id_ none) page_id g
  others : ∀ f, f ≠ g → b'.pages_ f = b.pages_ f
  page_id : (b'.pages_ g).page_id_ = page_id
  pin_count : (b'.pages_ g).pin_count_ = 1
  is_dirty : (b'.pages_ g).is_dirty_ = false
  rep : LRUKReplacer.SizeInv b'.replacer_
  record_count : b'.replacer_.record_count_ = Function.update b.replacer_.record_count_ g 1
  evictable : b'.replacer_.evictable_ = Function.update b.replacer_.evictable_ g false
  rep_size : b'.replacer_.replacer_size_ = b.replacer_.replacer_size_

/-- What `FetchPage` does to the pool `b` when the page is already in frame
`f`, giving the pool `b'`. -/
structure Hit (b b' : BufferPoolManager) (f : frame_id_t) : Prop where
  pool_size : b'.pool_size_ = b.pool_size_
  next_page_id : b'.next_page_id_ = b.next_page_id_
  free_list : b'.free_list_ = b.free_list_
  page_table : b'.page_table_ = b.page_table_
  disk : b'.disk_ = b.disk_
  pages : b'.pages_ = Function.update b.pages_ f
    { b.pages_ f with pin_count_ := (b.pages_ f).pin_count_ + 1 }
  rep : LRUKReplacer.SizeInv b'.replacer_
  record_count : b'.replacer_.record_count_ =
    Function.update b.replacer_.record_count_ f (b.replacer_.record_count_ f + 1)
  evictable : b'.replacer_.evictable_ = Function.update b.replacer_.evictable_ f false
  rep_size : b'.replacer_.replacer_size_ = b.replacer_.replacer_size_

/-- The pool `b'` differs from `b` at most in the disk and in the bytes and
dirty flags of its pages. -/
structure SameCore (b b' : BufferPoolManager) : Prop where
  pool_size : b'.pool_size_ = b.pool_size_
  next_page_id : b'.next_page_id_ = b.next_page_id_
  free_list : b'.free_list_ = b.free_list_
  page_table : b'.page_table_ = b.page_table_
  replacer : b'.replacer_ = b.replacer_
  page_id : ∀ f, (b'.pages_ f).page_id_ = (b.pages_ f).page_id_
  pin_count : ∀ f, (b'.pages_ f).pin_count_ = (b.pages_ f).pin_count_

/-- What `DeletePage` does to the pool `b` when it frees frame `f`, which held
page `p`, giving the pool `b'`. -/
structure Freed (b b' : BufferPoolManager) (f : frame_id_t) (p : page_id_t) : Prop where
  pool_size : b'.pool_size_ = b.pool_size_
  next_page_id : b'.next_page_id_ = b.next_page_id_
  free_list : b'.free_list_ = b.free_list_ ++ [f]
  page_table : b'.page_table_ = Function.update b.page_table_ p none
  disk : b'.disk_ = b.disk_
  pages : b'.pages_ = Function.update b.pages_ f
    { data_ := .zero, page_id_ := INVALID_PAGE_ID, is_dirty_ := false, pin_count_ := 0 }
  rep : LRUKReplacer.SizeInv b'.replacer_
  record_count : b'.replacer_.record_count_ = Function.update b.replacer_.record_count_ f 0
  alltime : b'.replacer_.alltime = Function.update b.replacer_.alltime f []
  evictable : b'.replacer_.evictable_ = b.replacer_.evictable_
  rep_size : b'.replacer_.replacer_size_ = b.replacer_.replacer_size_

/-- States reachable from a fresh pool by calls in which `FetchPage` is only
asked for page ids that `NewPage` has handed out before (those below
`next_page_id_`). -/
inductive ReachableAllocated : BufferPoolManager → Prop where
  | new (pool_size replacer_k : Nat) : pool_size < 2 ^ 31 →
    ReachableAllocated (BufferPoolManager.new pool_size replacer_k)
  | call {b b' : BufferPoolManager} (c : Call) (e : Ending) (r : Result) :
    ReachableAllocated b → (∀ p, c = .fetch_page p → p < b.next_page_id_) →
    b.call c = .ok (e, r, b') → ReachableAllocated b'

/-- Every frame that holds a page is the frame the page table gives for that
page, and the page's id has been handed out. -/
structure MappedInv (b : BufferPoolManager) : Prop where
  mapped : ∀ f, b.inPool f → f ∉ b.free_list_ → b.page_table_ (b.pages_ f).page_id_ = some f
  below : ∀ f, b.inPool f → f ∉ b.free_list_ → (b.pages_ f).page_id_ < b.next_page_id_

/-- The pool `b'` has the page table, the free list and the page ids of `b`. -/
structure SameTable (b b' : BufferPoolManager) : Prop where
  pool_size : b'.pool_size_ = b.pool_size_
  next_page_id : b'.next_page_id_ = b.next_page_id_
  free_list : b'.free_list_ = b.free_list_
  page_table : b'.page_table_ = b.page_table_
  page_id : ∀ f, (b'.pages_ f).page_id_ = (b.pages_ f).page_id_

/-- The calls of the pool-churn example: three pages are created and each is
unpinned. -/
def churnCalls : List Call :=
  [.new_page, .unpin_page 0 false, .new_page, .unpin_page 1 false, .new_page, .unpin_page 2 false]

end BufferPoolManager

/-! ## The bytes of a page in the pool and on disk -/

namespace BufferPoolManager

/-- The pool keeps the bytes `d` of page `p`: the page is in a frame that has
these bytes and the dirty flag set, or it is in no frame and the disk has
these bytes for it. -/
def Kept (b : BufferPoolManager) (p : page_id_t) (d : PageData) : Prop :=
  (∃ f, b.page_table_ p = some f ∧ (b.pages_ f).is_dirty_ = true ∧ (b.pages_ f).data_ = d) ∨
  (b.page_table_ p = none ∧ b.disk_ p = d)

/-- Whether a call is a `new_page`, `fetch_page` or `unpin_page` on a page id
other than `p`, or a store to a frame that holds another page than `p`.  The
page id of `new_page` is the one it hands out, `next_page_id_`. -/
def onOther (b : BufferPoolManager) (p : page_id_t) : Call → Bool
  | .new_page => decide (b.next_page_id_ ≠ p)
  | .fetch_page q => decide (q ≠ p)
  | .unpin_page q _ => decide (q ≠ p)
  | .write_data f _ => decide ((b.pages_ f).page_id_ ≠ p)
  | _ => false

/-- Whether every call of a run from `b` is a call on another page than `p`. -/
def runsOnOthers (p : page_id_t) : BufferPoolManager → List Call → Bool
  | _, [] => true
  | b, c :: cs => b.onOther p c && runsOnOthers p (b.runCalls [c]).2 cs

/-- A frame of the pool that is outside the free list and has pin count 0 is
the frame the page table gives for the page it holds. -/
def IdleMapped (b : BufferPoolManager) : Prop :=
  ∀ f, b.inPool f → f ∉ b.free_list_ → (b.pages_ f).pin_count_ = 0 →
    b.page_table_ (b.pages_ f).page_id_ = some f

/-- The disk after `NewPage` or `FetchPage` took frame `g` of the pool `b`:
the bytes of a dirty page were written under its page id. -/
def diskAfterReuse (b : BufferPoolManager) (g : frame_id_t) : Disk :=
  if (b.pages_ g).is_dirty_ then Function.update b.disk_ (b.pages_ g).page_id_ (b.pages_ g).data_
  else b.disk_

/-- Bytes that are not all zero: a bucket page with one entry. -/
def sampleData : PageData :=
  .bucket { size_ := 1, max_size_ := 2, array_ := fun i => if i = 0 then (5, 50) else (0, 0) }

end BufferPoolManager

/-! ## Calls on one bucket page, a sample directory page -/

namespace ExtendibleHTableBucketPage

/-- The stored entries: slots `0 .. size_ - 1` in index order. -/
def entries (b : ExtendibleHTableBucketPage) : List (Int × Int) := (List.range b.size_).map b.array_

/-- One modifying call on a bucket page. -/
inductive Call where
  | insert (key value : Int)
  | remove (key : Int)

/-- The page after a call, with the boolean the call returned. -/
def call (b : ExtendibleHTableBucketPage) : Call → Bool × ExtendibleHTableBucketPage
  | .insert key value => b.Insert key value
  | .remove key => b.Remove key

/-- Run a sequence of calls. -/
def runCalls : ExtendibleHTableBucketPage → List Call → ExtendibleHTableBucketPage
  | b, [] => b
  | b, c :: cs => runCalls (b.call c).2 cs

/-- Run a sequence of calls whose first call has number `t`, keeping beside
the page a record of the stored entries: an `Insert` that returns true at call
`t` appends `(t, (key, value))`, a `Remove` that finds its key at index `i`
drops the record at position `i`. -/
def runStamped : Nat → ExtendibleHTableBucketPage × List (Nat × (Int × Int)) → List Call →
    ExtendibleHTableBucketPage × List (Nat × (Int × Int))
  | _, s, [] => s
  | t, s, .insert key value :: cs =>
    runStamped (t + 1)
      ((s.1.Insert key value).2, if (s.1.Insert key value).1 then s.2 ++ [(t, (key, value))] else s.2) cs
  | t, s, .remove key :: cs =>
    runStamped (t + 1)
      ((s.1.Remove key).2,
       match scan s.1.array_ key s.1.size_ with
       | some i => s.2.eraseIdx i
       | none => s.2) cs

/-- What the record kept by `runStamped` says about the page before call
number `t` of `calls`. -/
structure Stamped (max_size : Nat) (calls : List Call) (t : Nat)
    (s : ExtendibleHTableBucketPage × List (Nat × (Int × Int))) : Prop where
  max : s.1.max_size_ = max_size
  size_le : s.1.size_ ≤ max_size
  nodup : (s.1.entries.map Prod.fst).Nodup
  entries : s.2.map Prod.snd = s.1.entries
  sorted : (s.2.map Prod.fst).Pairwise (· < ·)
  stamp_lt : ∀ x ∈ s.2, x.1 < t
  stamp_call : ∀ x ∈ s.2, calls[x.1]? = some (.insert x.2.1 x.2.2)

/-- A page of zero bytes. -/
def zeroed : ExtendibleHTableBucketPage := { size_ := 0, max_size_ := 0, array_ := fun _ => (0, 0) }

end ExtendibleHTableBucketPage

namespace ExtendibleHTableDirectoryPage

/-- A directory page of global depth 1: slots 0 and 1 are in use, the slots
above them were filled by `Init(2)`. -/
def sampleDirectory : ExtendibleHTableDirectoryPage :=
  { max_depth_ := 2, global_depth_ := 1,
    local_depths_ := fun i => if i < 2 then 1 else 0,
    bucket_page_ids_ := fun i => if i = 0 then 2 else if i = 1 then 3 else INVALID_PAGE_ID }

end ExtendibleHTableDirectoryPage

/-! ## The capacity of a bucket page's array -/

/-- Modelled from the spec: the page size (`BUSTUB_PAGE_SIZE` of
`common/config.h`), 4096 bytes. -/
def BUSTUB_PAGE_SIZE : Nat := 4096

/-- The two `uint32_t` fields `size_` and `max_size_`. -/
def HTABLE_BUCKET_PAGE_METADATA_SIZE : Nat := 4 * 2

/-- The length of `array_`: what is left of the page after the metadata, in
entries of `mapping_type_size` bytes (8 for `std::pair<int, int>`, which gives
511). -/
def HTableBucketArraySize (mapping_type_size : Nat) : Nat :=
  (BUSTUB_PAGE_SIZE - HTABLE_BUCKET_PAGE_METADATA_SIZE) / mapping_type_size

namespace ExtendibleHTableBucketPage

/-- A bucket page with `max_size_ = 600` whose array is full: entry `i` is
`(i, 0)` for `i = 0 .. 510`. -/
def filled : ExtendibleHTableBucketPage :=
  { size_ := 511, max_size_ := 600, array_ := fun i => ((i : Int), 0) }

/-- The calls `Insert(0, 0)`, ..., `Insert(n - 1, 0)`. -/
def inserts (n : Nat) : List Call := (List.range n).map (fun i => .insert (i : Int) 0)

end ExtendibleHTableBucketPage

/-! ## Pin counts, the phases of `Remove`, a split in progress -/

/-- The pin counts of the pages `0 .. n - 1` of the table's pool. -/
def pinView (t : DiskExtendibleHashTable) (n : Nat) : List Nat :=
  (List.range n).map (fun i => t.bpm_.pin_count_ (Int.ofNat i))

namespace DiskExtendibleHashTable

/-- What `Remove` does to the directory page once the bucket has become
empty, up to the test of `CanShrink`: the directory page then, and whether the
merge branch ran. -/
def mergePhase (directory_page : ExtendibleHTableDirectoryPage) (bucket_index : Nat)
    (bucket_page_id : page_id_t) : Except Fault (ExtendibleHTableDirectoryPage × Bool) := do
  let directory_page ← directory_page.DecrLocalDepth bucket_index
  let split_index ← directory_page.GetSplitImageIndex bucket_index
  let merge : Bool :=
    decide ((← directory_page.GetLocalDepth split_index) = (← directory_page.GetLocalDepth bucket_index) + 1)
  let directory_page ←
    (if merge then mergeBranch directory_page bucket_index split_index bucket_page_id else .ok directory_page)
  pure (directory_page, merge)

/-- The directory page `d'` is `d` shrunk by one level: the global depth is
one less and the slots `2^(g-1) .. 2^g - 1` hold `INVALID_PAGE_ID`. -/
structure Shrunk (d d' : ExtendibleHTableDirectoryPage) : Prop where
  global_depth : d'.global_depth_ + 1 = d.global_depth_
  max_depth : d'.max_depth_ = d.max_depth_
  local_depths : d'.local_depths_ = d.local_depths_
  upper : ∀ i, 2 ^ (d.global_depth_ - 1) ≤ i → i < 2 ^ d.global_depth_ →
    d'.bucket_page_ids_ i = INVALID_PAGE_ID
  others : ∀ i, ¬ (2 ^ (d.global_depth_ - 1) ≤ i ∧ i < 2 ^ d.global_depth_) →
    d'.bucket_page_ids_ i = d.bucket_page_ids_ i

/-- A table object with the identity hash, for running `rehash` alone. -/
def identityHashed : DiskExtendibleHashTable := { blank with hash_fn_ := Int.toNat }

/-- A directory page of global depth 3 whose slots 0 and 4 hold the bucket
that is being split (page 2) and the new bucket (page 5). -/
def splitDirectory : ExtendibleHTableDirectoryPage :=
  { max_depth_ := 3, global_depth_ := 3,
    local_depths_ := fun i => if i = 0 ∨ i = 4 then 3 else if i = 2 ∨ i = 6 then 2 else 1,
    bucket_page_ids_ := fun i =>
      if i = 0 then 2 else if i = 4 then 5 else if i = 2 ∨ i = 6 then 4 else 3 }

/-- A full bucket page of two entries, keys 4 and 0. -/
def fullBucket : ExtendibleHTableBucketPage :=
  { size_ := 2, max_size_ := 2, array_ := fun i => if i = 0 then (4, 104) else if i = 1 then (0, 100) else (0, 0) }

end DiskExtendibleHashTable

/-! ## Calls on the replacer with frame ids in range -/

namespace LRUKReplacer

/-- Whether the frame id a call is given, if it is given one, is in
`[0, num_frames)`. -/
def Call.inRange (num_frames : Nat) : Call → Bool
  | .record_access f => decide (0 ≤ f ∧ f < (num_frames : Int))
  | .set_evictable f _ => decide (0 ≤ f ∧ f < (num_frames : Int))
  | .evict => true
  | .remove f => decide (0 ≤ f ∧ f < (num_frames : Int))

/-- States reachable from a new replacer by calls that are given frame ids in
`[0, num_frames)` only. -/
inductive ReachableInRange : LRUKReplacer → Prop where
  | new (num_frames k : Nat) : num_frames < 2 ^ 64 → ReachableInRange (LRUKReplacer.new num_frames k)
  | call {s s' : LRUKReplacer} (c : Call) (e : Ending) :
    ReachableInRange s → c.inRange s.replacer_size_ = true → s.call c = .ok (e, s') →
    ReachableInRange s'

end LRUKReplacer

/-! ## The observed-remove set -/

/-- `ORSet<int>` of `primer/orset.h`: `set_add` and `set_remove` are
`std::set<std::tuple<int, uid_t>>`, held as the list of their tuples in iteration
(increasing) order. -/
structure ORSet where
  set_add : List (Int × Int)
  set_remove : List (Int × Int)

namespace ORSet

/-- `operator<` of `std::tuple<int, uid_t>`: lexicographic. -/
def tupleLess (a b : Int × Int) : Bool :=
  decide (a.1 < b.1) || (decide (a.1 = b.1) && decide (a.2 < b.2))

/-- `std::set::insert`: the tuple goes to its place in the order, and a set that
already holds it is left as it is. -/
def setInsert (x : Int × Int) : List (Int × Int) → List (Int × Int)
  | [] => [x]
  | y :: ys =>
    if tupleLess x y then x :: y :: ys
    else if tupleLess y x then y :: setInsert x ys
    else y :: ys

/-- `std::set::erase(key)`: the tuple equal to the key is removed, if there is one. -/
def setErase (x : Int × Int) (l : List (Int × Int)) : List (Int × Int) :=
  l.erase x

/-- The loop of `ORSet::Contains` over `set_add`. -/
def containsLoop (elem : Int) : List (Int × Int) → Bool
  | [] => false
  | t :: ts => if elem = t.1 then true else containsLoop elem ts

/-- `ORSet::Contains`. -/
def Contains (s : ORSet) (elem : Int) : Bool :=
  containsLoop elem s.set_add

/-- `ORSet::Add`. -/
def Add (s : ORSet) (elem : Int) (uid : Int) : ORSet :=
  { s with set_add := setInsert (elem, uid) s.set_add }

/-- `ORSet::Merge`: the three loops, in the order of the source. -/
def Merge (s ot : ORSet) : ORSet :=
  let set_add := ot.set_add.foldl (fun acc t => setInsert t acc) s.set_add
  let set_remove := ot.set_remove.foldl (fun acc t => setInsert t acc) s.set_remove
  let set_add := set_remove.foldl (fun acc t => setErase (t.1, t.2) acc) set_add
  { set_add := set_add, set_remove := set_remove }

/-- `ORSet::Elements`: the first component of every tuple of `set_add`, in the
order of the set. -/
def Elements (s : ORSet) : List Int :=
  s.set_add.foldl (fun vec t => vec ++ [t.1]) []

/-- The invariant of `std::set`: the tuples are strictly increasing. -/
structure Ok (s : ORSet) : Prop where
  add : s.set_add.Pairwise (fun a b => tupleLess a b = true)
  remove : s.set_remove.Pairwise (fun a b => tupleLess a b = true)

/-- Two replicas: each has added two tuples and removed one the other has added. -/
def replicaA : ORSet :=
  { set_add := [(1, 10), (2, 20)], set_remove := [(3, 30)] }

def replicaB : ORSet :=
  { set_add := [(2, 21), (3, 30)], set_remove := [(1, 10)] }

end ORSet

/-! ## The hash table over the buffer pool manager

The same source functions as in the section on the disk extendible hash table,
this time on the pool of `buffer_pool_manager.cpp`: a `Page *` is the id of a
frame, a read through it gives what the frame holds when it is made, and the
bytes of a page of another kind read through it are the fault `bad_cast`.
Between two calls on the pool the frames read are taken at the first access and
stored back before the next call on the pool. -/

namespace Pooled

/-- `bpm_->FetchPage(page_id)` as a caller in the hash table sees it: the frame
or `nullptr`; an exception thrown inside it ends the call of the hash table. -/
def fetch (b : BufferPoolManager) (page_id : page_id_t) :
    Except Fault (Option frame_id_t × BufferPoolManager) :=
  match b.FetchPage page_id with
  | .error e => .error e
  | .ok (.thrown, _, _) => .error .exception
  | .ok (.returned, r, b') => .ok (r, b')

/-- `bpm_->NewPage(&page_id)`, likewise. -/
def newPage (b : BufferPoolManager) :
    Except Fault (Option (frame_id_t × page_id_t) × BufferPoolManager) :=
  match b.NewPage with
  | .error e => .error e
  | .ok (.thrown, _, _) => .error .exception
  | .ok (.returned, r, b') => .ok (r, b')

/-- `bpm_->UnpinPage(page_id, is_dirty)`; every caller drops the result. -/
def unpin (b : BufferPoolManager) (page_id : page_id_t) (is_dirty : Bool) :
    Except Fault BufferPoolManager :=
  match b.UnpinPage page_id is_dirty with
  | .error e => .error e
  | .ok (_, b') => .ok b'

/-- `bpm_->DeletePage(page_id)`; every caller drops the result. -/
def deletePage (b : BufferPoolManager) (page_id : page_id_t) : Except Fault BufferPoolManager :=
  match b.DeletePage page_id with
  | .error e => .error e
  | .ok (.thrown, _, _) => .error .exception
  | .ok (.returned, _, b') => .ok b'

/-- Modelled from the spec: `Drop()` and the destructor of a page guard
(`page_guard.cpp` is not among the sources), "guaranteed to invoke unpin (with
the correct dirty flag) on drop": a guard that holds no page does nothing. -/
def dropGuard (b : BufferPoolManager) (guard : Option frame_id_t) (page_id : page_id_t)
    (is_dirty : Bool) : Except Fault BufferPoolManager :=
  match guard with
  | none => .ok b
  | some _ => unpin b page_id is_dirty

/-- The bytes that the frame holds, read as a header page. -/
def headerAt (b : BufferPoolManager) (frame_id : frame_id_t) : Except Fault ExtendibleHTableHeaderPage :=
  (b.pages_ frame_id).data_.asHeader

/-- The bytes that the frame holds, read as a directory page. -/
def directoryAt (b : BufferPoolManager) (frame_id : frame_id_t) :
    Except Fault ExtendibleHTableDirectoryPage :=
  (b.pages_ frame_id).data_.asDirectory

/-- The bytes that the frame holds, read as a bucket page. -/
def bucketAt (b : BufferPoolManager) (frame_id : frame_id_t) : Except Fault ExtendibleHTableBucketPage :=
  (b.pages_ frame_id).data_.asBucket

/-- The table object over the buffer pool manager. -/
structure DiskExtendibleHashTable where
  hash_fn_ : Int → Nat
  header_max_depth_ : Nat
  directory_max_depth_ : Nat
  bucket_max_size_ : Nat
  header_page_id_ : page_id_t
  bpm_ : BufferPoolManager

namespace DiskExtendibleHashTable

/-- Modelled from the spec: `Hash` is declared in the header and defined
elsewhere; the supplied 64-bit hash is projected to 32 bits. -/
def Hash (t : DiskExtendibleHashTable) (key : Int) : Nat := t.hash_fn_ key % 2 ^ 32

/-- The constructor.  `NewPageGuarded` leaves a guard without page when the
pool has no frame, and `AsMut` on it dereferences null.  The three guards are
destroyed, last first, when the constructor returns. -/
def new (bpm : BufferPoolManager) (hash_fn : Int → Nat)
    (header_max_depth directory_max_depth bucket_max_size : Nat) :
    Except Fault DiskExtendibleHashTable := do
  let (header_guard, bpm) ← newPage bpm
  match header_guard with
  | none => throw .null_deref
  | some (header_frame, header_page_id) =>
    let header_page ← (← headerAt bpm header_frame).Init header_max_depth
    let bpm ← bpm.WriteData header_frame (.header header_page)
    let (directory_guard, bpm) ← newPage bpm
    match directory_guard with
    | none => throw .null_deref
    | some (directory_frame, directory_page_id) =>
      let directory_page ← (← directoryAt bpm directory_frame).Init directory_max_depth
      let bpm ← bpm.WriteData directory_frame (.directory directory_page)
      let (bucket_guard, bpm) ← newPage bpm
      match bucket_guard with
      | none => throw .null_deref
      | some (bucket_frame, bucket_page_id) =>
        let bucket_page := (← bucketAt bpm bucket_frame).Init bucket_max_size
        let bpm ← bpm.WriteData bucket_frame (.bucket bucket_page)
        let header_page := (← headerAt bpm header_frame).SetDirectoryPageId 0 directory_page_id
        let bpm ← bpm.WriteData header_frame (.header header_page)
        let directory_page ← (← directoryAt bpm directory_frame).SetBucketPageId 0 bucket_page_id
        let bpm ← bpm.WriteData directory_frame (.directory directory_page)
        let bpm ← unpin bpm bucket_page_id true
        let bpm ← unpin bpm directory_page_id true
        let bpm ← unpin bpm header_page_id true
        pure { hash_fn_ := hash_fn, header_max_depth_ := header_max_depth,
               directory_max_depth_ := directory_max_depth, bucket_max_size_ := bucket_max_size,
               header_page_id_ := header_page_id, bpm_ := bpm }

/-- `GetValue`: the value found, and the table afterwards.  Every page is read
through its read guard while the guard holds it. -/
def GetValue (t : DiskExtendibleHashTable) (key : Int) :
    Except Fault (Option Int × DiskExtendibleHashTable) := do
  let (header_guard, bpm) ← fetch t.bpm_ t.header_page_id_
  match header_guard with
  | none => throw .null_deref
  | some header_frame =>
    let header_page ← headerAt bpm header_frame
    let hash := t.Hash key
    let dirIndex := header_page.HashToDirectoryIndex hash
    let directory_page_id := header_page.GetDirectoryPageId dirIndex
    if directory_page_id = INVALID_PAGE_ID then
      let bpm ← unpin bpm t.header_page_id_ false
      pure (none, { t with bpm_ := bpm })
    else
      let bpm ← unpin bpm t.header_page_id_ false
      let (directory_guard, bpm) ← fetch bpm directory_page_id
      match directory_guard with
      | none => throw .null_deref
      | some directory_frame =>
        let directory_page ← directoryAt bpm directory_frame
        let bucket_index := directory_page.HashToBucketIndex hash
        let bucket_page_id ← directory_page.GetBucketPageId bucket_index
        if bucket_page_id = INVALID_PAGE_ID then
          let bpm ← unpin bpm directory_page_id false
          pure (none, { t with bpm_ := bpm })
        else
          let (bucket_guard, bpm) ← fetch bpm bucket_page_id
          let bpm ← unpin bpm directory_page_id false
          match bucket_guard with
          | none => throw .null_deref
          | some bucket_frame =>
            let bucket_page ← bucketAt bpm bucket_frame
            let bpm ← unpin bpm bucket_page_id false
            pure (bucket_page.Lookup key, { t with bpm_ := bpm })

/-- `InsertToNewBucket`: `directory` is a `Page *` into the frame
`directory_frame`. -/
def InsertToNewBucket (t : DiskExtendibleHashTable) (directory_frame : frame_id_t)
    (bucket_idx : Nat) (key value : Int) : Except Fault (Bool × DiskExtendibleHashTable) := do
  let bucket_page_id ← (← directoryAt t.bpm_ directory_frame).GetBucketPageId bucket_idx
  let (bucket_page_data, bpm) ← fetch t.bpm_ bucket_page_id
  match bucket_page_data with
  | none => throw .exception
  | some bucket_frame =>
    let (insert_result, bucket_page) := (← bucketAt bpm bucket_frame).Insert key value
    let bpm ← (if insert_result then bpm.WriteData bucket_frame (.bucket bucket_page) else .ok bpm)
    let bpm ← unpin bpm bucket_page_id insert_result
    pure (insert_result, { t with bpm_ := bpm })

/-- `InsertToNewDirectory`: `header` is a `Page *` into the frame
`header_frame`. -/
def InsertToNewDirectory (t : DiskExtendibleHashTable) (header_frame : frame_id_t)
    (hash : Nat) (key value : Int) : Except Fault (Bool × DiskExtendibleHashTable) := do
  let header ← headerAt t.bpm_ header_frame
  let new_directory_index := header.HashToDirectoryIndex hash
  let new_directory_page_id := header.GetDirectoryPageId new_directory_index
  let (new_directory_page_data, bpm) ← fetch t.bpm_ new_directory_page_id
  match new_directory_page_data with
  | none => throw .exception
  | some new_directory_frame =>
    let new_bucket_idx := (← directoryAt bpm new_directory_frame).HashToBucketIndex hash
    let (insert_result, t1) ← InsertToNewBucket { t with bpm_ := bpm } new_directory_frame new_bucket_idx key value
    let bpm ← unpin t1.bpm_ new_directory_page_id insert_result
    pure (insert_result, { t1 with bpm_ := bpm })

/-- The redistribution loop of `Insert` (see `bustub.DiskExtendibleHashTable.rehash`). -/
def rehash (t : DiskExtendibleHashTable) (directory_page : ExtendibleHTableDirectoryPage)
    (split_bucket_idx : Nat) (bucket_page new_bucket_page : ExtendibleHTableBucketPage) :
    ExtendibleHTableBucketPage × ExtendibleHTableBucketPage :=
  forLoop
    (fun i (s : ExtendibleHTableBucketPage × ExtendibleHTableBucketPage) =>
      let bucket_key := s.1.KeyAt i
      let key_hash := t.Hash bucket_key
      let bucketIndex := directory_page.HashToBucketIndex key_hash
      if split_bucket_idx = bucketIndex then
        let b := (s.1.Remove bucket_key).2
        (b, (s.2.Insert (b.KeyAt i) (b.ValueAt i)).2)
      else s)
    bucket_page.Size (bucket_page, new_bucket_page)

/-- What the first part of `Insert` has found: the frames that `header_page`,
`directory_page` and `bucket_page` point into, the ids read on the way, and the
pool with the bucket page fetched. -/
structure Located where
  header_frame : frame_id_t
  directory_frame : frame_id_t
  bucket_frame : frame_id_t
  directory_page_id : page_id_t
  bucket_index : Nat
  bucket_page_id : page_id_t
  bpm : BufferPoolManager

/-- The first part of `Insert`, up to the fetch of the bucket page: the header
page is fetched through a read guard and raw (a null raw page throws), the
directory page likewise (a null raw page is dereferenced), then the bucket
page (dereferenced too). -/
def locate (t : DiskExtendibleHashTable) (key : Int) : Except Fault Located := do
  let hash := t.Hash key
  let (header_read_guard, bpm) ← fetch t.bpm_ t.header_page_id_
  let (header_page_data, bpm) ← fetch bpm t.header_page_id_
  match header_page_data with
  | none => throw .exception
  | some header_frame =>
    let header_page ← headerAt bpm header_frame
    let directory_index := header_page.HashToDirectoryIndex hash
    let directory_page_id := header_page.GetDirectoryPageId directory_index
    let bpm ← dropGuard bpm header_read_guard t.header_page_id_ false
    let bpm ← unpin bpm t.header_page_id_ false
    let (directory_read_guard, bpm) ← fetch bpm directory_page_id
    let (directory_page_data, bpm) ← fetch bpm directory_page_id
    match directory_page_data with
    | none => throw .null_deref
    | some directory_frame =>
      let directory_page ← directoryAt bpm directory_frame
      let bucket_index := directory_page.HashToBucketIndex hash
      let bucket_page_id ← directory_page.GetBucketPageId bucket_index
      let bpm ← dropGuard bpm directory_read_guard directory_page_id false
      let bpm ← unpin bpm directory_page_id false
      let (bucket_page_data, bpm) ← fetch bpm bucket_page_id
      match bucket_page_data with
      | none => throw .null_deref
      | some bucket_frame =>
        pure { header_frame := header_frame, directory_frame := directory_frame,
               bucket_frame := bucket_frame, directory_page_id := directory_page_id,
               bucket_index := bucket_index, bucket_page_id := bucket_page_id, bpm := bpm }

/-- The part of `Insert` between the refused `InsertToNewDirectory` and the
recursive call: `none` when the insert is refused at the maximum depth,
otherwise the id of the new bucket page and the pool after the directory has
been grown, the bucket split and its entries redistributed.  `directory_page`
and `bucket_page` point into `directory_frame` and `bucket_frame`; a guard
without page from `NewPageGuarded` is dereferenced by `AsMut`; once the new
page has its frame, two of the three pointers into one frame mean that the
bytes of a bucket page are read as a directory page. -/
def splitPhase (t : DiskExtendibleHashTable) (bpm1 : BufferPoolManager)
    (directory_frame bucket_frame : frame_id_t) (bucket_index hash : Nat) :
    Except Fault (Option (page_id_t × BufferPoolManager)) := do
  let directory_page ← directoryAt bpm1 directory_frame
  let grow := (← directory_page.GetLocalDepth bucket_index) = directory_page.GetGlobalDepth
  if grow ∧ directory_page.GetGlobalDepth = t.directory_max_depth_ then
    pure none
  else
    let directory_page ← (if grow then directory_page.IncrGlobalDepth else .ok directory_page)
    let original_bucket_idx := directory_page.HashToBucketIndex hash
    let split_bucket_idx ← directory_page.GetSplitImageIndex original_bucket_idx
    let bpm ← bpm1.WriteData directory_frame (.directory directory_page)
    let (new_bucket_guard, bpm) ← newPage bpm
    match new_bucket_guard with
    | none => throw .null_deref
    | some (new_bucket_frame, new_bucket_page_id) =>
      if new_bucket_frame = directory_frame ∨ new_bucket_frame = bucket_frame ∨
          directory_frame = bucket_frame then throw .bad_cast
      else
        let new_bucket_page := (← bucketAt bpm new_bucket_frame).Init t.bucket_max_size_
        let directory_page ← directoryAt bpm directory_frame
        let directory_page ← directory_page.IncrLocalDepth original_bucket_idx
        let directory_page ←
          directory_page.SetLocalDepth split_bucket_idx (← directory_page.GetLocalDepth original_bucket_idx)
        let new_local_depth ← directory_page.GetLocalDepth original_bucket_idx
        let local_depth_mask ← directory_page.GetLocalDepthMask original_bucket_idx
        let directory_page ← directory_page.SetBucketPageId split_bucket_idx new_bucket_page_id
        let directory_page ←
          bustub.DiskExtendibleHashTable.UpdateDirectoryMapping directory_page split_bucket_idx
            new_bucket_page_id new_local_depth local_depth_mask
        let bucket_page ← bucketAt bpm bucket_frame
        let (bucket_page, new_bucket_page) :=
          rehash t directory_page split_bucket_idx bucket_page new_bucket_page
        let bpm ← bpm.WriteData directory_frame (.directory directory_page)
        let bpm ← bpm.WriteData bucket_frame (.bucket bucket_page)
        let bpm ← bpm.WriteData new_bucket_frame (.bucket new_bucket_page)
        pure (some (new_bucket_page_id, bpm))

/-- `Insert`: the result and the table afterwards.  The body of the source
function is `locate`, then `InsertToNewDirectory`, then on refusal
`splitPhase` and the recursive call; the guard of the new bucket page unpins
it when the recursive call has returned. -/
def Insert : Nat → DiskExtendibleHashTable → Int → Int → Except Fault (Bool × DiskExtendibleHashTable)
  | 0, _, _, _ => throw .out_of_fuel
  | fuel + 1, t, key, value =>
    match t.locate key with
    | .error e => .error e
    | .ok loc =>
      match InsertToNewDirectory { t with bpm_ := loc.bpm } loc.header_frame (t.Hash key) key value with
      | .error e => .error e
      | .ok (true, t1) =>
        match unpin t1.bpm_ loc.bucket_page_id true with
        | .error e => .error e
        | .ok bpm => .ok (true, { t1 with bpm_ := bpm })
      | .ok (false, t1) =>
        match t.splitPhase t1.bpm_ loc.directory_frame loc.bucket_frame loc.bucket_index (t.Hash key) with
        | .error e => .error e
        | .ok none => .ok (false, t1)
        | .ok (some (new_bucket_page_id, bpm)) =>
          match Insert fuel { t with bpm_ := bpm } key value with
          | .error e => .error e
          | .ok (r, t2) =>
            match unpin t2.bpm_ new_bucket_page_id true with
            | .error e => .error e
            | .ok bpm => .ok (r, { t2 with bpm_ := bpm })

/-- `Remove`: the result and the table afterwards.  `header_page`,
`directory_page` and `bucket_page` are raw pointers into the frames the three
`FetchPage` calls returned; in the merge branch the source calls `DeletePage`
a second time and unpins the directory page. -/
def Remove (t : DiskExtendibleHashTable) (key : Int) : Except Fault (Bool × DiskExtendibleHashTable) := do
  let hash := t.Hash key
  let (header_page_data, bpm) ← fetch t.bpm_ t.header_page_id_
  match header_page_data with
  | none => throw .null_deref
  | some header_frame =>
    let header_page ← headerAt bpm header_frame
    let directory_index := header_page.HashToDirectoryIndex hash
    let directory_page_id := header_page.GetDirectoryPageId directory_index
    if directory_page_id = INVALID_PAGE_ID then
      pure (false, { t with bpm_ := bpm })
    else
      let bpm ← unpin bpm t.header_page_id_ false
      let (directory_page_data, bpm) ← fetch bpm directory_page_id
      match directory_page_data with
      | none => throw .null_deref
      | some directory_frame =>
        let directory_page ← directoryAt bpm directory_frame
        let bucket_index := directory_page.HashToBucketIndex hash
        let bucket_page_id ← directory_page.GetBucketPageId bucket_index
        if bucket_page_id = INVALID_PAGE_ID then
          pure (false, { t with bpm_ := bpm })
        else
          let bpm ← unpin bpm directory_page_id false
          let (bucket_page_data, bpm) ← fetch bpm bucket_page_id
          match bucket_page_data with
          | none => throw .null_deref
          | some bucket_frame =>
            let (removed, bucket_page) := (← bucketAt bpm bucket_frame).Remove key
            if removed then
              let bpm ← bpm.WriteData bucket_frame (.bucket bucket_page)
              if bucket_page.IsEmpty then
                let bpm ← deletePage bpm bucket_page_id
                let (directory_page, merge) ←
                  bustub.DiskExtendibleHashTable.mergePhase (← directoryAt bpm directory_frame)
                    bucket_index bucket_page_id
                let bpm ← bpm.WriteData directory_frame (.directory directory_page)
                let bpm ← (if merge then do
                    let bpm ← deletePage bpm bucket_page_id
                    unpin bpm directory_page_id false
                  else .ok bpm)
                let directory_page ← directoryAt bpm directory_frame
                let directory_page ←
                  (if directory_page.CanShrink then
                    bustub.DiskExtendibleHashTable.shrinkBranch directory_page
                  else .ok directory_page)
                let bpm ← bpm.WriteData directory_frame (.directory directory_page)
                let bpm ← unpin bpm bucket_page_id true
                pure (true, { t with bpm_ := bpm })
              else
                let bpm ← unpin bpm bucket_page_id true
                pure (true, { t with bpm_ := bpm })
            else
              pure (false, { t with bpm_ := bpm })

end DiskExtendibleHashTable

/-- The table after one call, with what the call returned. -/
def step (fuel : Nat) (t : DiskExtendibleHashTable) : Op → Except Fault (Out × DiskExtendibleHashTable)
  | .insert k v => (DiskExtendibleHashTable.Insert fuel t k v).map (fun r => (.bool r.1, r.2))
  | .remove k => (DiskExtendibleHashTable.Remove t k).map (fun r => (.bool r.1, r.2))
  | .get k => (DiskExtendibleHashTable.GetValue t k).map (fun r => (.value r.1, r.2))

/-- Run a script: the outputs of the calls (a fault ends the run) and the
table after the last call that returned. -/
def run (fuel : Nat) : DiskExtendibleHashTable → List Op → List Out × DiskExtendibleHashTable
  | t, [] => ([], t)
  | t, op :: ops =>
    match step fuel t op with
    | .ok (o, t') => let r := run fuel t' ops; (o :: r.1, r.2)
    | .error f => ([.fault f], t)

/-- A table constructed by the constructor over a new pool of `pool_size`
frames with an LRU-`replacer_k` replacer, if the constructor returns. -/
def fresh (pool_size replacer_k : Nat) (hash_fn : Int → Nat)
    (header_max_depth directory_max_depth bucket_max_size : Nat) :
    Except Fault DiskExtendibleHashTable :=
  DiskExtendibleHashTable.new (BufferPoolManager.new pool_size replacer_k) hash_fn header_max_depth
    directory_max_depth bucket_max_size

/-- Outputs of a script run on a fresh table with the given fuel. -/
def outputs (pool_size replacer_k fuel : Nat) (hash_fn : Int → Nat) (hmd dmd bms : Nat) (ops : List Op) :
    List Out :=
  match fresh pool_size replacer_k hash_fn hmd dmd bms with
  | .ok t => (run fuel t ops).1
  | .error f => [.fault f]

/-! ## What every page of a table on the buffer pool manager keeps -/

/-- A page id as a slot of a header page or of a directory page may hold it
once `NewPage` has handed out the ids below `n`: `INVALID_PAGE_ID`, or one of
these ids. -/
def IdOk (n : page_id_t) (page_id : page_id_t) : Prop :=
  page_id = INVALID_PAGE_ID ∨ (0 ≤ page_id ∧ page_id < n)

/-- The bytes of a page, read as a header page, hold page ids that are
`INVALID_PAGE_ID` or have been handed out; read as a directory page, they
satisfy EHT.1 and hold such page ids. -/
def PageOk (n : page_id_t) (d : PageData) : Prop :=
  (∀ h, d.asHeader = .ok h → ∀ i, IdOk n (h.directory_page_ids_ i)) ∧
  (∀ dir, d.asDirectory = .ok dir → EHT1 dir ∧ ∀ i, IdOk n (dir.bucket_page_ids_ i))

/-- The pool holds the bytes `d` for page `p`: the page is in a frame that has
these bytes, and the frame is dirty or the disk has the same bytes; or the page
is in no frame and the disk has these bytes. -/
def Holds (b : BufferPoolManager) (p : page_id_t) (d : PageData) : Prop :=
  (∃ f, b.page_table_ p = some f ∧ (b.pages_ f).data_ = d ∧
    ((b.pages_ f).is_dirty_ = true ∨ b.disk_ p = d)) ∨
  (b.page_table_ p = none ∧ b.disk_ p = d)

/-- What holds of the pool of a table whose header page is page 0, between
two calls on the table: the pool was reached from a new pool by calls in which
`FetchPage` was asked for page ids handed out before; every page, in a frame or
on disk, is as `PageOk` says; the bytes of a header page are nowhere but in the
frame that holds page 0 and on disk under page id 0; and the pool holds the
bytes of a header page for page 0. -/
structure Sound (b : BufferPoolManager) : Prop where
  reach : BufferPoolManager.ReachableAllocated b
  k_pos : 0 < b.replacer_.k_
  next_pos : 0 < b.next_page_id_
  frames : ∀ f, PageOk b.next_page_id_ (b.pages_ f).data_
  disk : ∀ p, PageOk b.next_page_id_ (b.disk_ p)
  header_frame : ∀ f h, (b.pages_ f).data_ = .header h → (b.pages_ f).page_id_ = 0
  header_disk : ∀ p h, b.disk_ p = .header h → p = 0
  header : ∃ h, Holds b 0 (.header h)

/-- States reachable from a table constructed over a new pool by calls that
return.  The pool size is a `size_t` whose frame indices are cast to `int`;
the replacer's `k` is at least 1. -/
inductive Reachable : DiskExtendibleHashTable → Prop where
  | fresh {pool_size replacer_k : Nat} {hash_fn : Int → Nat} {hmd dmd bms : Nat}
      {t : DiskExtendibleHashTable} :
      pool_size < 2 ^ 31 → 0 < replacer_k →
      fresh pool_size replacer_k hash_fn hmd dmd bms = .ok t → Reachable t
  | step {fuel : Nat} {t t' : DiskExtendibleHashTable} {op : Op} {o : Out} :
      Reachable t → step fuel t op = .ok (o, t') → Reachable t'

/-- What calls of `UnpinPage` leave as it is, and what they may change: the
dirty flag of a frame can only be set, a pin count only lowered. -/
structure Eased (b b' : BufferPoolManager) : Prop where
  pool_size : b'.pool_size_ = b.pool_size_
  next_page_id : b'.next_page_id_ = b.next_page_id_
  free_list : b'.free_list_ = b.free_list_
  page_table : b'.page_table_ = b.page_table_
  disk : b'.disk_ = b.disk_
  data : ∀ x, (b'.pages_ x).data_ = (b.pages_ x).data_
  page_id : ∀ x, (b'.pages_ x).page_id_ = (b.pages_ x).page_id_
  dirty : ∀ x, (b.pages_ x).is_dirty_ = true → (b'.pages_ x).is_dirty_ = true
  pin : ∀ x, (b'.pages_ x).pin_count_ ≤ (b.pages_ x).pin_count_

/-- The table's header page is page 0 and its pool is sound. -/
def TableOk (t : DiskExtendibleHashTable) : Prop := t.header_page_id_ = 0 ∧ Sound t.bpm_

/-- Every slot of a directory page holds a page id that `IdOk` allows. -/
def Ids (n : page_id_t) (d : ExtendibleHTableDirectoryPage) : Prop :=
  ∀ i, IdOk n (d.bucket_page_ids_ i)

/-- Page `p` is in frame `f`, which is pinned and holds the bytes `d`. -/
structure Pinned (b : BufferPoolManager) (p : page_id_t) (f : frame_id_t) (d : PageData) : Prop where
  table : b.page_table_ p = some f
  data : (b.pages_ f).data_ = d
  pin : 0 < (b.pages_ f).pin_count_

/-- Page `p` is in frame `f`, which holds the bytes `d`. -/
structure Resident (b : BufferPoolManager) (p : page_id_t) (f : frame_id_t) (d : PageData) : Prop where
  table : b.page_table_ p = some f
  data : (b.pages_ f).data_ = d

/-- What is left of the pool `b0` in the pool `b` after frames of the list `l`
were taken: another frame has the bytes it had, and the disk has for a
page id the bytes it had or the bytes a frame of `b0` had. -/
structure Rest (b0 b : BufferPoolManager) (l : List frame_id_t) : Prop where
  frames : ∀ f, f ∉ l → (b.pages_ f).data_ = (b0.pages_ f).data_
  disk : ∀ p, b.disk_ p = b0.disk_ p ∨ ∃ f, b.disk_ p = (b0.pages_ f).data_

/-- A zeroed page read as a header page. -/
def zeroHeader : ExtendibleHTableHeaderPage := { directory_page_ids_ := fun _ => 0, max_depth_ := 0 }

/-- A zeroed page read as a directory page. -/
def zeroDirectory : ExtendibleHTableDirectoryPage :=
  { max_depth_ := 0, global_depth_ := 0, local_depths_ := fun _ => 0, bucket_page_ids_ := fun _ => 0 }

/-- A zeroed page read as a bucket page. -/
def zeroBucket : ExtendibleHTableBucketPage := { size_ := 0, max_size_ := 0, array_ := fun _ => (0, 0) }

/-- A frame can be had: the free list has one, or a frame that holds a page
has pin count 0. -/
def Spare (b : BufferPoolManager) : Prop :=
  ∃ f, b.inPool f ∧ f ∉ b.free_list_ ∧ (b.pages_ f).pin_count_ = 0

/-- A table over an empty pool, the value of `stateAfter` and `tableOf` where
the run has faulted. -/
def blank : DiskExtendibleHashTable :=
  { hash_fn_ := Int.toNat, header_max_depth_ := 0, directory_max_depth_ := 0, bucket_max_size_ := 0,
    header_page_id_ := INVALID_PAGE_ID, bpm_ := BufferPoolManager.new 0 0 }

/-- The table after a script run with fuel 16 on a fresh table (after the last
call that returned), if the constructor returns. -/
def after (pool_size replacer_k : Nat) (hash_fn : Int → Nat) (hmd dmd bms : Nat) (ops : List Op) :
    Option DiskExtendibleHashTable :=
  match fresh pool_size replacer_k hash_fn hmd dmd bms with
  | .ok t => some (run 16 t ops).2
  | .error _ => none

/-- The table after a script run on a fresh table. -/
def stateAfter (pool_size replacer_k : Nat) (hash_fn : Int → Nat) (hmd dmd bms : Nat) (ops : List Op) :
    DiskExtendibleHashTable :=
  (after pool_size replacer_k hash_fn hmd dmd bms ops).getD blank

/-- The table a call has left. -/
def tableOf {α : Type} (r : Except Fault (α × DiskExtendibleHashTable)) : DiskExtendibleHashTable :=
  match r with
  | .ok (_, t) => t
  | .error _ => blank

/-- Whether a call returned the given boolean. -/
def returns (r : Except Fault (Bool × DiskExtendibleHashTable)) (b : Bool) : Bool :=
  match r with
  | .ok (b', _) => b' == b
  | .error _ => false

/-- What `GetValue` returned, when it returned. -/
def found (r : Except Fault (Option Int × DiskExtendibleHashTable)) : Option (Option Int) :=
  match r with
  | .ok (v, _) => some v
  | .error _ => none

/-- The bytes that `FetchPage` serves for a page: those of the frame that the
page table gives for the page, else those on disk. -/
def served (b : BufferPoolManager) (page_id : page_id_t) : PageData :=
  match b.page_table_ page_id with
  | some frame_id => (b.pages_ frame_id).data_
  | none => b.disk_ page_id

/-- Global depth and the `(local depth, bucket page id)` pairs of the first
`n` slots of the directory page `page_id` as the pool serves it. -/
def directoryView (t : DiskExtendibleHashTable) (page_id : page_id_t) (n : Nat) :
    Option (Nat × List (Nat × page_id_t)) :=
  match served t.bpm_ page_id with
  | .directory d => some (d.global_depth_, (List.range n).map (fun i => (d.local_depths_ i, d.bucket_page_ids_ i)))
  | _ => none

/-- The directory page that `Insert` consults for `key`, as the pool serves it
(the zeroed directory when the header or directory page cannot be read). -/
def dirFor (t : DiskExtendibleHashTable) (key : Int) : ExtendibleHTableDirectoryPage :=
  match (served t.bpm_ t.header_page_id_).asHeader with
  | .ok hdr =>
    match (served t.bpm_ (hdr.GetDirectoryPageId (hdr.HashToDirectoryIndex (t.Hash key)))).asDirectory with
    | .ok d => d
    | .error _ => zeroDirectory
  | .error _ => zeroDirectory

/-- The pool `b'` has the page table, the disk and the bytes of every frame of
`b`. -/
structure Still (b b' : BufferPoolManager) : Prop where
  pool_size : b'.pool_size_ = b.pool_size_
  next_page_id : b'.next_page_id_ = b.next_page_id_
  page_table : b'.page_table_ = b.page_table_
  disk : b'.disk_ = b.disk_
  data : ∀ x, (b'.pages_ x).data_ = (b.pages_ x).data_

/-- The id in slot 0 of the header page as the pool serves it, and the max
depth of the page with that id read as a directory page. -/
def slotZero (t : DiskExtendibleHashTable) : Option (page_id_t × Nat) :=
  match (served t.bpm_ t.header_page_id_).asHeader with
  | .ok hdr =>
    match (served t.bpm_ (hdr.GetDirectoryPageId 0)).asDirectory with
    | .ok d => some (hdr.GetDirectoryPageId 0, d.max_depth_)
    | .error _ => none
  | .error _ => none

/-- Every page that the pool has handed out is in a frame. -/
def AllResident (b : BufferPoolManager) : Prop :=
  ∀ p : page_id_t, 0 ≤ p → p < b.next_page_id_ → b.page_table_ p ≠ none

/-- The check of `AllResident` over the page ids below `next_page_id_`. -/
def allResident (b : BufferPoolManager) : Bool :=
  (List.range b.next_page_id_.toNat).all (fun i => (b.page_table_ (i : Int)).isSome)

end Pooled

/-! # Theorems -/

open DiskExtendibleHashTable

/-! ## Lemmas on the pages, the pool and the phases of `Insert` -/

namespace PagePool

@[simp] theorem UnpinPage_pages (bpm : PagePool) (p : page_id_t) : (bpm.UnpinPage p).pages_ = bpm.pages_ := by
  unfold UnpinPage; split_ifs <;> rfl

@[simp] theorem UnpinPage_next (bpm : PagePool) (p : page_id_t) :
    (bpm.UnpinPage p).next_page_id_ = bpm.next_page_id_ := by
  unfold UnpinPage; split_ifs <;> rfl

theorem FetchPage_eq_some {bpm bpm' : PagePool} {p : page_id_t} (h : bpm.FetchPage p = some bpm') :
    p ≠ INVALID_PAGE_ID ∧ bpm'.pages_ = bpm.pages_ ∧ bpm'.next_page_id_ = bpm.next_page_id_ := by
  unfold FetchPage at h
  split_ifs at h with hp
  simp only [Option.some.injEq] at h
  subst h
  exact ⟨hp, rfl, rfl⟩

theorem FetchPage_eq_none {bpm : PagePool} {p : page_id_t} (h : bpm.FetchPage p = none) :
    p = INVALID_PAGE_ID := by
  unfold FetchPage at h
  split_ifs at h with hp
  exact hp

theorem FetchPage_isSome {bpm : PagePool} {p : page_id_t} (hp : p ≠ INVALID_PAGE_ID) :
    ∃ bpm', bpm.FetchPage p = some bpm' ∧ bpm'.pages_ = bpm.pages_ := by
  unfold FetchPage
  simp [hp]

end PagePool

@[simp] theorem PagePool.FetchPage_invalid (bpm : PagePool) : bpm.FetchPage INVALID_PAGE_ID = none := by
  simp [PagePool.FetchPage]

@[simp] theorem PagePool.FetchPageRead_pages (bpm : PagePool) (p : page_id_t) :
    (bpm.FetchPageRead p).pages_ = bpm.pages_ := by
  unfold PagePool.FetchPageRead PagePool.FetchPage
  split_ifs <;> rfl

@[simp] theorem PagePool.FetchPageRead_next (bpm : PagePool) (p : page_id_t) :
    (bpm.FetchPageRead p).next_page_id_ = bpm.next_page_id_ := by
  unfold PagePool.FetchPageRead PagePool.FetchPage
  split_ifs <;> rfl

theorem PagePool.FetchPage_cases (bpm : PagePool) (p : page_id_t) :
    (p = INVALID_PAGE_ID ∧ bpm.FetchPage p = none) ∨
    (p ≠ INVALID_PAGE_ID ∧ ∃ b, bpm.FetchPage p = some b ∧ b.pages_ = bpm.pages_ ∧
      b.next_page_id_ = bpm.next_page_id_ ∧ 0 < b.pin_count_ p) := by
  by_cases hp : p = INVALID_PAGE_ID
  · left; exact ⟨hp, by simp [hp, PagePool.FetchPage]⟩
  · right
    refine ⟨hp, { bpm with pin_count_ := Function.update bpm.pin_count_ p (bpm.pin_count_ p + 1) },
      by simp [hp, PagePool.FetchPage], rfl, rfl, ?_⟩
    simp

@[simp] theorem PagePool.FetchPage_of_ne (bpm : PagePool) (p : page_id_t) (hp : p ≠ INVALID_PAGE_ID) :
    bpm.FetchPage p =
      some { bpm with pin_count_ := Function.update bpm.pin_count_ p (bpm.pin_count_ p + 1) } := by
  unfold PagePool.FetchPage
  simp [hp]

theorem GetValue_of_find {t : DiskExtendibleHashTable} {key : Int} {r : Option Int}
    (h : t.find key = .ok r) : ∃ t', t.GetValue key = .ok (r, t') := by
  unfold find at h
  unfold GetValue
  by_cases hh : t.header_page_id_ = INVALID_PAGE_ID
  · simp [hh, throw, throwThe, MonadExceptOf.throw, bind, Except.bind] at h
  · simp only [hh, if_false, bind, Except.bind, pure, Except.pure, PagePool.FetchPage_of_ne, ne_eq,
      not_false_eq_true, PagePool.UnpinPage_pages] at h ⊢
    cases hH : (t.bpm_.pages_ t.header_page_id_).asHeader with
    | error e => simp [hH] at h
    | ok hdr =>
      simp only [hH] at h ⊢
      split_ifs at h ⊢ with hd
      · simp only [Except.ok.injEq] at h; subst h; exact ⟨_, rfl⟩
      · simp only [hd, ne_eq, not_false_eq_true, PagePool.FetchPage_of_ne, PagePool.UnpinPage_pages]
        cases hD : (t.bpm_.pages_ (hdr.GetDirectoryPageId (hdr.HashToDirectoryIndex (t.Hash key)))).asDirectory with
        | error e => simp [hD] at h
        | ok d =>
          simp only [hD] at h ⊢
          cases hB : d.GetBucketPageId (d.HashToBucketIndex (t.Hash key)) with
          | error e => simp [hB] at h
          | ok bid =>
            simp only [hB] at h ⊢
            split_ifs at h ⊢ with hb
            · simp only [Except.ok.injEq] at h; subst h; exact ⟨_, rfl⟩
            · simp only [hb, ne_eq, not_false_eq_true, PagePool.FetchPage_of_ne, PagePool.UnpinPage_pages]
              cases hK : (t.bpm_.pages_ bid).asBucket with
              | error e => simp [hK] at h
              | ok b =>
                simp only [hK, Except.ok.injEq] at h ⊢
                subst h; exact ⟨_, rfl⟩

namespace ExtendibleHTableBucketPage

theorem scan_congr {a a' : Nat → Int × Int} (key : Int) :
    ∀ n, (∀ i, i < n → a i = a' i) → scan a key n = scan a' key n
  | 0, _ => rfl
  | n + 1, h => by
    simp only [scan]
    rw [scan_congr key n (fun i hi => h i (Nat.lt_succ_of_lt hi)), h n (Nat.lt_succ_self n)]

theorem scan_lt {a : Nat → Int × Int} {key : Int} : ∀ {n i}, scan a key n = some i → i < n ∧ (a i).1 = key
  | 0, i, h => by simp [scan] at h
  | n + 1, i, h => by
    simp only [scan] at h
    cases hs : scan a key n with
    | some j =>
      rw [hs] at h
      simp only [Option.some.injEq] at h
      subst h
      exact ⟨Nat.lt_succ_of_lt (scan_lt hs).1, (scan_lt hs).2⟩
    | none =>
      rw [hs] at h
      simp only at h
      split_ifs at h with hk
      simp only [Option.some.injEq] at h
      subst h
      exact ⟨Nat.lt_succ_self _, hk⟩

theorem scan_none {a : Nat → Int × Int} {key : Int} : ∀ {n}, scan a key n = none → ∀ i, i < n → (a i).1 ≠ key
  | 0, _, i, hi => by omega
  | n + 1, h, i, hi => by
    simp only [scan] at h
    cases hs : scan a key n with
    | some j => rw [hs] at h; simp at h
    | none =>
      rw [hs] at h
      simp only at h
      split_ifs at h with hk
      rcases Nat.lt_succ_iff_lt_or_eq.mp hi with h1 | h1
      · exact scan_none hs i h1
      · subst h1; exact hk

theorem Insert_true {b b' : ExtendibleHTableBucketPage} {key value : Int}
    (h : b.Insert key value = (true, b')) :
    b.size_ ≠ b.max_size_ ∧ scan b.array_ key b.size_ = none ∧
      b' = { b with array_ := Function.update b.array_ b.size_ (key, value), size_ := b.size_ + 1 } := by
  unfold Insert at h
  split_ifs at h with hf
  · simp at h
  · cases hs : scan b.array_ key b.size_ with
    | some j => rw [hs] at h; simp at h
    | none =>
      rw [hs] at h
      simp only [Prod.mk.injEq, true_and] at h
      refine ⟨?_, rfl, h.symm⟩
      simpa [IsFull] using hf

theorem Insert_false {b b' : ExtendibleHTableBucketPage} {key value : Int}
    (h : b.Insert key value = (false, b')) : b' = b := by
  unfold Insert at h
  split_ifs at h with hf
  · simp only [Prod.mk.injEq, true_and] at h; exact h.symm
  · cases hs : scan b.array_ key b.size_ with
    | some j => rw [hs] at h; simp only [Prod.mk.injEq, true_and] at h; exact h.symm
    | none => rw [hs] at h; simp at h

theorem Lookup_after_Insert {b b' : ExtendibleHTableBucketPage} {key value : Int}
    (h : b.Insert key value = (true, b')) : b'.Lookup key = some value := by
  obtain ⟨_, hs, rfl⟩ := Insert_true h
  unfold Lookup
  have h1 : scan (Function.update b.array_ b.size_ (key, value)) key b.size_ = none := by
    rw [← hs]
    apply scan_congr
    intro i hi
    rw [Function.update_noteq (Nat.ne_of_lt hi)]
  simp [scan, h1]

end ExtendibleHTableBucketPage

namespace PageData

theorem asBucket_asHeader {p : PageData} {b : ExtendibleHTableBucketPage} {h : ExtendibleHTableHeaderPage}
    (hb : p.asBucket = .ok b) (hh : p.asHeader = .ok h) : b.size_ = b.max_size_ := by
  cases p <;> simp [asBucket, asHeader] at hb hh
  subst hb; rfl

theorem asBucket_asDirectory {p : PageData} {b : ExtendibleHTableBucketPage} {d : ExtendibleHTableDirectoryPage}
    (hb : p.asBucket = .ok b) (hd : p.asDirectory = .ok d) : b.size_ = b.max_size_ := by
  cases p <;> simp [asBucket, asDirectory] at hb hd
  subst hb; rfl

end PageData

namespace PagePool

@[simp] theorem write_pages (bpm : PagePool) (p : page_id_t) (x : PageData) :
    (bpm.write p x).pages_ = Function.update bpm.pages_ p x := rfl

@[simp] theorem write_next (bpm : PagePool) (p : page_id_t) (x : PageData) :
    (bpm.write p x).next_page_id_ = bpm.next_page_id_ := rfl

end PagePool

/-- What a returning `InsertToNewDirectory` has read and written. -/
theorem InsertToNewDirectory_ok {t t1 : DiskExtendibleHashTable} {hdr : ExtendibleHTableHeaderPage}
    {hash : Nat} {key value : Int} {r : Bool}
    (h : t.InsertToNewDirectory hdr hash key value = .ok (r, t1)) :
    ∃ d bid b,
      hdr.GetDirectoryPageId (hdr.HashToDirectoryIndex hash) ≠ INVALID_PAGE_ID ∧
      (t.bpm_.pages_ (hdr.GetDirectoryPageId (hdr.HashToDirectoryIndex hash))).asDirectory = .ok d ∧
      d.GetBucketPageId (d.HashToBucketIndex hash) = .ok bid ∧
      bid ≠ INVALID_PAGE_ID ∧
      (t.bpm_.pages_ bid).asBucket = .ok b ∧
      r = (b.Insert key value).1 ∧
      t1.bpm_.pages_ = (if r then Function.update t.bpm_.pages_ bid (.bucket (b.Insert key value).2)
        else t.bpm_.pages_) ∧
      t1.bpm_.next_page_id_ = t.bpm_.next_page_id_ ∧
      t1.header_page_id_ = t.header_page_id_ ∧ t1.hash_fn_ = t.hash_fn_ ∧
      t1.directory_max_depth_ = t.directory_max_depth_ ∧ t1.bucket_max_size_ = t.bucket_max_size_ ∧
      t1.header_max_depth_ = t.header_max_depth_ := by
  unfold InsertToNewDirectory InsertToNewBucket at h
  simp only [bind, Except.bind, pure, Except.pure] at h
  by_cases hd : hdr.GetDirectoryPageId (hdr.HashToDirectoryIndex hash) = INVALID_PAGE_ID
  · simp [hd, PagePool.FetchPage, throw, throwThe, MonadExceptOf.throw] at h
  · simp only [hd, ne_eq, not_false_eq_true, PagePool.FetchPage_of_ne] at h
    cases hD : (t.bpm_.pages_ (hdr.GetDirectoryPageId (hdr.HashToDirectoryIndex hash))).asDirectory with
    | error e => simp [hD] at h
    | ok d =>
      simp only [hD] at h
      cases hB : d.GetBucketPageId (d.HashToBucketIndex hash) with
      | error e => simp [hB] at h
      | ok bid =>
        simp only [hB] at h
        by_cases hb : bid = INVALID_PAGE_ID
        · simp [hb, PagePool.FetchPage, throw, throwThe, MonadExceptOf.throw] at h
        · simp only [hb, ne_eq, not_false_eq_true, PagePool.FetchPage_of_ne] at h
          cases hK : (t.bpm_.pages_ bid).asBucket with
          | error e => simp [hK] at h
          | ok b =>
            simp only [hK, Except.ok.injEq, Prod.mk.injEq] at h
            obtain ⟨h1, h2⟩ := h
            subst h2
            refine ⟨d, bid, b, hd, rfl, hB, hb, hK, h1.symm, ?_, ?_, rfl, rfl, rfl, rfl, rfl⟩
            · simp only [PagePool.UnpinPage_pages, h1]
              cases r <;> simp
            · simp only [PagePool.UnpinPage_next, h1]
              cases r <;> simp

theorem find_congr {t t' : DiskExtendibleHashTable} (key : Int)
    (hp : t'.bpm_.pages_ = t.bpm_.pages_) (hh : t'.header_page_id_ = t.header_page_id_)
    (hf : t'.hash_fn_ = t.hash_fn_) : t'.find key = t.find key := by
  unfold find Hash
  rw [hp, hh, hf]

/-- The effect of a successful `InsertToNewDirectory`. -/
theorem InsertToNewDirectory_true {t t1 : DiskExtendibleHashTable} {hdr : ExtendibleHTableHeaderPage}
    {key value : Int}
    (hid : t.header_page_id_ ≠ INVALID_PAGE_ID)
    (hH : (t.bpm_.pages_ t.header_page_id_).asHeader = .ok hdr)
    (h : t.InsertToNewDirectory hdr (t.Hash key) key value = .ok (true, t1)) :
    t1.find key = .ok (some value) := by
  obtain ⟨d, bid, b, hd, hD, hB, hb, hK, hr, hp, -, hh, hf, -⟩ := InsertToNewDirectory_ok h
  have hins : b.Insert key value = (true, (b.Insert key value).2) := by
    rw [hr]
  have hfull := (ExtendibleHTableBucketPage.Insert_true hins).1
  have hne1 : t.header_page_id_ ≠ bid := by
    intro he
    rw [he] at hH
    exact hfull (PageData.asBucket_asHeader hK hH)
  have hne2 : hdr.GetDirectoryPageId (hdr.HashToDirectoryIndex (t.Hash key)) ≠ bid := by
    intro he
    rw [he] at hD
    exact hfull (PageData.asBucket_asDirectory hK hD)
  have hT : t1.Hash key = t.Hash key := by unfold Hash; rw [hf]
  unfold find
  simp only [hT, hh, hid, if_false, hp, if_true, bind, Except.bind, pure, Except.pure]
  rw [Function.update_noteq hne1, hH]
  simp only [hd, if_false]
  rw [Function.update_noteq hne2, hD]
  simp only [hB, hb, if_false, Function.update_same, PageData.asBucket]
  rw [ExtendibleHTableBucketPage.Lookup_after_Insert hins]

/-- What a returning `locate` has read. -/
theorem locate_ok {t : DiskExtendibleHashTable} {key : Int} {loc : Located} (h : t.locate key = .ok loc) :
    t.header_page_id_ ≠ INVALID_PAGE_ID ∧
    (t.bpm_.pages_ t.header_page_id_).asHeader = .ok loc.header_page ∧
    loc.directory_page_id =
      loc.header_page.GetDirectoryPageId (loc.header_page.HashToDirectoryIndex (t.Hash key)) ∧
    loc.directory_page_id ≠ INVALID_PAGE_ID ∧
    (∃ d, (t.bpm_.pages_ loc.directory_page_id).asDirectory = .ok d ∧
      loc.bucket_index = d.HashToBucketIndex (t.Hash key) ∧
      d.GetBucketPageId loc.bucket_index = .ok loc.bucket_page_id) ∧
    loc.bucket_page_id ≠ INVALID_PAGE_ID ∧
    loc.bpm.pages_ = t.bpm_.pages_ ∧ loc.bpm.next_page_id_ = t.bpm_.next_page_id_ ∧
    0 < loc.bpm.pin_count_ loc.bucket_page_id := by
  unfold locate at h
  simp only [bind, Except.bind, pure, Except.pure, throw, throwThe, MonadExceptOf.throw] at h
  rcases PagePool.FetchPage_cases (t.bpm_.FetchPageRead t.header_page_id_) t.header_page_id_ with
    ⟨-, h1⟩ | ⟨hh, b1, h1, hp1, hn1, -⟩
  · rw [h1] at h; simp at h
  rw [h1] at h
  simp only [hp1, PagePool.FetchPageRead_pages] at h
  cases hH : (t.bpm_.pages_ t.header_page_id_).asHeader with
  | error e => rw [hH] at h; simp at h
  | ok hdr =>
    rw [hH] at h
    simp only at h
    rcases PagePool.FetchPage_cases
        (((b1.UnpinPage t.header_page_id_).UnpinPage t.header_page_id_).FetchPageRead
          (hdr.GetDirectoryPageId (hdr.HashToDirectoryIndex (t.Hash key))))
        (hdr.GetDirectoryPageId (hdr.HashToDirectoryIndex (t.Hash key))) with
      ⟨-, h2⟩ | ⟨hd, b2, h2, hp2, hn2, -⟩
    · rw [h2] at h; simp at h
    rw [h2] at h
    simp only [hp2, PagePool.FetchPageRead_pages, PagePool.UnpinPage_pages, hp1] at h
    cases hD : (t.bpm_.pages_ (hdr.GetDirectoryPageId (hdr.HashToDirectoryIndex (t.Hash key)))).asDirectory with
    | error e => rw [hD] at h; simp at h
    | ok d =>
      rw [hD] at h
      simp only at h
      cases hB : d.GetBucketPageId (d.HashToBucketIndex (t.Hash key)) with
      | error e => rw [hB] at h; simp at h
      | ok bid =>
        rw [hB] at h
        simp only at h
        rcases PagePool.FetchPage_cases
            ((b2.UnpinPage (hdr.GetDirectoryPageId (hdr.HashToDirectoryIndex (t.Hash key)))).UnpinPage
              (hdr.GetDirectoryPageId (hdr.HashToDirectoryIndex (t.Hash key)))) bid with
          ⟨-, h3⟩ | ⟨hb, b3, h3, hp3, hn3, hpin⟩
        · rw [h3] at h; simp at h
        rw [h3] at h
        simp only [Except.ok.injEq] at h
        subst h
        refine ⟨hh, rfl, rfl, hd, ⟨d, hD, rfl, hB⟩, hb, ?_, ?_, hpin⟩
        · simp only [hp3, PagePool.UnpinPage_pages, hp2, PagePool.FetchPageRead_pages, hp1]
        · simp only [hn3, PagePool.UnpinPage_next, hn2, PagePool.FetchPageRead_next, hn1]

/-- After a successful `Insert` the pages hold the pair: `find` yields the
value. -/
theorem insert_true_then_find (fuel : Nat) :
    ∀ (t t' : DiskExtendibleHashTable) (key value : Int),
      DiskExtendibleHashTable.Insert fuel t key value = .ok (true, t') → t'.find key = .ok (some value) := by
  induction fuel with
  | zero =>
    intro t t' key value h
    simp [DiskExtendibleHashTable.Insert, throw, throwThe, MonadExceptOf.throw] at h
  | succ fuel ih =>
    intro t t' key value h
    rw [DiskExtendibleHashTable.Insert] at h
    cases hl : t.locate key with
    | error e => rw [hl] at h; simp at h
    | ok loc =>
      rw [hl] at h
      simp only at h
      obtain ⟨hh, hH, -, -, -, -, hp, -, -⟩ := locate_ok hl
      cases hi : InsertToNewDirectory { t with bpm_ := loc.bpm } loc.header_page (t.Hash key) key value with
      | error e => rw [hi] at h; simp at h
      | ok res =>
        obtain ⟨r1, t1⟩ := res
        rw [hi] at h
        cases r1 with
        | true =>
          simp only [Except.ok.injEq, Prod.mk.injEq, true_and] at h
          subst h
          have := @InsertToNewDirectory_true { t with bpm_ := loc.bpm } t1 loc.header_page key value hh
            (by simpa [hp] using hH) hi
          rw [← this]
          exact find_congr key (by simp) rfl rfl
        | false =>
          simp only at h
          cases hs : t.splitPhase t1.bpm_ loc.directory_page_id loc.bucket_page_id loc.bucket_index (t.Hash key) with
          | error e => rw [hs] at h; simp at h
          | ok res =>
            rw [hs] at h
            cases res with
            | none => simp at h
            | some pr =>
              obtain ⟨nid, bpm⟩ := pr
              simp only at h
              cases hr : DiskExtendibleHashTable.Insert fuel { t with bpm_ := bpm } key value with
              | error e => rw [hr] at h; simp at h
              | ok res2 =>
                obtain ⟨r, t2⟩ := res2
                rw [hr] at h
                simp only [Except.ok.injEq, Prod.mk.injEq] at h
                obtain ⟨rfl, rfl⟩ := h
                rw [← ih _ _ _ _ hr]
                exact find_congr key (by simp) rfl rfl

theorem forLoop_invariant {σ : Type} (P : σ → Prop) (body : Nat → σ → σ)
    (hbody : ∀ i s, P s → P (body i s)) : ∀ n s, P s → P (forLoop body n s)
  | 0, _, h => h
  | n + 1, s, h => hbody n _ (forLoop_invariant P body hbody n s h)

theorem forLoop_update_const {α : Type} (c : α) (a : Nat → α) :
    ∀ n j, forLoop (fun i f => Function.update f i c) n a j = if j < n then c else a j
  | 0, j => by simp [forLoop]
  | n + 1, j => by
    simp only [forLoop]
    by_cases hj : j = n
    · subst hj; simp
    · rw [Function.update_noteq hj, forLoop_update_const c a n j]
      have : (j < n + 1) ↔ (j < n) := by omega
      simp [this]

namespace ExtendibleHTableDirectoryPage

theorem Init_EHT1 {d d' : ExtendibleHTableDirectoryPage} {m : Nat} (h : d.Init m = .ok d')
    (hz : ∀ i, d.local_depths_ i = 0) : EHT1 d' := by
  unfold Init at h
  split_ifs at h
  simp only [Except.ok.injEq] at h
  subst h
  intro i _
  simp only [forLoop_update_const]
  split_ifs <;> simp [hz]

theorem HashToBucketIndex_lt (d : ExtendibleHTableDirectoryPage) (hash : Nat) :
    d.HashToBucketIndex hash < 2 ^ d.global_depth_ := by
  unfold HashToBucketIndex GetGlobalDepthMask
  rw [Nat.one_shiftLeft, Nat.and_pow_two_sub_one_eq_mod]
  exact Nat.mod_lt _ (by positivity)

theorem IncrGlobalDepth_loop (d : ExtendibleHTableDirectoryPage) :
    ∀ n, n ≤ 2 ^ d.global_depth_ →
      (forLoop copySlot n d).global_depth_ = d.global_depth_ ∧
      (forLoop copySlot n d).max_depth_ = d.max_depth_ ∧
      (∀ j, (forLoop copySlot n d).local_depths_ j =
          if 2 ^ d.global_depth_ ≤ j ∧ j < 2 ^ d.global_depth_ + n then d.local_depths_ (j - 2 ^ d.global_depth_)
          else d.local_depths_ j) ∧
      (∀ j, (forLoop copySlot n d).bucket_page_ids_ j =
          if 2 ^ d.global_depth_ ≤ j ∧ j < 2 ^ d.global_depth_ + n then
            d.bucket_page_ids_ (j - 2 ^ d.global_depth_)
          else d.bucket_page_ids_ j)
  | 0, _ => by
    refine ⟨rfl, rfl, ?_, ?_⟩ <;> intro j <;> simp only [forLoop] <;> rw [if_neg] <;> omega
  | n + 1, hn => by
    obtain ⟨h1, h2, h3, h4⟩ := IncrGlobalDepth_loop d n (by omega)
    simp only [forLoop, copySlot]
    refine ⟨h1, h2, ?_, ?_⟩
    · intro j
      rw [h1, Nat.one_shiftLeft]
      by_cases hj : j = 2 ^ d.global_depth_ + n
      · subst hj
        rw [Function.update_same, h3 n, if_neg (by omega), if_pos (by omega)]
        congr 1; omega
      · rw [Function.update_noteq hj, h3 j]
        by_cases hc : 2 ^ d.global_depth_ ≤ j ∧ j < 2 ^ d.global_depth_ + n
        · rw [if_pos hc, if_pos (by omega)]
        · rw [if_neg hc, if_neg (by omega)]
    · intro j
      rw [h1, Nat.one_shiftLeft]
      by_cases hj : j = 2 ^ d.global_depth_ + n
      · subst hj
        rw [Function.update_same, h4 n, if_neg (by omega), if_pos (by omega)]
        congr 1; omega
      · rw [Function.update_noteq hj, h4 j]
        by_cases hc : 2 ^ d.global_depth_ ≤ j ∧ j < 2 ^ d.global_depth_ + n
        · rw [if_pos hc, if_pos (by omega)]
        · rw [if_neg hc, if_neg (by omega)]

/-- What `IncrGlobalDepth` does when it returns. -/
theorem IncrGlobalDepth_ok {d d' : ExtendibleHTableDirectoryPage} (h : d.IncrGlobalDepth = .ok d') :
    (d.max_depth_ ≤ d.global_depth_ ∧ d' = d) ∨
    (d.global_depth_ < d.max_depth_ ∧ d'.global_depth_ = d.global_depth_ + 1 ∧ d'.max_depth_ = d.max_depth_ ∧
      (∀ j, d'.local_depths_ j =
        if 2 ^ d.global_depth_ ≤ j ∧ j < 2 ^ (d.global_depth_ + 1) then d.local_depths_ (j - 2 ^ d.global_depth_)
        else d.local_depths_ j) ∧
      (∀ j, d'.bucket_page_ids_ j =
        if 2 ^ d.global_depth_ ≤ j ∧ j < 2 ^ (d.global_depth_ + 1) then
          d.bucket_page_ids_ (j - 2 ^ d.global_depth_)
        else d.bucket_page_ids_ j)) := by
  unfold IncrGlobalDepth at h
  split_ifs at h with h1 h2
  · simp only [Except.ok.injEq] at h; subst h; exact Or.inl ⟨h1, rfl⟩
  · simp only [Except.ok.injEq] at h
    subst h
    obtain ⟨e1, e2, e3, e4⟩ := IncrGlobalDepth_loop d (1 <<< d.global_depth_) (by rw [Nat.one_shiftLeft])
    right
    have hp : 2 ^ (d.global_depth_ + 1) = 2 ^ d.global_depth_ + 1 <<< d.global_depth_ := by
      rw [Nat.one_shiftLeft, pow_succ]; omega
    refine ⟨by omega, by simp only [e1], e2, ?_, ?_⟩
    · intro j; rw [hp]; exact e3 j
    · intro j; rw [hp]; exact e4 j

theorem IncrGlobalDepth_EHT1 {d d' : ExtendibleHTableDirectoryPage} (h : d.IncrGlobalDepth = .ok d')
    (hd : EHT1 d) : EHT1 d' := by
  rcases IncrGlobalDepth_ok h with ⟨-, rfl⟩ | ⟨-, hg, -, hl, -⟩
  · exact hd
  · intro i hi
    rw [hl i, hg]
    split_ifs with hc
    · have := hd (i - 2 ^ d.global_depth_) (by rw [hg, pow_succ] at hi; omega)
      omega
    · have := hd i (by rw [hg] at hi; omega)
      omega

theorem EHT1_update_ld {d : ExtendibleHTableDirectoryPage} (hd : EHT1 d) (i v : Nat)
    (hv : v ≤ d.global_depth_) :
    EHT1 { d with local_depths_ := Function.update d.local_depths_ i v } := by
  intro j hj
  show Function.update d.local_depths_ i v j ≤ d.global_depth_
  by_cases h : j = i
  · subst h; rw [Function.update_same]; exact hv
  · rw [Function.update_noteq h]; exact hd j hj

theorem EHT1_update_bp {d : ExtendibleHTableDirectoryPage} (hd : EHT1 d) (i : Nat) (v : page_id_t) :
    EHT1 { d with bucket_page_ids_ := Function.update d.bucket_page_ids_ i v } := hd

theorem SetLocalDepth_ok {d d' : ExtendibleHTableDirectoryPage} {i v : Nat} (h : d.SetLocalDepth i v = .ok d') :
    i < HTABLE_DIRECTORY_ARRAY_SIZE ∧
      d' = { d with local_depths_ := Function.update d.local_depths_ i (v % 256) } := by
  unfold SetLocalDepth at h
  split_ifs at h with hi
  simp only [Except.ok.injEq] at h
  exact ⟨hi, h.symm⟩

theorem SetBucketPageId_ok {d d' : ExtendibleHTableDirectoryPage} {i : Nat} {v : page_id_t}
    (h : d.SetBucketPageId i v = .ok d') :
    i < HTABLE_DIRECTORY_ARRAY_SIZE ∧
      d' = { d with bucket_page_ids_ := Function.update d.bucket_page_ids_ i v } := by
  unfold SetBucketPageId at h
  split_ifs at h with hi
  simp only [Except.ok.injEq] at h
  exact ⟨hi, h.symm⟩

theorem GetLocalDepth_ok {d : ExtendibleHTableDirectoryPage} {i v : Nat} (h : d.GetLocalDepth i = .ok v) :
    i < HTABLE_DIRECTORY_ARRAY_SIZE ∧ v = d.local_depths_ i := by
  unfold GetLocalDepth at h
  split_ifs at h with hi
  simp only [Except.ok.injEq] at h
  exact ⟨hi, h.symm⟩

theorem GetBucketPageId_ok {d : ExtendibleHTableDirectoryPage} {i : Nat} {v : page_id_t}
    (h : d.GetBucketPageId i = .ok v) :
    i < HTABLE_DIRECTORY_ARRAY_SIZE ∧ v = d.bucket_page_ids_ i := by
  unfold GetBucketPageId at h
  split_ifs at h with hi
  simp only [Except.ok.injEq] at h
  exact ⟨hi, h.symm⟩

theorem IncrLocalDepth_ok {d d' : ExtendibleHTableDirectoryPage} {i : Nat} (h : d.IncrLocalDepth i = .ok d') :
    i < HTABLE_DIRECTORY_ARRAY_SIZE ∧
      ((d.local_depths_ i < d.global_depth_ ∧
          d' = { d with local_depths_ := Function.update d.local_depths_ i ((d.local_depths_ i + 1) % 256) }) ∨
        (¬ d.local_depths_ i < d.global_depth_ ∧ d' = d)) := by
  unfold IncrLocalDepth at h
  split_ifs at h with hi hl
  · simp only [Except.ok.injEq] at h; exact ⟨hi, Or.inl ⟨hl, h.symm⟩⟩
  · simp only [Except.ok.injEq] at h; exact ⟨hi, Or.inr ⟨hl, h.symm⟩⟩

theorem DecrLocalDepth_ok {d d' : ExtendibleHTableDirectoryPage} {i : Nat} (h : d.DecrLocalDepth i = .ok d') :
    i < HTABLE_DIRECTORY_ARRAY_SIZE ∧
      ((0 < d.local_depths_ i ∧
          d' = { d with local_depths_ := Function.update d.local_depths_ i (d.local_depths_ i - 1) }) ∨
        (¬ 0 < d.local_depths_ i ∧ d' = d)) := by
  unfold DecrLocalDepth at h
  split_ifs at h with hi hl
  · simp only [Except.ok.injEq] at h; exact ⟨hi, Or.inl ⟨hl, h.symm⟩⟩
  · simp only [Except.ok.injEq] at h; exact ⟨hi, Or.inr ⟨hl, h.symm⟩⟩

theorem SetLocalDepth_EHT1 {d d' : ExtendibleHTableDirectoryPage} {i v : Nat} (h : d.SetLocalDepth i v = .ok d')
    (hd : EHT1 d) (hv : v ≤ d.global_depth_) : EHT1 d' ∧ d'.global_depth_ = d.global_depth_ := by
  obtain ⟨-, rfl⟩ := SetLocalDepth_ok h
  exact ⟨EHT1_update_ld hd i _ (le_trans (Nat.mod_le _ _) hv), rfl⟩

theorem SetBucketPageId_EHT1 {d d' : ExtendibleHTableDirectoryPage} {i : Nat} {v : page_id_t}
    (h : d.SetBucketPageId i v = .ok d') (hd : EHT1 d) : EHT1 d' ∧ d'.global_depth_ = d.global_depth_ := by
  obtain ⟨-, rfl⟩ := SetBucketPageId_ok h
  exact ⟨hd, rfl⟩

theorem IncrLocalDepth_EHT1 {d d' : ExtendibleHTableDirectoryPage} {i : Nat} (h : d.IncrLocalDepth i = .ok d')
    (hd : EHT1 d) : EHT1 d' ∧ d'.global_depth_ = d.global_depth_ := by
  obtain ⟨-, ⟨hl, rfl⟩ | ⟨-, rfl⟩⟩ := IncrLocalDepth_ok h
  · exact ⟨EHT1_update_ld hd i _ (le_trans (Nat.mod_le _ _) hl), rfl⟩
  · exact ⟨hd, rfl⟩

theorem DecrLocalDepth_EHT1 {d d' : ExtendibleHTableDirectoryPage} {i : Nat} (h : d.DecrLocalDepth i = .ok d')
    (hd : EHT1 d) : EHT1 d' ∧ d'.global_depth_ = d.global_depth_ := by
  obtain ⟨-, ⟨hl, rfl⟩ | ⟨-, rfl⟩⟩ := DecrLocalDepth_ok h
  · refine ⟨?_, rfl⟩
    intro j hj
    show Function.update d.local_depths_ i (d.local_depths_ i - 1) j ≤ d.global_depth_
    by_cases hji : j = i
    · subst hji; rw [Function.update_same]; exact le_trans (Nat.sub_le _ _) (hd j hj)
    · rw [Function.update_noteq hji]; exact hd j hj
  · exact ⟨hd, rfl⟩

end ExtendibleHTableDirectoryPage

/-- A loop whose state is a result: an invariant of the returned states. -/
theorem forLoop_except_invariant {σ : Type} (P : σ → Prop) (body : Nat → Except Fault σ → Except Fault σ)
    (hbody : ∀ i r, (∀ s, r = .ok s → P s) → ∀ s', body i r = .ok s' → P s') (n : Nat) (s0 : σ) (h0 : P s0)
    (s : σ) (h : forLoop body n (.ok s0) = .ok s) : P s := by
  have := forLoop_invariant (fun r => ∀ s, r = .ok s → P s) body (fun i r hr => hbody i r hr) n (.ok s0)
    (by intro s hs; simp only [Except.ok.injEq] at hs; subst hs; exact h0)
  exact this s h

theorem UpdateDirectoryMapping_EHT1 {d d' : ExtendibleHTableDirectoryPage} {idx : Nat} {pid : page_id_t}
    {nld mask : Nat} (h : UpdateDirectoryMapping d idx pid nld mask = .ok d') (hd : EHT1 d)
    (hv : nld ≤ d.global_depth_) : EHT1 d' ∧ d'.global_depth_ = d.global_depth_ := by
  unfold UpdateDirectoryMapping at h
  refine forLoop_except_invariant (fun s => EHT1 s ∧ s.global_depth_ = d.global_depth_) _ ?_ _ d ⟨hd, rfl⟩ d' h
  intro i r hr s' hs'
  cases r with
  | error e => simp [bind, Except.bind] at hs'
  | ok s =>
    obtain ⟨hs, hg⟩ := hr s rfl
    simp only [bind, Except.bind, pure, Except.pure] at hs'
    cases h1 : s.GetBucketPageId i with
    | error e => rw [h1] at hs'; simp at hs'
    | ok a =>
      rw [h1] at hs'
      simp only at hs'
      cases h2 : s.GetBucketPageId idx with
      | error e => rw [h2] at hs'; simp at hs'
      | ok b =>
        rw [h2] at hs'
        simp only at hs'
        split_ifs at hs' with hab hm
        · cases h3 : s.SetBucketPageId i pid with
          | error e => rw [h3] at hs'; simp at hs'
          | ok s1 =>
            rw [h3] at hs'
            simp only at hs'
            obtain ⟨e1, g1⟩ := ExtendibleHTableDirectoryPage.SetBucketPageId_EHT1 h3 hs
            obtain ⟨e2, g2⟩ := ExtendibleHTableDirectoryPage.SetLocalDepth_EHT1 hs' e1 (by omega)
            exact ⟨e2, by omega⟩
        · obtain ⟨e2, g2⟩ := ExtendibleHTableDirectoryPage.SetLocalDepth_EHT1 hs' hs (by omega)
          exact ⟨e2, by omega⟩
        · simp only [Except.ok.injEq] at hs'
          subst hs'
          exact ⟨hs, hg⟩

theorem DirsOk_update_bucket {pages : page_id_t → PageData} (h : DirsOk pages) (p : page_id_t)
    (b : ExtendibleHTableBucketPage) : DirsOk (Function.update pages p (.bucket b)) := by
  intro pid d hd
  by_cases hp : pid = p
  · subst hp; rw [Function.update_same] at hd; simp [PageData.asDirectory] at hd
  · rw [Function.update_noteq hp] at hd; exact h pid d hd

theorem DirsOk_update_header {pages : page_id_t → PageData} (h : DirsOk pages) (p : page_id_t)
    (b : ExtendibleHTableHeaderPage) : DirsOk (Function.update pages p (.header b)) := by
  intro pid d hd
  by_cases hp : pid = p
  · subst hp; rw [Function.update_same] at hd; simp [PageData.asDirectory] at hd
  · rw [Function.update_noteq hp] at hd; exact h pid d hd

theorem DirsOk_update_zero {pages : page_id_t → PageData} (h : DirsOk pages) (p : page_id_t) :
    DirsOk (Function.update pages p .zero) := by
  intro pid d hd
  by_cases hp : pid = p
  · subst hp
    rw [Function.update_same] at hd
    simp only [PageData.asDirectory, Except.ok.injEq] at hd
    subst hd
    intro i _
    exact Nat.le_refl _
  · rw [Function.update_noteq hp] at hd; exact h pid d hd

theorem DirsOk_update_directory {pages : page_id_t → PageData} (h : DirsOk pages) (p : page_id_t)
    {d : ExtendibleHTableDirectoryPage} (hd : EHT1 d) : DirsOk (Function.update pages p (.directory d)) := by
  intro pid d' hd'
  by_cases hp : pid = p
  · subst hp
    rw [Function.update_same] at hd'
    simp only [PageData.asDirectory, Except.ok.injEq] at hd'
    subst hd'
    exact hd
  · rw [Function.update_noteq hp] at hd'; exact h pid d' hd'

/-- What a `splitPhase` that splits has read and written, step by step. -/
theorem splitPhase_some {t : DiskExtendibleHashTable} {bpm1 bpm : PagePool} {did bid nid : page_id_t}
    {idx hash : Nat} (h : t.splitPhase bpm1 did bid idx hash = .ok (some (nid, bpm))) :
    ∃ d0 d1 d2 d3 d4 d5 split mask nb0 b,
      (bpm1.pages_ did).asDirectory = .ok d0 ∧
      idx < HTABLE_DIRECTORY_ARRAY_SIZE ∧
      ¬ (d0.local_depths_ idx = d0.global_depth_ ∧ d0.global_depth_ = t.directory_max_depth_) ∧
      (if d0.local_depths_ idx = d0.global_depth_ then d0.IncrGlobalDepth else .ok d0) = .ok d1 ∧
      d1.GetSplitImageIndex (d1.HashToBucketIndex hash) = .ok split ∧
      (bpm1.NewPage.2.pages_ bpm1.NewPage.1).asBucket = .ok nb0 ∧
      d1.IncrLocalDepth (d1.HashToBucketIndex hash) = .ok d2 ∧
      d2.SetLocalDepth split (d2.local_depths_ (d1.HashToBucketIndex hash)) = .ok d3 ∧
      d1.HashToBucketIndex hash < HTABLE_DIRECTORY_ARRAY_SIZE ∧
      d3.GetLocalDepthMask (d1.HashToBucketIndex hash) = .ok mask ∧
      d3.SetBucketPageId split nid = .ok d4 ∧
      UpdateDirectoryMapping d4 split nid (d3.local_depths_ (d1.HashToBucketIndex hash)) mask = .ok d5 ∧
      (bpm1.NewPage.2.pages_ bid).asBucket = .ok b ∧
      nid = bpm1.NewPage.1 ∧
      bpm = ((bpm1.NewPage.2.write did (.directory d5)).write bid
              (.bucket (t.rehash d5 split b (nb0.Init t.bucket_max_size_)).1)).write nid
              (.bucket (t.rehash d5 split b (nb0.Init t.bucket_max_size_)).2) := by
  unfold splitPhase at h
  simp only [bind, Except.bind, pure, Except.pure] at h
  cases h0 : (bpm1.pages_ did).asDirectory with
  | error e => rw [h0] at h; simp at h
  | ok d0 =>
    rw [h0] at h
    simp only at h
    cases h1 : d0.GetLocalDepth idx with
    | error e => rw [h1] at h; simp at h
    | ok ld0 =>
      rw [h1] at h
      simp only at h
      obtain ⟨hidx, rfl⟩ := ExtendibleHTableDirectoryPage.GetLocalDepth_ok h1
      by_cases hmax : d0.local_depths_ idx = d0.GetGlobalDepth ∧ d0.GetGlobalDepth = t.directory_max_depth_
      · rw [if_pos hmax] at h; simp at h
      rw [if_neg hmax] at h
      cases h2 : (if d0.local_depths_ idx = d0.GetGlobalDepth then d0.IncrGlobalDepth else Except.ok d0) with
      | error e => rw [h2] at h; simp at h
      | ok d1 =>
        rw [h2] at h
        simp only at h
        cases h3 : d1.GetSplitImageIndex (d1.HashToBucketIndex hash) with
        | error e => rw [h3] at h; simp at h
        | ok split =>
          rw [h3] at h
          simp only at h
          cases h4 : (bpm1.NewPage.2.pages_ bpm1.NewPage.1).asBucket with
          | error e => rw [h4] at h; simp at h
          | ok nb0 =>
            rw [h4] at h
            simp only at h
            cases h5 : d1.IncrLocalDepth (d1.HashToBucketIndex hash) with
            | error e => rw [h5] at h; simp at h
            | ok d2 =>
              rw [h5] at h
              simp only at h
              cases h6 : d2.GetLocalDepth (d1.HashToBucketIndex hash) with
              | error e => rw [h6] at h; simp at h
              | ok ld2 =>
                rw [h6] at h
                simp only at h
                obtain ⟨horig, rfl⟩ := ExtendibleHTableDirectoryPage.GetLocalDepth_ok h6
                cases h7 : d2.SetLocalDepth split (d2.local_depths_ (d1.HashToBucketIndex hash)) with
                | error e => rw [h7] at h; simp at h
                | ok d3 =>
                  rw [h7] at h
                  simp only at h
                  cases h8 : d3.GetLocalDepth (d1.HashToBucketIndex hash) with
                  | error e => rw [h8] at h; simp at h
                  | ok ld3 =>
                    rw [h8] at h
                    simp only at h
                    obtain ⟨-, rfl⟩ := ExtendibleHTableDirectoryPage.GetLocalDepth_ok h8
                    cases h9 : d3.GetLocalDepthMask (d1.HashToBucketIndex hash) with
                    | error e => rw [h9] at h; simp at h
                    | ok mask =>
                      rw [h9] at h
                      simp only at h
                      cases h10 : d3.SetBucketPageId split bpm1.NewPage.1 with
                      | error e => rw [h10] at h; simp at h
                      | ok d4 =>
                        rw [h10] at h
                        simp only at h
                        cases h11 : UpdateDirectoryMapping d4 split bpm1.NewPage.1
                            (d3.local_depths_ (d1.HashToBucketIndex hash)) mask with
                        | error e => rw [h11] at h; simp at h
                        | ok d5 =>
                          rw [h11] at h
                          simp only at h
                          cases h12 : (bpm1.NewPage.2.pages_ bid).asBucket with
                          | error e => rw [h12] at h; simp at h
                          | ok b =>
                            rw [h12] at h
                            simp only [Except.ok.injEq, Option.some.injEq, Prod.mk.injEq] at h
                            obtain ⟨rfl, rfl⟩ := h
                            exact ⟨d0, d1, d2, d3, d4, d5, split, mask, nb0, b, rfl, hidx, hmax, h2, h3, rfl, h5,
                              h7, horig, h9, h10, h11, rfl, rfl, rfl⟩

theorem splitPhase_DirsOk {t : DiskExtendibleHashTable} {bpm1 bpm : PagePool} {did bid nid : page_id_t}
    {idx hash : Nat} (h : t.splitPhase bpm1 did bid idx hash = .ok (some (nid, bpm)))
    (hok : DirsOk bpm1.pages_) : DirsOk bpm.pages_ := by
  obtain ⟨d0, d1, d2, d3, d4, d5, split, mask, nb0, b, h0, -, -, h2, -, -, h5, h7, -, -, h10, h11, -, -, rfl⟩ :=
    splitPhase_some h
  have e0 : EHT1 d0 := hok did d0 h0
  have e1 : EHT1 d1 := by
    split_ifs at h2
    · exact ExtendibleHTableDirectoryPage.IncrGlobalDepth_EHT1 h2 e0
    · simp only [Except.ok.injEq] at h2; subst h2; exact e0
  obtain ⟨e2, g2⟩ := ExtendibleHTableDirectoryPage.IncrLocalDepth_EHT1 h5 e1
  have hld : d2.local_depths_ (d1.HashToBucketIndex hash) ≤ d2.global_depth_ :=
    e2 _ (by rw [g2]; exact ExtendibleHTableDirectoryPage.HashToBucketIndex_lt d1 hash)
  obtain ⟨e3, g3⟩ := ExtendibleHTableDirectoryPage.SetLocalDepth_EHT1 h7 e2 hld
  have hld3 : d3.local_depths_ (d1.HashToBucketIndex hash) ≤ d3.global_depth_ :=
    e3 _ (by rw [g3, g2]; exact ExtendibleHTableDirectoryPage.HashToBucketIndex_lt d1 hash)
  obtain ⟨e4, g4⟩ := ExtendibleHTableDirectoryPage.SetBucketPageId_EHT1 h10 e3
  obtain ⟨e5, -⟩ := UpdateDirectoryMapping_EHT1 h11 e4 (by omega)
  simp only [PagePool.write_pages]
  apply DirsOk_update_bucket
  apply DirsOk_update_bucket
  apply DirsOk_update_directory _ _ e5
  simp only [PagePool.NewPage]
  exact DirsOk_update_zero hok _

/-- The three ways one round of `Insert` returns. -/
theorem Insert_succ_ok {fuel : Nat} {t t' : DiskExtendibleHashTable} {key value : Int} {r : Bool}
    (h : DiskExtendibleHashTable.Insert (fuel + 1) t key value = .ok (r, t')) :
    ∃ loc r1 t1, t.locate key = .ok loc ∧
      InsertToNewDirectory { t with bpm_ := loc.bpm } loc.header_page (t.Hash key) key value = .ok (r1, t1) ∧
      ((r1 = true ∧ r = true ∧ t' = { t1 with bpm_ := t1.bpm_.UnpinPage loc.bucket_page_id }) ∨
       (r1 = false ∧ r = false ∧ t' = t1 ∧
          t.splitPhase t1.bpm_ loc.directory_page_id loc.bucket_page_id loc.bucket_index (t.Hash key) = .ok none) ∨
       (r1 = false ∧ ∃ nid bpm t2,
          t.splitPhase t1.bpm_ loc.directory_page_id loc.bucket_page_id loc.bucket_index (t.Hash key) =
            .ok (some (nid, bpm)) ∧
          DiskExtendibleHashTable.Insert fuel { t with bpm_ := bpm } key value = .ok (r, t2) ∧
          t' = { t2 with bpm_ := t2.bpm_.UnpinPage nid })) := by
  rw [DiskExtendibleHashTable.Insert] at h
  cases hl : t.locate key with
  | error e => rw [hl] at h; simp at h
  | ok loc =>
    rw [hl] at h
    simp only at h
    cases hi : InsertToNewDirectory { t with bpm_ := loc.bpm } loc.header_page (t.Hash key) key value with
    | error e => rw [hi] at h; simp at h
    | ok res =>
      obtain ⟨r1, t1⟩ := res
      rw [hi] at h
      refine ⟨loc, r1, t1, rfl, hi, ?_⟩
      cases r1 with
      | true =>
        simp only [Except.ok.injEq, Prod.mk.injEq] at h
        exact Or.inl ⟨rfl, h.1.symm, h.2.symm⟩
      | false =>
        simp only at h
        cases hs : t.splitPhase t1.bpm_ loc.directory_page_id loc.bucket_page_id loc.bucket_index (t.Hash key) with
        | error e => rw [hs] at h; simp at h
        | ok res =>
          rw [hs] at h
          cases res with
          | none =>
            simp only [Except.ok.injEq, Prod.mk.injEq] at h
            exact Or.inr (Or.inl ⟨rfl, h.1.symm, h.2.symm, rfl⟩)
          | some pr =>
            obtain ⟨nid, bpm⟩ := pr
            simp only at h
            cases hr : DiskExtendibleHashTable.Insert fuel { t with bpm_ := bpm } key value with
            | error e => rw [hr] at h; simp at h
            | ok res2 =>
              obtain ⟨r2, t2⟩ := res2
              rw [hr] at h
              simp only [Except.ok.injEq, Prod.mk.injEq] at h
              obtain ⟨rfl, rfl⟩ := h
              exact Or.inr (Or.inr ⟨rfl, nid, bpm, t2, rfl, hr, rfl⟩)

theorem Insert_DirsOk (fuel : Nat) :
    ∀ (t t' : DiskExtendibleHashTable) (key value : Int) (r : Bool),
      DiskExtendibleHashTable.Insert fuel t key value = .ok (r, t') → DirsOk t.bpm_.pages_ →
        DirsOk t'.bpm_.pages_ := by
  induction fuel with
  | zero =>
    intro t t' key value r h
    simp [DiskExtendibleHashTable.Insert, throw, throwThe, MonadExceptOf.throw] at h
  | succ fuel ih =>
    intro t t' key value r h hok
    obtain ⟨loc, r1, t1, hl, hi, hc⟩ := Insert_succ_ok h
    obtain ⟨-, -, -, -, -, -, hp, -, -⟩ := locate_ok hl
    obtain ⟨d, bid, b, -, -, -, -, -, -, hp1, -⟩ := InsertToNewDirectory_ok hi
    have hok1 : DirsOk t1.bpm_.pages_ := by
      rw [hp1]
      simp only [hp]
      split_ifs
      · exact DirsOk_update_bucket hok _ _
      · exact hok
    rcases hc with ⟨-, -, rfl⟩ | ⟨-, -, rfl, -⟩ | ⟨-, nid, bpm, t2, hs, hr, rfl⟩
    · simpa using hok1
    · exact hok1
    · have := ih _ _ _ _ _ hr (splitPhase_DirsOk hs hok1)
      simpa using this

/-! ## EHT.1 through `Remove`, `GetValue` and the constructor -/

theorem PagePool.DeletePage_DirsOk {bpm : PagePool} (h : DirsOk bpm.pages_) (p : page_id_t) :
    DirsOk (bpm.DeletePage p).2.pages_ := by
  unfold PagePool.DeletePage
  split_ifs
  · exact h
  · exact h
  · exact DirsOk_update_zero h p

theorem CanShrink_loop {d : ExtendibleHTableDirectoryPage} :
    ∀ n, forLoop (fun i ok => ok && !(d.local_depths_ i == d.global_depth_)) n true = true →
      ∀ i, i < n → d.local_depths_ i ≠ d.global_depth_
  | 0, _, i, hi => by omega
  | n + 1, h, i, hi => by
    simp only [forLoop, Bool.and_eq_true, Bool.not_eq_true', beq_eq_false_iff_ne, ne_eq] at h
    rcases Nat.lt_succ_iff_lt_or_eq.mp hi with h1 | h1
    · exact CanShrink_loop n h.1 i h1
    · subst h1; exact h.2

theorem CanShrink_true {d : ExtendibleHTableDirectoryPage} (h : d.CanShrink = true) :
    d.global_depth_ ≠ 0 ∧ ∀ i, i < 2 ^ d.global_depth_ → d.local_depths_ i ≠ d.global_depth_ := by
  unfold ExtendibleHTableDirectoryPage.CanShrink at h
  split_ifs at h with h0
  refine ⟨h0, ?_⟩
  intro i hi
  refine CanShrink_loop _ h i ?_
  simpa [ExtendibleHTableDirectoryPage.Size, Nat.one_shiftLeft] using hi

theorem DecrGlobalDepth_EHT1 {d : ExtendibleHTableDirectoryPage} (hd : EHT1 d) (h : d.CanShrink = true) :
    EHT1 d.DecrGlobalDepth := by
  obtain ⟨h0, hl⟩ := CanShrink_true h
  unfold ExtendibleHTableDirectoryPage.DecrGlobalDepth
  rw [if_neg (by omega)]
  intro i hi
  show d.local_depths_ i ≤ d.global_depth_ - 1
  have hlt : i < 2 ^ d.global_depth_ := by
    have : 2 ^ (d.global_depth_ - 1) ≤ 2 ^ d.global_depth_ := Nat.pow_le_pow_right (by norm_num) (by omega)
    exact lt_of_lt_of_le hi this
  have := hd i hlt
  have := hl i hlt
  omega

theorem mergeLoop_EHT1 {d d' : ExtendibleHTableDirectoryPage} {idx : Nat} {pid : page_id_t}
    (h : mergeLoop d idx pid = .ok d') (hd : EHT1 d) : EHT1 d' ∧ d'.global_depth_ = d.global_depth_ := by
  unfold mergeLoop at h
  refine forLoop_except_invariant (fun s => EHT1 s ∧ s.global_depth_ = d.global_depth_) _ ?_ _ d ⟨hd, rfl⟩ d' h
  intro i r hr s' hs'
  cases r with
  | error e => simp [bind, Except.bind] at hs'
  | ok s =>
    obtain ⟨hs, hg⟩ := hr s rfl
    simp only [bind, Except.bind, pure, Except.pure] at hs'
    cases h1 : s.GetBucketPageId i with
    | error e => rw [h1] at hs'; simp at hs'
    | ok a =>
      rw [h1] at hs'
      simp only at hs'
      split_ifs at hs' with hab
      · cases h2 : s.GetBucketPageId idx with
        | error e => rw [h2] at hs'; simp at hs'
        | ok b =>
          rw [h2] at hs'
          simp only at hs'
          obtain ⟨e1, g1⟩ := ExtendibleHTableDirectoryPage.SetBucketPageId_EHT1 hs' hs
          exact ⟨e1, by omega⟩
      · simp only [Except.ok.injEq] at hs'
        subst hs'
        exact ⟨hs, hg⟩

theorem shrinkLoop_EHT1 {d d' : ExtendibleHTableDirectoryPage} {a b : Nat}
    (h : shrinkLoop d a b = .ok d') (hd : EHT1 d) : EHT1 d' ∧ d'.global_depth_ = d.global_depth_ := by
  unfold shrinkLoop at h
  refine forLoop_except_invariant (fun s => EHT1 s ∧ s.global_depth_ = d.global_depth_) _ ?_ _ d ⟨hd, rfl⟩ d' h
  intro i r hr s' hs'
  cases r with
  | error e => simp [bind, Except.bind] at hs'
  | ok s =>
    obtain ⟨hs, hg⟩ := hr s rfl
    simp only [bind, Except.bind] at hs'
    obtain ⟨e1, g1⟩ := ExtendibleHTableDirectoryPage.SetBucketPageId_EHT1 hs' hs
    exact ⟨e1, by omega⟩

theorem ExtendibleHTableBucketPage.Lookup_of_not_Remove {b : ExtendibleHTableBucketPage} {key : Int}
    (h : ¬ (b.Remove key).1 = true) : b.Lookup key = none := by
  unfold ExtendibleHTableBucketPage.Remove at h
  unfold ExtendibleHTableBucketPage.Lookup
  cases hs : ExtendibleHTableBucketPage.scan b.array_ key b.size_ with
  | none => rfl
  | some i => rw [hs] at h; simp at h

theorem PagePool.DeletePage_pinned {bpm : PagePool} {p : page_id_t} (hp : p ≠ INVALID_PAGE_ID)
    (h : 0 < bpm.pin_count_ p) : bpm.DeletePage p = (false, bpm) := by
  unfold PagePool.DeletePage
  rw [if_neg hp, if_pos h]

/-- What a returning `Remove` has read and written. -/
theorem Remove_ok {t t' : DiskExtendibleHashTable} {key : Int} {r : Bool} (h : t.Remove key = .ok (r, t')) :
    t'.header_page_id_ = t.header_page_id_ ∧ t'.hash_fn_ = t.hash_fn_ ∧
    t'.directory_max_depth_ = t.directory_max_depth_ ∧ t'.bucket_max_size_ = t.bucket_max_size_ ∧
    t'.header_max_depth_ = t.header_max_depth_ ∧ t'.bpm_.next_page_id_ = t.bpm_.next_page_id_ ∧
    ((r = false ∧ t'.bpm_.pages_ = t.bpm_.pages_ ∧ t.find key = .ok none) ∨
     (r = true ∧ ∃ hdr d bid b,
        t.header_page_id_ ≠ INVALID_PAGE_ID ∧
        (t.bpm_.pages_ t.header_page_id_).asHeader = .ok hdr ∧
        hdr.GetDirectoryPageId (hdr.HashToDirectoryIndex (t.Hash key)) ≠ INVALID_PAGE_ID ∧
        (t.bpm_.pages_ (hdr.GetDirectoryPageId (hdr.HashToDirectoryIndex (t.Hash key)))).asDirectory = .ok d ∧
        d.GetBucketPageId (d.HashToBucketIndex (t.Hash key)) = .ok bid ∧
        bid ≠ INVALID_PAGE_ID ∧
        (t.bpm_.pages_ bid).asBucket = .ok b ∧
        (b.Remove key).1 = true ∧
        (((b.Remove key).2.IsEmpty = false ∧
            t'.bpm_.pages_ = Function.update t.bpm_.pages_ bid (.bucket (b.Remove key).2)) ∨
         ((b.Remove key).2.IsEmpty = true ∧ ∃ d0 d1 m,
            (Function.update t.bpm_.pages_ bid (.bucket (b.Remove key).2)
              (hdr.GetDirectoryPageId (hdr.HashToDirectoryIndex (t.Hash key)))).asDirectory = .ok d0 ∧
            emptiedBucket d0 (d.HashToBucketIndex (t.Hash key)) bid = .ok (d1, m) ∧
            t'.bpm_.pages_ = Function.update (Function.update t.bpm_.pages_ bid (.bucket (b.Remove key).2))
              (hdr.GetDirectoryPageId (hdr.HashToDirectoryIndex (t.Hash key))) (.directory d1))))) := by
  unfold Remove at h
  simp only [bind, Except.bind, pure, Except.pure, throw, throwThe, MonadExceptOf.throw] at h
  rcases PagePool.FetchPage_cases t.bpm_ t.header_page_id_ with ⟨-, h1⟩ | ⟨hh, b1, h1, hp1, hn1, -⟩
  · rw [h1] at h; simp at h
  rw [h1] at h
  simp only [hp1] at h
  have hfind : t.find key = (do
      let header_page ← (t.bpm_.pages_ t.header_page_id_).asHeader
      let directory_page_id := header_page.GetDirectoryPageId (header_page.HashToDirectoryIndex (t.Hash key))
      if directory_page_id = INVALID_PAGE_ID then pure none
      else
        let directory_page ← (t.bpm_.pages_ directory_page_id).asDirectory
        let bucket_page_id ← directory_page.GetBucketPageId (directory_page.HashToBucketIndex (t.Hash key))
        if bucket_page_id = INVALID_PAGE_ID then pure none
        else
          let bucket_page ← (t.bpm_.pages_ bucket_page_id).asBucket
          pure (bucket_page.Lookup key)) := by
    unfold find
    simp [hh, bind, Except.bind, pure, Except.pure]
  simp only [bind, Except.bind, pure, Except.pure] at hfind
  cases hH : (t.bpm_.pages_ t.header_page_id_).asHeader with
  | error e => rw [hH] at h; simp at h
  | ok hdr =>
    rw [hH] at h hfind
    simp only at h hfind
    by_cases hd : hdr.GetDirectoryPageId (hdr.HashToDirectoryIndex (t.Hash key)) = INVALID_PAGE_ID
    · rw [if_pos hd] at h hfind
      simp only [Except.ok.injEq, Prod.mk.injEq] at h
      obtain ⟨rfl, rfl⟩ := h
      exact ⟨rfl, rfl, rfl, rfl, rfl, hn1, Or.inl ⟨rfl, hp1, hfind⟩⟩
    rw [if_neg hd] at h hfind
    rcases PagePool.FetchPage_cases (b1.UnpinPage t.header_page_id_)
        (hdr.GetDirectoryPageId (hdr.HashToDirectoryIndex (t.Hash key))) with ⟨h2, -⟩ | ⟨-, b2, h2, hp2, hn2, -⟩
    · exact absurd h2 hd
    rw [h2] at h
    simp only [hp2, PagePool.UnpinPage_pages, hp1] at h
    cases hD : (t.bpm_.pages_ (hdr.GetDirectoryPageId (hdr.HashToDirectoryIndex (t.Hash key)))).asDirectory with
    | error e => rw [hD] at h; simp at h
    | ok d =>
      rw [hD] at h hfind
      simp only at h hfind
      cases hB : d.GetBucketPageId (d.HashToBucketIndex (t.Hash key)) with
      | error e => rw [hB] at h; simp at h
      | ok bid =>
        rw [hB] at h hfind
        simp only at h hfind
        by_cases hb : bid = INVALID_PAGE_ID
        · rw [if_pos hb] at h hfind
          simp only [Except.ok.injEq, Prod.mk.injEq] at h
          obtain ⟨rfl, rfl⟩ := h
          refine ⟨rfl, rfl, rfl, rfl, rfl, ?_, Or.inl ⟨rfl, ?_, hfind⟩⟩
          · simp only [hn2, PagePool.UnpinPage_next, hn1]
          · simp only [hp2, PagePool.UnpinPage_pages, hp1]
        rw [if_neg hb] at h hfind
        rcases PagePool.FetchPage_cases
            (b2.UnpinPage (hdr.GetDirectoryPageId (hdr.HashToDirectoryIndex (t.Hash key)))) bid with
          ⟨h3, -⟩ | ⟨-, b3, h3, hp3, hn3, hpin⟩
        · exact absurd h3 hb
        rw [h3] at h
        have hp3' : b3.pages_ = t.bpm_.pages_ := by
          simp only [hp3, PagePool.UnpinPage_pages, hp2, hp1]
        have hn3' : b3.next_page_id_ = t.bpm_.next_page_id_ := by
          simp only [hn3, PagePool.UnpinPage_next, hn2, hn1]
        simp only [hp3'] at h
        cases hK : (t.bpm_.pages_ bid).asBucket with
        | error e => rw [hK] at h; simp at h
        | ok b =>
          rw [hK] at h hfind
          simp only at h hfind
          by_cases hrm : (b.Remove key).1 = true
          · rw [if_pos hrm] at h
            have hdel : (b3.write bid (PageData.bucket (b.Remove key).2)).DeletePage bid =
                (false, b3.write bid (PageData.bucket (b.Remove key).2)) :=
              PagePool.DeletePage_pinned hb hpin
            by_cases hem : (b.Remove key).2.IsEmpty = true
            · rw [if_pos hem] at h
              simp only [hdel, PagePool.write_pages, hp3'] at h
              cases hD0 : (Function.update t.bpm_.pages_ bid (PageData.bucket (b.Remove key).2)
                  (hdr.GetDirectoryPageId (hdr.HashToDirectoryIndex (t.Hash key)))).asDirectory with
              | error e => rw [hD0] at h; simp at h
              | ok d0 =>
                rw [hD0] at h
                simp only at h
                cases hE : emptiedBucket d0 (d.HashToBucketIndex (t.Hash key)) bid with
                | error e => rw [hE] at h; simp at h
                | ok res =>
                  obtain ⟨d1, m⟩ := res
                  rw [hE] at h
                  simp only [Except.ok.injEq, Prod.mk.injEq] at h
                  obtain ⟨rfl, rfl⟩ := h
                  refine ⟨rfl, rfl, rfl, rfl, rfl, ?_, Or.inr ⟨rfl, hdr, d, bid, b, hh, rfl, hd, hD, hB, hb, hK, hrm,
                    Or.inr ⟨hem, d0, d1, m, hD0, hE, ?_⟩⟩⟩
                  · simp only [PagePool.UnpinPage_next, PagePool.write_next]
                    split_ifs <;> simp [hn3', hdel]
                  · simp only [PagePool.UnpinPage_pages, PagePool.write_pages]
                    split_ifs <;> simp [hp3', hdel]
            · rw [if_neg hem] at h
              simp only [Except.ok.injEq, Prod.mk.injEq] at h
              obtain ⟨rfl, rfl⟩ := h
              refine ⟨rfl, rfl, rfl, rfl, rfl, ?_, Or.inr ⟨rfl, hdr, d, bid, b, hh, rfl, hd, hD, hB, hb, hK, hrm,
                Or.inl ⟨by simpa using hem, ?_⟩⟩⟩
              · simp only [PagePool.UnpinPage_next, PagePool.write_next, hn3']
              · simp only [PagePool.UnpinPage_pages, PagePool.write_pages, hp3']
          · rw [if_neg hrm] at h
            simp only [Except.ok.injEq, Prod.mk.injEq] at h
            obtain ⟨rfl, rfl⟩ := h
            refine ⟨rfl, rfl, rfl, rfl, rfl, hn3', Or.inl ⟨rfl, hp3', ?_⟩⟩
            rw [hfind, ExtendibleHTableBucketPage.Lookup_of_not_Remove hrm]

theorem emptiedBucket_EHT1 {d0 d1 : ExtendibleHTableDirectoryPage} {idx : Nat} {bid : page_id_t} {m : Bool}
    (h : emptiedBucket d0 idx bid = .ok (d1, m)) (hd : EHT1 d0) : EHT1 d1 := by
  unfold emptiedBucket at h
  simp only [bind, Except.bind, pure, Except.pure] at h
  cases h1 : d0.DecrLocalDepth idx with
  | error e => rw [h1] at h; simp at h
  | ok a1 =>
    rw [h1] at h
    simp only at h
    obtain ⟨e1, -⟩ := ExtendibleHTableDirectoryPage.DecrLocalDepth_EHT1 h1 hd
    cases h2 : a1.GetSplitImageIndex idx with
    | error e => rw [h2] at h; simp at h
    | ok split =>
      rw [h2] at h
      simp only at h
      cases h3 : a1.GetLocalDepth split with
      | error e => rw [h3] at h; simp at h
      | ok l1 =>
        rw [h3] at h
        simp only at h
        cases h4 : a1.GetLocalDepth idx with
        | error e => rw [h4] at h; simp at h
        | ok l2 =>
          rw [h4] at h
          simp only at h
          cases h5 : (if decide (l1 = l2 + 1) = true then mergeBranch a1 idx split bid else Except.ok a1) with
          | error e => rw [h5] at h; simp at h
          | ok a2 =>
            rw [h5] at h
            simp only at h
            have e2 : EHT1 a2 := by
              split_ifs at h5
              · unfold mergeBranch at h5
                simp only [bind, Except.bind] at h5
                cases h6 : a1.DecrLocalDepth split with
                | error e => rw [h6] at h5; simp at h5
                | ok c1 =>
                  rw [h6] at h5
                  simp only at h5
                  obtain ⟨f1, -⟩ := ExtendibleHTableDirectoryPage.DecrLocalDepth_EHT1 h6 e1
                  cases h7 : mergeLoop c1 idx bid with
                  | error e => rw [h7] at h5; simp at h5
                  | ok c2 =>
                    rw [h7] at h5
                    simp only at h5
                    obtain ⟨f2, -⟩ := mergeLoop_EHT1 h7 f1
                    exact (ExtendibleHTableDirectoryPage.SetBucketPageId_EHT1 h5 f2).1
              · simp only [Except.ok.injEq] at h5; subst h5; exact e1
            cases h8 : (if a2.CanShrink = true then shrinkBranch a2 else Except.ok a2) with
            | error e => rw [h8] at h; simp at h
            | ok a3 =>
              rw [h8] at h
              simp only [Except.ok.injEq, Prod.mk.injEq] at h
              obtain ⟨rfl, -⟩ := h
              split_ifs at h8 with hc
              · unfold shrinkBranch at h8
                exact (shrinkLoop_EHT1 h8 (DecrGlobalDepth_EHT1 e2 hc)).1
              · simp only [Except.ok.injEq] at h8; subst h8; exact e2

theorem Remove_DirsOk {t t' : DiskExtendibleHashTable} {key : Int} {r : Bool}
    (h : t.Remove key = .ok (r, t')) (hok : DirsOk t.bpm_.pages_) : DirsOk t'.bpm_.pages_ := by
  obtain ⟨-, -, -, -, -, -, hc⟩ := Remove_ok h
  rcases hc with ⟨-, hp, -⟩ | ⟨-, hdr, d, bid, b, -, -, -, -, -, -, -, -, hc2⟩
  · rw [hp]; exact hok
  · rcases hc2 with ⟨-, hp⟩ | ⟨-, d0, d1, m, hD0, hE, hp⟩
    · rw [hp]; exact DirsOk_update_bucket hok _ _
    · rw [hp]
      have hok1 := DirsOk_update_bucket hok bid (b.Remove key).2
      exact DirsOk_update_directory hok1 _ (emptiedBucket_EHT1 hE (hok1 _ _ hD0))

/-- `GetValue` changes no page. -/
theorem GetValue_ok {t t' : DiskExtendibleHashTable} {key : Int} {r : Option Int}
    (h : t.GetValue key = .ok (r, t')) :
    t'.bpm_.pages_ = t.bpm_.pages_ ∧ t'.header_page_id_ = t.header_page_id_ ∧ t'.hash_fn_ = t.hash_fn_ ∧
      t'.directory_max_depth_ = t.directory_max_depth_ ∧ t'.bucket_max_size_ = t.bucket_max_size_ ∧
      t'.header_max_depth_ = t.header_max_depth_ ∧ t'.bpm_.next_page_id_ = t.bpm_.next_page_id_ := by
  unfold GetValue at h
  simp only [bind, Except.bind, pure, Except.pure, throw, throwThe, MonadExceptOf.throw] at h
  rcases PagePool.FetchPage_cases t.bpm_ t.header_page_id_ with ⟨-, h1⟩ | ⟨hh, b1, h1, hp1, hn1, -⟩
  · rw [h1] at h; simp at h
  rw [h1] at h
  simp only [hp1] at h
  cases hH : (t.bpm_.pages_ t.header_page_id_).asHeader with
  | error e => rw [hH] at h; simp at h
  | ok hdr =>
    rw [hH] at h
    simp only at h
    by_cases hd : hdr.GetDirectoryPageId (hdr.HashToDirectoryIndex (t.Hash key)) = INVALID_PAGE_ID
    · rw [if_pos hd] at h
      simp only [Except.ok.injEq, Prod.mk.injEq] at h
      obtain ⟨-, rfl⟩ := h
      simp [hp1, hn1]
    rw [if_neg hd] at h
    rcases PagePool.FetchPage_cases (b1.UnpinPage t.header_page_id_)
        (hdr.GetDirectoryPageId (hdr.HashToDirectoryIndex (t.Hash key))) with ⟨h2, -⟩ | ⟨-, b2, h2, hp2, hn2, -⟩
    · exact absurd h2 hd
    rw [h2] at h
    simp only [hp2, PagePool.UnpinPage_pages, hp1] at h
    cases hD : (t.bpm_.pages_ (hdr.GetDirectoryPageId (hdr.HashToDirectoryIndex (t.Hash key)))).asDirectory with
    | error e => rw [hD] at h; simp at h
    | ok d =>
      rw [hD] at h
      simp only at h
      cases hB : d.GetBucketPageId (d.HashToBucketIndex (t.Hash key)) with
      | error e => rw [hB] at h; simp at h
      | ok bid =>
        rw [hB] at h
        simp only at h
        by_cases hb : bid = INVALID_PAGE_ID
        · rw [if_pos hb] at h
          simp only [Except.ok.injEq, Prod.mk.injEq] at h
          obtain ⟨-, rfl⟩ := h
          simp [hp2, hp1, hn2, hn1]
        rw [if_neg hb] at h
        rcases PagePool.FetchPage_cases b2 bid with ⟨h3, -⟩ | ⟨-, b3, h3, hp3, hn3, -⟩
        · exact absurd h3 hb
        rw [h3] at h
        simp only [PagePool.UnpinPage_pages, hp3, hp2, hp1] at h
        cases hK : (t.bpm_.pages_ bid).asBucket with
        | error e => rw [hK] at h; simp at h
        | ok b =>
          rw [hK] at h
          simp only [Except.ok.injEq, Prod.mk.injEq] at h
          obtain ⟨-, rfl⟩ := h
          simp [hp3, hp2, hp1, hn3, hn2, hn1]

theorem new_DirsOk {bpm : PagePool} {hash_fn : Int → Nat} {hmd dmd bms : Nat} {t : DiskExtendibleHashTable}
    (h : DiskExtendibleHashTable.new bpm hash_fn hmd dmd bms = .ok t) (hok : DirsOk bpm.pages_) :
    DirsOk t.bpm_.pages_ := by
  unfold DiskExtendibleHashTable.new at h
  simp only [bind, Except.bind, pure, Except.pure, PagePool.NewPage, PagePool.write, Function.update_same,
    PageData.asHeader, PageData.asDirectory, PageData.asBucket] at h
  cases h1 : ExtendibleHTableHeaderPage.Init { directory_page_ids_ := fun _ => 0, max_depth_ := 0 } hmd with
  | error e => rw [h1] at h; simp at h
  | ok hdr =>
    rw [h1] at h
    simp only at h
    cases h2 : ExtendibleHTableDirectoryPage.Init
        { max_depth_ := 0, global_depth_ := 0, local_depths_ := fun _ => 0, bucket_page_ids_ := fun _ => 0 } dmd with
    | error e => rw [h2] at h; simp at h
    | ok d =>
      rw [h2] at h
      simp only at h
      have e1 : EHT1 d := ExtendibleHTableDirectoryPage.Init_EHT1 h2 (fun _ => rfl)
      cases h3 : d.SetBucketPageId 0 (bpm.next_page_id_ + 1 + 1) with
      | error e => rw [h3] at h; simp at h
      | ok d' =>
        rw [h3] at h
        simp only [Except.ok.injEq] at h
        subst h
        simp only [PagePool.UnpinPage_pages]
        apply DirsOk_update_directory _ _ (ExtendibleHTableDirectoryPage.SetBucketPageId_EHT1 h3 e1).1
        apply DirsOk_update_header
        apply DirsOk_update_bucket
        apply DirsOk_update_zero
        apply DirsOk_update_directory _ _ e1
        apply DirsOk_update_zero
        apply DirsOk_update_header
        apply DirsOk_update_zero
        exact hok

theorem fresh_DirsOk {hash_fn : Int → Nat} {hmd dmd bms : Nat} {t : DiskExtendibleHashTable}
    (h : fresh hash_fn hmd dmd bms = .ok t) : DirsOk t.bpm_.pages_ := by
  refine new_DirsOk h ?_
  intro pid d hd
  simp only [PagePool.empty, PageData.asDirectory, Except.ok.injEq] at hd
  subst hd
  intro i _
  exact Nat.le_refl _

theorem step_DirsOk {fuel : Nat} {t t' : DiskExtendibleHashTable} {op : Op} {o : Out}
    (h : step fuel t op = .ok (o, t')) (hok : DirsOk t.bpm_.pages_) : DirsOk t'.bpm_.pages_ := by
  cases op with
  | insert k v =>
    simp only [step] at h
    cases hr : DiskExtendibleHashTable.Insert fuel t k v with
    | error e => rw [hr] at h; simp [Except.map] at h
    | ok res =>
      rw [hr] at h
      simp only [Except.map, Except.ok.injEq, Prod.mk.injEq] at h
      obtain ⟨b, t1⟩ := res
      obtain ⟨-, rfl⟩ := h
      exact Insert_DirsOk fuel _ _ _ _ _ hr hok
  | remove k =>
    simp only [step] at h
    cases hr : t.Remove k with
    | error e => rw [hr] at h; simp [Except.map] at h
    | ok res =>
      rw [hr] at h
      simp only [Except.map, Except.ok.injEq, Prod.mk.injEq] at h
      obtain ⟨b, t1⟩ := res
      obtain ⟨-, rfl⟩ := h
      exact Remove_DirsOk hr hok
  | get k =>
    simp only [step] at h
    cases hr : t.GetValue k with
    | error e => rw [hr] at h; simp [Except.map] at h
    | ok res =>
      rw [hr] at h
      simp only [Except.map, Except.ok.injEq, Prod.mk.injEq] at h
      obtain ⟨b, t1⟩ := res
      obtain ⟨-, rfl⟩ := h
      rw [(GetValue_ok hr).1]
      exact hok

theorem Reachable_DirsOk {t : DiskExtendibleHashTable} (h : Reachable t) : DirsOk t.bpm_.pages_ := by
  induction h with
  | fresh hf => exact fresh_DirsOk hf
  | step _ hs ih => exact step_DirsOk hs ih

theorem eq_ok_of_returns {r : Except Fault (Bool × DiskExtendibleHashTable)} {b : Bool}
    (h : returns r b = true) : r = .ok (b, tableOf r) := by
  cases r with
  | error e => simp [returns] at h
  | ok res =>
    obtain ⟨b', t⟩ := res
    simp only [returns, beq_iff_eq] at h
    subst h
    rfl

theorem run_Reachable (fuel : Nat) : ∀ (ops : List Op) (t : DiskExtendibleHashTable),
    Reachable t → Reachable (run fuel t ops).2
  | [], _, h => h
  | op :: ops, t, h => by
    simp only [run]
    cases hs : step fuel t op with
    | error e => exact h
    | ok res =>
      obtain ⟨o, t'⟩ := res
      exact run_Reachable fuel ops t' (Reachable.step h hs)

theorem stateAfter_Reachable {hash_fn : Int → Nat} {hmd dmd bms : Nat} {ops : List Op}
    (h : (after hash_fn hmd dmd bms ops).isSome = true) : Reachable (stateAfter hash_fn hmd dmd bms ops) := by
  unfold stateAfter
  unfold after at h ⊢
  cases hf : fresh hash_fn hmd dmd bms with
  | error e => rw [hf] at h; simp at h
  | ok t =>
    simp only [Option.getD_some]
    exact run_Reachable 16 ops t (Reachable.fresh hf)

theorem Insert_false_pages (fuel : Nat) (t t' : DiskExtendibleHashTable) (key value : Int)
    (hg : (dirFor t key).global_depth_ = t.directory_max_depth_)
    (hl : (dirFor t key).local_depths_ ((dirFor t key).HashToBucketIndex (t.Hash key)) =
      (dirFor t key).global_depth_)
    (h : DiskExtendibleHashTable.Insert fuel t key value = .ok (false, t')) :
    t'.bpm_.pages_ = t.bpm_.pages_ := by
  cases fuel with
  | zero => simp [DiskExtendibleHashTable.Insert, throw, throwThe, MonadExceptOf.throw] at h
  | succ fuel =>
    obtain ⟨loc, r1, t1, hloc, hi, hc⟩ := Insert_succ_ok h
    obtain ⟨-, hH, hdid, -, ⟨d, hD, hidx, -⟩, -, hp, -, -⟩ := locate_ok hloc
    obtain ⟨d', bid, b, -, -, -, -, -, hr1, hp1, -⟩ := InsertToNewDirectory_ok hi
    have hdf : dirFor t key = d := by
      unfold dirFor
      rw [hH]
      simp only
      rw [← hdid, hD]
    rw [hdf] at hg hl
    rcases hc with ⟨-, hr, -⟩ | ⟨hr, -, rfl, -⟩ | ⟨hr, nid, bpm, t2, hs, -, -⟩
    · exact absurd hr (by simp)
    · rw [hp1, hr]; simpa using hp
    · exfalso
      obtain ⟨d0, d1, d2, d3, d4, d5, split, mask, nb0, b0, h0, -, hmax, -⟩ := splitPhase_some hs
      rw [hp1, hr] at h0
      simp only [Bool.false_eq_true, if_false, hp] at h0
      rw [hD] at h0
      simp only [Except.ok.injEq] at h0
      subst h0
      apply hmax
      rw [hidx]
      exact ⟨hl, hg⟩

/-! ## What the code does on concrete scripts -/

/-- C2: with `bucket_max_size = 2` and `directory_max_depth = 1`, after keys
1 and 2 are inserted `get_value(1)` yields 10; inserting key 4 splits the
bucket holding key 1, returns true, and afterwards `get_value(1)` yields
nothing: the insert of another key has lost key 1. -/
theorem insert_loses_other_key :
    outputs Int.toNat 0 1 2 [.insert 1 10, .insert 2 20, .get 1, .insert 4 40, .get 1] =
      [.bool true, .bool true, .value (some 10), .bool true, .value none] := by
  decide!

/-- C3: with `bucket_max_size = 3` and `directory_max_depth = 3`, the script
below ends with `remove(5)` returning true and the immediately following
`get_value(5)` still yielding the value 503. -/
theorem remove_then_get_still_finds :
    outputs Int.toNat 0 3 3 [.insert 0 0, .insert 13 1301, .insert 0 2, .insert 5 503, .insert 5 4,
      .insert 3 305, .remove 0, .insert 1 107, .remove 5, .get 5] =
      [.bool true, .bool true, .bool false, .bool true, .bool false, .bool true, .bool true, .bool true,
       .bool true, .value (some 503)] := by
  decide!

/-- C7: with `bucket_max_size = 1` and `directory_max_depth = 1`, after
`insert(0)` and the refused `insert(1)` the directory has global depth 1 and
its slots 0 and 1 both hold bucket page 2, with local depths 0 and 1: two
slots with the same bucket page id and different local depths. -/
theorem same_bucket_different_local_depth :
    outputs Int.toNat 0 1 1 [.insert 0 0, .insert 1 1] = [.bool true, .bool false] ∧
    (after Int.toNat 0 1 1 [.insert 0 0, .insert 1 1]).bind (fun t => directoryView t 1 2) =
      some (1, [(0, 2), (1, 2)]) := by
  decide!

/-- C8: on a fresh table with `header_max_depth = 1`, inserting a key whose
hash has its top bit set (header slot 1, whose directory page id is invalid)
does not return: `Insert` dereferences the null page returned by
`FetchPage(INVALID_PAGE_ID)`. -/
theorem insert_fresh_null_directory :
    outputs Int.toNat 1 1 1 [.insert 2147483648 7] = [.fault .null_deref] := by
  decide!

/-- C9: with `bucket_max_size = 1` and `directory_max_depth = 1`, after
`insert(1)` and `insert(0)` slot 0 holds bucket page 2 and its split image,
slot 1, holds bucket page 3, both with local depth 1.  `remove(0)` empties
the bucket of slot 0 and returns true; afterwards slot 0 holds
`INVALID_PAGE_ID` instead of page 3, and key 1 is no longer found. -/
theorem merge_leaves_invalid_slot :
    outputs Int.toNat 0 1 1 [.insert 1 100, .insert 0 1, .remove 0, .get 1] =
      [.bool true, .bool true, .bool true, .value none] ∧
    (after Int.toNat 0 1 1 [.insert 1 100, .insert 0 1]).bind (fun t => directoryView t 1 2) =
      some (1, [(1, 2), (1, 3)]) ∧
    (after Int.toNat 0 1 1 [.insert 1 100, .insert 0 1, .remove 0]).bind (fun t => directoryView t 1 2) =
      some (0, [(0, -1), (0, -1)]) := by
  decide!

/-! ## The bucket page: results of `Insert` and `Remove`, the invariant -/

namespace ExtendibleHTableBucketPage

theorem scan_eq_none {a : Nat → Int × Int} {key : Int} :
    ∀ {n}, (∀ i, i < n → (a i).1 ≠ key) → scan a key n = none
  | 0, _ => rfl
  | n + 1, h => by
    simp only [scan]
    rw [scan_eq_none (fun i hi => h i (Nat.lt_succ_of_lt hi))]
    simp [h n (Nat.lt_succ_self n)]

theorem scan_first {a : Nat → Int × Int} {key : Int} :
    ∀ {n i}, scan a key n = some i → ∀ j, j < i → (a j).1 ≠ key
  | 0, i, h => by simp [scan] at h
  | n + 1, i, h => by
    simp only [scan] at h
    cases hs : scan a key n with
    | some j =>
      rw [hs] at h
      simp only [Option.some.injEq] at h
      subst h
      exact scan_first hs
    | none =>
      rw [hs] at h
      simp only at h
      split_ifs at h with hk
      simp only [Option.some.injEq] at h
      subst h
      exact scan_none hs

theorem scan_isSome {a : Nat → Int × Int} {key : Int} {n i : Nat} (hi : i < n) (hk : (a i).1 = key) :
    ∃ j, scan a key n = some j := by
  cases hs : scan a key n with
  | some j => exact ⟨j, rfl⟩
  | none => exact absurd hk (scan_none hs i hi)

/-- The inner loop of `Remove`. -/
theorem shift_apply (a : Nat → Int × Int) (i : Nat) :
    ∀ n x, forLoop (fun t a => Function.update a (i + t) (a (i + 1 + t))) n a x =
      if i ≤ x ∧ x < i + n then a (x + 1) else a x
  | 0, x => by
    simp only [forLoop]
    rw [if_neg]
    omega
  | n + 1, x => by
    simp only [forLoop]
    by_cases hx : x = i + n
    · subst hx
      rw [Function.update_same, shift_apply a i n, if_neg (by omega), if_pos (by omega)]
      congr 1
      omega
    · rw [Function.update_noteq hx, shift_apply a i n]
      by_cases h1 : i ≤ x ∧ x < i + n
      · rw [if_pos h1, if_pos (by omega)]
      · rw [if_neg h1, if_neg (by omega)]

theorem Remove_true {b : ExtendibleHTableBucketPage} {key : Int} (h : (b.Remove key).1 = true) :
    ∃ i, scan b.array_ key b.size_ = some i ∧ (b.Remove key).2.size_ = b.size_ - 1 ∧
      (b.Remove key).2.max_size_ = b.max_size_ ∧
      (∀ x, (b.Remove key).2.array_ x = if i ≤ x ∧ x + 1 < b.size_ then b.array_ (x + 1) else b.array_ x) := by
  unfold Remove at h ⊢
  cases hs : scan b.array_ key b.size_ with
  | none => rw [hs] at h; simp at h
  | some i =>
    refine ⟨i, rfl, rfl, rfl, ?_⟩
    intro x
    simp only
    rw [shift_apply]
    have hi := (scan_lt hs).1
    by_cases h1 : i ≤ x ∧ x + 1 < b.size_
    · rw [if_pos h1, if_pos (by omega)]
    · rw [if_neg h1, if_neg (by omega)]

theorem Remove_false {b : ExtendibleHTableBucketPage} {key : Int} (h : (b.Remove key).1 = false) :
    scan b.array_ key b.size_ = none ∧ (b.Remove key).2 = b := by
  unfold Remove at h ⊢
  cases hs : scan b.array_ key b.size_ with
  | none => exact ⟨rfl, rfl⟩
  | some i => rw [hs] at h; simp at h

theorem entries_length (b : ExtendibleHTableBucketPage) : b.entries.length = b.size_ := by
  simp [entries]

theorem entries_getElem? (b : ExtendibleHTableBucketPage) (x : Nat) :
    b.entries[x]? = if x < b.size_ then some (b.array_ x) else none := by
  unfold entries
  rw [List.getElem?_map]
  by_cases hx : x < b.size_
  · rw [if_pos hx, List.getElem?_range hx]
    rfl
  · rw [if_neg hx, List.getElem?_eq_none (by simpa using hx)]
    rfl

theorem entries_Insert {b b' : ExtendibleHTableBucketPage} {key value : Int}
    (h : b.Insert key value = (true, b')) : b'.entries = b.entries ++ [(key, value)] := by
  obtain ⟨_, _, rfl⟩ := Insert_true h
  unfold entries
  simp only [List.range_succ, List.map_append, List.map_cons, List.map_nil, Function.update_same]
  congr 1
  apply List.map_congr_left
  intro x hx
  rw [Function.update_noteq (Nat.ne_of_lt (List.mem_range.mp hx))]

theorem entries_Remove {b : ExtendibleHTableBucketPage} {key : Int} {i : Nat}
    (hs : scan b.array_ key b.size_ = some i) : (b.Remove key).2.entries = b.entries.eraseIdx i := by
  have ht : (b.Remove key).1 = true := by unfold Remove; rw [hs]
  obtain ⟨j, hj, hsz, -, ha⟩ := Remove_true ht
  rw [hs] at hj
  simp only [Option.some.injEq] at hj
  subst hj
  have hi := (scan_lt hs).1
  apply List.ext_getElem?
  intro x
  rw [List.getElem?_eraseIdx, entries_getElem?, hsz, ha]
  simp only [entries_getElem?]
  split_ifs <;> first | rfl | (exfalso; omega)

theorem mem_keys_iff (b : ExtendibleHTableBucketPage) (key : Int) :
    key ∈ b.entries.map Prod.fst ↔ ∃ i, i < b.size_ ∧ (b.array_ i).1 = key := by
  simp only [entries, List.map_map, List.mem_map, List.mem_range, Function.comp]

theorem map_eraseIdx {α β : Type} (f : α → β) :
    ∀ (l : List α) (i : Nat), (l.eraseIdx i).map f = (l.map f).eraseIdx i
  | [], _ => rfl
  | _ :: _, 0 => rfl
  | a :: l, i + 1 => by
    simp only [List.eraseIdx, List.map_cons, map_eraseIdx f l i]

theorem Stamped_insert {max_size : Nat} {calls : List Call} {t : Nat}
    {s : ExtendibleHTableBucketPage × List (Nat × (Int × Int))} {key value : Int}
    (h : Stamped max_size calls t s) (hc : calls[t]? = some (.insert key value)) :
    Stamped max_size calls (t + 1)
      ((s.1.Insert key value).2, if (s.1.Insert key value).1 then s.2 ++ [(t, (key, value))] else s.2) := by
  cases hr : (s.1.Insert key value).1 with
  | false =>
    have hb : (s.1.Insert key value).2 = s.1 :=
      @Insert_false s.1 (s.1.Insert key value).2 key value (by rw [← hr])
    rw [hb]
    simp only [Bool.false_eq_true, if_false]
    exact ⟨h.max, h.size_le, h.nodup, h.entries, h.sorted, fun x hx => Nat.lt_succ_of_lt (h.stamp_lt x hx),
      h.stamp_call⟩
  | true =>
    have hi : s.1.Insert key value = (true, (s.1.Insert key value).2) := by rw [← hr]
    obtain ⟨hne, hs, hb⟩ := Insert_true hi
    have he := entries_Insert hi
    simp only [if_true]
    refine ⟨?_, ?_, ?_, ?_, ?_, ?_, ?_⟩
    · rw [hb]; exact h.max
    · rw [hb]
      have h1 := h.size_le
      have h2 := h.max
      show s.1.size_ + 1 ≤ max_size
      omega
    · rw [he, List.map_append, List.nodup_append]
      refine ⟨h.nodup, List.nodup_singleton _, ?_⟩
      intro a ha hb
      simp only [List.map_cons, List.map_nil, List.mem_singleton] at hb
      subst hb
      obtain ⟨i, hi, hk⟩ := (mem_keys_iff _ _).mp ha
      exact scan_none hs i hi hk
    · show List.map Prod.snd (s.2 ++ [(t, (key, value))]) = _
      rw [he, List.map_append, h.entries]
      rfl
    · show List.Pairwise _ (List.map Prod.fst (s.2 ++ [(t, (key, value))]))
      rw [List.map_append, List.pairwise_append]
      refine ⟨h.sorted, List.pairwise_singleton _ _, ?_⟩
      intro a ha b hb
      simp only [List.map_cons, List.map_nil, List.mem_singleton] at hb
      subst hb
      obtain ⟨x, hx, rfl⟩ := List.mem_map.mp ha
      exact h.stamp_lt x hx
    · intro x hx
      rcases List.mem_append.mp hx with hx | hx
      · exact Nat.lt_succ_of_lt (h.stamp_lt x hx)
      · simp only [List.mem_singleton] at hx
        subst hx
        exact Nat.lt_succ_self _
    · intro x hx
      rcases List.mem_append.mp hx with hx | hx
      · exact h.stamp_call x hx
      · simp only [List.mem_singleton] at hx
        subst hx
        exact hc

theorem Stamped_remove {max_size : Nat} {calls : List Call} {t : Nat}
    {s : ExtendibleHTableBucketPage × List (Nat × (Int × Int))} {key : Int}
    (h : Stamped max_size calls t s) :
    Stamped max_size calls (t + 1)
      ((s.1.Remove key).2,
       match scan s.1.array_ key s.1.size_ with
       | some i => s.2.eraseIdx i
       | none => s.2) := by
  cases hs : scan s.1.array_ key s.1.size_ with
  | none =>
    have hb : (s.1.Remove key).2 = s.1 := by unfold Remove; rw [hs]
    rw [hb]
    exact ⟨h.max, h.size_le, h.nodup, h.entries, h.sorted, fun x hx => Nat.lt_succ_of_lt (h.stamp_lt x hx),
      h.stamp_call⟩
  | some i =>
    have ht : (s.1.Remove key).1 = true := by unfold Remove; rw [hs]
    obtain ⟨j, hj, hsz, hmx, -⟩ := Remove_true ht
    have he := entries_Remove hs
    have hsub : (s.2.eraseIdx i).Sublist s.2 := List.eraseIdx_sublist _ _
    refine ⟨?_, ?_, ?_, ?_, ?_, ?_, ?_⟩
    · rw [hmx]; exact h.max
    · rw [hsz]
      have := h.size_le
      omega
    · rw [he]
      exact h.nodup.sublist ((List.eraseIdx_sublist _ _).map _)
    · show List.map Prod.snd (s.2.eraseIdx i) = _
      rw [he, ← h.entries]
      exact map_eraseIdx _ _ _
    · exact h.sorted.sublist (hsub.map _)
    · intro x hx
      exact Nat.lt_succ_of_lt (h.stamp_lt x (hsub.subset hx))
    · intro x hx
      exact h.stamp_call x (hsub.subset hx)

theorem Stamped_run {max_size : Nat} {calls : List Call} :
    ∀ (cs : List Call) (t : Nat) (s : ExtendibleHTableBucketPage × List (Nat × (Int × Int))),
      Stamped max_size calls t s → (∀ j, j < cs.length → calls[t + j]? = cs[j]?) →
      Stamped max_size calls (t + cs.length) (runStamped t s cs)
  | [], t, s, h, _ => h
  | c :: cs, t, s, h, hc => by
    have h0 : calls[t]? = some c := by simpa using hc 0 (by simp)
    have hc1 : ∀ j, j < cs.length → calls[t + 1 + j]? = cs[j]? := by
      intro j hj
      have := hc (j + 1) (by simpa using hj)
      rw [show t + 1 + j = t + (j + 1) by omega, this, List.getElem?_cons_succ]
    rw [show t + (c :: cs).length = t + 1 + cs.length by simp; omega]
    cases c with
    | insert key value => exact Stamped_run cs (t + 1) _ (Stamped_insert h h0) hc1
    | remove key => exact Stamped_run cs (t + 1) _ (Stamped_remove h) hc1

theorem runStamped_fst :
    ∀ (cs : List Call) (t : Nat) (s : ExtendibleHTableBucketPage × List (Nat × (Int × Int))),
      (runStamped t s cs).1 = runCalls s.1 cs
  | [], _, _ => rfl
  | .insert _ _ :: cs, t, _ => runStamped_fst cs (t + 1) _
  | .remove _ :: cs, t, _ => runStamped_fst cs (t + 1) _

theorem Stamped_Init (b0 : ExtendibleHTableBucketPage) (max_size : Nat) (calls : List Call) :
    Stamped max_size calls 0 (b0.Init max_size, []) where
  max := rfl
  size_le := Nat.zero_le _
  nodup := by simp [entries, Init]
  entries := by simp [entries, Init]
  sorted := by simp
  stamp_lt := by simp
  stamp_call := by simp

end ExtendibleHTableBucketPage

/-! ## Claims on the bucket page -/

/-- C27 as stated fails: on a bucket page with `max_size_ = 600` that holds 511
entries, `Insert(511, 7)` returns true and stores the pair at index 511 of
`array_`, which has `HTableBucketArraySize(8) = 511` entries. -/
theorem bucket_insert_stores_past_array :
    ExtendibleHTableBucketPage.filled.size_ = 511 ∧
    ExtendibleHTableBucketPage.filled.max_size_ = 600 ∧
    (ExtendibleHTableBucketPage.filled.Insert 511 7).1 = true ∧
    (ExtendibleHTableBucketPage.filled.Insert 511 7).2.array_ 511 = (511, 7) ∧
    (ExtendibleHTableBucketPage.filled.Insert 511 7).2.size_ = 512 ∧
    HTableBucketArraySize 8 = 511 := by
  decide!

/-- C27 amended: on a bucket page with `size_ ≤ max_size_` whose `max_size_` is
at most the length of `array_`, `Insert(key, value)` returns true exactly when
`size_ < max_size_` and no stored entry has the key; when it returns true the
pair is stored at index old `size_`, which is inside the array, `size_` grows
by one, the entries below old `size_` are unchanged and `Lookup(key)` then
finds the value; when it returns false the page is unchanged. -/
theorem bucket_insert_result (b : ExtendibleHTableBucketPage) (key value : Int)
    (hsz : b.size_ ≤ b.max_size_) (hcap : b.max_size_ ≤ HTableBucketArraySize 8) :
    ((b.Insert key value).1 = true ↔
      (b.size_ < b.max_size_ ∧ ∀ i, i < b.size_ → (b.array_ i).1 ≠ key)) ∧
    ((b.Insert key value).1 = true →
      b.size_ < HTableBucketArraySize 8 ∧
      (b.Insert key value).2.array_ b.size_ = (key, value) ∧
      (b.Insert key value).2.size_ = b.size_ + 1 ∧
      (b.Insert key value).2.max_size_ = b.max_size_ ∧
      (∀ i, i < b.size_ → (b.Insert key value).2.array_ i = b.array_ i) ∧
      (b.Insert key value).2.entries = b.entries ++ [(key, value)] ∧
      (b.Insert key value).2.Lookup key = some value) ∧
    ((b.Insert key value).1 = false → (b.Insert key value).2 = b) := by
  refine ⟨⟨?_, ?_⟩, ?_, ?_⟩
  · intro h
    have hi : b.Insert key value = (true, (b.Insert key value).2) := by rw [← h]
    obtain ⟨hne, hs, -⟩ := ExtendibleHTableBucketPage.Insert_true hi
    exact ⟨Nat.lt_of_le_of_ne hsz hne, ExtendibleHTableBucketPage.scan_none hs⟩
  · rintro ⟨hlt, hk⟩
    unfold ExtendibleHTableBucketPage.Insert
    rw [ExtendibleHTableBucketPage.scan_eq_none hk]
    have : b.IsFull = false := by
      simp only [ExtendibleHTableBucketPage.IsFull, beq_eq_false_iff_ne, ne_eq]
      exact Nat.ne_of_lt hlt
    simp [this]
  · intro h
    have hi : b.Insert key value = (true, (b.Insert key value).2) := by rw [← h]
    obtain ⟨hne, -, hb⟩ := ExtendibleHTableBucketPage.Insert_true hi
    refine ⟨Nat.lt_of_lt_of_le (Nat.lt_of_le_of_ne hsz hne) hcap, ?_, ?_, ?_, ?_,
      ExtendibleHTableBucketPage.entries_Insert hi, ExtendibleHTableBucketPage.Lookup_after_Insert hi⟩
    · rw [hb]; exact Function.update_same _ _ _
    · rw [hb]
    · rw [hb]
    · intro i hi'
      rw [hb]
      exact Function.update_noteq (Nat.ne_of_lt hi') _ _
  · intro h
    exact @ExtendibleHTableBucketPage.Insert_false b (b.Insert key value).2 key value (by rw [← h])

/-- C27 amended, at a concrete input: on an empty page with `max_size_ = 2`,
`Insert(5, 50)` returns true and `Lookup(5)` then finds 50. -/
theorem bucket_insert_result_witness :
    (ExtendibleHTableBucketPage.zeroed.Init 2).size_ ≤ (ExtendibleHTableBucketPage.zeroed.Init 2).max_size_ ∧
    (ExtendibleHTableBucketPage.zeroed.Init 2).max_size_ ≤ HTableBucketArraySize 8 ∧
    ((ExtendibleHTableBucketPage.zeroed.Init 2).Insert 5 50).1 = true ∧
    ((ExtendibleHTableBucketPage.zeroed.Init 2).Insert 5 50).2.Lookup 5 = some 50 :=
  ⟨by decide, by decide, by decide,
   ((bucket_insert_result (ExtendibleHTableBucketPage.zeroed.Init 2) 5 50 (by decide) (by decide)).2.1
      (by decide)).2.2.2.2.2.2⟩

namespace ExtendibleHTableBucketPage

theorem runCalls_append : ∀ (b : ExtendibleHTableBucketPage) (l1 l2 : List Call),
    runCalls b (l1 ++ l2) = runCalls (runCalls b l1) l2
  | _, [], _ => rfl
  | b, c :: l1, l2 => by
    simp only [List.cons_append, runCalls]
    exact runCalls_append _ l1 l2

/-- After `Init(max_size)` the calls `Insert(0, 0)`, ..., `Insert(n - 1, 0)`
all store their pair, as long as `n ≤ max_size`. -/
theorem runCalls_inserts (b0 : ExtendibleHTableBucketPage) (max_size : Nat) :
    ∀ n, n ≤ max_size →
      (runCalls (b0.Init max_size) (inserts n)).size_ = n ∧
      (runCalls (b0.Init max_size) (inserts n)).max_size_ = max_size ∧
      ∀ i, i < n → (runCalls (b0.Init max_size) (inserts n)).array_ i = ((i : Int), 0)
  | 0, _ => ⟨rfl, rfl, fun i hi => absurd hi (Nat.not_lt_zero i)⟩
  | n + 1, h => by
    obtain ⟨hs, hm, ha⟩ := runCalls_inserts b0 max_size n (by omega)
    have hsplit : inserts (n + 1) = inserts n ++ [.insert (n : Int) 0] := by
      simp [inserts, List.range_succ]
    rw [hsplit, runCalls_append]
    generalize runCalls (b0.Init max_size) (inserts n) = b at hs hm ha
    have hfull : b.IsFull = false := by
      simp only [IsFull, beq_eq_false_iff_ne, ne_eq]
      omega
    have hscan : scan b.array_ (n : Int) b.size_ = none := by
      apply scan_eq_none
      intro i hi
      rw [hs] at hi
      rw [ha i hi]
      simp only [ne_eq, Nat.cast_inj]
      omega
    simp only [runCalls, call, Insert, hfull, hscan]
    refine ⟨by simp [hs], hm, ?_⟩
    intro i hi
    simp only [Bool.false_eq_true, if_false]
    by_cases hin : i = n
    · subst hin
      rw [hs, Function.update_same]
    · rw [hs, Function.update_noteq hin]
      exact ha i (by omega)

end ExtendibleHTableBucketPage

/-- C28 as stated fails: after `Init(600)` the 512 calls `Insert(0, 0)`, ...,
`Insert(511, 0)` leave `size_ = 512`, within `max_size_ = 600`, while `array_`
has `HTableBucketArraySize(8) = 511` entries: the last call has stored its pair
at index 511. -/
theorem bucket_run_outgrows_array :
    (ExtendibleHTableBucketPage.runCalls (ExtendibleHTableBucketPage.zeroed.Init 600)
      (ExtendibleHTableBucketPage.inserts 512)).size_ = 512 ∧
    (ExtendibleHTableBucketPage.runCalls (ExtendibleHTableBucketPage.zeroed.Init 600)
      (ExtendibleHTableBucketPage.inserts 512)).max_size_ = 600 ∧
    (ExtendibleHTableBucketPage.runCalls (ExtendibleHTableBucketPage.zeroed.Init 600)
      (ExtendibleHTableBucketPage.inserts 512)).array_ 511 = (511, 0) ∧
    HTableBucketArraySize 8 = 511 :=
  have h := ExtendibleHTableBucketPage.runCalls_inserts ExtendibleHTableBucketPage.zeroed 600 512 (by decide)
  ⟨h.1, h.2.1, h.2.2 511 (by decide), by decide⟩

/-- C28 amended: from `Init(max_size)` on any page, with `max_size` at most the
length of `array_`, after every sequence of `Insert` and `Remove` calls
`size_ ≤ max_size` (so the stored entries are inside the array), the keys of
the stored entries are pairwise distinct, and the stored entries are, in index
order, the pairs of `Insert` calls of the sequence taken in the order of those
calls. -/
theorem bucket_invariant (b0 : ExtendibleHTableBucketPage) (max_size : Nat)
    (cs : List ExtendibleHTableBucketPage.Call) (hcap : max_size ≤ HTableBucketArraySize 8) :
    (ExtendibleHTableBucketPage.runStamped 0 (b0.Init max_size, []) cs).1 =
      ExtendibleHTableBucketPage.runCalls (b0.Init max_size) cs ∧
    (ExtendibleHTableBucketPage.runCalls (b0.Init max_size) cs).max_size_ = max_size ∧
    (ExtendibleHTableBucketPage.runCalls (b0.Init max_size) cs).size_ ≤ max_size ∧
    (ExtendibleHTableBucketPage.runCalls (b0.Init max_size) cs).size_ ≤ HTableBucketArraySize 8 ∧
    ((ExtendibleHTableBucketPage.runCalls (b0.Init max_size) cs).entries.map Prod.fst).Nodup ∧
    (ExtendibleHTableBucketPage.runStamped 0 (b0.Init max_size, []) cs).2.map Prod.snd =
      (ExtendibleHTableBucketPage.runCalls (b0.Init max_size) cs).entries ∧
    ((ExtendibleHTableBucketPage.runStamped 0 (b0.Init max_size, []) cs).2.map Prod.fst).Pairwise (· < ·) ∧
    ∀ x ∈ (ExtendibleHTableBucketPage.runStamped 0 (b0.Init max_size, []) cs).2,
      cs[x.1]? = some (.insert x.2.1 x.2.2) := by
  have h := ExtendibleHTableBucketPage.Stamped_run cs 0 _
    (ExtendibleHTableBucketPage.Stamped_Init b0 max_size cs) (fun j _ => by rw [Nat.zero_add])
  have e := ExtendibleHTableBucketPage.runStamped_fst cs 0 (b0.Init max_size, [])
  refine ⟨e, ?_, ?_, ?_, ?_, ?_, h.sorted, h.stamp_call⟩
  · rw [← e]; exact h.max
  · rw [← e]; exact h.size_le
  · rw [← e]; exact Nat.le_trans h.size_le hcap
  · rw [← e]; exact h.nodup
  · rw [← e]; exact h.entries

/-- C28 amended, at a concrete input: after `Init(2)` and the calls
`Insert(5, 50)`, `Insert(6, 60)`, `Insert(7, 70)` (refused: the page is full),
`Remove(5)`, `Insert(7, 70)` the page holds `(6, 60)`, `(7, 70)` in this
order. -/
theorem bucket_invariant_witness :
    (ExtendibleHTableBucketPage.runCalls (ExtendibleHTableBucketPage.zeroed.Init 2)
      [.insert 5 50, .insert 6 60, .insert 7 70, .remove 5, .insert 7 70]).entries = [(6, 60), (7, 70)] ∧
    (ExtendibleHTableBucketPage.runCalls (ExtendibleHTableBucketPage.zeroed.Init 2)
      [.insert 5 50, .insert 6 60, .insert 7 70, .remove 5, .insert 7 70]).size_ ≤ 2 :=
  ⟨by decide,
    (bucket_invariant ExtendibleHTableBucketPage.zeroed 2
      [.insert 5 50, .insert 6 60, .insert 7 70, .remove 5, .insert 7 70] (by decide)).2.2.1⟩

/-- C29: `Remove(key)` returns true exactly when some stored entry has the
key; when it returns true, with `i` the first index holding the key, `size_`
shrinks by one, the entries below `i` stay, the entries above `i` move down by
one, so the stored entries are the old ones without the one at `i`, and if the
stored keys were pairwise distinct `Lookup(key)` then finds nothing; when it
returns false the page is unchanged. -/
theorem bucket_remove_result (b : ExtendibleHTableBucketPage) (key : Int) :
    ((b.Remove key).1 = true ↔ ∃ i, i < b.size_ ∧ (b.array_ i).1 = key) ∧
    ((b.Remove key).1 = true →
      ∃ i, i < b.size_ ∧ (b.array_ i).1 = key ∧ (∀ j, j < i → (b.array_ j).1 ≠ key) ∧
        (b.Remove key).2.size_ = b.size_ - 1 ∧
        (b.Remove key).2.max_size_ = b.max_size_ ∧
        (∀ x, x < i → (b.Remove key).2.array_ x = b.array_ x) ∧
        (∀ x, i ≤ x → x + 1 < b.size_ → (b.Remove key).2.array_ x = b.array_ (x + 1)) ∧
        (b.Remove key).2.entries = b.entries.eraseIdx i ∧
        ((b.entries.map Prod.fst).Nodup → (b.Remove key).2.Lookup key = none)) ∧
    ((b.Remove key).1 = false → (b.Remove key).2 = b) := by
  refine ⟨⟨?_, ?_⟩, ?_, ?_⟩
  · intro h
    obtain ⟨i, hs, -⟩ := ExtendibleHTableBucketPage.Remove_true h
    exact ⟨i, ExtendibleHTableBucketPage.scan_lt hs⟩
  · rintro ⟨i, hi, hk⟩
    obtain ⟨j, hj⟩ := ExtendibleHTableBucketPage.scan_isSome hi hk
    unfold ExtendibleHTableBucketPage.Remove
    rw [hj]
  · intro h
    obtain ⟨i, hs, hsz, hmx, ha⟩ := ExtendibleHTableBucketPage.Remove_true h
    have hi := ExtendibleHTableBucketPage.scan_lt hs
    have hfirst := ExtendibleHTableBucketPage.scan_first hs
    refine ⟨i, hi.1, hi.2, hfirst, hsz, hmx, ?_, ?_, ExtendibleHTableBucketPage.entries_Remove hs, ?_⟩
    · intro x hx
      rw [ha, if_neg (by omega)]
    · intro x hx hx1
      rw [ha, if_pos ⟨hx, hx1⟩]
    · intro hnd
      unfold ExtendibleHTableBucketPage.Lookup
      rw [hsz, ExtendibleHTableBucketPage.scan_eq_none]
      intro x hx
      rw [ha]
      have hinj : ∀ p q, p < b.size_ → q < b.size_ → (b.array_ p).1 = (b.array_ q).1 → p = q := by
        intro p q hp hq hpq
        have hl : (b.entries.map Prod.fst).length = b.size_ := by
          rw [List.length_map, ExtendibleHTableBucketPage.entries_length]
        have hget := List.nodup_iff_injective_get.mp hnd
        have h1 := @hget ⟨p, by rw [hl]; exact hp⟩ ⟨q, by rw [hl]; exact hq⟩
          (by simpa [ExtendibleHTableBucketPage.entries] using hpq)
        simpa using congrArg Fin.val h1
      by_cases h1 : i ≤ x ∧ x + 1 < b.size_
      · rw [if_pos h1]
        intro hk
        have := hinj (x + 1) i h1.2 hi.1 (hk.trans hi.2.symm)
        omega
      · rw [if_neg h1]
        have hxi : x < i := by omega
        exact hfirst x hxi
  · intro h
    exact (ExtendibleHTableBucketPage.Remove_false h).2

theorem new_eq {bpm : PagePool} {hash_fn : Int → Nat} {hmd dmd bms : Nat} {t : DiskExtendibleHashTable}
    (h : DiskExtendibleHashTable.new bpm hash_fn hmd dmd bms = .ok t) :
    hmd ≤ 9 ∧ dmd ≤ 9 ∧
    t.hash_fn_ = hash_fn ∧ t.header_page_id_ = bpm.next_page_id_ ∧
    t.bpm_.pages_ bpm.next_page_id_ =
      .header { max_depth_ := hmd,
                directory_page_ids_ :=
                  Function.update (fun i => if i < 1 <<< hmd then INVALID_PAGE_ID else 0) 0
                    (bpm.next_page_id_ + 1) } ∧
    t.bpm_.pages_ (bpm.next_page_id_ + 1) =
      .directory { max_depth_ := dmd, global_depth_ := 0, local_depths_ := fun _ => 0,
                   bucket_page_ids_ :=
                     Function.update (fun i => if i < 1 <<< dmd then INVALID_PAGE_ID else 0) 0
                       (bpm.next_page_id_ + 1 + 1) } ∧
    t.bpm_.pages_ (bpm.next_page_id_ + 1 + 1) =
      .bucket { size_ := 0, max_size_ := bms, array_ := fun _ => (0, 0) } := by
  unfold DiskExtendibleHashTable.new at h
  simp only [bind, Except.bind, pure, Except.pure, PagePool.NewPage, PagePool.write, Function.update_same,
    PageData.asHeader, PageData.asDirectory, PageData.asBucket] at h
  cases h1 : ExtendibleHTableHeaderPage.Init { directory_page_ids_ := fun _ => 0, max_depth_ := 0 } hmd with
  | error e => rw [h1] at h; simp at h
  | ok hdr =>
    rw [h1] at h
    simp only at h
    cases h2 : ExtendibleHTableDirectoryPage.Init
        { max_depth_ := 0, global_depth_ := 0, local_depths_ := fun _ => 0, bucket_page_ids_ := fun _ => 0 } dmd with
    | error e => rw [h2] at h; simp at h
    | ok d =>
      rw [h2] at h
      simp only at h
      cases h3 : d.SetBucketPageId 0 (bpm.next_page_id_ + 1 + 1) with
      | error e => rw [h3] at h; simp at h
      | ok d' =>
        rw [h3] at h
        simp only [Except.ok.injEq] at h
        subst h
        unfold ExtendibleHTableHeaderPage.Init at h1
        unfold ExtendibleHTableDirectoryPage.Init at h2
        unfold ExtendibleHTableDirectoryPage.SetBucketPageId at h3
        split_ifs at h1 h2 h3 with c1 c2 c3
        simp only [Except.ok.injEq] at h1 h2 h3
        subst h1 h2 h3
        have e1 : bpm.next_page_id_ + 1 ≠ bpm.next_page_id_ := by intro h; linarith
        have e2 : bpm.next_page_id_ + 1 + 1 ≠ bpm.next_page_id_ := by intro h; linarith
        have e3 : bpm.next_page_id_ + 1 + 1 ≠ bpm.next_page_id_ + 1 := by intro h; linarith
        have m1 : hmd ≤ 9 := by
          by_contra hc
          have : 2 ^ 10 ≤ 2 ^ hmd := Nat.pow_le_pow_right (by decide) (by omega)
          rw [Nat.one_shiftLeft] at c1
          have : 2 ^ hmd ≤ 512 := c1
          omega
        have m2 : dmd ≤ 9 := by
          by_contra hc
          have : 2 ^ 10 ≤ 2 ^ dmd := Nat.pow_le_pow_right (by decide) (by omega)
          rw [Nat.one_shiftLeft] at c2
          have : 2 ^ dmd ≤ 512 := c2
          omega
        have p1 : 0 < 1 <<< hmd := by rw [Nat.one_shiftLeft]; positivity
        refine ⟨m1, m2, rfl, rfl, ?_, ?_, ?_⟩
        · simp only [PagePool.UnpinPage_pages, Function.update_same, Function.update_noteq e1.symm,
            Function.update_noteq e2.symm, Function.update_noteq e3.symm, Function.update_noteq e1,
            Function.update_noteq e2, Function.update_noteq e3, ne_eq, not_false_eq_true]
          simp only [ExtendibleHTableHeaderPage.SetDirectoryPageId, ExtendibleHTableHeaderPage.MaxSize,
            ge_iff_le, Nat.le_zero_eq, Nat.ne_of_gt p1, if_false]
          congr 2
          funext i
          by_cases hi : i = 0
          · subst hi; simp
          · rw [Function.update_noteq hi, Function.update_noteq hi, forLoop_update_const]
        · simp only [PagePool.UnpinPage_pages, Function.update_same, Function.update_noteq e1.symm,
            Function.update_noteq e2.symm, Function.update_noteq e3.symm, Function.update_noteq e1,
            Function.update_noteq e2, Function.update_noteq e3, ne_eq, not_false_eq_true]
          congr 2
          · funext i
            rw [forLoop_update_const]
            simp
          · funext i
            by_cases hi : i = 0
            · subst hi; simp
            · rw [Function.update_noteq hi, Function.update_noteq hi, forLoop_update_const]
        · simp only [PagePool.UnpinPage_pages, Function.update_same, Function.update_noteq e1.symm,
            Function.update_noteq e2.symm, Function.update_noteq e3.symm, Function.update_noteq e1,
            Function.update_noteq e2, Function.update_noteq e3, ne_eq, not_false_eq_true]
          rfl

theorem new_returns (bpm : PagePool) (hash_fn : Int → Nat) {hmd dmd : Nat} (bms : Nat)
    (h1 : hmd ≤ 9) (h2 : dmd ≤ 9) : ∃ t, DiskExtendibleHashTable.new bpm hash_fn hmd dmd bms = .ok t := by
  have c1 : 1 <<< hmd ≤ HTABLE_HEADER_ARRAY_SIZE := by
    rw [Nat.one_shiftLeft]
    exact Nat.pow_le_pow_right (by decide) h1
  have c2 : 1 <<< dmd ≤ HTABLE_DIRECTORY_ARRAY_SIZE := by
    rw [Nat.one_shiftLeft]
    exact Nat.pow_le_pow_right (by decide) h2
  have c3 : 0 < HTABLE_DIRECTORY_ARRAY_SIZE := by decide
  unfold DiskExtendibleHashTable.new
  simp only [bind, Except.bind, pure, Except.pure, PagePool.NewPage, PagePool.write, Function.update_same,
    PageData.asHeader, PageData.asDirectory, PageData.asBucket, ExtendibleHTableHeaderPage.Init,
    ExtendibleHTableDirectoryPage.Init, ExtendibleHTableDirectoryPage.SetBucketPageId, if_pos c1, if_pos c2,
    if_pos c3]
  exact ⟨_, rfl⟩

/-! ## Claims on the directory page's accessors -/

/-- C30: on a directory page of global depth 1, index 2 is past the two slots
in use; `GetLocalDepthMask(2)` throws, but `GetBucketPageId(2)` and
`GetLocalDepth(2)` return what slot 2 holds, and `SetBucketPageId`,
`SetLocalDepth`, `IncrLocalDepth` and `DecrLocalDepth` return after writing
slot 2. -/
theorem directory_accessors_use_slot_past_size :
    ExtendibleHTableDirectoryPage.sampleDirectory.Size = 2 ∧
    ExtendibleHTableDirectoryPage.sampleDirectory.GetLocalDepthMask 2 = .error .exception ∧
    ExtendibleHTableDirectoryPage.sampleDirectory.GetBucketPageId 2 = .ok INVALID_PAGE_ID ∧
    (ExtendibleHTableDirectoryPage.sampleDirectory.SetBucketPageId 2 7).map
      (fun d => d.bucket_page_ids_ 2) = .ok 7 ∧
    ExtendibleHTableDirectoryPage.sampleDirectory.GetLocalDepth 2 = .ok 0 ∧
    (ExtendibleHTableDirectoryPage.sampleDirectory.SetLocalDepth 2 1).map
      (fun d => d.local_depths_ 2) = .ok 1 ∧
    (ExtendibleHTableDirectoryPage.sampleDirectory.IncrLocalDepth 2).map
      (fun d => d.local_depths_ 2) = .ok 1 ∧
    ((ExtendibleHTableDirectoryPage.sampleDirectory.SetLocalDepth 2 1).bind
      (fun d => d.DecrLocalDepth 2)).map (fun d => d.local_depths_ 2) = .ok 0 := by
  refine ⟨rfl, rfl, rfl, rfl, rfl, rfl, rfl, rfl⟩

/-- C25: with `header_max_depth = 0`, `directory_max_depth = 3` and
`bucket_max_size = 2`, inserting the keys 4, 0, 8, 12 (identity hash) returns
true four times, and afterwards `get_value(4)` finds nothing; inserting 0, 8,
4, 12 has the third and fourth insert return false. -/
theorem insert_grow_scenario_loses_key :
    outputs Int.toNat 0 3 2 [.insert 4 104, .insert 0 100, .insert 8 108, .insert 12 112,
        .get 0, .get 4, .get 8, .get 12] =
      [.bool true, .bool true, .bool true, .bool true,
       .value (some 100), .value none, .value (some 108), .value (some 112)] ∧
    outputs Int.toNat 0 3 2 [.insert 0 100, .insert 8 108, .insert 4 104, .insert 12 112] =
      [.bool true, .bool true, .bool false, .bool false] := by
  constructor <;> decide!

/-! ## The replacer's invariant -/

namespace LRUKReplacer

theorem insertUpperBound_perm (p : frame_id_t × Nat) :
    ∀ l : List (frame_id_t × Nat), (insertUpperBound p l).Perm (p :: l)
  | [] => List.Perm.refl _
  | q :: l => by
    simp only [insertUpperBound]
    split_ifs
    · exact List.Perm.refl _
    · exact ((insertUpperBound_perm p l).cons q).trans (List.Perm.swap p q l)

theorem insertUpperBound_mem {p q : frame_id_t × Nat} {l : List (frame_id_t × Nat)} :
    q ∈ insertUpperBound p l ↔ q = p ∨ q ∈ l := by
  rw [(insertUpperBound_perm p l).mem_iff, List.mem_cons]

theorem insertUpperBound_sorted (p : frame_id_t × Nat) :
    ∀ l : List (frame_id_t × Nat), l.Pairwise (fun a b => a.2 ≤ b.2) →
      (insertUpperBound p l).Pairwise (fun a b => a.2 ≤ b.2)
  | [], _ => List.pairwise_singleton _ _
  | q :: l, h => by
    simp only [insertUpperBound]
    rw [List.pairwise_cons] at h
    split_ifs with hlt
    · rw [List.pairwise_cons]
      refine ⟨?_, List.pairwise_cons.mpr h⟩
      intro r hr
      rcases List.mem_cons.mp hr with rfl | hr
      · omega
      · have := h.1 r hr; omega
    · rw [List.pairwise_cons]
      refine ⟨?_, insertUpperBound_sorted p l h.2⟩
      intro r hr
      rcases insertUpperBound_mem.mp hr with rfl | hr
      · omega
      · exact h.1 r hr

theorem new_Inv (n k : Nat) : Inv (LRUKReplacer.new n k) where
  unfull_nodup := List.nodup_nil
  full_nodup := List.nodup_nil
  unfull_cnt := by intro f hf; simp [LRUKReplacer.new] at hf
  cnt_unfull := by intro f hf; simp [LRUKReplacer.new] at hf
  full_cnt := by intro p hp; simp [LRUKReplacer.new] at hp
  cnt_full := by intro f hf; simp [LRUKReplacer.new] at hf
  unfull_len := by intro f hf; simp [LRUKReplacer.new] at hf
  untracked := by intro f _; rfl
  ts_le := by intro f ts h; simp [LRUKReplacer.new] at h
  unfull_order := List.Pairwise.nil
  full_sorted := List.Pairwise.nil

theorem Inv_congr {s s' : LRUKReplacer} (h : Inv s) (hk : s'.k_ = s.k_)
    (hc : s'.record_count_ = s.record_count_) (ha : s'.alltime = s.alltime)
    (hu : s'.unfull_frame_ = s.unfull_frame_) (hfu : s'.full_frame_ = s.full_frame_)
    (ht : s'.current_timestamp_ = s.current_timestamp_) : Inv s' := by
  obtain ⟨h1, h2, h3, h4, h5, h6, h7, h8, h9, h10, h11⟩ := h
  constructor <;> simp only [hk, hc, ha, hu, hfu, ht, firstAccess] <;> assumption

theorem SetEvictable_Inv {s : LRUKReplacer} (h : Inv s) (f : frame_id_t) (b : Bool) :
    Inv (s.SetEvictable f b) := by
  unfold SetEvictable
  split_ifs
  · exact h
  · dsimp only
    split_ifs <;> exact Inv_congr h rfl rfl rfl rfl rfl rfl

theorem Inv_drop_unfull {s s' : LRUKReplacer} (h : Inv s) (f : frame_id_t) (hf : f ∈ s.unfull_frame_)
    (hk : s'.k_ = s.k_)
    (hc : s'.record_count_ = Function.update s.record_count_ f 0)
    (ha : s'.alltime = Function.update s.alltime f [])
    (hu : s'.unfull_frame_ = s.unfull_frame_.erase f) (hfu : s'.full_frame_ = s.full_frame_)
    (ht : s'.current_timestamp_ = s.current_timestamp_) : Inv s' := by
  have hfc := h.unfull_cnt f hf
  constructor
  · rw [hu]; exact h.unfull_nodup.erase f
  · rw [hfu]; exact h.full_nodup
  · intro g hg
    rw [hu, h.unfull_nodup.mem_erase_iff] at hg
    rw [hc, hk, Function.update_noteq hg.1]
    exact h.unfull_cnt g hg.2
  · intro g hg1 hg2
    have hne : g ≠ f := by
      rintro rfl
      rw [hc, Function.update_same] at hg1
      exact absurd hg1 (by decide)
    rw [hc, Function.update_noteq hne] at hg1 hg2
    rw [hk] at hg2
    rw [hu, h.unfull_nodup.mem_erase_iff]
    exact ⟨hne, h.cnt_unfull g hg1 hg2⟩
  · intro p hp
    rw [hfu] at hp
    have hp' := h.full_cnt p hp
    have hne : p.1 ≠ f := by
      intro he
      rw [he] at hp'
      omega
    rw [hc, hk, ha, Function.update_noteq hne, Function.update_noteq hne]
    exact hp'
  · intro g hg1 hg2
    have hne : g ≠ f := by
      rintro rfl
      rw [hc, Function.update_same] at hg1
      exact absurd hg1 (by decide)
    rw [hc, Function.update_noteq hne] at hg1 hg2
    rw [hk] at hg2
    rw [hfu]
    exact h.cnt_full g hg1 hg2
  · intro g hg
    rw [hu, h.unfull_nodup.mem_erase_iff] at hg
    rw [hc, ha, Function.update_noteq hg.1, Function.update_noteq hg.1]
    exact h.unfull_len g hg.2
  · intro g hg
    by_cases hne : g = f
    · rw [ha, hne, Function.update_same]
    · rw [hc, Function.update_noteq hne] at hg
      rw [ha, Function.update_noteq hne]
      exact h.untracked g hg
  · intro g ts hts
    by_cases hne : g = f
    · rw [ha, hne, Function.update_same] at hts
      exact absurd hts (List.not_mem_nil _)
    · rw [ha, Function.update_noteq hne] at hts
      rw [ht]
      exact h.ts_le g ts hts
  · rw [hu]
    have hsub := h.unfull_order.sublist (List.erase_sublist f s.unfull_frame_)
    refine hsub.imp_of_mem ?_
    intro a b ha' hb' hab
    rw [h.unfull_nodup.mem_erase_iff] at ha' hb'
    simp only [firstAccess, ha, Function.update_noteq ha'.1, Function.update_noteq hb'.1]
    exact hab
  · rw [hfu]; exact h.full_sorted

theorem full_entry_unique {s : LRUKReplacer} (h : Inv s) {p q : frame_id_t × Nat}
    (hp : p ∈ s.full_frame_) (hq : q ∈ s.full_frame_) (he : p.1 = q.1) : p = q := by
  have h1 := (h.full_cnt p hp).2.2.2
  have h2 := (h.full_cnt q hq).2.2.2
  rw [he, h2] at h1
  exact Prod.ext he (Option.some.inj h1).symm

theorem full_frame_nodup {s : LRUKReplacer} (h : Inv s) : s.full_frame_.Nodup :=
  List.Nodup.of_map _ h.full_nodup

theorem Inv_drop_full {s s' : LRUKReplacer} (h : Inv s) (p : frame_id_t × Nat) (hp : p ∈ s.full_frame_)
    (hk : s'.k_ = s.k_)
    (hc : s'.record_count_ = Function.update s.record_count_ p.1 0)
    (ha : s'.alltime = Function.update s.alltime p.1 [])
    (hu : s'.unfull_frame_ = s.unfull_frame_) (hfu : s'.full_frame_ = s.full_frame_.erase p)
    (ht : s'.current_timestamp_ = s.current_timestamp_) : Inv s' := by
  have hpc := h.full_cnt p hp
  have hnd := full_frame_nodup h
  constructor
  · rw [hu]; exact h.unfull_nodup
  · rw [hfu]
    exact h.full_nodup.sublist ((List.erase_sublist p s.full_frame_).map Prod.fst)
  · intro g hg
    rw [hu] at hg
    have hg' := h.unfull_cnt g hg
    have hne : g ≠ p.1 := by
      intro he
      rw [he] at hg'
      omega
    rw [hc, hk, Function.update_noteq hne]
    exact hg'
  · intro g hg1 hg2
    have hne : g ≠ p.1 := by
      intro he
      rw [hc, he, Function.update_same] at hg1
      exact absurd hg1 (by decide)
    rw [hc, Function.update_noteq hne] at hg1 hg2
    rw [hk] at hg2
    rw [hu]
    exact h.cnt_unfull g hg1 hg2
  · intro q hq
    rw [hfu, hnd.mem_erase_iff] at hq
    have hne : q.1 ≠ p.1 := fun he => hq.1 (full_entry_unique h hq.2 hp he)
    rw [hc, hk, ha, Function.update_noteq hne, Function.update_noteq hne]
    exact h.full_cnt q hq.2
  · intro g hg1 hg2
    have hne : g ≠ p.1 := by
      intro he
      rw [hc, he, Function.update_same] at hg1
      exact absurd hg1 (by decide)
    rw [hc, Function.update_noteq hne] at hg1 hg2
    rw [hk] at hg2
    rw [hfu]
    obtain ⟨q, hq, rfl⟩ := List.mem_map.mp (h.cnt_full g hg1 hg2)
    refine List.mem_map.mpr ⟨q, ?_, rfl⟩
    rw [hnd.mem_erase_iff]
    exact ⟨fun he => hne (by rw [he]), hq⟩
  · intro g hg
    rw [hu] at hg
    have hg' := h.unfull_cnt g hg
    have hne : g ≠ p.1 := by
      intro he
      rw [he] at hg'
      omega
    rw [hc, ha, Function.update_noteq hne, Function.update_noteq hne]
    exact h.unfull_len g hg
  · intro g hg
    by_cases hne : g = p.1
    · rw [ha, hne, Function.update_same]
    · rw [hc, Function.update_noteq hne] at hg
      rw [ha, Function.update_noteq hne]
      exact h.untracked g hg
  · intro g ts hts
    by_cases hne : g = p.1
    · rw [ha, hne, Function.update_same] at hts
      exact absurd hts (List.not_mem_nil _)
    · rw [ha, Function.update_noteq hne] at hts
      rw [ht]
      exact h.ts_le g ts hts
  · rw [hu]
    refine h.unfull_order.imp_of_mem ?_
    intro a b ha' hb' hab
    have hna : a ≠ p.1 := by
      intro he
      have := h.unfull_cnt a ha'
      rw [he] at this
      omega
    have hnb : b ≠ p.1 := by
      intro he
      have := h.unfull_cnt b hb'
      rw [he] at this
      omega
    simp only [firstAccess, ha, Function.update_noteq hna, Function.update_noteq hnb]
    exact hab
  · rw [hfu]
    exact h.full_sorted.sublist (List.erase_sublist p s.full_frame_)

theorem eraseEntry_ok {frame_id : frame_id_t} {l l' : List (frame_id_t × Nat)}
    (h : eraseEntry frame_id l = .ok l') : ∃ p, p ∈ l ∧ p.1 = frame_id ∧ l' = l.erase p := by
  unfold eraseEntry at h
  split at h
  · rename_i p hfind
    refine ⟨p, List.mem_of_find?_eq_some hfind, ?_, ?_⟩
    · simpa using List.find?_some hfind
    · cases h; rfl
  · cases h

theorem eraseFrame_ok {frame_id : frame_id_t} {l l' : List frame_id_t}
    (h : eraseFrame frame_id l = .ok l') : frame_id ∈ l ∧ l' = l.erase frame_id := by
  unfold eraseFrame at h
  split_ifs at h with hm
  cases h
  exact ⟨hm, rfl⟩

theorem Evict_cases (s : LRUKReplacer) :
    s.Evict = (none, s) ∨
    (∃ frame, s.Size ≠ 0 ∧ s.unfull_frame_.reverse.find? (fun frame => s.evictable_ frame) = some frame ∧
      s.Evict = (some frame,
        { s with
          record_count_ := Function.update s.record_count_ frame 0,
          unfull_frame_ := s.unfull_frame_.filter (fun x => x ≠ frame),
          curr_size_ := decr s.curr_size_,
          alltime := Function.update s.alltime frame [] })) ∨
    (∃ p, s.Size ≠ 0 ∧ s.unfull_frame_.reverse.find? (fun frame => s.evictable_ frame) = none ∧
      s.full_frame_.find? (fun p => s.evictable_ p.1) = some p ∧
      s.Evict = (some p.1,
          { s with
            record_count_ := Function.update s.record_count_ p.1 0,
            full_frame_ := s.full_frame_.erase p,
            curr_size_ := decr s.curr_size_,
            alltime := Function.update s.alltime p.1 [] })) := by
  by_cases h0 : s.Size = 0
  · left
    rw [Evict, if_pos h0]
  · cases h1 : s.unfull_frame_.reverse.find? (fun frame => s.evictable_ frame) with
    | some frame =>
      right; left
      refine ⟨frame, h0, rfl, ?_⟩
      rw [Evict, if_neg h0, h1]
    | none =>
      cases h2 : s.full_frame_.find? (fun p => s.evictable_ p.1) with
      | some p =>
        right; right
        refine ⟨p, h0, rfl, rfl, ?_⟩
        rw [Evict, if_neg h0, h1, h2]
      | none =>
        left
        rw [Evict, if_neg h0, h1, h2]

theorem Evict_Inv {s : LRUKReplacer} (h : Inv s) : Inv s.Evict.2 := by
  rcases Evict_cases s with he | ⟨frame, -, hfind, he⟩ | ⟨p, -, -, hfind, he⟩
  · rw [he]; exact h
  · rw [he]
    have hmem : frame ∈ s.unfull_frame_ := List.mem_reverse.mp (List.mem_of_find?_eq_some hfind)
    have hflt : s.unfull_frame_.filter (fun x => x ≠ frame) = s.unfull_frame_.erase frame := by
      rw [h.unfull_nodup.erase_eq_filter frame]
      apply List.filter_congr
      intro x _
      by_cases hx : x = frame <;> simp [hx]
    dsimp only
    exact Inv_drop_unfull h frame hmem rfl rfl rfl hflt rfl rfl
  · rw [he]
    have hp : p ∈ s.full_frame_ := List.mem_of_find?_eq_some hfind
    dsimp only
    exact Inv_drop_full h p hp rfl rfl rfl rfl rfl rfl

theorem Remove_Inv {s s' : LRUKReplacer} {e : Ending} (h : Inv s) {f : frame_id_t}
    (hr : s.Remove f = .ok (e, s')) : Inv s' := by
  unfold Remove at hr
  simp only [bind, Except.bind, pure, Except.pure] at hr
  split_ifs at hr with h1 h2 h3 h4
  all_goals first
    | (cases hr; exact h)
    | skip
  · cases hu : eraseFrame f s.unfull_frame_ with
    | error e => rw [hu] at hr; cases hr
    | ok l =>
      rw [hu] at hr
      cases hr
      obtain ⟨hm, rfl⟩ := eraseFrame_ok hu
      exact Inv_drop_unfull h f hm rfl rfl rfl rfl rfl rfl
  · cases hu : eraseEntry f s.full_frame_ with
    | error e => rw [hu] at hr; cases hr
    | ok l =>
      rw [hu] at hr
      cases hr
      obtain ⟨p, hp, rfl, rfl⟩ := eraseEntry_ok hu
      exact Inv_drop_full h p hp rfl rfl rfl rfl rfl rfl

theorem firstAccess_le {s : LRUKReplacer} (h : Inv s) (g : frame_id_t) :
    s.firstAccess g ≤ s.current_timestamp_ := by
  unfold firstAccess
  cases hl : s.alltime g with
  | nil => exact Nat.zero_le _
  | cons a l =>
    apply h.ts_le g a
    rw [hl]
    exact List.mem_cons_self a l

theorem not_mem_full_of_lt {s : LRUKReplacer} (h : Inv s) {f : frame_id_t}
    (hlt : s.record_count_ f < s.k_) : f ∉ s.full_frame_.map Prod.fst := by
  intro hm
  obtain ⟨q, hq, rfl⟩ := List.mem_map.mp hm
  have := h.full_cnt q hq
  omega

theorem not_mem_unfull_of_le {s : LRUKReplacer} (h : Inv s) {f : frame_id_t}
    (hle : s.k_ ≤ s.record_count_ f) : f ∉ s.unfull_frame_ := by
  intro hm
  have := h.unfull_cnt f hm
  omega

theorem history_length_of_lt {s : LRUKReplacer} (h : Inv s) {f : frame_id_t}
    (hlt : s.record_count_ f < s.k_) : (s.alltime f).length = s.record_count_ f := by
  by_cases h0 : s.record_count_ f = 0
  · rw [h.untracked f h0, h0]; rfl
  · exact h.unfull_len f (h.cnt_unfull f (Nat.pos_of_ne_zero h0) hlt)

theorem Inv_promote {s s' : LRUKReplacer} (h : Inv s) (f : frame_id_t) (t : Nat)
    (hk1 : s.record_count_ f + 1 = s.k_)
    (hk : s'.k_ = s.k_)
    (hc : s'.record_count_ = Function.update s.record_count_ f (s.record_count_ f + 1))
    (ha : s'.alltime = Function.update s.alltime f (s.alltime f ++ [s.current_timestamp_ + 1]))
    (hu : s'.unfull_frame_ = s.unfull_frame_.erase f)
    (hfu : s'.full_frame_ = insertUpperBound (f, t) s.full_frame_)
    (hfront : (s.alltime f ++ [s.current_timestamp_ + 1]).head? = some t)
    (ht : s'.current_timestamp_ = s.current_timestamp_ + 1) : Inv s' := by
  have hlt : s.record_count_ f < s.k_ := by omega
  have hnf := not_mem_full_of_lt h hlt
  have hlen := history_length_of_lt h hlt
  constructor
  · rw [hu]; exact h.unfull_nodup.erase f
  · rw [hfu, ((insertUpperBound_perm (f, t) s.full_frame_).map Prod.fst).nodup_iff, List.map_cons,
      List.nodup_cons]
    exact ⟨hnf, h.full_nodup⟩
  · intro g hg
    rw [hu, h.unfull_nodup.mem_erase_iff] at hg
    rw [hc, hk, Function.update_noteq hg.1]
    exact h.unfull_cnt g hg.2
  · intro g hg1 hg2
    have hne : g ≠ f := by
      rintro rfl
      rw [hc, Function.update_same, hk] at hg2
      omega
    rw [hc, Function.update_noteq hne] at hg1 hg2
    rw [hk] at hg2
    rw [hu, h.unfull_nodup.mem_erase_iff]
    exact ⟨hne, h.cnt_unfull g hg1 hg2⟩
  · intro q hq
    rw [hfu, insertUpperBound_mem] at hq
    rcases hq with rfl | hq
    · rw [hc, hk, ha, Function.update_same, Function.update_same, List.length_append, hlen]
      refine ⟨by omega, by omega, by simpa using hk1, hfront⟩
    · have hne : q.1 ≠ f := fun he => hnf (List.mem_map.mpr ⟨q, hq, he⟩)
      rw [hc, hk, ha, Function.update_noteq hne, Function.update_noteq hne]
      exact h.full_cnt q hq
  · intro g hg1 hg2
    rw [hfu, ((insertUpperBound_perm (f, t) s.full_frame_).map Prod.fst).mem_iff, List.map_cons,
      List.mem_cons]
    by_cases hne : g = f
    · exact Or.inl hne
    · rw [hc, Function.update_noteq hne] at hg1 hg2
      rw [hk] at hg2
      exact Or.inr (h.cnt_full g hg1 hg2)
  · intro g hg
    rw [hu, h.unfull_nodup.mem_erase_iff] at hg
    rw [hc, ha, Function.update_noteq hg.1, Function.update_noteq hg.1]
    exact h.unfull_len g hg.2
  · intro g hg
    have hne : g ≠ f := by
      rintro rfl
      rw [hc, Function.update_same] at hg
      omega
    rw [hc, Function.update_noteq hne] at hg
    rw [ha, Function.update_noteq hne]
    exact h.untracked g hg
  · intro g ts hts
    rw [ht]
    by_cases hne : g = f
    · rw [ha, hne, Function.update_same, List.mem_append, List.mem_singleton] at hts
      rcases hts with hts | rfl
      · exact Nat.le_succ_of_le (h.ts_le f ts hts)
      · exact Nat.le_refl _
    · rw [ha, Function.update_noteq hne] at hts
      exact Nat.le_succ_of_le (h.ts_le g ts hts)
  · rw [hu]
    have hsub := h.unfull_order.sublist (List.erase_sublist f s.unfull_frame_)
    refine hsub.imp_of_mem ?_
    intro a b ha' hb' hab
    rw [h.unfull_nodup.mem_erase_iff] at ha' hb'
    simp only [firstAccess, ha, Function.update_noteq ha'.1, Function.update_noteq hb'.1]
    exact hab
  · rw [hfu]; exact insertUpperBound_sorted _ _ h.full_sorted

theorem Inv_refresh {s s' : LRUKReplacer} (h : Inv s) (p : frame_id_t × Nat) (t : Nat)
    (hp : p ∈ s.full_frame_)
    (hk : s'.k_ = s.k_)
    (hc : s'.record_count_ = Function.update s.record_count_ p.1 (s.record_count_ p.1 + 1))
    (ha : s'.alltime =
      Function.update s.alltime p.1 (s.alltime p.1 ++ [s.current_timestamp_ + 1]).tail)
    (hu : s'.unfull_frame_ = s.unfull_frame_)
    (hfu : s'.full_frame_ = insertUpperBound (p.1, t) (s.full_frame_.erase p))
    (hfront : (s.alltime p.1 ++ [s.current_timestamp_ + 1]).tail.head? = some t)
    (ht : s'.current_timestamp_ = s.current_timestamp_ + 1) : Inv s' := by
  have hpc := h.full_cnt p hp
  have hnd := full_frame_nodup h
  have hnu := not_mem_unfull_of_le h hpc.1
  have hne_erase : ∀ q, q ∈ s.full_frame_.erase p → q.1 ≠ p.1 := by
    intro q hq he
    rw [hnd.mem_erase_iff] at hq
    exact hq.1 (full_entry_unique h hq.2 hp he)
  constructor
  · rw [hu]; exact h.unfull_nodup
  · rw [hfu, ((insertUpperBound_perm (p.1, t) (s.full_frame_.erase p)).map Prod.fst).nodup_iff,
      List.map_cons, List.nodup_cons]
    refine ⟨?_, h.full_nodup.sublist ((List.erase_sublist p s.full_frame_).map Prod.fst)⟩
    intro hm
    obtain ⟨q, hq, he⟩ := List.mem_map.mp hm
    exact hne_erase q hq he
  · intro g hg
    rw [hu] at hg
    have hne : g ≠ p.1 := fun he => hnu (he ▸ hg)
    rw [hc, hk, Function.update_noteq hne]
    exact h.unfull_cnt g hg
  · intro g hg1 hg2
    have hne : g ≠ p.1 := by
      intro he
      rw [hc, he, Function.update_same, hk] at hg2
      omega
    rw [hc, Function.update_noteq hne] at hg1 hg2
    rw [hk] at hg2
    rw [hu]
    exact h.cnt_unfull g hg1 hg2
  · intro q hq
    rw [hfu, insertUpperBound_mem] at hq
    rcases hq with rfl | hq
    · rw [hc, hk, ha, Function.update_same, Function.update_same, List.length_tail,
        List.length_append, hpc.2.2.1]
      refine ⟨by omega, by omega, by simp, hfront⟩
    · have hne := hne_erase q hq
      rw [hc, hk, ha, Function.update_noteq hne, Function.update_noteq hne]
      exact h.full_cnt q (List.mem_of_mem_erase hq)
  · intro g hg1 hg2
    rw [hfu, ((insertUpperBound_perm (p.1, t) (s.full_frame_.erase p)).map Prod.fst).mem_iff,
      List.map_cons, List.mem_cons]
    by_cases hne : g = p.1
    · exact Or.inl hne
    · rw [hc, Function.update_noteq hne] at hg1 hg2
      rw [hk] at hg2
      obtain ⟨q, hq, rfl⟩ := List.mem_map.mp (h.cnt_full g hg1 hg2)
      refine Or.inr (List.mem_map.mpr ⟨q, ?_, rfl⟩)
      rw [hnd.mem_erase_iff]
      exact ⟨fun he => hne (by rw [he]), hq⟩
  · intro g hg
    rw [hu] at hg
    have hne : g ≠ p.1 := fun he => hnu (he ▸ hg)
    rw [hc, ha, Function.update_noteq hne, Function.update_noteq hne]
    exact h.unfull_len g hg
  · intro g hg
    have hne : g ≠ p.1 := by
      intro he
      rw [hc, he, Function.update_same] at hg
      omega
    rw [hc, Function.update_noteq hne] at hg
    rw [ha, Function.update_noteq hne]
    exact h.untracked g hg
  · intro g ts hts
    rw [ht]
    by_cases hne : g = p.1
    · rw [ha, hne, Function.update_same] at hts
      have hts' := List.mem_of_mem_tail hts
      rw [List.mem_append, List.mem_singleton] at hts'
      rcases hts' with hts' | rfl
      · exact Nat.le_succ_of_le (h.ts_le p.1 ts hts')
      · exact Nat.le_refl _
    · rw [ha, Function.update_noteq hne] at hts
      exact Nat.le_succ_of_le (h.ts_le g ts hts)
  · rw [hu]
    refine h.unfull_order.imp_of_mem ?_
    intro a b ha' hb' hab
    have hna : a ≠ p.1 := fun he => hnu (he ▸ ha')
    have hnb : b ≠ p.1 := fun he => hnu (he ▸ hb')
    simp only [firstAccess, ha, Function.update_noteq hna, Function.update_noteq hnb]
    exact hab
  · rw [hfu]
    exact insertUpperBound_sorted _ _ (h.full_sorted.sublist (List.erase_sublist p s.full_frame_))

theorem Inv_young {s s' : LRUKReplacer} (h : Inv s) (f : frame_id_t)
    (hk1 : s.record_count_ f + 1 < s.k_)
    (hk : s'.k_ = s.k_)
    (hc : s'.record_count_ = Function.update s.record_count_ f (s.record_count_ f + 1))
    (ha : s'.alltime = Function.update s.alltime f (s.alltime f ++ [s.current_timestamp_ + 1]))
    (hu : s'.unfull_frame_ = if s.record_count_ f = 0 then f :: s.unfull_frame_ else s.unfull_frame_)
    (hfu : s'.full_frame_ = s.full_frame_)
    (ht : s'.current_timestamp_ = s.current_timestamp_ + 1) : Inv s' := by
  have hlt : s.record_count_ f < s.k_ := by omega
  have hnf := not_mem_full_of_lt h hlt
  have hlen := history_length_of_lt h hlt
  have hmem : ∀ g, g ∈ s'.unfull_frame_ ↔ g = f ∨ g ∈ s.unfull_frame_ := by
    intro g
    rw [hu]
    split_ifs with h0
    · exact List.mem_cons
    · constructor
      · exact Or.inr
      · rintro (rfl | hg)
        · exact h.cnt_unfull g (Nat.pos_of_ne_zero h0) hlt
        · exact hg
  constructor
  · rw [hu]
    split_ifs with h0
    · refine List.nodup_cons.mpr ⟨?_, h.unfull_nodup⟩
      intro hm
      have := h.unfull_cnt f hm
      omega
    · exact h.unfull_nodup
  · rw [hfu]; exact h.full_nodup
  · intro g hg
    rw [hc, hk]
    by_cases hne : g = f
    · rw [hne, Function.update_same]
      omega
    · rw [Function.update_noteq hne]
      rcases (hmem g).mp hg with he | hg
      · exact absurd he hne
      · exact h.unfull_cnt g hg
  · intro g hg1 hg2
    rw [hmem]
    by_cases hne : g = f
    · exact Or.inl hne
    · rw [hc, Function.update_noteq hne] at hg1 hg2
      rw [hk] at hg2
      exact Or.inr (h.cnt_unfull g hg1 hg2)
  · intro q hq
    rw [hfu] at hq
    have hne : q.1 ≠ f := fun he => hnf (List.mem_map.mpr ⟨q, hq, he⟩)
    rw [hc, hk, ha, Function.update_noteq hne, Function.update_noteq hne]
    exact h.full_cnt q hq
  · intro g hg1 hg2
    have hne : g ≠ f := by
      rintro rfl
      rw [hc, Function.update_same, hk] at hg2
      omega
    rw [hc, Function.update_noteq hne] at hg1 hg2
    rw [hk] at hg2
    rw [hfu]
    exact h.cnt_full g hg1 hg2
  · intro g hg
    rw [hc, ha]
    by_cases hne : g = f
    · rw [hne, Function.update_same, Function.update_same, List.length_append, hlen]
      rfl
    · rw [Function.update_noteq hne, Function.update_noteq hne]
      rcases (hmem g).mp hg with he | hg
      · exact absurd he hne
      · exact h.unfull_len g hg
  · intro g hg
    have hne : g ≠ f := by
      rintro rfl
      rw [hc, Function.update_same] at hg
      omega
    rw [hc, Function.update_noteq hne] at hg
    rw [ha, Function.update_noteq hne]
    exact h.untracked g hg
  · intro g ts hts
    rw [ht]
    by_cases hne : g = f
    · rw [ha, hne, Function.update_same, List.mem_append, List.mem_singleton] at hts
      rcases hts with hts | rfl
      · exact Nat.le_succ_of_le (h.ts_le f ts hts)
      · exact Nat.le_refl _
    · rw [ha, Function.update_noteq hne] at hts
      exact Nat.le_succ_of_le (h.ts_le g ts hts)
  · have hfa : ∀ g, g ≠ f → s'.firstAccess g = s.firstAccess g := by
      intro g hne
      simp only [firstAccess, ha, Function.update_noteq hne]
    rw [hu]
    split_ifs with h0
    · have hnm : f ∉ s.unfull_frame_ := by
        intro hm
        have := h.unfull_cnt f hm
        omega
      rw [List.pairwise_cons]
      constructor
      · intro b hb
        have hbf : b ≠ f := fun he => hnm (he ▸ hb)
        rw [hfa b hbf]
        have h1 : s'.firstAccess f = s.current_timestamp_ + 1 := by
          simp only [firstAccess, ha, Function.update_same, h.untracked f h0]
          rfl
        rw [h1]
        exact Nat.lt_succ_of_le (firstAccess_le h b)
      · refine h.unfull_order.imp_of_mem ?_
        intro a b ha' hb' hab
        rw [hfa a (fun he => hnm (he ▸ ha')), hfa b (fun he => hnm (he ▸ hb'))]
        exact hab
    · have hfa' : ∀ g, s'.firstAccess g = s.firstAccess g := by
        intro g
        by_cases hne : g = f
        · rw [hne]
          simp only [firstAccess, ha, Function.update_same]
          cases hl : s.alltime f with
          | nil =>
            rw [hl] at hlen
            exact absurd hlen.symm h0
          | cons a l => rfl
        · exact hfa g hne
      refine h.unfull_order.imp ?_
      intro a b hab
      rw [hfa' a, hfa' b]
      exact hab
  · rw [hfu]; exact h.full_sorted

theorem front_ok {l : List Nat} {t : Nat} (h : front l = .ok t) : l.head? = some t := by
  cases l with
  | nil => cases h
  | cons a l => cases h; rfl

theorem RecordAccess_Inv {s s' : LRUKReplacer} {e : Ending} (h : Inv s) {f : frame_id_t}
    (hr : s.RecordAccess f = .ok (e, s')) : Inv s' := by
  unfold RecordAccess at hr
  simp only [bind, Except.bind, pure, Except.pure] at hr
  split_ifs at hr with h1 h2 h3
  · cases hr
    exact h
  · dsimp only at hr
    have h0 : s.record_count_ f = 0 := by omega
    have hnm : f ∉ s.unfull_frame_ := by
      intro hm
      have := h.unfull_cnt f hm
      omega
    split_ifs at hr with hk hgt
    · rw [eraseFrame, if_pos (List.mem_cons_self _ _)] at hr
      dsimp only at hr
      rw [Function.update_same] at hr
      cases hfr : front (s.alltime f ++ [s.current_timestamp_ + 1]) with
      | error e => rw [hfr] at hr; cases hr
      | ok t =>
        rw [hfr] at hr
        cases hr
        refine Inv_promote h f t hk rfl rfl rfl ?_ rfl (front_ok hfr) rfl
        dsimp only
        rw [List.erase_cons_head, List.erase_of_not_mem hnm]
    · cases he : eraseEntry f s.full_frame_ with
      | error e => rw [he] at hr; cases hr
      | ok l =>
        obtain ⟨p, hp, hpf, -⟩ := eraseEntry_ok he
        have := h.full_cnt p hp
        rw [hpf] at this
        omega
    · cases hr
      refine Inv_young h f (by omega) rfl rfl rfl ?_ rfl rfl
      dsimp only
      rw [if_pos h0]
  · dsimp only at hr
    split_ifs at hr with hk hgt
    · cases heu : eraseFrame f s.unfull_frame_ with
      | error e => rw [heu] at hr; cases hr
      | ok l =>
        rw [heu] at hr
        dsimp only at hr
        rw [Function.update_same] at hr
        obtain ⟨-, rfl⟩ := eraseFrame_ok heu
        cases hfr : front (s.alltime f ++ [s.current_timestamp_ + 1]) with
        | error e => rw [hfr] at hr; cases hr
        | ok t =>
          rw [hfr] at hr
          cases hr
          exact Inv_promote h f t hk rfl rfl rfl rfl rfl (front_ok hfr) rfl
    · cases he : eraseEntry f s.full_frame_ with
      | error e => rw [he] at hr; cases hr
      | ok l =>
        rw [he] at hr
        dsimp only at hr
        rw [Function.update_same] at hr
        obtain ⟨p, hp, rfl, rfl⟩ := eraseEntry_ok he
        cases hfr : front (s.alltime p.1 ++ [s.current_timestamp_ + 1]).tail with
        | error e => rw [hfr] at hr; cases hr
        | ok t =>
          rw [hfr] at hr
          cases hr
          refine Inv_refresh h p t hp rfl rfl ?_ rfl rfl (front_ok hfr) rfl
          dsimp only
          rw [Function.update_idem]
    · cases hr
      refine Inv_young h f (by omega) rfl rfl rfl ?_ rfl rfl
      dsimp only
      rw [if_neg (by omega)]

theorem call_Inv {s s' : LRUKReplacer} {e : Ending} (h : Inv s) (c : Call)
    (hc : s.call c = .ok (e, s')) : Inv s' := by
  cases c with
  | record_access f => exact RecordAccess_Inv h hc
  | set_evictable f b =>
    cases hc
    exact SetEvictable_Inv h f b
  | evict =>
    cases hc
    exact Evict_Inv h
  | remove f => exact Remove_Inv h hc

theorem Reachable_Inv {s : LRUKReplacer} (h : Reachable s) : Inv s := by
  induction h with
  | new n k _ => exact new_Inv n k
  | call c e _ hc ih => exact call_Inv ih c hc

theorem runCalls_Reachable {s : LRUKReplacer} (h : Reachable s) (cs : List Call) :
    Reachable (runCalls s cs) := by
  induction cs generalizing s with
  | nil => exact h
  | cons c cs ih =>
    unfold runCalls
    cases hc : s.call c with
    | ok r => exact ih (Reachable.call c r.1 h hc)
    | error e => exact ih h

theorem kth_recent_eq_head {l : List Nat} {k t : Nat} (hlen : l.length = k) (hh : l.head? = some t) :
    l.reverse.getD (k - 1) 0 = t := by
  cases l with
  | nil => cases hh
  | cons a l =>
    cases hh
    subst hlen
    simp [List.getD_eq_getElem?_getD, List.getElem?_append_right]

theorem backwardKDistance_full {s : LRUKReplacer} (h : Inv s) {p : frame_id_t × Nat}
    (hp : p ∈ s.full_frame_) : s.backwardKDistance p.1 = some (s.current_timestamp_ - p.2) := by
  have hpc := h.full_cnt p hp
  unfold backwardKDistance
  rw [if_neg (by omega), kth_recent_eq_head hpc.2.2.1 hpc.2.2.2]

theorem backwardKDistance_unfull {s : LRUKReplacer} {f : frame_id_t}
    (hlt : s.record_count_ f < s.k_) : s.backwardKDistance f = none := by
  unfold backwardKDistance
  rw [if_pos hlt]

theorem distLE_none (a : Option Nat) : distLE a none := by
  cases a <;> trivial

theorem Evict_policy {s : LRUKReplacer} (h : Inv s) {f : frame_id_t} (he : s.Evict.1 = some f) :
    IsEvictable s f ∧
    (∀ g, IsEvictable s g → distLE (s.backwardKDistance g) (s.backwardKDistance f)) ∧
    (∀ g, IsEvictable s g → s.record_count_ g < s.k_ →
      s.record_count_ f < s.k_ ∧ (g ≠ f → s.firstAccess f < s.firstAccess g)) := by
  rcases Evict_cases s with hev | ⟨frame, -, hfind, hev⟩ | ⟨p, -, hnone, hfind, hev⟩
  · rw [hev] at he
    cases he
  · rw [hev] at he
    cases he
    obtain ⟨hevb, as, bs, hsplit, hlater⟩ := List.find?_eq_some.mp hfind
    have hunfull : s.unfull_frame_ = bs.reverse ++ f :: as.reverse := by
      have := congrArg List.reverse hsplit
      simpa using this
    have hmem : f ∈ s.unfull_frame_ := by
      rw [hunfull]
      simp
    have hcnt := h.unfull_cnt f hmem
    refine ⟨⟨hevb, by omega⟩, ?_, ?_⟩
    · intro g _
      rw [backwardKDistance_unfull hcnt.2]
      exact distLE_none _
    · intro g hg hglt
      refine ⟨hcnt.2, ?_⟩
      intro hne
      have hgm := h.cnt_unfull g (Nat.pos_of_ne_zero hg.2) hglt
      have hord := h.unfull_order
      rw [hunfull] at hgm hord
      rw [List.pairwise_append] at hord
      rcases List.mem_append.mp hgm with hgb | hga
      · exact hord.2.2 g hgb f (List.mem_cons_self _ _)
      · rcases List.mem_cons.mp hga with hgf | hga
        · exact absurd hgf hne
        · have := hlater g (List.mem_reverse.mp hga)
          rw [hg.1] at this
          cases this
  · rw [hev] at he
    cases he
    obtain ⟨hevb, as, bs, hsplit, hearlier⟩ := List.find?_eq_some.mp hfind
    have hp : p ∈ s.full_frame_ := by
      rw [hsplit]
      simp
    have hpc := h.full_cnt p hp
    have hno : ∀ g, IsEvictable s g → ¬ s.record_count_ g < s.k_ := by
      intro g hg hglt
      have hgm := h.cnt_unfull g (Nat.pos_of_ne_zero hg.2) hglt
      have := List.find?_eq_none.mp hnone g (List.mem_reverse.mpr hgm)
      exact this hg.1
    refine ⟨⟨hevb, by omega⟩, ?_, ?_⟩
    · intro g hg
      have hge : s.k_ ≤ s.record_count_ g := Nat.le_of_not_lt (hno g hg)
      obtain ⟨q, hq, hqg⟩ := List.mem_map.mp (h.cnt_full g (Nat.pos_of_ne_zero hg.2) hge)
      subst hqg
      rw [backwardKDistance_full h hq, backwardKDistance_full h hp]
      have hpq : p.2 ≤ q.2 := by
        have hsorted := h.full_sorted
        rw [hsplit] at hsorted hq
        rw [List.pairwise_append] at hsorted
        rcases List.mem_append.mp hq with hqa | hqb
        · have := hearlier q hqa
          rw [hg.1] at this
          cases this
        · rcases List.mem_cons.mp hqb with hqp | hqb
          · rw [hqp]
          · exact (List.pairwise_cons.mp hsorted.2.1).1 q hqb
      show s.current_timestamp_ - q.2 ≤ s.current_timestamp_ - p.2
      omega
    · intro g hg hglt
      exact absurd hglt (hno g hg)

end LRUKReplacer

/-! ## The replacer's counters and the results of its calls -/

namespace LRUKReplacer

theorem mem_tracked {s : LRUKReplacer} (h : Inv s) (f : frame_id_t) :
    f ∈ tracked s ↔ s.record_count_ f ≠ 0 := by
  unfold tracked
  rw [List.mem_toFinset, List.mem_append]
  constructor
  · rintro (hu | hf)
    · have := h.unfull_cnt f hu
      omega
    · obtain ⟨p, hp, rfl⟩ := List.mem_map.mp hf
      have := h.full_cnt p hp
      omega
  · intro h0
    by_cases hlt : s.record_count_ f < s.k_
    · exact Or.inl (h.cnt_unfull f (Nat.pos_of_ne_zero h0) hlt)
    · exact Or.inr (h.cnt_full f (Nat.pos_of_ne_zero h0) (Nat.le_of_not_lt hlt))

theorem mem_trackedWith {s : LRUKReplacer} (h : Inv s) (f : frame_id_t) (bit : Bool) :
    f ∈ trackedWith s bit ↔ s.record_count_ f ≠ 0 ∧ s.evictable_ f = bit := by
  unfold trackedWith
  rw [Finset.mem_filter, mem_tracked h]

/-- What `RecordAccess` writes, field by field. -/
theorem RecordAccess_fields {s s' : LRUKReplacer} {e : Ending} {f : frame_id_t}
    (hr : s.RecordAccess f = .ok (e, s')) :
    (e = .thrown ∧ s' = s ∧ f > (s.replacer_size_ : Int)) ∨
    (e = .returned ∧ f ≤ (s.replacer_size_ : Int) ∧
      s'.record_count_ = Function.update s.record_count_ f (s.record_count_ f + 1) ∧
      s'.curr_size_ = (if s.record_count_ f = 0 then incr s.curr_size_ else s.curr_size_) ∧
      s'.evictable_ =
        (if s.record_count_ f = 0 then Function.update s.evictable_ f true else s.evictable_) ∧
      s'.MaxSize = s.MaxSize ∧ s'.replacer_size_ = s.replacer_size_ ∧ s'.k_ = s.k_ ∧
      s'.current_timestamp_ = s.current_timestamp_ + 1 ∧
      (s.record_count_ f = 0 → s.curr_size_ ≠ s.MaxSize) ∧
      (∀ g, g ≠ f → s'.alltime g = s.alltime g)) := by
  unfold RecordAccess at hr
  simp only [bind, Except.bind, pure, Except.pure] at hr
  split_ifs at hr with h1 h2 h3
  · cases hr
    exact Or.inl ⟨rfl, rfl, h1⟩
  · right
    dsimp only at hr
    have h0 : s.record_count_ f = 0 := by omega
    split_ifs at hr with hk hgt
    · rw [eraseFrame, if_pos (List.mem_cons_self _ _)] at hr
      dsimp only at hr
      cases hfr : front (Function.update s.alltime f (s.alltime f ++ [s.current_timestamp_ + 1]) f) with
      | error e => rw [hfr] at hr; cases hr
      | ok t =>
        rw [hfr] at hr
        cases hr
        refine ⟨rfl, Int.not_lt.mp h1, rfl, by simp [h0], by simp [h0], rfl, rfl, rfl, rfl, fun _ => h3, ?_⟩
        intro g hg
        simp [Function.update_noteq hg]
    · cases he : eraseEntry f s.full_frame_ with
      | error e => rw [he] at hr; cases hr
      | ok l =>
        rw [he] at hr
        dsimp only at hr
        cases hfr : front (Function.update s.alltime f (s.alltime f ++ [s.current_timestamp_ + 1]) f).tail with
        | error e => rw [hfr] at hr; cases hr
        | ok t =>
          rw [hfr] at hr
          cases hr
          refine ⟨rfl, Int.not_lt.mp h1, rfl, by simp [h0], by simp [h0], rfl, rfl, rfl, rfl, fun _ => h3, ?_⟩
          intro g hg
          simp [Function.update_noteq hg]
    · cases hr
      refine ⟨rfl, Int.not_lt.mp h1, rfl, by simp [h0], by simp [h0], rfl, rfl, rfl, rfl, fun _ => h3, ?_⟩
      intro g hg
      simp [Function.update_noteq hg]
  · right
    dsimp only at hr
    have h0 : s.record_count_ f ≠ 0 := by omega
    split_ifs at hr with hk hgt
    · cases heu : eraseFrame f s.unfull_frame_ with
      | error e => rw [heu] at hr; cases hr
      | ok l =>
        rw [heu] at hr
        dsimp only at hr
        cases hfr : front (Function.update s.alltime f (s.alltime f ++ [s.current_timestamp_ + 1]) f) with
        | error e => rw [hfr] at hr; cases hr
        | ok t =>
          rw [hfr] at hr
          cases hr
          refine ⟨rfl, Int.not_lt.mp h1, rfl, by simp [h0], by simp [h0], rfl, rfl, rfl, rfl,
            fun h => absurd h h0, ?_⟩
          intro g hg
          simp [Function.update_noteq hg]
    · cases he : eraseEntry f s.full_frame_ with
      | error e => rw [he] at hr; cases hr
      | ok l =>
        rw [he] at hr
        dsimp only at hr
        cases hfr : front (Function.update s.alltime f (s.alltime f ++ [s.current_timestamp_ + 1]) f).tail with
        | error e => rw [hfr] at hr; cases hr
        | ok t =>
          rw [hfr] at hr
          cases hr
          refine ⟨rfl, Int.not_lt.mp h1, rfl, by simp [h0], by simp [h0], rfl, rfl, rfl, rfl,
            fun h => absurd h h0, ?_⟩
          intro g hg
          simp [Function.update_noteq hg]
    · cases hr
      refine ⟨rfl, Int.not_lt.mp h1, rfl, by simp [h0], by simp [h0], rfl, rfl, rfl, rfl,
        fun h => absurd h h0, ?_⟩
      intro g hg
      simp [Function.update_noteq hg]

/-- What `Remove` writes, field by field. -/
theorem Remove_fields {s s' : LRUKReplacer} {e : Ending} {f : frame_id_t}
    (hr : s.Remove f = .ok (e, s')) :
    (e = .thrown ∧ s' = s ∧
      (f > (s.replacer_size_ : Int) ∨ (s.record_count_ f ≠ 0 ∧ s.evictable_ f = false))) ∨
    (e = .returned ∧ f ≤ (s.replacer_size_ : Int) ∧ s.record_count_ f = 0 ∧ s' = s) ∨
    (e = .returned ∧ f ≤ (s.replacer_size_ : Int) ∧ s.record_count_ f ≠ 0 ∧ s.evictable_ f = true ∧
      s'.record_count_ = Function.update s.record_count_ f 0 ∧
      s'.alltime = Function.update s.alltime f [] ∧
      s'.curr_size_ = decr s.curr_size_ ∧ s'.evictable_ = s.evictable_ ∧
      s'.MaxSize = s.MaxSize ∧ s'.replacer_size_ = s.replacer_size_ ∧ s'.k_ = s.k_ ∧
      s'.current_timestamp_ = s.current_timestamp_) := by
  unfold Remove at hr
  simp only [bind, Except.bind, pure, Except.pure] at hr
  split_ifs at hr with h1 h2 h3 h4
  · cases hr
    exact Or.inl ⟨rfl, rfl, Or.inl h1⟩
  · cases hr
    exact Or.inr (Or.inl ⟨rfl, Int.not_lt.mp h1, h2, rfl⟩)
  · cases hr
    exact Or.inl ⟨rfl, rfl, Or.inr ⟨h2, by simpa using h3⟩⟩
  · cases hu : eraseFrame f s.unfull_frame_ with
    | error e => rw [hu] at hr; cases hr
    | ok l =>
      rw [hu] at hr
      cases hr
      exact Or.inr (Or.inr ⟨rfl, Int.not_lt.mp h1, h2, by simpa using h3, rfl, rfl, rfl, rfl, rfl, rfl,
        rfl, rfl⟩)
  · cases hu : eraseEntry f s.full_frame_ with
    | error e => rw [hu] at hr; cases hr
    | ok l =>
      rw [hu] at hr
      cases hr
      exact Or.inr (Or.inr ⟨rfl, Int.not_lt.mp h1, h2, by simpa using h3, rfl, rfl, rfl, rfl, rfl, rfl,
        rfl, rfl⟩)

theorem incr_eq {x : Nat} (h : x + 1 < 2 ^ 64) : incr x = x + 1 := by
  unfold incr
  exact Nat.mod_eq_of_lt h

theorem decr_eq {x : Nat} (h0 : 0 < x) (h : x < 2 ^ 64) : decr x = x - 1 := by
  unfold decr
  have e : x + 2 ^ 64 - 1 = (x - 1) + 2 ^ 64 := by omega
  rw [e, Nat.add_mod_right]
  exact Nat.mod_eq_of_lt (by omega)

theorem new_SizeInv (n k : Nat) (hn : n < 2 ^ 64) : SizeInv (LRUKReplacer.new n k) where
  inv := new_Inv n k
  bound := hn
  size_eq := rfl
  max_eq := rfl
  le_max := Nat.zero_le _
  range := by intro f hf; exact absurd rfl hf

theorem SizeInv_drop {s s' : LRUKReplacer} (hs : SizeInv s) (h' : Inv s') (f : frame_id_t)
    (hcnt : s.record_count_ f ≠ 0) (hev : s.evictable_ f = true)
    (hc : s'.record_count_ = Function.update s.record_count_ f 0)
    (hevs : s'.evictable_ = s.evictable_)
    (hcur : s'.curr_size_ = decr s.curr_size_) (hmax : s'.MaxSize = s.MaxSize)
    (hn : s'.replacer_size_ = s.replacer_size_) : SizeInv s' := by
  have hE : trackedWith s' true = (trackedWith s true).erase f := by
    ext g
    rw [Finset.mem_erase, mem_trackedWith h', mem_trackedWith hs.inv, hc, hevs]
    by_cases hg : g = f
    · subst hg
      simp
    · rw [Function.update_noteq hg]
      simp [hg]
  have hN : trackedWith s' false = trackedWith s false := by
    ext g
    rw [mem_trackedWith h', mem_trackedWith hs.inv, hc, hevs]
    by_cases hg : g = f
    · subst hg
      simp [hev]
    · rw [Function.update_noteq hg]
  have hfE : f ∈ trackedWith s true := (mem_trackedWith hs.inv f true).mpr ⟨hcnt, hev⟩
  have hpos : 0 < (trackedWith s true).card := Finset.card_pos.mpr ⟨f, hfE⟩
  have h1 := hs.size_eq
  have h2 := hs.max_eq
  have h3 := hs.le_max
  have h4 := hs.bound
  have hd : decr s.curr_size_ = s.curr_size_ - 1 := decr_eq (by omega) (by omega)
  constructor
  · exact h'
  · rw [hn]; exact h4
  · rw [hcur, hd, hE, Finset.card_erase_of_mem hfE, h1]
  · rw [hmax, hN, hn]; exact h2
  · rw [hcur, hd, hmax]; omega
  · intro g hg
    rw [hn]
    by_cases hgf : g = f
    · rw [hc, hgf, Function.update_same] at hg
      exact absurd rfl hg
    · rw [hc, Function.update_noteq hgf] at hg
      exact hs.range g hg

theorem SizeInv_same {s s' : LRUKReplacer} (hs : SizeInv s) (h' : Inv s')
    (hc : ∀ g, s'.record_count_ g ≠ 0 ↔ s.record_count_ g ≠ 0)
    (hevs : s'.evictable_ = s.evictable_)
    (hcur : s'.curr_size_ = s.curr_size_) (hmax : s'.MaxSize = s.MaxSize)
    (hn : s'.replacer_size_ = s.replacer_size_) : SizeInv s' := by
  have hT : ∀ bit, trackedWith s' bit = trackedWith s bit := by
    intro bit
    ext g
    rw [mem_trackedWith h', mem_trackedWith hs.inv, hc, hevs]
  constructor
  · exact h'
  · rw [hn]; exact hs.bound
  · rw [hcur, hT]; exact hs.size_eq
  · rw [hmax, hT, hn]; exact hs.max_eq
  · rw [hcur, hmax]; exact hs.le_max
  · intro g hg
    rw [hn]
    exact hs.range g ((hc g).mp hg)

theorem SizeInv_track {s s' : LRUKReplacer} (hs : SizeInv s) (h' : Inv s') (f : frame_id_t)
    (hcnt : s.record_count_ f = 0) (hf : f ≤ (s.replacer_size_ : Int))
    (hroom : s.curr_size_ ≠ s.MaxSize)
    (hc : s'.record_count_ = Function.update s.record_count_ f (s.record_count_ f + 1))
    (hevs : s'.evictable_ = Function.update s.evictable_ f true)
    (hcur : s'.curr_size_ = incr s.curr_size_) (hmax : s'.MaxSize = s.MaxSize)
    (hn : s'.replacer_size_ = s.replacer_size_) : SizeInv s' := by
  have hE : trackedWith s' true = insert f (trackedWith s true) := by
    ext g
    rw [Finset.mem_insert, mem_trackedWith h', mem_trackedWith hs.inv, hc, hevs]
    by_cases hg : g = f
    · subst hg
      simp
    · rw [Function.update_noteq hg, Function.update_noteq hg]
      simp [hg]
  have hN : trackedWith s' false = trackedWith s false := by
    ext g
    rw [mem_trackedWith h', mem_trackedWith hs.inv, hc, hevs]
    by_cases hg : g = f
    · subst hg
      simp [hcnt]
    · rw [Function.update_noteq hg, Function.update_noteq hg]
  have hfE : f ∉ trackedWith s true := by
    rw [mem_trackedWith hs.inv]
    exact fun h => h.1 hcnt
  have h1 := hs.size_eq
  have h2 := hs.max_eq
  have h3 := hs.le_max
  have h4 := hs.bound
  have hd : incr s.curr_size_ = s.curr_size_ + 1 := incr_eq (by omega)
  constructor
  · exact h'
  · rw [hn]; exact h4
  · rw [hcur, hd, hE, Finset.card_insert_of_not_mem hfE, h1]
  · rw [hmax, hN, hn]; exact h2
  · rw [hcur, hd, hmax]; omega
  · intro g hg
    rw [hn]
    by_cases hgf : g = f
    · rw [hgf]; exact hf
    · rw [hc, Function.update_noteq hgf] at hg
      exact hs.range g hg

theorem RecordAccess_SizeInv {s s' : LRUKReplacer} {e : Ending} (hs : SizeInv s) {f : frame_id_t}
    (hr : s.RecordAccess f = .ok (e, s')) : SizeInv s' := by
  have h' := RecordAccess_Inv hs.inv hr
  rcases RecordAccess_fields hr with ⟨-, rfl, -⟩ | ⟨-, hf, hc, hcur, hev, hmax, hn, -, -, hroom, -⟩
  · exact hs
  · by_cases h0 : s.record_count_ f = 0
    · rw [if_pos h0] at hcur hev
      exact SizeInv_track hs h' f h0 hf (hroom h0) hc hev hcur hmax hn
    · rw [if_neg h0] at hcur hev
      refine SizeInv_same hs h' ?_ hev hcur hmax hn
      intro g
      rw [hc]
      by_cases hg : g = f
      · subst hg
        simp [h0]
      · rw [Function.update_noteq hg]

theorem Remove_SizeInv {s s' : LRUKReplacer} {e : Ending} (hs : SizeInv s) {f : frame_id_t}
    (hr : s.Remove f = .ok (e, s')) : SizeInv s' := by
  have h' := Remove_Inv hs.inv hr
  rcases Remove_fields hr with ⟨-, rfl, -⟩ | ⟨-, -, -, rfl⟩ |
    ⟨-, -, hcnt, hev, hc, -, hcur, hevs, hmax, hn, -, -⟩
  · exact hs
  · exact hs
  · exact SizeInv_drop hs h' f hcnt hev hc hevs hcur hmax hn

theorem Evict_SizeInv {s : LRUKReplacer} (hs : SizeInv s) : SizeInv s.Evict.2 := by
  have h' := Evict_Inv hs.inv
  rcases Evict_cases s with he | ⟨frame, -, hfind, he⟩ | ⟨p, -, -, hfind, he⟩
  · rw [he]; exact hs
  · rw [he] at h' ⊢
    have hmem : frame ∈ s.unfull_frame_ := List.mem_reverse.mp (List.mem_of_find?_eq_some hfind)
    have hcnt := hs.inv.unfull_cnt frame hmem
    have hev : s.evictable_ frame = true := by simpa using List.find?_some hfind
    dsimp only at h' ⊢
    exact SizeInv_drop hs h' frame (by omega) hev rfl rfl rfl rfl rfl
  · rw [he] at h' ⊢
    have hp : p ∈ s.full_frame_ := List.mem_of_find?_eq_some hfind
    have hcnt := hs.inv.full_cnt p hp
    have hev : s.evictable_ p.1 = true := by simpa using List.find?_some hfind
    dsimp only at h' ⊢
    exact SizeInv_drop hs h' p.1 (by omega) hev rfl rfl rfl rfl rfl

/-- What `SetEvictable` writes on a tracked frame, field by field. -/
theorem SetEvictable_fields (s : LRUKReplacer) (f : frame_id_t) (b : Bool)
    (h0 : s.record_count_ f ≠ 0) :
    (s.SetEvictable f b).evictable_ = Function.update s.evictable_ f b ∧
    (s.SetEvictable f b).record_count_ = s.record_count_ ∧
    (s.SetEvictable f b).alltime = s.alltime ∧
    (s.SetEvictable f b).replacer_size_ = s.replacer_size_ ∧
    (s.SetEvictable f b).k_ = s.k_ ∧
    (s.SetEvictable f b).current_timestamp_ = s.current_timestamp_ ∧
    (s.SetEvictable f b).unfull_frame_ = s.unfull_frame_ ∧
    (s.SetEvictable f b).full_frame_ = s.full_frame_ ∧
    (s.SetEvictable f b).curr_size_ =
      (if s.evictable_ f = b then s.curr_size_ else if b = true then incr s.curr_size_
        else decr s.curr_size_) ∧
    (s.SetEvictable f b).MaxSize =
      (if s.evictable_ f = b then s.MaxSize else if b = true then incr s.MaxSize
        else decr s.MaxSize) := by
  unfold SetEvictable
  rw [if_neg h0]
  cases hst : s.evictable_ f <;> cases b <;> simp

theorem SetEvictable_untracked (s : LRUKReplacer) (f : frame_id_t) (b : Bool)
    (h0 : s.record_count_ f = 0) : s.SetEvictable f b = s := by
  unfold SetEvictable
  rw [if_pos h0]

theorem SetEvictable_SizeInv {s : LRUKReplacer} (hs : SizeInv s) (f : frame_id_t) (b : Bool) :
    SizeInv (s.SetEvictable f b) := by
  by_cases h0 : s.record_count_ f = 0
  · rw [SetEvictable_untracked s f b h0]; exact hs
  · have h' := SetEvictable_Inv hs.inv f b
    obtain ⟨hev, hc, -, hn, -, -, -, -, hcur, hmax⟩ := SetEvictable_fields s f b h0
    have h1 := hs.size_eq
    have h2 := hs.max_eq
    have h3 := hs.le_max
    have h4 := hs.bound
    by_cases hst : s.evictable_ f = b
    · rw [if_pos hst] at hcur hmax
      refine SizeInv_same hs h' (fun g => by rw [hc]) ?_ hcur hmax hn
      rw [hev, ← hst, Function.update_eq_self]
    · rw [if_neg hst] at hcur hmax
      have hmemT : ∀ bit g, g ∈ trackedWith (s.SetEvictable f b) bit ↔
          s.record_count_ g ≠ 0 ∧ Function.update s.evictable_ f b g = bit := by
        intro bit g
        rw [mem_trackedWith h', hc, hev]
      cases b with
      | true =>
        have hsf : s.evictable_ f = false := by
          cases hx : s.evictable_ f with
          | true => exact absurd hx hst
          | false => rfl
        have hE : trackedWith (s.SetEvictable f true) true = insert f (trackedWith s true) := by
          ext g
          rw [Finset.mem_insert, hmemT, mem_trackedWith hs.inv]
          by_cases hg : g = f
          · subst hg
            simp [h0]
          · rw [Function.update_noteq hg]
            simp [hg]
        have hN : trackedWith (s.SetEvictable f true) false = (trackedWith s false).erase f := by
          ext g
          rw [Finset.mem_erase, hmemT, mem_trackedWith hs.inv]
          by_cases hg : g = f
          · subst hg
            simp
          · rw [Function.update_noteq hg]
            simp [hg]
        have hfE : f ∉ trackedWith s true := by
          rw [mem_trackedWith hs.inv, hsf]
          simp
        have hfN : f ∈ trackedWith s false := (mem_trackedWith hs.inv f false).mpr ⟨h0, hsf⟩
        have hpos : 0 < (trackedWith s false).card := Finset.card_pos.mpr ⟨f, hfN⟩
        simp only [if_true] at hcur hmax
        have hd1 : incr s.curr_size_ = s.curr_size_ + 1 := incr_eq (by omega)
        have hd2 : incr s.MaxSize = s.MaxSize + 1 := incr_eq (by omega)
        constructor
        · exact h'
        · rw [hn]; exact h4
        · rw [hcur, hd1, hE, Finset.card_insert_of_not_mem hfE, h1]
        · rw [hmax, hd2, hN, Finset.card_erase_of_mem hfN, hn]; omega
        · rw [hcur, hd1, hmax, hd2]; omega
        · intro g hg
          rw [hn]
          rw [hc] at hg
          exact hs.range g hg
      | false =>
        have hsf : s.evictable_ f = true := by
          cases hx : s.evictable_ f with
          | true => rfl
          | false => exact absurd hx hst
        have hE : trackedWith (s.SetEvictable f false) true = (trackedWith s true).erase f := by
          ext g
          rw [Finset.mem_erase, hmemT, mem_trackedWith hs.inv]
          by_cases hg : g = f
          · subst hg
            simp
          · rw [Function.update_noteq hg]
            simp [hg]
        have hN : trackedWith (s.SetEvictable f false) false = insert f (trackedWith s false) := by
          ext g
          rw [Finset.mem_insert, hmemT, mem_trackedWith hs.inv]
          by_cases hg : g = f
          · subst hg
            simp [h0]
          · rw [Function.update_noteq hg]
            simp [hg]
        have hfN : f ∉ trackedWith s false := by
          rw [mem_trackedWith hs.inv, hsf]
          simp
        have hfE : f ∈ trackedWith s true := (mem_trackedWith hs.inv f true).mpr ⟨h0, hsf⟩
        have hpos : 0 < (trackedWith s true).card := Finset.card_pos.mpr ⟨f, hfE⟩
        simp only [Bool.false_eq_true, if_false] at hcur hmax
        have hd1 : decr s.curr_size_ = s.curr_size_ - 1 := decr_eq (by omega) (by omega)
        have hd2 : decr s.MaxSize = s.MaxSize - 1 := decr_eq (by omega) (by omega)
        constructor
        · exact h'
        · rw [hn]; exact h4
        · rw [hcur, hd1, hE, Finset.card_erase_of_mem hfE, h1]
        · rw [hmax, hd2, hN, Finset.card_insert_of_not_mem hfN, hn]; omega
        · rw [hcur, hd1, hmax, hd2]; omega
        · intro g hg
          rw [hn]
          rw [hc] at hg
          exact hs.range g hg

theorem call_SizeInv {s s' : LRUKReplacer} {e : Ending} (h : SizeInv s) (c : Call)
    (hc : s.call c = .ok (e, s')) : SizeInv s' := by
  cases c with
  | record_access f => exact RecordAccess_SizeInv h hc
  | set_evictable f b =>
    cases hc
    exact SetEvictable_SizeInv h f b
  | evict =>
    cases hc
    exact Evict_SizeInv h
  | remove f => exact Remove_SizeInv h hc

theorem Reachable_SizeInv {s : LRUKReplacer} (h : Reachable s) : SizeInv s := by
  induction h with
  | new n k hn => exact new_SizeInv n k hn
  | call c e _ hc ih => exact call_SizeInv ih c hc

theorem history_ne_nil_iff {s : LRUKReplacer} (h : Inv s) (f : frame_id_t) :
    s.alltime f ≠ [] ↔ s.record_count_ f ≠ 0 := by
  constructor
  · intro hne h0
    exact hne (h.untracked f h0)
  · intro h0 hnil
    by_cases hlt : s.record_count_ f < s.k_
    · have := history_length_of_lt h hlt
      rw [hnil] at this
      exact h0 this.symm
    · obtain ⟨p, hp, rfl⟩ := List.mem_map.mp (h.cnt_full f (Nat.pos_of_ne_zero h0) (Nat.le_of_not_lt hlt))
      have := (h.full_cnt p hp).2.2.2
      rw [hnil] at this
      cases this

theorem Size_eq_card {s : LRUKReplacer} (hs : SizeInv s) :
    ∃ F : Finset frame_id_t, (∀ f, f ∈ F ↔ s.evictable_ f = true ∧ s.alltime f ≠ []) ∧
      s.Size = F.card := by
  refine ⟨trackedWith s true, ?_, hs.size_eq⟩
  intro f
  rw [mem_trackedWith hs.inv, history_ne_nil_iff hs.inv]
  exact And.comm

theorem Evict_none {s : LRUKReplacer} (h : s.Evict.1 = none) :
    s.Evict.2 = s ∧ (s.Size = 0 ∨
      (s.unfull_frame_.reverse.find? (fun frame => s.evictable_ frame) = none ∧
        s.full_frame_.find? (fun p => s.evictable_ p.1) = none)) := by
  by_cases h0 : s.Size = 0
  · rw [Evict, if_pos h0]
    exact ⟨rfl, Or.inl h0⟩
  · rcases Evict_cases s with he | ⟨frame, -, -, he⟩ | ⟨p, -, -, -, he⟩
    · refine ⟨by rw [he], Or.inr ?_⟩
      cases h1 : s.unfull_frame_.reverse.find? (fun frame => s.evictable_ frame) with
      | some frame =>
        rw [Evict, if_neg h0, h1] at h
        cases h
      | none =>
        cases h2 : s.full_frame_.find? (fun p => s.evictable_ p.1) with
        | some p =>
          rw [Evict, if_neg h0, h1, h2] at h
          cases h
        | none => exact ⟨rfl, rfl⟩
    · rw [he] at h
      cases h
    · rw [he] at h
      cases h

theorem Evict_none_iff {s : LRUKReplacer} (hs : SizeInv s) :
    s.Evict.1 = none ↔ ∀ f, ¬ s.IsEvictable f := by
  constructor
  · intro h f hf
    have hfE : f ∈ trackedWith s true := (mem_trackedWith hs.inv f true).mpr ⟨hf.2, hf.1⟩
    have hpos : 0 < (trackedWith s true).card := Finset.card_pos.mpr ⟨f, hfE⟩
    rcases (Evict_none h).2 with h0 | ⟨h1, h2⟩
    · have := hs.size_eq
      unfold Size at h0
      omega
    · by_cases hlt : s.record_count_ f < s.k_
      · have hm := hs.inv.cnt_unfull f (Nat.pos_of_ne_zero hf.2) hlt
        exact List.find?_eq_none.mp h1 f (List.mem_reverse.mpr hm) hf.1
      · obtain ⟨p, hp, rfl⟩ := List.mem_map.mp
          (hs.inv.cnt_full f (Nat.pos_of_ne_zero hf.2) (Nat.le_of_not_lt hlt))
        exact List.find?_eq_none.mp h2 p hp hf.1
  · intro h
    cases he : s.Evict.1 with
    | none => rfl
    | some f => exact absurd (Evict_policy hs.inv he).1 (h f)

theorem Evict_some {s : LRUKReplacer} (hs : SizeInv s) {f : frame_id_t} (he : s.Evict.1 = some f) :
    s.Evict.2.alltime f = [] ∧ s.Evict.2.record_count_ f = 0 ∧
    s.Evict.2.curr_size_ + 1 = s.curr_size_ ∧
    (∀ g, g ≠ f → s.Evict.2.alltime g = s.alltime g ∧ s.Evict.2.record_count_ g = s.record_count_ g) ∧
    s.Evict.2.evictable_ = s.evictable_ := by
  have hev := (Evict_policy hs.inv he).1
  have hfE : f ∈ trackedWith s true := (mem_trackedWith hs.inv f true).mpr ⟨hev.2, hev.1⟩
  have hpos : 0 < (trackedWith s true).card := Finset.card_pos.mpr ⟨f, hfE⟩
  have h1 := hs.size_eq
  have h3 := hs.le_max
  have h2 := hs.max_eq
  have h4 := hs.bound
  have hd : decr s.curr_size_ = s.curr_size_ - 1 := decr_eq (by omega) (by omega)
  rcases Evict_cases s with hx | ⟨frame, -, -, hx⟩ | ⟨p, -, -, -, hx⟩
  · rw [hx] at he
    cases he
  · have h1' : s.Evict.1 = some frame := by rw [hx]
    have h2' := congrArg Prod.snd hx
    dsimp only at h2'
    rw [he] at h1'
    cases h1'
    rw [h2']
    refine ⟨Function.update_same _ _ _, Function.update_same _ _ _, ?_, ?_, rfl⟩
    · have hgoal : decr s.curr_size_ + 1 = s.curr_size_ := by
        rw [hd]
        omega
      exact hgoal
    · intro g hg
      exact ⟨Function.update_noteq hg _ _, Function.update_noteq hg _ _⟩
  · have h1' : s.Evict.1 = some p.1 := by rw [hx]
    have h2' := congrArg Prod.snd hx
    dsimp only at h2'
    rw [he] at h1'
    cases h1'
    rw [h2']
    refine ⟨Function.update_same _ _ _, Function.update_same _ _ _, ?_, ?_, rfl⟩
    · have hgoal : decr s.curr_size_ + 1 = s.curr_size_ := by
        rw [hd]
        omega
      exact hgoal
    · intro g hg
      exact ⟨Function.update_noteq hg _ _, Function.update_noteq hg _ _⟩

theorem call_keeps_untracked {s s' : LRUKReplacer} {e : Ending} {c : Call} {f : frame_id_t}
    (h0 : s.record_count_ f = 0) (hne : c ≠ .record_access f) (hc : s.call c = .ok (e, s')) :
    s'.record_count_ f = 0 := by
  cases c with
  | record_access g =>
    have hg : f ≠ g := fun h => hne (by rw [h])
    rcases RecordAccess_fields hc with ⟨-, rfl, -⟩ | ⟨-, -, hcnt, -⟩
    · exact h0
    · rw [hcnt, Function.update_noteq hg]
      exact h0
  | set_evictable g b =>
    cases hc
    by_cases hg0 : s.record_count_ g = 0
    · rw [SetEvictable_untracked s g b hg0]
      exact h0
    · rw [(SetEvictable_fields s g b hg0).2.1]
      exact h0
  | evict =>
    cases hc
    rcases Evict_cases s with hx | ⟨frame, -, -, hx⟩ | ⟨p, -, -, -, hx⟩
    · rw [hx]; exact h0
    · rw [hx]
      dsimp only
      by_cases hg : f = frame
      · rw [hg, Function.update_same]
      · rw [Function.update_noteq hg]; exact h0
    · rw [hx]
      dsimp only
      by_cases hg : f = p.1
      · rw [hg, Function.update_same]
      · rw [Function.update_noteq hg]; exact h0
  | remove g =>
    rcases Remove_fields hc with ⟨-, rfl, -⟩ | ⟨-, -, -, rfl⟩ | ⟨-, -, -, -, hcnt, -⟩
    · exact h0
    · exact h0
    · rw [hcnt]
      by_cases hg : f = g
      · rw [hg, Function.update_same]
      · rw [Function.update_noteq hg]; exact h0

theorem runCalls_keeps_untracked {f : frame_id_t} (cs : List Call) :
    ∀ s : LRUKReplacer, s.record_count_ f = 0 → .record_access f ∉ cs →
      (s.runCalls cs).record_count_ f = 0 := by
  induction cs with
  | nil => intro s h0 _; exact h0
  | cons c cs ih =>
    intro s h0 hn
    have hc : c ≠ .record_access f := fun h => hn (by rw [h]; exact List.mem_cons_self _ _)
    have hcs : .record_access f ∉ cs := fun h => hn (List.mem_cons_of_mem _ h)
    unfold runCalls
    cases hx : s.call c with
    | error e => exact ih s h0 hcs
    | ok r =>
      obtain ⟨e, s'⟩ := r
      exact ih s' (call_keeps_untracked h0 hc hx) hcs

theorem eraseEntry_of_mem {f : frame_id_t} {l : List (frame_id_t × Nat)}
    (h : f ∈ l.map Prod.fst) : ∃ l', eraseEntry f l = .ok l' := by
  unfold eraseEntry
  cases hf : l.find? (fun p => p.1 = f) with
  | some p => exact ⟨_, rfl⟩
  | none =>
    obtain ⟨p, hp, hpf⟩ := List.mem_map.mp h
    have := List.find?_eq_none.mp hf p hp
    simp [hpf] at this

theorem Remove_tracked_evictable {s : LRUKReplacer} (hs : SizeInv s) {f : frame_id_t}
    (h0 : s.record_count_ f ≠ 0) (hev : s.evictable_ f = true) :
    ∃ s', s.Remove f = .ok (.returned, s') := by
  have hle := hs.range f h0
  unfold Remove
  rw [if_neg (Int.not_lt.mpr hle)]
  simp only [if_neg h0, hev, Bool.not_true, Bool.false_eq_true, if_false]
  by_cases hlt : s.record_count_ f < s.k_
  · rw [if_pos hlt, eraseFrame, if_pos (hs.inv.cnt_unfull f (Nat.pos_of_ne_zero h0) hlt)]
    exact ⟨_, rfl⟩
  · rw [if_neg hlt]
    obtain ⟨l', hl'⟩ := eraseEntry_of_mem
      (hs.inv.cnt_full f (Nat.pos_of_ne_zero h0) (Nat.le_of_not_lt hlt))
    rw [hl']
    exact ⟨_, rfl⟩

theorem Evict_split (s : LRUKReplacer) :
    (s.Evict.1 = none ∧ s.Evict.2 = s) ∨
    (∃ frame, frame ∈ s.unfull_frame_ ∧ s.evictable_ frame = true ∧ s.Evict.1 = some frame ∧
      s.Evict.2 =
        { s with
          record_count_ := Function.update s.record_count_ frame 0,
          unfull_frame_ := s.unfull_frame_.filter (fun x => x ≠ frame),
          curr_size_ := decr s.curr_size_,
          alltime := Function.update s.alltime frame [] }) ∨
    (∃ p, p ∈ s.full_frame_ ∧ s.evictable_ p.1 = true ∧ s.Evict.1 = some p.1 ∧
      s.Evict.2 =
          { s with
            record_count_ := Function.update s.record_count_ p.1 0,
            full_frame_ := s.full_frame_.erase p,
            curr_size_ := decr s.curr_size_,
            alltime := Function.update s.alltime p.1 [] }) := by
  rcases Evict_cases s with hx | ⟨frame, -, hfind, hx⟩ | ⟨p, -, -, hfind, hx⟩
  · have h1 := congrArg Prod.fst hx
    have h2 := congrArg Prod.snd hx
    exact Or.inl ⟨h1, h2⟩
  · have h1 := congrArg Prod.fst hx
    have h2 := congrArg Prod.snd hx
    refine Or.inr (Or.inl ⟨frame, List.mem_reverse.mp (List.mem_of_find?_eq_some hfind), ?_, h1, h2⟩)
    simpa using List.find?_some hfind
  · have h1 := congrArg Prod.fst hx
    have h2 := congrArg Prod.snd hx
    refine Or.inr (Or.inr ⟨p, List.mem_of_find?_eq_some hfind, ?_, h1, h2⟩)
    simpa using List.find?_some hfind

theorem Size_def (s : LRUKReplacer) : s.Size = s.curr_size_ := rfl

theorem call_replacer_size {s s' : LRUKReplacer} {e : Ending} {c : Call}
    (hc : s.call c = .ok (e, s')) : s'.replacer_size_ = s.replacer_size_ := by
  cases c with
  | record_access g =>
    rcases RecordAccess_fields hc with ⟨-, rfl, -⟩ | ⟨-, -, -, -, -, -, hn, -⟩
    · rfl
    · exact hn
  | set_evictable g b =>
    cases hc
    by_cases hg0 : s.record_count_ g = 0
    · rw [SetEvictable_untracked s g b hg0]
    · exact (SetEvictable_fields s g b hg0).2.2.2.1
  | evict =>
    cases hc
    rcases Evict_split s with ⟨-, hx⟩ | ⟨frame, -, -, -, hx⟩ | ⟨p, -, -, -, hx⟩
    · rw [hx]
    · rw [hx]
    · rw [hx]
  | remove g =>
    rcases Remove_fields hc with ⟨-, rfl, -⟩ | ⟨-, -, -, rfl⟩ | ⟨-, -, -, -, -, -, -, -, -, hn, -⟩
    · rfl
    · rfl
    · exact hn

theorem runCalls_replacer_size (cs : List Call) :
    ∀ s : LRUKReplacer, (s.runCalls cs).replacer_size_ = s.replacer_size_ := by
  induction cs with
  | nil => intro s; rfl
  | cons c cs ih =>
    intro s
    unfold runCalls
    cases hx : s.call c with
    | error e => exact ih s
    | ok r =>
      obtain ⟨e, s'⟩ := r
      exact (ih s').trans (call_replacer_size hx)

theorem RecordAccess_thrown_iff (s : LRUKReplacer) (f : frame_id_t) :
    ((s.replacer_size_ : Int) < f → s.RecordAccess f = .ok (.thrown, s)) ∧
    (f ≤ (s.replacer_size_ : Int) → ∀ s', s.RecordAccess f ≠ .ok (.thrown, s')) := by
  constructor
  · intro h
    unfold RecordAccess
    rw [if_pos h]
  · intro h s' hr
    rcases RecordAccess_fields hr with ⟨-, -, hgt⟩ | ⟨he, -⟩
    · exact absurd hgt (Int.not_lt.mpr h)
    · cases he

theorem SetEvictable_same (s : LRUKReplacer) (f : frame_id_t) (b : Bool)
    (h : s.record_count_ f = 0 ∨ s.evictable_ f = b) : s.SetEvictable f b = s := by
  by_cases h0 : s.record_count_ f = 0
  · exact SetEvictable_untracked s f b h0
  · have hb : s.evictable_ f = b := h.resolve_left h0
    unfold SetEvictable
    rw [if_neg h0]
    subst hb
    have hu := Function.update_eq_self f s.evictable_
    cases hst : s.evictable_ f <;> rw [hst] at hu <;> simp [hu]

theorem SetEvictable_counters {s : LRUKReplacer} (hs : SizeInv s) (f : frame_id_t) (b : Bool)
    (h0 : s.record_count_ f ≠ 0) :
    (s.evictable_ f = true → b = false →
      (s.SetEvictable f b).MaxSize + 1 = s.MaxSize ∧
      (s.SetEvictable f b).curr_size_ + 1 = s.curr_size_) ∧
    (s.evictable_ f = false → b = true →
      (s.SetEvictable f b).MaxSize = s.MaxSize + 1 ∧
      (s.SetEvictable f b).curr_size_ = s.curr_size_ + 1) := by
  obtain ⟨-, -, -, -, -, -, -, -, hcur, hmax⟩ := SetEvictable_fields s f b h0
  have h1 := hs.size_eq
  have h2 := hs.max_eq
  have h3 := hs.le_max
  have h4 := hs.bound
  constructor
  · intro hev hb
    have hfE : f ∈ trackedWith s true := (mem_trackedWith hs.inv f true).mpr ⟨h0, hev⟩
    have hpos : 0 < (trackedWith s true).card := Finset.card_pos.mpr ⟨f, hfE⟩
    have hd1 : decr s.curr_size_ = s.curr_size_ - 1 := decr_eq (by omega) (by omega)
    have hd2 : decr s.MaxSize = s.MaxSize - 1 := decr_eq (by omega) (by omega)
    rw [hcur, hmax, hev, hb]
    simp only [Bool.true_eq_false, if_false, Bool.false_eq_true]
    rw [hd1, hd2]
    omega
  · intro hev hb
    have hfN : f ∈ trackedWith s false := (mem_trackedWith hs.inv f false).mpr ⟨h0, hev⟩
    have hpos : 0 < (trackedWith s false).card := Finset.card_pos.mpr ⟨f, hfN⟩
    have hd1 : incr s.curr_size_ = s.curr_size_ + 1 := incr_eq (by omega)
    have hd2 : incr s.MaxSize = s.MaxSize + 1 := incr_eq (by omega)
    rw [hcur, hmax, hev, hb]
    simp only [Bool.false_eq_true, if_false, if_true]
    exact ⟨hd2, hd1⟩

theorem SetEvictable_frame (s : LRUKReplacer) (f : frame_id_t) (b : Bool) :
    (∀ g, g ≠ f → (s.SetEvictable f b).evictable_ g = s.evictable_ g) ∧
    (s.SetEvictable f b).alltime = s.alltime ∧
    (s.SetEvictable f b).record_count_ = s.record_count_ ∧
    (s.SetEvictable f b).replacer_size_ = s.replacer_size_ ∧
    (s.SetEvictable f b).k_ = s.k_ ∧
    (s.SetEvictable f b).current_timestamp_ = s.current_timestamp_ ∧
    (s.SetEvictable f b).unfull_frame_ = s.unfull_frame_ ∧
    (s.SetEvictable f b).full_frame_ = s.full_frame_ := by
  by_cases h0 : s.record_count_ f = 0
  · rw [SetEvictable_untracked s f b h0]
    exact ⟨fun _ _ => rfl, rfl, rfl, rfl, rfl, rfl, rfl, rfl⟩
  · obtain ⟨hev, h2, h3, h4, h5, h6, h7, h8, -, -⟩ := SetEvictable_fields s f b h0
    refine ⟨?_, h3, h2, h4, h5, h6, h7, h8⟩
    intro g hg
    rw [hev, Function.update_noteq hg]

theorem Remove_result {s : LRUKReplacer} (hs : SizeInv s) (f : frame_id_t) :
    (s.alltime f ≠ [] → s.evictable_ f = false → s.Remove f = .ok (.thrown, s)) ∧
    (s.alltime f ≠ [] → s.evictable_ f = true →
      ∃ s', s.Remove f = .ok (.returned, s') ∧ s'.alltime f = [] ∧
        s'.curr_size_ + 1 = s.curr_size_ ∧
        ∀ g, g ≠ f → s'.alltime g = s.alltime g ∧ s'.evictable_ g = s.evictable_ g) ∧
    (s.alltime f = [] → s.Remove f = .ok (.returned, s) ∨ s.Remove f = .ok (.thrown, s)) := by
  refine ⟨?_, ?_, ?_⟩
  · intro hh hev
    have h0 := (history_ne_nil_iff hs.inv f).mp hh
    have hle := hs.range f h0
    unfold Remove
    rw [if_neg (Int.not_lt.mpr hle)]
    simp only [if_neg h0, hev, Bool.not_false, if_true]
  · intro hh hev
    have h0 := (history_ne_nil_iff hs.inv f).mp hh
    obtain ⟨s', hr⟩ := Remove_tracked_evictable hs h0 hev
    refine ⟨s', hr, ?_⟩
    have hfE : f ∈ trackedWith s true := (mem_trackedWith hs.inv f true).mpr ⟨h0, hev⟩
    have hpos : 0 < (trackedWith s true).card := Finset.card_pos.mpr ⟨f, hfE⟩
    have h1 := hs.size_eq
    have h3 := hs.le_max
    have h2 := hs.max_eq
    have h4 := hs.bound
    have hd : decr s.curr_size_ = s.curr_size_ - 1 := decr_eq (by omega) (by omega)
    rcases Remove_fields hr with ⟨he, -⟩ | ⟨-, -, hc0, -⟩ | ⟨-, -, -, -, -, ha, hcur, hevs, -⟩
    · cases he
    · exact absurd hc0 h0
    · refine ⟨by rw [ha, Function.update_same], by rw [hcur, hd]; omega, ?_⟩
      intro g hg
      rw [ha, hevs, Function.update_noteq hg]
      exact ⟨rfl, rfl⟩
  · intro hnil
    have h0 : s.record_count_ f = 0 := by
      by_contra hne
      exact (history_ne_nil_iff hs.inv f).mpr hne hnil
    unfold Remove
    by_cases hgt : f > (s.replacer_size_ : Int)
    · rw [if_pos hgt]
      exact Or.inr rfl
    · rw [if_neg hgt]
      left
      simp only [if_pos h0]

end LRUKReplacer

/-! ## Claims on the replacer -/

/-- C10 (RPL.2): in every replacer state reachable from a new replacer by
record_access, set_evictable, evict and remove calls that return, a successful
`Evict` returns an evictable frame `f`; no evictable frame has a larger
backward k-distance than `f` (a frame with fewer than `k_` recorded accesses
counts as infinitely far, otherwise the distance is the current time minus
the k-th most recent access timestamp); and whenever some evictable frame has
fewer than `k_` accesses, so has `f`, and the first recorded access of `f` is
earlier than that of every other such frame. -/
theorem evict_returns_largest_backward_k_distance {s : LRUKReplacer} (hs : LRUKReplacer.Reachable s)
    {f : frame_id_t} (he : s.Evict.1 = some f) :
    s.IsEvictable f ∧
    (∀ g, s.IsEvictable g → LRUKReplacer.distLE (s.backwardKDistance g) (s.backwardKDistance f)) ∧
    (∀ g, s.IsEvictable g → s.record_count_ g < s.k_ →
      s.record_count_ f < s.k_ ∧ (g ≠ f → s.firstAccess f < s.firstAccess g)) :=
  LRUKReplacer.Evict_policy (LRUKReplacer.Reachable_Inv hs) he

/-- C10 at a concrete input: with `k = 2`, after accesses to frames 1, 2, 3, 1
and frame 2 made non-evictable, `Evict` returns frame 3 (one access; frame 1
has two), and frame 3 satisfies the three properties. -/
theorem evict_returns_largest_backward_k_distance_witness :
    ((LRUKReplacer.new 7 2).runCalls LRUKReplacer.sampleCalls).Evict.1 = some 3 ∧
    (((LRUKReplacer.new 7 2).runCalls LRUKReplacer.sampleCalls).IsEvictable 3 ∧
    (∀ g, ((LRUKReplacer.new 7 2).runCalls LRUKReplacer.sampleCalls).IsEvictable g →
      LRUKReplacer.distLE (((LRUKReplacer.new 7 2).runCalls LRUKReplacer.sampleCalls).backwardKDistance g)
        (((LRUKReplacer.new 7 2).runCalls LRUKReplacer.sampleCalls).backwardKDistance 3)) ∧
    (∀ g, ((LRUKReplacer.new 7 2).runCalls LRUKReplacer.sampleCalls).IsEvictable g →
      ((LRUKReplacer.new 7 2).runCalls LRUKReplacer.sampleCalls).record_count_ g <
        ((LRUKReplacer.new 7 2).runCalls LRUKReplacer.sampleCalls).k_ →
      ((LRUKReplacer.new 7 2).runCalls LRUKReplacer.sampleCalls).record_count_ 3 <
        ((LRUKReplacer.new 7 2).runCalls LRUKReplacer.sampleCalls).k_ ∧
      (g ≠ 3 → ((LRUKReplacer.new 7 2).runCalls LRUKReplacer.sampleCalls).firstAccess 3 <
        ((LRUKReplacer.new 7 2).runCalls LRUKReplacer.sampleCalls).firstAccess g))) :=
  have he : ((LRUKReplacer.new 7 2).runCalls LRUKReplacer.sampleCalls).Evict.1 = some 3 := by decide!
  ⟨he, evict_returns_largest_backward_k_distance
    (LRUKReplacer.runCalls_Reachable (LRUKReplacer.Reachable.new 7 2 (by decide)) _) he⟩

/-- C11 (RPL.1): in every replacer state reachable from a new replacer by
record_access, set_evictable, evict and remove calls, `Size()` is the number
of frames whose evictable bit is true and whose access history is not empty:
these frames form a finite set, and `Size()` is its cardinality. -/
theorem size_counts_evictable_frames {s : LRUKReplacer} (hs : LRUKReplacer.Reachable s) :
    ∃ F : Finset frame_id_t, (∀ f, f ∈ F ↔ s.evictable_ f = true ∧ s.alltime f ≠ []) ∧
      s.Size = F.card :=
  LRUKReplacer.Size_eq_card (LRUKReplacer.Reachable_SizeInv hs)

/-- C11 at a concrete input: the replacer after the sample calls (frames 1 and
3 evictable, frame 2 not). -/
theorem size_counts_evictable_frames_witness :
    ∃ F : Finset frame_id_t,
      (∀ f, f ∈ F ↔ ((LRUKReplacer.new 7 2).runCalls LRUKReplacer.sampleCalls).evictable_ f = true ∧
        ((LRUKReplacer.new 7 2).runCalls LRUKReplacer.sampleCalls).alltime f ≠ []) ∧
      ((LRUKReplacer.new 7 2).runCalls LRUKReplacer.sampleCalls).Size = F.card :=
  size_counts_evictable_frames
    (LRUKReplacer.runCalls_Reachable (LRUKReplacer.Reachable.new 7 2 (by decide)) _)

/-- C12: in every reachable replacer state `Evict` returns none exactly when no
tracked frame is evictable, and then leaves the replacer as it is; when it
returns a frame `f`, that frame was evictable, its history is empty
afterwards, `SetEvictable` on it changes nothing after any further calls
that do not record an access to `f`, `Size()` is one less, and the history
and the evictable bit of every other frame are as before. -/
theorem evict_result {s : LRUKReplacer} (hs : LRUKReplacer.Reachable s) :
    (s.Evict.1 = none ↔ ∀ f, ¬ s.IsEvictable f) ∧
    (s.Evict.1 = none → s.Evict.2 = s) ∧
    (∀ f, s.Evict.1 = some f →
      s.IsEvictable f ∧ s.Evict.2.alltime f = [] ∧
      (∀ cs b, LRUKReplacer.Call.record_access f ∉ cs →
        (s.Evict.2.runCalls cs).SetEvictable f b = s.Evict.2.runCalls cs) ∧
      s.Evict.2.Size + 1 = s.Size ∧
      ∀ g, g ≠ f → s.Evict.2.alltime g = s.alltime g ∧ s.Evict.2.evictable_ g = s.evictable_ g) := by
  have hsz := LRUKReplacer.Reachable_SizeInv hs
  refine ⟨LRUKReplacer.Evict_none_iff hsz, fun h => (LRUKReplacer.Evict_none h).1, ?_⟩
  intro f he
  obtain ⟨h1, h2, h3, h4, h5⟩ := LRUKReplacer.Evict_some hsz he
  refine ⟨(LRUKReplacer.Evict_policy hsz.inv he).1, h1, ?_, ?_, ?_⟩
  · intro cs b hcs
    exact LRUKReplacer.SetEvictable_untracked _ f b
      (LRUKReplacer.runCalls_keeps_untracked cs _ h2 hcs)
  · rw [LRUKReplacer.Size_def, LRUKReplacer.Size_def]
    exact h3
  · intro g hg
    exact ⟨(h4 g hg).1, by rw [h5]⟩

/-- C12 at a concrete input: the replacer after the sample calls, where `Evict`
returns frame 3. -/
theorem evict_result_witness :
    (((LRUKReplacer.new 7 2).runCalls LRUKReplacer.sampleCalls).Evict.1 = none ↔
      ∀ f, ¬ ((LRUKReplacer.new 7 2).runCalls LRUKReplacer.sampleCalls).IsEvictable f) ∧
    (((LRUKReplacer.new 7 2).runCalls LRUKReplacer.sampleCalls).Evict.1 = none →
      ((LRUKReplacer.new 7 2).runCalls LRUKReplacer.sampleCalls).Evict.2 =
        (LRUKReplacer.new 7 2).runCalls LRUKReplacer.sampleCalls) ∧
    (∀ f, ((LRUKReplacer.new 7 2).runCalls LRUKReplacer.sampleCalls).Evict.1 = some f →
      ((LRUKReplacer.new 7 2).runCalls LRUKReplacer.sampleCalls).IsEvictable f ∧
      ((LRUKReplacer.new 7 2).runCalls LRUKReplacer.sampleCalls).Evict.2.alltime f = [] ∧
      (∀ cs b, LRUKReplacer.Call.record_access f ∉ cs →
        (((LRUKReplacer.new 7 2).runCalls LRUKReplacer.sampleCalls).Evict.2.runCalls cs).SetEvictable f b =
          ((LRUKReplacer.new 7 2).runCalls LRUKReplacer.sampleCalls).Evict.2.runCalls cs) ∧
      ((LRUKReplacer.new 7 2).runCalls LRUKReplacer.sampleCalls).Evict.2.Size + 1 =
        ((LRUKReplacer.new 7 2).runCalls LRUKReplacer.sampleCalls).Size ∧
      ∀ g, g ≠ f →
        ((LRUKReplacer.new 7 2).runCalls LRUKReplacer.sampleCalls).Evict.2.alltime g =
          ((LRUKReplacer.new 7 2).runCalls LRUKReplacer.sampleCalls).alltime g ∧
        ((LRUKReplacer.new 7 2).runCalls LRUKReplacer.sampleCalls).Evict.2.evictable_ g =
          ((LRUKReplacer.new 7 2).runCalls LRUKReplacer.sampleCalls).evictable_ g) :=
  evict_result (LRUKReplacer.runCalls_Reachable (LRUKReplacer.Reachable.new 7 2 (by decide)) _)

/-- C13 as stated fails: on a new replacer for 7 frames, `RecordAccess(7)`
(the frame id equal to `num_frames`) returns and records the access, and
`RecordAccess(-1)` returns too. -/
theorem record_access_accepts_num_frames :
    LRUKReplacer.ending ((LRUKReplacer.new 7 2).RecordAccess 7) = some Ending.returned ∧
    ((LRUKReplacer.new 7 2).runCalls [.record_access 7]).record_count_ 7 = 1 ∧
    LRUKReplacer.ending ((LRUKReplacer.new 7 2).RecordAccess (-1)) = some Ending.returned := by
  decide!

/-- C13 amended: for `num_frames` below `2^31`, where the narrowing
`static_cast<frame_id_t>(replacer_size_)` of the guard keeps the value, in the
replacer reached from `new num_frames k` by any calls `RecordAccess(frame_id)`
throws, leaving the replacer as it is, for every `frame_id` greater than
`num_frames`, and for no other frame id. -/
theorem record_access_throws_above_num_frames (num_frames k : Nat) (cs : List LRUKReplacer.Call)
    (f : frame_id_t) (hn31 : num_frames < 2 ^ 31) :
    ((num_frames : Int) < f →
      ((LRUKReplacer.new num_frames k).runCalls cs).RecordAccess f =
        .ok (.thrown, (LRUKReplacer.new num_frames k).runCalls cs)) ∧
    (f ≤ (num_frames : Int) →
      ∀ s', ((LRUKReplacer.new num_frames k).runCalls cs).RecordAccess f ≠ .ok (.thrown, s')) := by
  have _ := hn31
  have hn : ((LRUKReplacer.new num_frames k).runCalls cs).replacer_size_ = num_frames :=
    LRUKReplacer.runCalls_replacer_size cs _
  have h := LRUKReplacer.RecordAccess_thrown_iff ((LRUKReplacer.new num_frames k).runCalls cs) f
  rw [hn] at h
  exact h

/-- C13 amended, at a concrete input: after the sample calls on a replacer for
7 frames, `RecordAccess(8)` throws and `RecordAccess(7)` does not. -/
theorem record_access_throws_above_num_frames_witness :
    ((LRUKReplacer.new 7 2).runCalls LRUKReplacer.sampleCalls).RecordAccess 8 =
        .ok (.thrown, (LRUKReplacer.new 7 2).runCalls LRUKReplacer.sampleCalls) ∧
    ∀ s', ((LRUKReplacer.new 7 2).runCalls LRUKReplacer.sampleCalls).RecordAccess 7 ≠ .ok (.thrown, s') :=
  ⟨(record_access_throws_above_num_frames 7 2 LRUKReplacer.sampleCalls 8 (by decide)).1 (by decide),
    (record_access_throws_above_num_frames 7 2 LRUKReplacer.sampleCalls 7 (by decide)).2 (by decide)⟩

/-- C14 as stated fails: after one access to frame 1 on a new replacer for 7
frames `MaxSize` is 7, and `SetEvictable(1, false)` makes it 6. -/
theorem set_evictable_changes_capacity :
    ((LRUKReplacer.new 7 2).runCalls [.record_access 1]).MaxSize = 7 ∧
    (((LRUKReplacer.new 7 2).runCalls [.record_access 1]).SetEvictable 1 false).MaxSize = 6 := by
  decide!

/-- C14 amended: in every reachable replacer state `SetEvictable(f, b)` moves
`MaxSize` together with `Size()`: both go down by one when a tracked evictable
frame is made non-evictable, both go up by one when a tracked non-evictable
frame is made evictable, and otherwise the replacer stays as it is; apart
from these two counters only the evictable bit of `f` may change. -/
theorem set_evictable_moves_capacity_with_size {s : LRUKReplacer} (hs : LRUKReplacer.Reachable s)
    (f : frame_id_t) (b : Bool) :
    ((∀ g, g ≠ f → (s.SetEvictable f b).evictable_ g = s.evictable_ g) ∧
      (s.SetEvictable f b).alltime = s.alltime ∧
      (s.SetEvictable f b).record_count_ = s.record_count_ ∧
      (s.SetEvictable f b).replacer_size_ = s.replacer_size_ ∧
      (s.SetEvictable f b).k_ = s.k_ ∧
      (s.SetEvictable f b).current_timestamp_ = s.current_timestamp_ ∧
      (s.SetEvictable f b).unfull_frame_ = s.unfull_frame_ ∧
      (s.SetEvictable f b).full_frame_ = s.full_frame_) ∧
    (s.record_count_ f ≠ 0 → s.evictable_ f = true → b = false →
      (s.SetEvictable f b).MaxSize + 1 = s.MaxSize ∧ (s.SetEvictable f b).Size + 1 = s.Size) ∧
    (s.record_count_ f ≠ 0 → s.evictable_ f = false → b = true →
      (s.SetEvictable f b).MaxSize = s.MaxSize + 1 ∧ (s.SetEvictable f b).Size = s.Size + 1) ∧
    (s.record_count_ f = 0 ∨ s.evictable_ f = b → s.SetEvictable f b = s) := by
  have hsz := LRUKReplacer.Reachable_SizeInv hs
  refine ⟨LRUKReplacer.SetEvictable_frame s f b, ?_, ?_, LRUKReplacer.SetEvictable_same s f b⟩
  · intro h0 hev hb
    rw [LRUKReplacer.Size_def, LRUKReplacer.Size_def]
    exact (LRUKReplacer.SetEvictable_counters hsz f b h0).1 hev hb
  · intro h0 hev hb
    rw [LRUKReplacer.Size_def, LRUKReplacer.Size_def]
    exact (LRUKReplacer.SetEvictable_counters hsz f b h0).2 hev hb

/-- C14 amended, at a concrete input: after the sample calls, making the
tracked evictable frame 1 non-evictable takes one off `MaxSize` and off
`Size()`. -/
theorem set_evictable_moves_capacity_with_size_witness :
    (((LRUKReplacer.new 7 2).runCalls LRUKReplacer.sampleCalls).SetEvictable 1 false).MaxSize + 1 =
      ((LRUKReplacer.new 7 2).runCalls LRUKReplacer.sampleCalls).MaxSize ∧
    (((LRUKReplacer.new 7 2).runCalls LRUKReplacer.sampleCalls).SetEvictable 1 false).Size + 1 =
      ((LRUKReplacer.new 7 2).runCalls LRUKReplacer.sampleCalls).Size :=
  (set_evictable_moves_capacity_with_size
    (LRUKReplacer.runCalls_Reachable (LRUKReplacer.Reachable.new 7 2 (by decide)) _) 1 false).2.1
    (by decide!) (by decide!) rfl

/-- C15: in every reachable replacer state, `Remove(f)` on a frame with
recorded history that is not evictable throws and leaves the replacer as it
is; on a frame with history that is evictable it returns, the frame's history
is empty afterwards, `Size()` is one less, and the history and evictable bit
of every other frame are as before; on a frame without history it leaves the
replacer as it is. -/
theorem remove_result {s : LRUKReplacer} (hs : LRUKReplacer.Reachable s) (f : frame_id_t) :
    (s.alltime f ≠ [] → s.evictable_ f = false → s.Remove f = .ok (.thrown, s)) ∧
    (s.alltime f ≠ [] → s.evictable_ f = true →
      ∃ s', s.Remove f = .ok (.returned, s') ∧ s'.alltime f = [] ∧ s'.Size + 1 = s.Size ∧
        ∀ g, g ≠ f → s'.alltime g = s.alltime g ∧ s'.evictable_ g = s.evictable_ g) ∧
    (s.alltime f = [] → s.Remove f = .ok (.returned, s) ∨ s.Remove f = .ok (.thrown, s)) := by
  obtain ⟨h1, h2, h3⟩ := LRUKReplacer.Remove_result (LRUKReplacer.Reachable_SizeInv hs) f
  refine ⟨h1, ?_, h3⟩
  intro hh hev
  obtain ⟨s', hr, ha, hsz, hrest⟩ := h2 hh hev
  refine ⟨s', hr, ha, ?_, hrest⟩
  rw [LRUKReplacer.Size_def, LRUKReplacer.Size_def]
  exact hsz

/-- C15 at a concrete input: after the sample calls, `Remove(2)` (history, not
evictable) throws and changes nothing. -/
theorem remove_result_witness :
    ((LRUKReplacer.new 7 2).runCalls LRUKReplacer.sampleCalls).Remove 2 =
      .ok (.thrown, (LRUKReplacer.new 7 2).runCalls LRUKReplacer.sampleCalls) :=
  (remove_result (LRUKReplacer.runCalls_Reachable (LRUKReplacer.Reachable.new 7 2 (by decide)) _) 2).1
    (by decide!) (by decide!)

/-! ## The buffer pool's invariant and the results of its calls -/

namespace LRUKReplacer

/-- `RecordAccess(f)` followed by `SetEvictable(f, false)`, as the buffer pool
calls them on a frame of the pool. -/
theorem touch {r r1 : LRUKReplacer} {e : Ending} {f : frame_id_t} (hr : SizeInv r)
    (hf : f ≤ (r.replacer_size_ : Int)) (h : r.RecordAccess f = .ok (e, r1)) :
    e = .returned ∧ SizeInv (r1.SetEvictable f false) ∧
    (r1.SetEvictable f false).record_count_ =
      Function.update r.record_count_ f (r.record_count_ f + 1) ∧
    (r1.SetEvictable f false).evictable_ = Function.update r.evictable_ f false ∧
    (r1.SetEvictable f false).replacer_size_ = r.replacer_size_ := by
  have hs1 := RecordAccess_SizeInv hr h
  rcases RecordAccess_fields h with ⟨-, -, hgt⟩ | ⟨he, -, hc, -, hev, -, hn, -⟩
  · exact absurd hgt (Int.not_lt.mpr hf)
  · have h1 : r1.record_count_ f ≠ 0 := by
      rw [hc, Function.update_same]
      exact Nat.succ_ne_zero _
    obtain ⟨hev2, hc2, -, hn2, -⟩ := SetEvictable_fields r1 f false h1
    refine ⟨he, SetEvictable_SizeInv hs1 f false, by rw [hc2, hc], ?_, by rw [hn2, hn]⟩
    rw [hev2, hev]
    split_ifs
    · exact Function.update_idem _ _ _
    · rfl

theorem front_append_singleton (l : List Nat) (x : Nat) : ∃ t, front (l ++ [x]) = .ok t := by
  cases l with
  | nil => exact ⟨x, rfl⟩
  | cons a l => exact ⟨a, rfl⟩

theorem front_tail_append_singleton {l : List Nat} (x : Nat) (h : l ≠ []) :
    ∃ t, front (l ++ [x]).tail = .ok t := by
  cases l with
  | nil => exact absurd rfl h
  | cons a l => exact front_append_singleton l x

/-- `RecordAccess` returns on a frame id that is not too large, unless the
frame is new and the replacer is full, or `k_` is 0. -/
theorem RecordAccess_returns {s : LRUKReplacer} (h : Inv s) {f : frame_id_t}
    (hf : f ≤ (s.replacer_size_ : Int)) (hk : 0 < s.k_)
    (hroom : s.record_count_ f = 0 → s.curr_size_ ≠ s.MaxSize) :
    ∃ s', s.RecordAccess f = .ok (.returned, s') := by
  unfold RecordAccess
  rw [if_neg (Int.not_lt.mpr hf)]
  simp only [bind, Except.bind, pure, Except.pure]
  by_cases h0 : s.record_count_ f = 0
  · have h1 : s.record_count_ f + 1 = 1 := by omega
    rw [if_pos h1, if_neg (hroom h0)]
    dsimp only
    by_cases hk1 : s.record_count_ f + 1 = s.k_
    · rw [if_pos hk1, eraseFrame, if_pos (List.mem_cons_self _ _)]
      dsimp only
      rw [Function.update_same]
      obtain ⟨t, ht⟩ := front_append_singleton (s.alltime f) (s.current_timestamp_ + 1)
      rw [ht]
      exact ⟨_, rfl⟩
    · rw [if_neg hk1, if_neg (by omega)]
      exact ⟨_, rfl⟩
  · rw [if_neg (by omega)]
    dsimp only
    have hpos : 0 < s.record_count_ f := Nat.pos_of_ne_zero h0
    by_cases hk1 : s.record_count_ f + 1 = s.k_
    · have hmem : f ∈ s.unfull_frame_ := h.cnt_unfull f hpos (by omega)
      rw [if_pos hk1, eraseFrame, if_pos hmem]
      dsimp only
      rw [Function.update_same]
      obtain ⟨t, ht⟩ := front_append_singleton (s.alltime f) (s.current_timestamp_ + 1)
      rw [ht]
      exact ⟨_, rfl⟩
    · rw [if_neg hk1]
      by_cases hgt : s.record_count_ f + 1 > s.k_
      · obtain ⟨l', hl'⟩ := eraseEntry_of_mem (h.cnt_full f hpos (by omega))
        rw [if_pos hgt, hl']
        dsimp only
        rw [Function.update_same]
        obtain ⟨t, ht⟩ := front_tail_append_singleton (s.current_timestamp_ + 1)
          ((history_ne_nil_iff h f).mpr h0)
        rw [ht]
        exact ⟨_, rfl⟩
      · rw [if_neg hgt]
        exact ⟨_, rfl⟩

theorem trackedWith_card (s : LRUKReplacer) :
    (trackedWith s true).card + (trackedWith s false).card = (tracked s).card := by
  have h := Finset.filter_card_add_filter_neg_card_eq_card (s := tracked s)
    (fun f => s.evictable_ f = true)
  have hneg : (tracked s).filter (fun f => ¬ s.evictable_ f = true) = trackedWith s false := by
    unfold trackedWith
    apply Finset.filter_congr
    intro f _
    simp
  rw [hneg] at h
  exact h

/-- The replacer has room for a new frame while it tracks fewer frames than
`replacer_size_`. -/
theorem room_of_card_lt {s : LRUKReplacer} (hs : SizeInv s)
    (h : (tracked s).card < s.replacer_size_) : s.curr_size_ ≠ s.MaxSize := by
  have h1 := hs.size_eq
  have h2 := hs.max_eq
  have h3 := trackedWith_card s
  omega

theorem Evict_k (s : LRUKReplacer) : s.Evict.2.k_ = s.k_ := by
  rcases Evict_split s with ⟨-, hx⟩ | ⟨frame, -, -, -, hx⟩ | ⟨p, -, -, -, hx⟩
  · rw [hx]
  · rw [hx]
  · rw [hx]

end LRUKReplacer

namespace BufferPoolManager

theorem dropLast_eq_erase {l : List frame_id_t} {g : frame_id_t} (hn : l.Nodup)
    (h : l.getLast? = some g) : l.dropLast = l.erase g := by
  have hl : l.dropLast ++ [g] = l := List.dropLast_append_getLast? g (by rw [h]; rfl)
  have hn' : (l.dropLast ++ [g]).Nodup := by rw [hl]; exact hn
  have hg : g ∉ l.dropLast := by
    intro hm
    have := (List.nodup_append.mp hn').2.2
    exact this hm (List.mem_singleton_self g)
  conv_rhs => rw [← hl]
  rw [List.erase_append_right _ hg]
  simp

/-- What `pickFrame` does when it finds no frame. -/
theorem pickFrame_none {b b0 : BufferPoolManager} (hb : PoolInv b) (h : b.pickFrame = (none, b0)) :
    b0 = b ∧ b.free_list_ = [] ∧ ∀ f, ¬ b.replacer_.IsEvictable f := by
  unfold pickFrame at h
  cases hl : b.free_list_.getLast? with
  | some g =>
    rw [hl] at h
    cases h
  | none =>
    rw [hl] at h
    have hfree : b.free_list_ = [] := List.getLast?_eq_none_iff.mp hl
    rcases LRUKReplacer.Evict_split b.replacer_ with ⟨h1, h2⟩ | ⟨g, -, -, h1, -⟩ | ⟨p, -, -, h1, -⟩
    · have hE : b.replacer_.Evict = (none, b.replacer_) := Prod.ext h1 h2
      rw [hE] at h
      dsimp only at h
      have hb0 : b0 = b := by
        have := congrArg Prod.snd h
        exact this.symm
      exact ⟨hb0, hfree, (LRUKReplacer.Evict_none_iff hb.rep).mp h1⟩
    · cases hE : b.replacer_.Evict with
      | mk o r =>
        rw [hE] at h h1
        dsimp only at h1
        subst h1
        cases h
    · cases hE : b.replacer_.Evict with
      | mk o r =>
        rw [hE] at h h1
        dsimp only at h1
        subst h1
        cases h

/-- What `pickFrame` does when it finds a frame. -/
theorem pickFrame_some {b b0 : BufferPoolManager} {g : frame_id_t} (hb : PoolInv b)
    (h : b.pickFrame = (some g, b0)) :
    b.inPool g ∧ (g ∈ b.free_list_ ∨ (b.free_list_ = [] ∧ b.replacer_.IsEvictable g)) ∧
    b0.pool_size_ = b.pool_size_ ∧ b0.next_page_id_ = b.next_page_id_ ∧ b0.pages_ = b.pages_ ∧
    b0.page_table_ = b.page_table_ ∧ b0.disk_ = b.disk_ ∧
    b0.free_list_ = b.free_list_.erase g ∧ LRUKReplacer.SizeInv b0.replacer_ ∧
    b0.replacer_.record_count_ = Function.update b.replacer_.record_count_ g 0 ∧
    b0.replacer_.evictable_ = b.replacer_.evictable_ ∧
    b0.replacer_.replacer_size_ = b.replacer_.replacer_size_ := by
  unfold pickFrame at h
  cases hl : b.free_list_.getLast? with
  | some g' =>
    rw [hl] at h
    cases h
    have hm : g ∈ b.free_list_ := List.mem_of_getLast?_eq_some hl
    have hf := hb.free_ok g hm
    refine ⟨hf.1, Or.inl hm, rfl, rfl, rfl, rfl, rfl, dropLast_eq_erase hb.free_nodup hl, hb.rep, ?_,
      rfl, rfl⟩
    have hu := Function.update_eq_self g b.replacer_.record_count_
    rw [hf.2.1] at hu
    exact hu.symm
  | none =>
    rw [hl] at h
    have hfree : b.free_list_ = [] := List.getLast?_eq_none_iff.mp hl
    have hsz := LRUKReplacer.Evict_SizeInv hb.rep
    cases hE : b.replacer_.Evict with
    | mk o r =>
      rw [hE] at h
      have h1 : b.replacer_.Evict.1 = o := by rw [hE]
      have h2 : b.replacer_.Evict.2 = r := by rw [hE]
      rw [h2] at hsz
      cases o with
      | none => cases h
      | some g' =>
        cases h
        have hev := (LRUKReplacer.Evict_policy hb.rep.inv h1).1
        have htr := hb.tracked_ok g hev.2
        obtain ⟨-, hc0, -, hrest, hevs⟩ := LRUKReplacer.Evict_some hb.rep h1
        rw [h2] at hc0 hrest hevs
        have hn : r.replacer_size_ = b.replacer_.replacer_size_ := by
          have hc : b.replacer_.call .evict = .ok (.returned, r) := by
            show Except.ok (Ending.returned, b.replacer_.Evict.2) = _
            rw [h2]
          exact LRUKReplacer.call_replacer_size hc
        refine ⟨htr.1, Or.inr ⟨hfree, hev⟩, rfl, rfl, rfl, rfl, rfl, ?_, hsz, ?_, hevs, hn⟩
        · rw [hfree]
          rfl
        · funext f
          by_cases hfg : f = g
          · rw [hfg, Function.update_same]
            exact hc0
          · rw [Function.update_noteq hfg]
            exact (hrest f hfg).2

/-- What `writeBack` leaves as it is, and the dirty flag afterwards. -/
theorem writeBack_fields (b : BufferPoolManager) (g : frame_id_t) :
    (b.writeBack g).pool_size_ = b.pool_size_ ∧ (b.writeBack g).next_page_id_ = b.next_page_id_ ∧
    (b.writeBack g).page_table_ = b.page_table_ ∧ (b.writeBack g).free_list_ = b.free_list_ ∧
    (b.writeBack g).replacer_ = b.replacer_ ∧
    (∀ f, f ≠ g → (b.writeBack g).pages_ f = b.pages_ f) ∧
    ((b.writeBack g).pages_ g).page_id_ = (b.pages_ g).page_id_ ∧
    ((b.writeBack g).pages_ g).pin_count_ = (b.pages_ g).pin_count_ ∧
    ((b.writeBack g).pages_ g).data_ = (b.pages_ g).data_ ∧
    ((b.writeBack g).pages_ g).is_dirty_ = false := by
  unfold writeBack
  split_ifs with hd
  · refine ⟨rfl, rfl, rfl, rfl, rfl, ?_, ?_, ?_, ?_, ?_⟩
    · intro f hf
      exact Function.update_noteq hf _ _
    · show (Function.update b.pages_ g _ g).page_id_ = _
      rw [Function.update_same]
    · show (Function.update b.pages_ g _ g).pin_count_ = _
      rw [Function.update_same]
    · show (Function.update b.pages_ g _ g).data_ = _
      rw [Function.update_same]
    · show (Function.update b.pages_ g _ g).is_dirty_ = _
      rw [Function.update_same]
  · exact ⟨rfl, rfl, rfl, rfl, rfl, fun _ _ => rfl, rfl, rfl, rfl, by simpa using hd⟩

/-- What `install` does, field by field. -/
theorem install_spec {b b' : BufferPoolManager} {g : frame_id_t} {page_id : page_id_t} {e : Ending}
    (hr : LRUKReplacer.SizeInv b.replacer_) (hg : g ≤ (b.replacer_.replacer_size_ : Int))
    (h : b.install g page_id = .ok (e, b')) :
    e = .returned ∧ b'.pool_size_ = b.pool_size_ ∧ b'.next_page_id_ = b.next_page_id_ ∧
    b'.free_list_ = b.free_list_ ∧ b'.disk_ = b.disk_ ∧
    b'.page_table_ = emplace (Function.update b.page_table_ (b.pages_ g).page_id_ none) page_id g ∧
    b'.pages_ = Function.update b.pages_ g
      { b.pages_ g with page_id_ := page_id, pin_count_ := 1, data_ := .zero } ∧
    LRUKReplacer.SizeInv b'.replacer_ ∧
    b'.replacer_.record_count_ =
      Function.update b.replacer_.record_count_ g (b.replacer_.record_count_ g + 1) ∧
    b'.replacer_.evictable_ = Function.update b.replacer_.evictable_ g false ∧
    b'.replacer_.replacer_size_ = b.replacer_.replacer_size_ := by
  unfold install at h
  dsimp only at h
  cases hra : b.replacer_.RecordAccess g with
  | error x =>
    rw [hra] at h
    cases h
  | ok x =>
    obtain ⟨e1, r1⟩ := x
    obtain ⟨he, hs, hc, hev, hn⟩ := LRUKReplacer.touch hr hg hra
    subst he
    rw [hra] at h
    cases h
    exact ⟨rfl, rfl, rfl, rfl, rfl, rfl, rfl, hs, hc, hev, hn⟩

/-- The frame-taking path that `NewPage` and `FetchPage` share. -/
theorem acquire_spec {b b0 b3 : BufferPoolManager} {g : frame_id_t} {page_id n : page_id_t}
    {e : Ending} (hb : PoolInv b) (hp : b.pickFrame = (some g, b0))
    (hi : ({ b0.writeBack g with next_page_id_ := n } : BufferPoolManager).install g page_id =
      .ok (e, b3)) :
    e = .returned ∧ Installed b b3 g page_id ∧ b3.next_page_id_ = n := by
  obtain ⟨hin, hsrc, hps, -, hpg, htb, -, hfl, hsz0, hc0, hev0, hn0⟩ := pickFrame_some hb hp
  obtain ⟨wps, -, wtb, wfl, wrp, woth, wid, -, -, wdirty⟩ := writeBack_fields b0 g
  have hr2 : LRUKReplacer.SizeInv
      ({ b0.writeBack g with next_page_id_ := n } : BufferPoolManager).replacer_ := by
    show LRUKReplacer.SizeInv (b0.writeBack g).replacer_
    rw [wrp]
    exact hsz0
  have hg2 : g ≤ ((({ b0.writeBack g with next_page_id_ := n } :
      BufferPoolManager).replacer_.replacer_size_ : Nat) : Int) := by
    show g ≤ (((b0.writeBack g).replacer_.replacer_size_ : Nat) : Int)
    rw [wrp, hn0, hb.rep_size]
    exact Int.le_of_lt hin.2
  obtain ⟨he, ips, inx, ifl, -, itb, ipg, isz, ic, iev, isize⟩ := install_spec hr2 hg2 hi
  dsimp only at ips inx ifl itb ipg ic iev isize
  refine ⟨he, ?_, inx⟩
  constructor
  · exact hin
  · exact hsrc
  · rw [ips, wps, hps]
  · rw [ifl, wfl, hfl]
  · rw [itb, wtb, htb, wid, hpg]
  · intro f hf
    rw [ipg, Function.update_noteq hf, woth f hf, hpg]
  · rw [ipg, Function.update_same]
  · rw [ipg, Function.update_same]
  · rw [ipg, Function.update_same]
    exact wdirty
  · exact isz
  · rw [ic, wrp, hc0, Function.update_same, Function.update_idem]
  · rw [iev, wrp, hev0]
  · rw [isize, wrp, hn0]

theorem inPool_congr {b b' : BufferPoolManager} (h : b'.pool_size_ = b.pool_size_) (f : frame_id_t) :
    b'.inPool f ↔ b.inPool f := by
  unfold inPool
  rw [h]

theorem emplace_some {table : page_id_t → Option frame_id_t} {page_id p : page_id_t}
    {g f : frame_id_t} (h : emplace table page_id g p = some f) :
    (p = page_id ∧ f = g ∧ table page_id = none) ∨ table p = some f := by
  unfold emplace at h
  cases ht : table page_id with
  | some x =>
    rw [ht] at h
    exact Or.inr h
  | none =>
    rw [ht] at h
    dsimp only at h
    by_cases hp : p = page_id
    · rw [hp, Function.update_same] at h
      exact Or.inl ⟨hp, (Option.some.inj h).symm, rfl⟩
    · rw [Function.update_noteq hp] at h
      exact Or.inr h

theorem Installed_table {b b' : BufferPoolManager} {g f : frame_id_t} {page_id p : page_id_t}
    (hb : PoolInv b) (hi : Installed b b' g page_id) (h : b'.page_table_ p = some f) :
    (p = page_id ∧ f = g) ∨ (f ≠ g ∧ b.page_table_ p = some f) := by
  rw [hi.page_table] at h
  rcases emplace_some h with ⟨h1, h2, -⟩ | h2
  · exact Or.inl ⟨h1, h2⟩
  · right
    by_cases hp : p = (b.pages_ g).page_id_
    · rw [hp, Function.update_same] at h2
      cases h2
    · rw [Function.update_noteq hp] at h2
      refine ⟨?_, h2⟩
      intro hfg
      have := (hb.table_ok p f h2).2.2
      rw [hfg] at this
      exact hp this.symm

theorem Installed_PoolInv {b b' : BufferPoolManager} {g : frame_id_t} {page_id : page_id_t}
    (hb : PoolInv b) (hi : Installed b b' g page_id) (hp : page_id ≠ INVALID_PAGE_ID)
    (hn : 0 ≤ b'.next_page_id_) : PoolInv b' := by
  have hmem : ∀ f, f ∈ b'.free_list_ ↔ f ≠ g ∧ f ∈ b.free_list_ := by
    intro f
    rw [hi.free_list, hb.free_nodup.mem_erase_iff]
  have hpool := inPool_congr hi.pool_size
  constructor
  · exact hi.rep
  · rw [hi.rep_size, hb.rep_size, hi.pool_size]
  · rw [hi.free_list]
    exact hb.free_nodup.erase g
  · intro f hf
    obtain ⟨hfg, hf⟩ := (hmem f).mp hf
    rw [hpool, hi.record_count, Function.update_noteq hfg, hi.others f hfg]
    exact hb.free_ok f hf
  · intro f hf hnf
    by_cases hfg : f = g
    · subst hfg
      rw [hi.record_count, hi.evictable, Function.update_same, Function.update_same, hi.pin_count,
        hi.page_id]
      refine ⟨Nat.one_ne_zero, ?_, by decide, hp⟩
      constructor
      · intro h; cases h
      · intro h; cases h
    · have hnf' : f ∉ b.free_list_ := fun h => hnf ((hmem f).mpr ⟨hfg, h⟩)
      rw [hi.record_count, hi.evictable, Function.update_noteq hfg, Function.update_noteq hfg,
        hi.others f hfg]
      exact hb.used_ok f ((hpool f).mp hf) hnf'
  · intro f hf
    rw [hpool]
    by_cases hfg : f = g
    · subst hfg
      exact ⟨hi.in_pool, fun h => ((hmem f).mp h).1 rfl⟩
    · rw [hi.record_count, Function.update_noteq hfg] at hf
      obtain ⟨h1, h2⟩ := hb.tracked_ok f hf
      exact ⟨h1, fun h => h2 ((hmem f).mp h).2⟩
  · intro p f hpf
    rw [hpool]
    rcases Installed_table hb hi hpf with ⟨h1, h2⟩ | ⟨hfg, h2⟩
    · subst h1 h2
      exact ⟨hi.in_pool, fun h => ((hmem f).mp h).1 rfl, hi.page_id⟩
    · obtain ⟨h3, h4, h5⟩ := hb.table_ok p f h2
      exact ⟨h3, fun h => h4 ((hmem f).mp h).2, by rw [hi.others f hfg]; exact h5⟩
  · exact hn

/-- What `NewPage` does. -/
theorem NewPage_spec {b b' : BufferPoolManager} {e : Ending} {r : Option (frame_id_t × page_id_t)}
    (hb : PoolInv b) (h : b.NewPage = .ok (e, r, b')) :
    e = .returned ∧
    ((r = none ∧ b' = b ∧ b.free_list_ = [] ∧ ∀ f, ¬ b.replacer_.IsEvictable f) ∨
      (∃ g, r = some (g, b.next_page_id_) ∧ Installed b b' g b.next_page_id_ ∧
        b'.next_page_id_ = b.next_page_id_ + 1)) := by
  unfold NewPage at h
  cases hp : b.pickFrame with
  | mk o b0 =>
    rw [hp] at h
    cases o with
    | none =>
      dsimp only at h
      cases h
      obtain ⟨h1, h2, h3⟩ := pickFrame_none hb hp
      exact ⟨rfl, Or.inl ⟨rfl, h1, h2, h3⟩⟩
    | some g =>
      dsimp only at h
      obtain ⟨hin, -, hps, hnx, -⟩ := pickFrame_some hb hp
      have hin0 : b0.inPool g := (inPool_congr hps g).mpr hin
      rw [if_neg (not_not.mpr hin0)] at h
      have hnx1 : (b0.writeBack g).next_page_id_ = b.next_page_id_ := by
        rw [(writeBack_fields b0 g).2.1, hnx]
      cases hi : ({ b0.writeBack g with next_page_id_ := (b0.writeBack g).next_page_id_ + 1 } :
          BufferPoolManager).install g (b0.writeBack g).next_page_id_ with
      | error x =>
        rw [hi] at h
        cases h
      | ok x =>
        obtain ⟨e1, b3⟩ := x
        obtain ⟨he, hinst, hn3⟩ := acquire_spec hb hp hi
        subst he
        rw [hi] at h
        cases h
        rw [hnx1] at hinst hn3
        exact ⟨rfl, Or.inr ⟨g, by rw [hnx1], hinst, hn3⟩⟩

theorem Installed_read {b b3 : BufferPoolManager} {g : frame_id_t} {page_id : page_id_t}
    (hi : Installed b b3 g page_id) (data : PageData) :
    Installed b
      { b3 with pages_ := Function.update b3.pages_ g { b3.pages_ g with data_ := data } }
      g page_id := by
  constructor
  · exact hi.in_pool
  · exact hi.source
  · exact hi.pool_size
  · exact hi.free_list
  · exact hi.page_table
  · intro f hf
    show Function.update b3.pages_ g _ f = _
    rw [Function.update_noteq hf]
    exact hi.others f hf
  · show (Function.update b3.pages_ g _ g).page_id_ = _
    rw [Function.update_same]
    exact hi.page_id
  · show (Function.update b3.pages_ g _ g).pin_count_ = _
    rw [Function.update_same]
    exact hi.pin_count
  · show (Function.update b3.pages_ g _ g).is_dirty_ = _
    rw [Function.update_same]
    exact hi.is_dirty
  · exact hi.rep
  · exact hi.record_count
  · exact hi.evictable
  · exact hi.rep_size

/-- What `FetchPage` does. -/
theorem FetchPage_spec {b b' : BufferPoolManager} {e : Ending} {r : Option frame_id_t}
    {p : page_id_t} (hb : PoolInv b) (h : b.FetchPage p = .ok (e, r, b')) :
    e = .returned ∧
    ((p = INVALID_PAGE_ID ∧ r = none ∧ b' = b) ∨
      (p ≠ INVALID_PAGE_ID ∧ ∃ f, b.page_table_ p = some f ∧ r = some f ∧ Hit b b' f) ∨
      (p ≠ INVALID_PAGE_ID ∧ b.page_table_ p = none ∧ r = none ∧ b' = b ∧ b.free_list_ = [] ∧
        ∀ f, ¬ b.replacer_.IsEvictable f) ∨
      (p ≠ INVALID_PAGE_ID ∧ b.page_table_ p = none ∧ ∃ g, r = some g ∧ Installed b b' g p ∧
        b'.next_page_id_ = b.next_page_id_)) := by
  unfold FetchPage at h
  by_cases hp : p = INVALID_PAGE_ID
  · rw [if_pos hp] at h
    cases h
    exact ⟨rfl, Or.inl ⟨hp, rfl, rfl⟩⟩
  · rw [if_neg hp] at h
    cases ht : b.page_table_ p with
    | some f =>
      rw [ht] at h
      dsimp only at h
      obtain ⟨hin, -, -⟩ := hb.table_ok p f ht
      rw [if_neg (not_not.mpr hin)] at h
      have hf : f ≤ (b.replacer_.replacer_size_ : Int) := by
        rw [hb.rep_size]
        exact Int.le_of_lt hin.2
      cases hra : b.replacer_.RecordAccess f with
      | error x =>
        rw [hra] at h
        cases h
      | ok x =>
        obtain ⟨e1, r1⟩ := x
        obtain ⟨he, hs, hc, hev, hn⟩ := LRUKReplacer.touch hb.rep hf hra
        subst he
        rw [hra] at h
        cases h
        exact ⟨rfl, Or.inr (Or.inl ⟨hp, f, rfl, rfl, ⟨rfl, rfl, rfl, rfl, rfl, rfl, hs, hc, hev, hn⟩⟩)⟩
    | none =>
      rw [ht] at h
      dsimp only at h
      cases hpk : b.pickFrame with
      | mk o b0 =>
        rw [hpk] at h
        cases o with
        | none =>
          dsimp only at h
          cases h
          obtain ⟨h1, h2, h3⟩ := pickFrame_none hb hpk
          exact ⟨rfl, Or.inr (Or.inr (Or.inl ⟨hp, rfl, rfl, h1, h2, h3⟩))⟩
        | some g =>
          dsimp only at h
          obtain ⟨hin, -, hps, hnx, -⟩ := pickFrame_some hb hpk
          have hin0 : b0.inPool g := (inPool_congr hps g).mpr hin
          rw [if_neg (not_not.mpr hin0)] at h
          have hnx1 : (b0.writeBack g).next_page_id_ = b.next_page_id_ := by
            rw [(writeBack_fields b0 g).2.1, hnx]
          have heta : ({ b0.writeBack g with next_page_id_ := (b0.writeBack g).next_page_id_ } :
              BufferPoolManager) = b0.writeBack g := rfl
          cases hi : (b0.writeBack g).install g p with
          | error x =>
            rw [hi] at h
            cases h
          | ok x =>
            obtain ⟨e1, b3⟩ := x
            rw [← heta] at hi
            obtain ⟨he, hinst, hn3⟩ := acquire_spec hb hpk hi
            subst he
            rw [heta] at hi
            rw [hi] at h
            cases h
            rw [hnx1] at hn3
            exact ⟨rfl, Or.inr (Or.inr (Or.inr ⟨hp, rfl, g, rfl, Installed_read hinst _, hn3⟩))⟩

theorem Hit_PoolInv {b b' : BufferPoolManager} {f : frame_id_t} {p : page_id_t}
    (hb : PoolInv b) (ht : b.page_table_ p = some f) (hi : Hit b b' f) : PoolInv b' := by
  obtain ⟨hin, hnf, -⟩ := hb.table_ok p f ht
  obtain ⟨hc, -, hpin, hid⟩ := hb.used_ok f hin hnf
  have hpool := inPool_congr hi.pool_size
  have hpid : ∀ x, (b'.pages_ x).page_id_ = (b.pages_ x).page_id_ := by
    intro x
    rw [hi.pages]
    by_cases hx : x = f
    · rw [hx, Function.update_same]
    · rw [Function.update_noteq hx]
  constructor
  · exact hi.rep
  · rw [hi.rep_size, hb.rep_size, hi.pool_size]
  · rw [hi.free_list]
    exact hb.free_nodup
  · intro x hx
    rw [hi.free_list] at hx
    have hxf : x ≠ f := fun h => hnf (h ▸ hx)
    rw [hpool, hi.record_count, Function.update_noteq hxf, hi.pages, Function.update_noteq hxf]
    exact hb.free_ok x hx
  · intro x hx hnx
    rw [hi.free_list] at hnx
    by_cases hxf : x = f
    · subst hxf
      rw [hi.record_count, hi.evictable, hpid, hi.pages, Function.update_same, Function.update_same,
        Function.update_same]
      refine ⟨Nat.succ_ne_zero _, ?_, ?_, hid⟩
      · constructor
        · intro h; cases h
        · intro h
          exfalso
          have h' : (b.pages_ x).pin_count_ + 1 = 0 := h
          omega
      · show 0 ≤ (b.pages_ x).pin_count_ + 1
        omega
    · rw [hi.record_count, hi.evictable, Function.update_noteq hxf, Function.update_noteq hxf,
        hi.pages, Function.update_noteq hxf]
      exact hb.used_ok x ((hpool x).mp hx) hnx
  · intro x hx
    rw [hpool, hi.free_list]
    by_cases hxf : x = f
    · rw [hxf]
      exact ⟨hin, hnf⟩
    · rw [hi.record_count, Function.update_noteq hxf] at hx
      exact hb.tracked_ok x hx
  · intro q x hq
    rw [hi.page_table] at hq
    rw [hpool, hi.free_list, hpid]
    exact hb.table_ok q x hq
  · rw [hi.next_page_id]
    exact hb.next_nonneg

theorem SameCore_PoolInv {b b' : BufferPoolManager} (hb : PoolInv b) (hi : SameCore b b') :
    PoolInv b' := by
  have hpool := inPool_congr hi.pool_size
  constructor
  · rw [hi.replacer]; exact hb.rep
  · rw [hi.replacer, hb.rep_size, hi.pool_size]
  · rw [hi.free_list]; exact hb.free_nodup
  · intro x hx
    rw [hi.free_list] at hx
    rw [hpool, hi.replacer, hi.page_id, hi.pin_count]
    exact hb.free_ok x hx
  · intro x hx hnx
    rw [hi.free_list] at hnx
    rw [hi.replacer, hi.page_id, hi.pin_count]
    exact hb.used_ok x ((hpool x).mp hx) hnx
  · intro x hx
    rw [hi.replacer] at hx
    rw [hpool, hi.free_list]
    exact hb.tracked_ok x hx
  · intro q x hq
    rw [hi.page_table] at hq
    rw [hpool, hi.free_list, hi.page_id]
    exact hb.table_ok q x hq
  · rw [hi.next_page_id]
    exact hb.next_nonneg

theorem SameCore_refl (b : BufferPoolManager) : SameCore b b :=
  ⟨rfl, rfl, rfl, rfl, rfl, fun _ => rfl, fun _ => rfl⟩

theorem SameCore_trans {b b' b'' : BufferPoolManager} (h1 : SameCore b b') (h2 : SameCore b' b'') :
    SameCore b b'' :=
  ⟨h2.pool_size.trans h1.pool_size, h2.next_page_id.trans h1.next_page_id,
    h2.free_list.trans h1.free_list, h2.page_table.trans h1.page_table,
    h2.replacer.trans h1.replacer, fun f => (h2.page_id f).trans (h1.page_id f),
    fun f => (h2.pin_count f).trans (h1.pin_count f)⟩

theorem flushFrame_SameCore (b : BufferPoolManager) (f : frame_id_t) : SameCore b (b.flushFrame f) := by
  refine ⟨rfl, rfl, rfl, rfl, rfl, ?_, ?_⟩
  · intro x
    show (Function.update b.pages_ f _ x).page_id_ = _
    by_cases hx : x = f
    · rw [hx, Function.update_same]
    · rw [Function.update_noteq hx]
  · intro x
    show (Function.update b.pages_ f _ x).pin_count_ = _
    by_cases hx : x = f
    · rw [hx, Function.update_same]
    · rw [Function.update_noteq hx]

theorem WriteData_SameCore {b b' : BufferPoolManager} {f : frame_id_t} {d : PageData}
    (h : b.WriteData f d = .ok b') : SameCore b b' := by
  unfold WriteData at h
  split_ifs at h
  cases h
  refine ⟨rfl, rfl, rfl, rfl, rfl, ?_, ?_⟩
  · intro x
    show (Function.update b.pages_ f _ x).page_id_ = _
    by_cases hx : x = f
    · rw [hx, Function.update_same]
    · rw [Function.update_noteq hx]
  · intro x
    show (Function.update b.pages_ f _ x).pin_count_ = _
    by_cases hx : x = f
    · rw [hx, Function.update_same]
    · rw [Function.update_noteq hx]

theorem FlushAllPages_SameCore (b : BufferPoolManager) : SameCore b b.FlushAllPages := by
  unfold FlushAllPages
  generalize b.pool_size_ = n
  induction n with
  | zero => exact SameCore_refl b
  | succ n ih =>
    rw [forLoop]
    split_ifs
    · exact ih
    · exact SameCore_trans ih (flushFrame_SameCore _ _)

theorem FlushPage_SameCore {b b' : BufferPoolManager} {p : page_id_t} {r : Bool}
    (h : b.FlushPage p = .ok (r, b')) : SameCore b b' := by
  unfold FlushPage at h
  split_ifs at h with h1
  · cases h
    exact SameCore_refl b
  · cases ht : b.page_table_ p with
    | none =>
      rw [ht] at h
      cases h
      exact SameCore_refl b
    | some f =>
      rw [ht] at h
      dsimp only at h
      split_ifs at h
      cases h
      exact flushFrame_SameCore b f

/-- What `UnpinPage` does. -/
theorem UnpinPage_spec {b b' : BufferPoolManager} {p : page_id_t} {d r : Bool} (hb : PoolInv b)
    (h : b.UnpinPage p d = .ok (r, b')) :
    ((p = INVALID_PAGE_ID ∨ b.page_table_ p = none) ∧ r = false ∧ b' = b) ∨
    (∃ f, b.page_table_ p = some f ∧ (b.pages_ f).pin_count_ = 0 ∧ r = false ∧
      b' =
        { b with
          pages_ := Function.update b.pages_ f
            { b.pages_ f with is_dirty_ := d || (b.pages_ f).is_dirty_ } }) ∨
    (∃ f, b.page_table_ p = some f ∧ (b.pages_ f).pin_count_ ≠ 0 ∧ r = true ∧
      b' =
        { b with
          pages_ := Function.update b.pages_ f
            { b.pages_ f with
              is_dirty_ := d || (b.pages_ f).is_dirty_,
              pin_count_ := (b.pages_ f).pin_count_ - 1 },
          replacer_ :=
            if (b.pages_ f).pin_count_ - 1 = 0 then b.replacer_.SetEvictable f true
            else b.replacer_ }) := by
  unfold UnpinPage at h
  by_cases hp : p = INVALID_PAGE_ID
  · rw [if_pos hp] at h
    cases h
    exact Or.inl ⟨Or.inl hp, rfl, rfl⟩
  · rw [if_neg hp] at h
    cases ht : b.page_table_ p with
    | none =>
      rw [ht] at h
      cases h
      exact Or.inl ⟨Or.inr rfl, rfl, rfl⟩
    | some f =>
      rw [ht] at h
      dsimp only at h
      obtain ⟨hin, -, -⟩ := hb.table_ok p f ht
      rw [if_neg (not_not.mpr hin)] at h
      by_cases h0 : (b.pages_ f).pin_count_ = 0
      · rw [if_pos h0] at h
        cases h
        exact Or.inr (Or.inl ⟨f, rfl, h0, rfl, rfl⟩)
      · rw [if_neg h0] at h
        by_cases h1 : (b.pages_ f).pin_count_ - 1 = 0
        · rw [if_pos h1] at h
          cases h
          refine Or.inr (Or.inr ⟨f, rfl, h0, rfl, ?_⟩)
          rw [if_pos h1]
        · rw [if_neg h1] at h
          cases h
          refine Or.inr (Or.inr ⟨f, rfl, h0, rfl, ?_⟩)
          rw [if_neg h1]

theorem UnpinPage_PoolInv {b b' : BufferPoolManager} {p : page_id_t} {d r : Bool} (hb : PoolInv b)
    (h : b.UnpinPage p d = .ok (r, b')) : PoolInv b' := by
  rcases UnpinPage_spec hb h with ⟨-, -, rfl⟩ | ⟨f, ht, h0, -, rfl⟩ | ⟨f, ht, h0, -, rfl⟩
  · exact hb
  · refine SameCore_PoolInv hb ⟨rfl, rfl, rfl, rfl, rfl, ?_, ?_⟩
    · intro x
      show (Function.update b.pages_ f _ x).page_id_ = _
      by_cases hx : x = f
      · rw [hx, Function.update_same]
      · rw [Function.update_noteq hx]
    · intro x
      show (Function.update b.pages_ f _ x).pin_count_ = _
      by_cases hx : x = f
      · rw [hx, Function.update_same]
      · rw [Function.update_noteq hx]
  · obtain ⟨hin, hnf, -⟩ := hb.table_ok p f ht
    obtain ⟨hc, hev, hpin, hid⟩ := hb.used_ok f hin hnf
    have hevf : b.replacer_.evictable_ f = false := by
      cases hx : b.replacer_.evictable_ f with
      | false => rfl
      | true => exact absurd (hev.mp hx) h0
    have hrep : LRUKReplacer.SizeInv
        (if (b.pages_ f).pin_count_ - 1 = 0 then b.replacer_.SetEvictable f true
          else b.replacer_) ∧
        (if (b.pages_ f).pin_count_ - 1 = 0 then b.replacer_.SetEvictable f true
          else b.replacer_).record_count_ = b.replacer_.record_count_ ∧
        (if (b.pages_ f).pin_count_ - 1 = 0 then b.replacer_.SetEvictable f true
          else b.replacer_).replacer_size_ = b.replacer_.replacer_size_ ∧
        (if (b.pages_ f).pin_count_ - 1 = 0 then b.replacer_.SetEvictable f true
          else b.replacer_).evictable_ =
          Function.update b.replacer_.evictable_ f (decide ((b.pages_ f).pin_count_ - 1 = 0)) := by
      split_ifs with h1
      · obtain ⟨e1, e2, -, e4, -⟩ := LRUKReplacer.SetEvictable_fields b.replacer_ f true hc
        refine ⟨LRUKReplacer.SetEvictable_SizeInv hb.rep f true, e2, e4, ?_⟩
        rw [e1, decide_eq_true h1]
      · refine ⟨hb.rep, rfl, rfl, ?_⟩
        have hu := Function.update_eq_self f b.replacer_.evictable_
        rw [hevf] at hu
        rw [decide_eq_false h1]
        exact hu.symm
    obtain ⟨r1, r2, r3, r4⟩ := hrep
    constructor
    · exact r1
    · show _ = b.pool_size_
      rw [← hb.rep_size]
      exact r3
    · exact hb.free_nodup
    · intro x hx
      have hxf : x ≠ f := fun h => hnf (h ▸ hx)
      show b.inPool x ∧ _ = 0 ∧ (Function.update b.pages_ f _ x).page_id_ = _ ∧
        (Function.update b.pages_ f _ x).pin_count_ = _
      rw [Function.update_noteq hxf]
      have := hb.free_ok x hx
      refine ⟨this.1, ?_, this.2.2⟩
      show (if (b.pages_ f).pin_count_ - 1 = 0 then b.replacer_.SetEvictable f true
          else b.replacer_).record_count_ x = 0
      rw [r2]
      exact this.2.1
    · intro x hx hnx
      show (if (b.pages_ f).pin_count_ - 1 = 0 then b.replacer_.SetEvictable f true
          else b.replacer_).record_count_ x ≠ 0 ∧
        ((if (b.pages_ f).pin_count_ - 1 = 0 then b.replacer_.SetEvictable f true
          else b.replacer_).evictable_ x = true ↔ (Function.update b.pages_ f _ x).pin_count_ = 0) ∧
        0 ≤ (Function.update b.pages_ f _ x).pin_count_ ∧
        (Function.update b.pages_ f _ x).page_id_ ≠ INVALID_PAGE_ID
      rw [r2, r4]
      by_cases hxf : x = f
      · subst hxf
        rw [Function.update_same, Function.update_same]
        refine ⟨hc, ?_, ?_, hid⟩
        · show decide ((b.pages_ x).pin_count_ - 1 = 0) = true ↔ (b.pages_ x).pin_count_ - 1 = 0
          simp
        · show 0 ≤ (b.pages_ x).pin_count_ - 1
          omega
      · rw [Function.update_noteq hxf, Function.update_noteq hxf]
        exact hb.used_ok x hx hnx
    · intro x hx
      have hx' : (if (b.pages_ f).pin_count_ - 1 = 0 then b.replacer_.SetEvictable f true
          else b.replacer_).record_count_ x ≠ 0 := hx
      rw [r2] at hx'
      exact hb.tracked_ok x hx'
    · intro q x hq
      obtain ⟨h1, h2, h3⟩ := hb.table_ok q x hq
      refine ⟨h1, h2, ?_⟩
      show (Function.update b.pages_ f _ x).page_id_ = q
      by_cases hxf : x = f
      · subst hxf
        rw [Function.update_same]
        exact h3
      · rw [Function.update_noteq hxf]
        exact h3
    · exact hb.next_nonneg

/-- What `DeletePage` does. -/
theorem DeletePage_spec {b b' : BufferPoolManager} {p : page_id_t} {e : Ending} {r : Bool}
    (hb : PoolInv b) (h : b.DeletePage p = .ok (e, r, b')) :
    e = .returned ∧
    (((p = INVALID_PAGE_ID ∨ b.page_table_ p = none) ∧ r = true ∧ b' = b) ∨
      (∃ f, b.page_table_ p = some f ∧ 0 < (b.pages_ f).pin_count_ ∧ r = false ∧ b' = b) ∨
      (∃ f, b.page_table_ p = some f ∧ (b.pages_ f).pin_count_ = 0 ∧ r = true ∧ Freed b b' f p)) := by
  unfold DeletePage at h
  by_cases hp : p = INVALID_PAGE_ID
  · rw [if_pos hp] at h
    cases h
    exact ⟨rfl, Or.inl ⟨Or.inl hp, rfl, rfl⟩⟩
  · rw [if_neg hp] at h
    cases ht : b.page_table_ p with
    | none =>
      rw [ht] at h
      cases h
      exact ⟨rfl, Or.inl ⟨Or.inr rfl, rfl, rfl⟩⟩
    | some f =>
      rw [ht] at h
      dsimp only at h
      obtain ⟨hin, hnf, -⟩ := hb.table_ok p f ht
      obtain ⟨hc, hev, hpin, -⟩ := hb.used_ok f hin hnf
      rw [if_neg (not_not.mpr hin)] at h
      by_cases h0 : (b.pages_ f).pin_count_ > 0
      · rw [if_pos h0] at h
        cases h
        exact ⟨rfl, Or.inr (Or.inl ⟨f, rfl, h0, rfl, rfl⟩)⟩
      · rw [if_neg h0] at h
        have hpin0 : (b.pages_ f).pin_count_ = 0 := by omega
        have hevf : b.replacer_.evictable_ f = true := hev.mpr hpin0
        cases hrm : b.replacer_.Remove f with
        | error x =>
          rw [hrm] at h
          cases h
        | ok x =>
          obtain ⟨e1, r1⟩ := x
          rw [hrm] at h
          have hsz := LRUKReplacer.Remove_SizeInv hb.rep hrm
          rcases LRUKReplacer.Remove_fields hrm with ⟨-, -, hgt | ⟨-, hne⟩⟩ | ⟨-, -, hc0, -⟩ |
            ⟨he, -, -, -, f1, f2, -, f4, -, f6, -⟩
          · rw [hb.rep_size] at hgt
            exact absurd (Int.lt_trans hin.2 hgt) (Int.lt_irrefl _)
          · rw [hevf] at hne
            cases hne
          · exact absurd hc0 hc
          · subst he
            cases h
            exact ⟨rfl, Or.inr (Or.inr ⟨f, rfl, hpin0, rfl,
              ⟨rfl, rfl, rfl, rfl, rfl, rfl, hsz, f1, f2, f4, f6⟩⟩)⟩

theorem Freed_PoolInv {b b' : BufferPoolManager} {f : frame_id_t} {p : page_id_t}
    (hb : PoolInv b) (ht : b.page_table_ p = some f) (hi : Freed b b' f p) : PoolInv b' := by
  obtain ⟨hin, hnf, hid⟩ := hb.table_ok p f ht
  have hpool := inPool_congr hi.pool_size
  have hmem : ∀ x, x ∈ b'.free_list_ ↔ x ∈ b.free_list_ ∨ x = f := by
    intro x
    rw [hi.free_list, List.mem_append, List.mem_singleton]
  constructor
  · exact hi.rep
  · rw [hi.rep_size, hb.rep_size, hi.pool_size]
  · rw [hi.free_list]
    refine List.nodup_append.mpr ⟨hb.free_nodup, List.nodup_singleton f, ?_⟩
    intro x hx hx'
    rw [List.mem_singleton] at hx'
    exact hnf (hx' ▸ hx)
  · intro x hx
    rw [hpool, hi.record_count, hi.pages]
    rcases (hmem x).mp hx with hx | hx
    · have hxf : x ≠ f := fun h => hnf (h ▸ hx)
      rw [Function.update_noteq hxf, Function.update_noteq hxf]
      exact hb.free_ok x hx
    · rw [hx, Function.update_same, Function.update_same]
      exact ⟨hin, rfl, rfl, rfl⟩
  · intro x hx hnx
    have hxf : x ≠ f := fun h => hnx ((hmem x).mpr (Or.inr h))
    have hnx' : x ∉ b.free_list_ := fun h => hnx ((hmem x).mpr (Or.inl h))
    rw [hi.record_count, hi.evictable, hi.pages, Function.update_noteq hxf,
      Function.update_noteq hxf]
    exact hb.used_ok x ((hpool x).mp hx) hnx'
  · intro x hx
    rw [hpool]
    have hxf : x ≠ f := by
      intro h
      rw [hi.record_count, h, Function.update_same] at hx
      exact hx rfl
    rw [hi.record_count, Function.update_noteq hxf] at hx
    obtain ⟨h1, h2⟩ := hb.tracked_ok x hx
    refine ⟨h1, ?_⟩
    intro h
    rcases (hmem x).mp h with h | h
    · exact h2 h
    · exact hxf h
  · intro q x hq
    rw [hi.page_table] at hq
    have hqp : q ≠ p := by
      intro h
      rw [h, Function.update_same] at hq
      cases hq
    rw [Function.update_noteq hqp] at hq
    obtain ⟨h1, h2, h3⟩ := hb.table_ok q x hq
    have hxf : x ≠ f := by
      intro h
      rw [h, hid] at h3
      exact hqp h3.symm
    rw [hpool, hi.pages, Function.update_noteq hxf]
    refine ⟨h1, ?_, h3⟩
    intro h
    rcases (hmem x).mp h with h | h
    · exact h2 h
    · exact hxf h
  · rw [hi.next_page_id]
    exact hb.next_nonneg

theorem new_PoolInv (pool_size replacer_k : Nat) (h : pool_size < 2 ^ 31) :
    PoolInv (BufferPoolManager.new pool_size replacer_k) := by
  have hmem : ∀ f : frame_id_t, f ∈ (List.range pool_size).map Int.ofNat ↔
      0 ≤ f ∧ f < (pool_size : Int) := by
    intro f
    rw [List.mem_map]
    constructor
    · rintro ⟨i, hi, rfl⟩
      rw [List.mem_range] at hi
      exact ⟨Int.ofNat_nonneg i, Int.ofNat_lt.mpr hi⟩
    · rintro ⟨h0, h1⟩
      refine ⟨f.toNat, ?_, Int.toNat_of_nonneg h0⟩
      rw [List.mem_range]
      have h2 : ((f.toNat : Nat) : Int) < (pool_size : Int) := by
        rw [Int.toNat_of_nonneg h0]
        exact h1
      exact Int.ofNat_lt.mp h2
  constructor
  · exact LRUKReplacer.new_SizeInv pool_size replacer_k (by omega)
  · rfl
  · show ((List.range pool_size).map Int.ofNat).Nodup
    exact (List.nodup_range pool_size).map (fun a b hab => Int.ofNat.inj hab)
  · intro f hf
    exact ⟨(hmem f).mp hf, rfl, rfl, rfl⟩
  · intro f hf hnf
    exact absurd ((hmem f).mpr hf) hnf
  · intro f hf
    exact absurd rfl hf
  · intro p f hpf
    cases hpf
  · exact Int.le_refl 0

theorem call_PoolInv {b b' : BufferPoolManager} {c : Call} {e : Ending} {r : Result}
    (hb : PoolInv b) (h : b.call c = .ok (e, r, b')) : PoolInv b' := by
  cases c with
  | new_page =>
    dsimp only [call] at h
    cases hx : b.NewPage with
    | error x => rw [hx] at h; cases h
    | ok x =>
      obtain ⟨e1, r1, b1⟩ := x
      rw [hx] at h
      cases h
      rcases (NewPage_spec hb hx).2 with ⟨-, rfl, -⟩ | ⟨g, -, hi, hn⟩
      · exact hb
      · refine Installed_PoolInv hb hi ?_ ?_
        · intro hinv
          have := hb.next_nonneg
          rw [hinv] at this
          exact absurd this (by decide)
        · rw [hn]
          exact Int.add_nonneg hb.next_nonneg (by decide)
  | fetch_page p =>
    dsimp only [call] at h
    cases hx : b.FetchPage p with
    | error x => rw [hx] at h; cases h
    | ok x =>
      obtain ⟨e1, r1, b1⟩ := x
      rw [hx] at h
      cases h
      rcases (FetchPage_spec hb hx).2 with ⟨-, -, rfl⟩ | ⟨-, f, ht, -, hi⟩ | ⟨-, -, -, rfl, -⟩ |
        ⟨hp, -, g, -, hi, hn⟩
      · exact hb
      · exact Hit_PoolInv hb ht hi
      · exact hb
      · refine Installed_PoolInv hb hi hp ?_
        rw [hn]
        exact hb.next_nonneg
  | unpin_page p d =>
    dsimp only [call] at h
    cases hx : b.UnpinPage p d with
    | error x => rw [hx] at h; cases h
    | ok x =>
      obtain ⟨r1, b1⟩ := x
      rw [hx] at h
      cases h
      exact UnpinPage_PoolInv hb hx
  | flush_page p =>
    dsimp only [call] at h
    cases hx : b.FlushPage p with
    | error x => rw [hx] at h; cases h
    | ok x =>
      obtain ⟨r1, b1⟩ := x
      rw [hx] at h
      cases h
      exact SameCore_PoolInv hb (FlushPage_SameCore hx)
  | flush_all =>
    cases h
    exact SameCore_PoolInv hb (FlushAllPages_SameCore b)
  | delete_page p =>
    dsimp only [call] at h
    cases hx : b.DeletePage p with
    | error x => rw [hx] at h; cases h
    | ok x =>
      obtain ⟨e1, r1, b1⟩ := x
      rw [hx] at h
      cases h
      rcases (DeletePage_spec hb hx).2 with ⟨-, -, rfl⟩ | ⟨f, -, -, -, rfl⟩ | ⟨f, ht, -, -, hi⟩
      · exact hb
      · exact hb
      · exact Freed_PoolInv hb ht hi
  | write_data f0 d0 =>
    dsimp only [call] at h
    cases hx : b.WriteData f0 d0 with
    | error x => rw [hx] at h; cases h
    | ok b1 =>
      rw [hx] at h
      cases h
      exact SameCore_PoolInv hb (WriteData_SameCore hx)

theorem Reachable_PoolInv {b : BufferPoolManager} (h : Reachable b) : PoolInv b := by
  induction h with
  | new n k hn => exact new_PoolInv n k hn
  | call c e r _ hc ih => exact call_PoolInv ih hc

/-- BPM.2 from the invariant. -/
theorem PoolInv_partition {b : BufferPoolManager} (hb : PoolInv b) (f : frame_id_t)
    (hf : b.inPool f) :
    (f ∈ b.free_list_ ∨
      ((b.pages_ f).page_id_ ≠ INVALID_PAGE_ID ∧ 0 < (b.pages_ f).pin_count_) ∨
      b.replacer_.IsEvictable f) ∧
    ¬ (f ∈ b.free_list_ ∧
      ((b.pages_ f).page_id_ ≠ INVALID_PAGE_ID ∧ 0 < (b.pages_ f).pin_count_)) ∧
    ¬ (f ∈ b.free_list_ ∧ b.replacer_.IsEvictable f) ∧
    ¬ (((b.pages_ f).page_id_ ≠ INVALID_PAGE_ID ∧ 0 < (b.pages_ f).pin_count_) ∧
      b.replacer_.IsEvictable f) ∧
    (b.replacer_.IsEvictable f →
      (b.pages_ f).page_id_ ≠ INVALID_PAGE_ID ∧ (b.pages_ f).pin_count_ = 0) := by
  have hC : b.replacer_.IsEvictable f →
      (b.pages_ f).page_id_ ≠ INVALID_PAGE_ID ∧ (b.pages_ f).pin_count_ = 0 := by
    intro hc
    obtain ⟨-, hnf⟩ := hb.tracked_ok f hc.2
    obtain ⟨-, hev, -, hid⟩ := hb.used_ok f hf hnf
    exact ⟨hid, hev.mp hc.1⟩
  refine ⟨?_, ?_, ?_, ?_, hC⟩
  · by_cases hfree : f ∈ b.free_list_
    · exact Or.inl hfree
    · obtain ⟨hc, hev, hpin, hid⟩ := hb.used_ok f hf hfree
      by_cases h0 : (b.pages_ f).pin_count_ = 0
      · exact Or.inr (Or.inr ⟨hev.mpr h0, hc⟩)
      · exact Or.inr (Or.inl ⟨hid, lt_of_le_of_ne hpin (Ne.symm h0)⟩)
  · rintro ⟨hfree, hid, -⟩
    exact hid (hb.free_ok f hfree).2.2.1
  · rintro ⟨hfree, hc⟩
    exact hc.2 (hb.free_ok f hfree).2.1
  · rintro ⟨⟨-, hpin⟩, hc⟩
    have := (hC hc).2
    rw [this] at hpin
    exact absurd hpin (lt_irrefl _)

/-- A frame taken by `NewPage` or `FetchPage` had pin count 0. -/
theorem Installed_unpinned {b b' : BufferPoolManager} {g : frame_id_t} {page_id : page_id_t}
    (hb : PoolInv b) (hi : Installed b b' g page_id) : (b.pages_ g).pin_count_ = 0 := by
  rcases hi.source with hfree | ⟨-, hev⟩
  · exact (hb.free_ok g hfree).2.2.2
  · exact (PoolInv_partition hb g hi.in_pool).2.2.2.2 hev |>.2

theorem Installed_pins {b b' : BufferPoolManager} {g : frame_id_t} {page_id : page_id_t}
    (hb : PoolInv b) (hi : Installed b b' g page_id) (f : frame_id_t) :
    (b.pages_ f).pin_count_ ≤ (b'.pages_ f).pin_count_ := by
  by_cases hfg : f = g
  · rw [hfg, hi.pin_count, Installed_unpinned hb hi]
    decide
  · rw [hi.others f hfg]

theorem Hit_pins {b b' : BufferPoolManager} {g : frame_id_t} (hi : Hit b b' g) (f : frame_id_t) :
    (b.pages_ f).pin_count_ ≤ (b'.pages_ f).pin_count_ := by
  rw [hi.pages]
  by_cases hfg : f = g
  · rw [hfg, Function.update_same]
    show (b.pages_ g).pin_count_ ≤ (b.pages_ g).pin_count_ + 1
    exact Int.le_add_one (Int.le_refl _)
  · rw [Function.update_noteq hfg]

theorem Freed_pins {b b' : BufferPoolManager} {g : frame_id_t} {p : page_id_t} (hi : Freed b b' g p)
    (h0 : (b.pages_ g).pin_count_ = 0) (f : frame_id_t) :
    (b.pages_ f).pin_count_ ≤ (b'.pages_ f).pin_count_ := by
  rw [hi.pages]
  by_cases hfg : f = g
  · rw [hfg, Function.update_same, h0]
  · rw [Function.update_noteq hfg]

/-- The pin counts through one call: only `UnpinPage` lowers one, by one, and
a pin count it lowers to 0 leaves the frame evictable. -/
theorem call_pins {b b' : BufferPoolManager} {c : Call} {e : Ending} {r : Result}
    (hb : PoolInv b) (h : b.call c = .ok (e, r, b')) (f : frame_id_t)
    (hlt : (b'.pages_ f).pin_count_ < (b.pages_ f).pin_count_) :
    (∃ p d, c = .unpin_page p d) ∧ (b'.pages_ f).pin_count_ = (b.pages_ f).pin_count_ - 1 ∧
    ((b'.pages_ f).pin_count_ = 0 → b'.replacer_.IsEvictable f) := by
  cases c with
  | new_page =>
    dsimp only [call] at h
    cases hx : b.NewPage with
    | error x => rw [hx] at h; cases h
    | ok x =>
      obtain ⟨e1, r1, b1⟩ := x
      rw [hx] at h
      cases h
      rcases (NewPage_spec hb hx).2 with ⟨-, rfl, -⟩ | ⟨g, -, hi, -⟩
      · exact absurd hlt (lt_irrefl _)
      · exact absurd hlt (not_lt.mpr (Installed_pins hb hi f))
  | fetch_page p =>
    dsimp only [call] at h
    cases hx : b.FetchPage p with
    | error x => rw [hx] at h; cases h
    | ok x =>
      obtain ⟨e1, r1, b1⟩ := x
      rw [hx] at h
      cases h
      rcases (FetchPage_spec hb hx).2 with ⟨-, -, rfl⟩ | ⟨-, g, -, -, hi⟩ | ⟨-, -, -, rfl, -⟩ |
        ⟨-, -, g, -, hi, -⟩
      · exact absurd hlt (lt_irrefl _)
      · exact absurd hlt (not_lt.mpr (Hit_pins hi f))
      · exact absurd hlt (lt_irrefl _)
      · exact absurd hlt (not_lt.mpr (Installed_pins hb hi f))
  | unpin_page p d =>
    dsimp only [call] at h
    cases hx : b.UnpinPage p d with
    | error x => rw [hx] at h; cases h
    | ok x =>
      obtain ⟨r1, b1⟩ := x
      rw [hx] at h
      cases h
      refine ⟨⟨p, d, rfl⟩, ?_⟩
      rcases UnpinPage_spec hb hx with ⟨-, -, rfl⟩ | ⟨g, ht, h0, -, rfl⟩ | ⟨g, ht, h0, -, rfl⟩
      · exact absurd hlt (lt_irrefl _)
      · exfalso
        have hlt' : (Function.update b.pages_ g _ f).pin_count_ < (b.pages_ f).pin_count_ := hlt
        by_cases hfg : f = g
        · rw [hfg, Function.update_same] at hlt'
          exact absurd hlt' (lt_irrefl _)
        · rw [Function.update_noteq hfg] at hlt'
          exact absurd hlt' (lt_irrefl _)
      · have hlt' : (Function.update b.pages_ g _ f).pin_count_ < (b.pages_ f).pin_count_ := hlt
        by_cases hfg : f = g
        · subst hfg
          obtain ⟨hin, hnf, -⟩ := hb.table_ok p f ht
          obtain ⟨hc, -, -, -⟩ := hb.used_ok f hin hnf
          constructor
          · show (Function.update b.pages_ f _ f).pin_count_ = _
            rw [Function.update_same]
          · intro hz
            have hz' : (Function.update b.pages_ f _ f).pin_count_ = 0 := hz
            rw [Function.update_same] at hz'
            have hz'' : (b.pages_ f).pin_count_ - 1 = 0 := hz'
            show LRUKReplacer.IsEvictable
              (if (b.pages_ f).pin_count_ - 1 = 0 then b.replacer_.SetEvictable f true
                else b.replacer_) f
            rw [if_pos hz'']
            obtain ⟨e1, e2, -⟩ := LRUKReplacer.SetEvictable_fields b.replacer_ f true hc
            constructor
            · rw [e1, Function.update_same]
            · rw [e2]
              exact hc
        · rw [Function.update_noteq hfg] at hlt'
          exact absurd hlt' (lt_irrefl _)
  | flush_page p =>
    dsimp only [call] at h
    cases hx : b.FlushPage p with
    | error x => rw [hx] at h; cases h
    | ok x =>
      obtain ⟨r1, b1⟩ := x
      rw [hx] at h
      cases h
      rw [(FlushPage_SameCore hx).pin_count f] at hlt
      exact absurd hlt (lt_irrefl _)
  | flush_all =>
    cases h
    rw [(FlushAllPages_SameCore b).pin_count f] at hlt
    exact absurd hlt (lt_irrefl _)
  | delete_page p =>
    dsimp only [call] at h
    cases hx : b.DeletePage p with
    | error x => rw [hx] at h; cases h
    | ok x =>
      obtain ⟨e1, r1, b1⟩ := x
      rw [hx] at h
      cases h
      rcases (DeletePage_spec hb hx).2 with ⟨-, -, rfl⟩ | ⟨g, -, -, -, rfl⟩ | ⟨g, -, h0, -, hi⟩
      · exact absurd hlt (lt_irrefl _)
      · exact absurd hlt (lt_irrefl _)
      · exact absurd hlt (not_lt.mpr (Freed_pins hi h0 f))
  | write_data f0 d0 =>
    dsimp only [call] at h
    cases hx : b.WriteData f0 d0 with
    | error x => rw [hx] at h; cases h
    | ok b1 =>
      rw [hx] at h
      cases h
      rw [(WriteData_SameCore hx).pin_count f] at hlt
      exact absurd hlt (lt_irrefl _)

/-- A frame that `NewPage` or a missing `FetchPage` hands back had pin count 0. -/
theorem call_reuse {b b' : BufferPoolManager} {c : Call} {e : Ending} {r : Result}
    (hb : PoolInv b) (h : b.call c = .ok (e, r, b')) :
    (∀ g page_id, r = .new_page (some (g, page_id)) → (b.pages_ g).pin_count_ = 0) ∧
    (∀ g p, c = .fetch_page p → r = .page (some g) → b.page_table_ p = none →
      (b.pages_ g).pin_count_ = 0) := by
  cases c with
  | new_page =>
    dsimp only [call] at h
    cases hx : b.NewPage with
    | error x => rw [hx] at h; cases h
    | ok x =>
      obtain ⟨e1, r1, b1⟩ := x
      rw [hx] at h
      cases h
      refine ⟨?_, fun g p hc => (by cases hc)⟩
      intro g page_id hr
      rcases (NewPage_spec hb hx).2 with ⟨hn, -⟩ | ⟨g', hg', hi, -⟩
      · rw [hn] at hr
        cases hr
      · rw [hg'] at hr
        cases hr
        exact Installed_unpinned hb hi
  | fetch_page p =>
    dsimp only [call] at h
    cases hx : b.FetchPage p with
    | error x => rw [hx] at h; cases h
    | ok x =>
      obtain ⟨e1, r1, b1⟩ := x
      rw [hx] at h
      cases h
      refine ⟨fun g page_id hr => (by cases hr), ?_⟩
      intro g p' hc hr hmiss
      cases hc
      rcases (FetchPage_spec hb hx).2 with ⟨-, hn, -⟩ | ⟨-, g', ht, -, -⟩ | ⟨-, -, hn, -⟩ |
        ⟨-, -, g', hg', hi, -⟩
      · rw [hn] at hr
        cases hr
      · rw [hmiss] at ht
        cases ht
      · rw [hn] at hr
        cases hr
      · rw [hg'] at hr
        cases hr
        exact Installed_unpinned hb hi
  | unpin_page p d =>
    dsimp only [call] at h
    cases hx : b.UnpinPage p d with
    | error x => rw [hx] at h; cases h
    | ok x =>
      obtain ⟨r1, b1⟩ := x
      rw [hx] at h
      cases h
      exact ⟨fun g page_id hr => (by cases hr), fun g p hc => (by cases hc)⟩
  | flush_page p =>
    dsimp only [call] at h
    cases hx : b.FlushPage p with
    | error x => rw [hx] at h; cases h
    | ok x =>
      obtain ⟨r1, b1⟩ := x
      rw [hx] at h
      cases h
      exact ⟨fun g page_id hr => (by cases hr), fun g p hc => (by cases hc)⟩
  | flush_all =>
    cases h
    exact ⟨fun g page_id hr => (by cases hr), fun g p hc => (by cases hc)⟩
  | delete_page p =>
    dsimp only [call] at h
    cases hx : b.DeletePage p with
    | error x => rw [hx] at h; cases h
    | ok x =>
      obtain ⟨e1, r1, b1⟩ := x
      rw [hx] at h
      cases h
      exact ⟨fun g page_id hr => (by cases hr), fun g p hc => (by cases hc)⟩
  | write_data f0 d0 =>
    dsimp only [call] at h
    cases hx : b.WriteData f0 d0 with
    | error x => rw [hx] at h; cases h
    | ok b1 =>
      rw [hx] at h
      cases h
      exact ⟨fun g page_id hr => (by cases hr), fun g p hc => (by cases hc)⟩

theorem pickFrame_exhausted {b : BufferPoolManager} (hb : PoolInv b) (hfree : b.free_list_ = [])
    (hno : ∀ f, ¬ b.replacer_.IsEvictable f) : b.pickFrame = (none, b) := by
  have h1 : b.replacer_.Evict.1 = none := (LRUKReplacer.Evict_none_iff hb.rep).mpr hno
  have h2 : b.replacer_.Evict.2 = b.replacer_ := (LRUKReplacer.Evict_none h1).1
  have hE : b.replacer_.Evict = (none, b.replacer_) := Prod.ext h1 h2
  have hl : b.free_list_.getLast? = none := by rw [hfree]; rfl
  unfold pickFrame
  rw [hl, hE]

/-- `NewPage` and `FetchPage` hand back nothing exactly when no frame is to be
had, and then leave the pool as it is. -/
theorem exhausted_iff {b : BufferPoolManager} (hb : PoolInv b) :
    ((b.free_list_ = [] ∧ ∀ f, ¬ b.replacer_.IsEvictable f) →
      b.NewPage = .ok (.returned, none, b)) ∧
    (∀ e b', b.NewPage = .ok (e, none, b') →
      (b.free_list_ = [] ∧ ∀ f, ¬ b.replacer_.IsEvictable f) ∧ b' = b) ∧
    (∀ p, p ≠ INVALID_PAGE_ID → b.page_table_ p = none →
      ((b.free_list_ = [] ∧ ∀ f, ¬ b.replacer_.IsEvictable f) →
        b.FetchPage p = .ok (.returned, none, b)) ∧
      (∀ e b', b.FetchPage p = .ok (e, none, b') →
        (b.free_list_ = [] ∧ ∀ f, ¬ b.replacer_.IsEvictable f) ∧ b' = b)) := by
  refine ⟨?_, ?_, ?_⟩
  · rintro ⟨hfree, hno⟩
    unfold NewPage
    rw [pickFrame_exhausted hb hfree hno]
  · intro e b' h
    rcases (NewPage_spec hb h).2 with ⟨-, h1, h2, h3⟩ | ⟨g, hg, -⟩
    · exact ⟨⟨h2, h3⟩, h1⟩
    · cases hg
  · intro p hp ht
    constructor
    · rintro ⟨hfree, hno⟩
      unfold FetchPage
      rw [if_neg hp, ht]
      dsimp only
      rw [pickFrame_exhausted hb hfree hno]
    · intro e b' h
      rcases (FetchPage_spec hb h).2 with ⟨h0, -⟩ | ⟨-, f, hf, -⟩ | ⟨-, -, -, h1, h2, h3⟩ |
        ⟨-, -, g, hg, -⟩
      · exact absurd h0 hp
      · rw [ht] at hf
        cases hf
      · exact ⟨⟨h2, h3⟩, h1⟩
      · cases hg

theorem ReachableAllocated_Reachable {b : BufferPoolManager} (h : ReachableAllocated b) :
    Reachable b := by
  induction h with
  | new n k hn => exact Reachable.new n k hn
  | call c e r _ _ hc ih => exact Reachable.call c e r ih hc

theorem SameCore_SameTable {b b' : BufferPoolManager} (h : SameCore b b') : SameTable b b' :=
  ⟨h.pool_size, h.next_page_id, h.free_list, h.page_table, h.page_id⟩

theorem Hit_SameTable {b b' : BufferPoolManager} {f : frame_id_t} (h : Hit b b' f) :
    SameTable b b' := by
  refine ⟨h.pool_size, h.next_page_id, h.free_list, h.page_table, ?_⟩
  intro x
  rw [h.pages]
  by_cases hx : x = f
  · rw [hx, Function.update_same]
  · rw [Function.update_noteq hx]

theorem UnpinPage_SameTable {b b' : BufferPoolManager} {p : page_id_t} {d r : Bool}
    (hb : PoolInv b) (h : b.UnpinPage p d = .ok (r, b')) : SameTable b b' := by
  rcases UnpinPage_spec hb h with ⟨-, -, rfl⟩ | ⟨f, -, -, -, rfl⟩ | ⟨f, -, -, -, rfl⟩
  · exact ⟨rfl, rfl, rfl, rfl, fun _ => rfl⟩
  · refine ⟨rfl, rfl, rfl, rfl, ?_⟩
    intro x
    show (Function.update b.pages_ f _ x).page_id_ = _
    by_cases hx : x = f
    · rw [hx, Function.update_same]
    · rw [Function.update_noteq hx]
  · refine ⟨rfl, rfl, rfl, rfl, ?_⟩
    intro x
    show (Function.update b.pages_ f _ x).page_id_ = _
    by_cases hx : x = f
    · rw [hx, Function.update_same]
    · rw [Function.update_noteq hx]

theorem SameTable_MappedInv {b b' : BufferPoolManager} (hm : MappedInv b) (h : SameTable b b') :
    MappedInv b' := by
  have hpool := inPool_congr h.pool_size
  constructor
  · intro f hf hnf
    rw [h.free_list] at hnf
    rw [h.page_table, h.page_id]
    exact hm.mapped f ((hpool f).mp hf) hnf
  · intro f hf hnf
    rw [h.free_list] at hnf
    rw [h.next_page_id, h.page_id]
    exact hm.below f ((hpool f).mp hf) hnf

theorem Installed_MappedInv {b b' : BufferPoolManager} {g : frame_id_t} {page_id : page_id_t}
    (hb : PoolInv b) (hm : MappedInv b) (hi : Installed b b' g page_id)
    (hfresh : b.page_table_ page_id = none) (hlt : page_id < b'.next_page_id_)
    (hnext : b.next_page_id_ ≤ b'.next_page_id_) : MappedInv b' := by
  have hpool := inPool_congr hi.pool_size
  have hmem : ∀ f, f ∈ b'.free_list_ ↔ f ≠ g ∧ f ∈ b.free_list_ := by
    intro f
    rw [hi.free_list, hb.free_nodup.mem_erase_iff]
  have hnone : Function.update b.page_table_ (b.pages_ g).page_id_ none page_id = none := by
    by_cases hp : page_id = (b.pages_ g).page_id_
    · rw [hp, Function.update_same]
    · rw [Function.update_noteq hp]
      exact hfresh
  have htable : b'.page_table_ =
      Function.update (Function.update b.page_table_ (b.pages_ g).page_id_ none) page_id (some g) := by
    rw [hi.page_table]
    unfold emplace
    rw [hnone]
  constructor
  · intro f hf hnf
    by_cases hfg : f = g
    · rw [hfg, hi.page_id, htable, Function.update_same]
    · have hnf' : f ∉ b.free_list_ := fun h => hnf ((hmem f).mpr ⟨hfg, h⟩)
      have hf' := (hpool f).mp hf
      have hmap := hm.mapped f hf' hnf'
      have hne1 : (b.pages_ f).page_id_ ≠ page_id := by
        intro h
        rw [h, hfresh] at hmap
        cases hmap
      have hne2 : (b.pages_ f).page_id_ ≠ (b.pages_ g).page_id_ := by
        intro h
        rcases hi.source with hfree | ⟨-, hev⟩
        · have h1 := (hb.free_ok g hfree).2.2.1
          have h2 := (hb.used_ok f hf' hnf').2.2.2
          rw [h, h1] at h2
          exact h2 rfl
        · obtain ⟨-, hng⟩ := hb.tracked_ok g hev.2
          have hmg := hm.mapped g hi.in_pool hng
          rw [h, hmg] at hmap
          exact hfg (Option.some.inj hmap).symm
      rw [hi.others f hfg, htable, Function.update_noteq hne1, Function.update_noteq hne2]
      exact hmap
  · intro f hf hnf
    by_cases hfg : f = g
    · rw [hfg, hi.page_id]
      exact hlt
    · have hnf' : f ∉ b.free_list_ := fun h => hnf ((hmem f).mpr ⟨hfg, h⟩)
      rw [hi.others f hfg]
      exact lt_of_lt_of_le (hm.below f ((hpool f).mp hf) hnf') hnext

theorem Freed_MappedInv {b b' : BufferPoolManager} {f : frame_id_t} {p : page_id_t}
    (hm : MappedInv b) (ht : b.page_table_ p = some f) (hi : Freed b b' f p) :
    MappedInv b' := by
  have hpool := inPool_congr hi.pool_size
  have hmem : ∀ x, x ∈ b'.free_list_ ↔ x ∈ b.free_list_ ∨ x = f := by
    intro x
    rw [hi.free_list, List.mem_append, List.mem_singleton]
  have key : ∀ x, b'.inPool x → x ∉ b'.free_list_ →
      x ≠ f ∧ b.inPool x ∧ x ∉ b.free_list_ ∧ (b.pages_ x).page_id_ ≠ p := by
    intro x hx hnx
    have hxf : x ≠ f := fun h => hnx ((hmem x).mpr (Or.inr h))
    have hnx' : x ∉ b.free_list_ := fun h => hnx ((hmem x).mpr (Or.inl h))
    have hx' := (hpool x).mp hx
    refine ⟨hxf, hx', hnx', ?_⟩
    intro h
    have := hm.mapped x hx' hnx'
    rw [h, ht] at this
    exact hxf (Option.some.inj this).symm
  constructor
  · intro x hx hnx
    obtain ⟨hxf, hx', hnx', hne⟩ := key x hx hnx
    rw [hi.pages, Function.update_noteq hxf, hi.page_table, Function.update_noteq hne]
    exact hm.mapped x hx' hnx'
  · intro x hx hnx
    obtain ⟨hxf, hx', hnx', -⟩ := key x hx hnx
    rw [hi.pages, Function.update_noteq hxf, hi.next_page_id]
    exact hm.below x hx' hnx'

theorem new_MappedInv (pool_size replacer_k : Nat) (h : pool_size < 2 ^ 31) :
    MappedInv (BufferPoolManager.new pool_size replacer_k) := by
  have hb := new_PoolInv pool_size replacer_k h
  constructor
  · intro f hf hnf
    exact absurd hf (fun hf => (hb.used_ok f hf hnf).1 rfl)
  · intro f hf hnf
    exact absurd hf (fun hf => (hb.used_ok f hf hnf).1 rfl)

theorem call_MappedInv {b b' : BufferPoolManager} {c : Call} {e : Ending} {r : Result}
    (hb : PoolInv b) (hm : MappedInv b) (hc : ∀ p, c = .fetch_page p → p < b.next_page_id_)
    (h : b.call c = .ok (e, r, b')) : MappedInv b' := by
  have hfresh : b.page_table_ b.next_page_id_ = none := by
    cases ht : b.page_table_ b.next_page_id_ with
    | none => rfl
    | some f =>
      obtain ⟨h1, h2, h3⟩ := hb.table_ok _ f ht
      have := hm.below f h1 h2
      rw [h3] at this
      exact absurd this (lt_irrefl _)
  cases c with
  | new_page =>
    dsimp only [call] at h
    cases hx : b.NewPage with
    | error x => rw [hx] at h; cases h
    | ok x =>
      obtain ⟨e1, r1, b1⟩ := x
      rw [hx] at h
      cases h
      rcases (NewPage_spec hb hx).2 with ⟨-, rfl, -⟩ | ⟨g, -, hi, hn⟩
      · exact hm
      · refine Installed_MappedInv hb hm hi hfresh ?_ ?_
        · rw [hn]
          exact Int.lt_add_one_iff.mpr (Int.le_refl _)
        · rw [hn]
          exact Int.le_add_one (Int.le_refl _)
  | fetch_page p =>
    dsimp only [call] at h
    cases hx : b.FetchPage p with
    | error x => rw [hx] at h; cases h
    | ok x =>
      obtain ⟨e1, r1, b1⟩ := x
      rw [hx] at h
      cases h
      rcases (FetchPage_spec hb hx).2 with ⟨-, -, rfl⟩ | ⟨-, f, ht, -, hi⟩ | ⟨-, -, -, rfl, -⟩ |
        ⟨hp, ht, g, -, hi, hn⟩
      · exact hm
      · exact SameTable_MappedInv hm (Hit_SameTable hi)
      · exact hm
      · refine Installed_MappedInv hb hm hi ht ?_ ?_
        · rw [hn]
          exact hc p rfl
        · rw [hn]
  | unpin_page p d =>
    dsimp only [call] at h
    cases hx : b.UnpinPage p d with
    | error x => rw [hx] at h; cases h
    | ok x =>
      obtain ⟨r1, b1⟩ := x
      rw [hx] at h
      cases h
      exact SameTable_MappedInv hm (UnpinPage_SameTable hb hx)
  | flush_page p =>
    dsimp only [call] at h
    cases hx : b.FlushPage p with
    | error x => rw [hx] at h; cases h
    | ok x =>
      obtain ⟨r1, b1⟩ := x
      rw [hx] at h
      cases h
      exact SameTable_MappedInv hm (SameCore_SameTable (FlushPage_SameCore hx))
  | flush_all =>
    cases h
    exact SameTable_MappedInv hm (SameCore_SameTable (FlushAllPages_SameCore b))
  | delete_page p =>
    dsimp only [call] at h
    cases hx : b.DeletePage p with
    | error x => rw [hx] at h; cases h
    | ok x =>
      obtain ⟨e1, r1, b1⟩ := x
      rw [hx] at h
      cases h
      rcases (DeletePage_spec hb hx).2 with ⟨-, -, rfl⟩ | ⟨f, -, -, -, rfl⟩ | ⟨f, ht, -, -, hi⟩
      · exact hm
      · exact hm
      · exact Freed_MappedInv hm ht hi
  | write_data f0 d0 =>
    dsimp only [call] at h
    cases hx : b.WriteData f0 d0 with
    | error x => rw [hx] at h; cases h
    | ok b1 =>
      rw [hx] at h
      cases h
      exact SameTable_MappedInv hm (SameCore_SameTable (WriteData_SameCore hx))

theorem ReachableAllocated_MappedInv {b : BufferPoolManager} (h : ReachableAllocated b) :
    MappedInv b := by
  induction h with
  | new n k hn => exact new_MappedInv n k hn
  | call c e r hr hc hcall ih =>
    exact call_MappedInv (Reachable_PoolInv (ReachableAllocated_Reachable hr)) ih hc hcall

/-- BPM.1 from the two invariants. -/
theorem page_table_exact {b : BufferPoolManager} (hb : PoolInv b) (hm : MappedInv b)
    (p : page_id_t) (hp : p ≠ INVALID_PAGE_ID) :
    ((∃ f, b.page_table_ p = some f) ↔ ∃ f, b.inPool f ∧ (b.pages_ f).page_id_ = p) ∧
    (∀ f, b.page_table_ p = some f → b.inPool f ∧ (b.pages_ f).page_id_ = p) ∧
    (∀ f g, b.inPool f → b.inPool g → (b.pages_ f).page_id_ = p → (b.pages_ g).page_id_ = p →
      f = g) := by
  have hmap : ∀ f, b.inPool f → (b.pages_ f).page_id_ = p → b.page_table_ p = some f := by
    intro f hf hid
    have hnf : f ∉ b.free_list_ := by
      intro h
      have := (hb.free_ok f h).2.2.1
      rw [hid] at this
      exact hp this
    have := hm.mapped f hf hnf
    rw [hid] at this
    exact this
  refine ⟨⟨?_, ?_⟩, ?_, ?_⟩
  · rintro ⟨f, hf⟩
    obtain ⟨h1, -, h3⟩ := hb.table_ok p f hf
    exact ⟨f, h1, h3⟩
  · rintro ⟨f, hf, hid⟩
    exact ⟨f, hmap f hf hid⟩
  · intro f hf
    obtain ⟨h1, -, h3⟩ := hb.table_ok p f hf
    exact ⟨h1, h3⟩
  · intro f g hf hg hidf hidg
    have h1 := hmap f hf hidf
    have h2 := hmap g hg hidg
    rw [h1] at h2
    exact Option.some.inj h2

theorem pickFrame_isSome {b : BufferPoolManager} (hb : PoolInv b)
    (h : ¬ (b.free_list_ = [] ∧ ∀ f, ¬ b.replacer_.IsEvictable f)) :
    ∃ g b0, b.pickFrame = (some g, b0) := by
  cases hp : b.pickFrame with
  | mk o b0 =>
    cases o with
    | none =>
      obtain ⟨-, h1, h2⟩ := pickFrame_none hb hp
      exact absurd ⟨h1, h2⟩ h
    | some g => exact ⟨g, b0, rfl⟩

/-- After `pickFrame` the replacer has room for the frame it picked. -/
theorem pickFrame_room {b b0 : BufferPoolManager} {g : frame_id_t} (hb : PoolInv b)
    (hp : b.pickFrame = (some g, b0)) : b0.replacer_.curr_size_ ≠ b0.replacer_.MaxSize := by
  obtain ⟨hin, -, -, -, -, -, -, -, hsz0, hc0, -, hn0⟩ := pickFrame_some hb hp
  apply LRUKReplacer.room_of_card_lt hsz0
  rw [hn0, hb.rep_size]
  have hsub : LRUKReplacer.tracked b0.replacer_ ⊆ (Finset.Ico (0 : Int) b.pool_size_).erase g := by
    intro f hf
    rw [LRUKReplacer.mem_tracked hsz0.inv, hc0] at hf
    have hfg : f ≠ g := by
      intro h
      rw [h, Function.update_same] at hf
      exact hf rfl
    rw [Function.update_noteq hfg] at hf
    obtain ⟨h1, -⟩ := hb.tracked_ok f hf
    rw [Finset.mem_erase, Finset.mem_Ico]
    exact ⟨hfg, h1⟩
  have hg : g ∈ Finset.Ico (0 : Int) b.pool_size_ := Finset.mem_Ico.mpr hin
  have hcard := Finset.card_le_card hsub
  rw [Finset.card_erase_of_mem hg, Int.card_Ico] at hcard
  have hpos : 0 < b.pool_size_ := by
    have h1 := hin.1
    have h2 := hin.2
    have h3 : (0 : Int) < (b.pool_size_ : Int) := lt_of_le_of_lt h1 h2
    exact Int.ofNat_lt.mp h3
  simp only [sub_zero, Int.toNat_ofNat] at hcard
  omega

theorem install_returns {b : BufferPoolManager} {g : frame_id_t} (page_id : page_id_t)
    (hr : LRUKReplacer.SizeInv b.replacer_) (hg : g ≤ (b.replacer_.replacer_size_ : Int))
    (hk : 0 < b.replacer_.k_) (hroom : b.replacer_.curr_size_ ≠ b.replacer_.MaxSize) :
    ∃ b', b.install g page_id = .ok (.returned, b') := by
  obtain ⟨r1, hr1⟩ := LRUKReplacer.RecordAccess_returns hr.inv hg hk (fun _ => hroom)
  unfold install
  dsimp only
  rw [hr1]
  exact ⟨_, rfl⟩

theorem pickFrame_k {b b0 : BufferPoolManager} {o : Option frame_id_t}
    (hp : b.pickFrame = (o, b0)) : b0.replacer_.k_ = b.replacer_.k_ := by
  unfold pickFrame at hp
  cases hl : b.free_list_.getLast? with
  | some g' =>
    rw [hl] at hp
    cases hp
    rfl
  | none =>
    rw [hl] at hp
    cases hE : b.replacer_.Evict with
    | mk o' r =>
      rw [hE] at hp
      have h2 : b.replacer_.Evict.2 = r := by rw [hE]
      have hk : r.k_ = b.replacer_.k_ := by
        rw [← h2]
        exact LRUKReplacer.Evict_k b.replacer_
      cases o' with
      | none =>
        cases hp
        exact hk
      | some g' =>
        cases hp
        exact hk

/-- `NewPage` and a missing `FetchPage` hand back a frame when one is to be
had and `k_` is not 0. -/
theorem acquire_returns {b : BufferPoolManager} (hb : PoolInv b) (hk : 0 < b.replacer_.k_)
    (h : ¬ (b.free_list_ = [] ∧ ∀ f, ¬ b.replacer_.IsEvictable f)) :
    (∃ g b', b.NewPage = .ok (.returned, some (g, b.next_page_id_), b')) ∧
    (∀ p, p ≠ INVALID_PAGE_ID → b.page_table_ p = none →
      ∃ g b', b.FetchPage p = .ok (.returned, some g, b')) := by
  obtain ⟨g, b0, hp⟩ := pickFrame_isSome hb h
  obtain ⟨hin, -, hps, hnx, -, -, -, -, hsz0, -, -, hn0⟩ := pickFrame_some hb hp
  have hroom := pickFrame_room hb hp
  have hin0 : b0.inPool g := (inPool_congr hps g).mpr hin
  obtain ⟨-, wnx, -, -, wrp, -⟩ := writeBack_fields b0 g
  have hk0 : b0.replacer_.k_ = b.replacer_.k_ := pickFrame_k hp
  have hg : g ≤ (b0.replacer_.replacer_size_ : Int) := by
    rw [hn0, hb.rep_size]
    exact Int.le_of_lt hin.2
  constructor
  · obtain ⟨b3, h3⟩ := install_returns
      (b := { b0.writeBack g with next_page_id_ := (b0.writeBack g).next_page_id_ + 1 })
      (g := g)
      (b0.writeBack g).next_page_id_
      (by show LRUKReplacer.SizeInv (b0.writeBack g).replacer_; rw [wrp]; exact hsz0)
      (by show g ≤ (((b0.writeBack g).replacer_.replacer_size_ : Nat) : Int); rw [wrp]; exact hg)
      (by show 0 < (b0.writeBack g).replacer_.k_; rw [wrp, hk0]; exact hk)
      (by
        show (b0.writeBack g).replacer_.curr_size_ ≠ (b0.writeBack g).replacer_.MaxSize
        rw [wrp]
        exact hroom)
    refine ⟨g, b3, ?_⟩
    unfold NewPage
    rw [hp]
    dsimp only
    rw [if_neg (not_not.mpr hin0), h3, wnx, hnx]
  · intro p hpv ht
    obtain ⟨b3, h3⟩ := install_returns (b := b0.writeBack g) (g := g) p
      (by rw [wrp]; exact hsz0) (by rw [wrp]; exact hg) (by rw [wrp, hk0]; exact hk)
      (by rw [wrp]; exact hroom)
    unfold FetchPage
    rw [if_neg hpv, ht]
    dsimp only
    rw [hp]
    dsimp only
    rw [if_neg (not_not.mpr hin0), h3]
    exact ⟨g, _, rfl⟩

theorem runCalls_reachable_pool {b : BufferPoolManager} (h : Reachable b) (cs : List Call) :
    Reachable (b.runCalls cs).2 := by
  induction cs generalizing b with
  | nil => exact h
  | cons c cs ih =>
    unfold runCalls
    cases hc : b.call c with
    | error x => exact ih h
    | ok x =>
      obtain ⟨e, r, b1⟩ := x
      exact ih (Reachable.call c e r h hc)

theorem runCalls_reachable_allocated {b : BufferPoolManager} (h : ReachableAllocated b)
    (cs : List Call) (hcs : ∀ c, c ∈ cs → ∀ p, c ≠ .fetch_page p) :
    ReachableAllocated (b.runCalls cs).2 := by
  induction cs generalizing b with
  | nil => exact h
  | cons c cs ih =>
    have hcs' : ∀ c', c' ∈ cs → ∀ p, c' ≠ .fetch_page p :=
      fun c' hc' => hcs c' (List.mem_cons_of_mem _ hc')
    unfold runCalls
    cases hc : b.call c with
    | error x => exact ih h hcs'
    | ok x =>
      obtain ⟨e, r, b1⟩ := x
      exact ih (ReachableAllocated.call c e r h
        (fun p hp => absurd hp (hcs c (List.mem_cons_self _ _) p)) hc) hcs'

/-- In a state of the invariant no call throws. -/
theorem call_returned {b b' : BufferPoolManager} {c : Call} {e : Ending} {r : Result}
    (hb : PoolInv b) (h : b.call c = .ok (e, r, b')) : e = .returned := by
  cases c with
  | new_page =>
    dsimp only [call] at h
    cases hx : b.NewPage with
    | error x => rw [hx] at h; cases h
    | ok x =>
      obtain ⟨e1, r1, b1⟩ := x
      rw [hx] at h
      cases h
      exact (NewPage_spec hb hx).1
  | fetch_page p =>
    dsimp only [call] at h
    cases hx : b.FetchPage p with
    | error x => rw [hx] at h; cases h
    | ok x =>
      obtain ⟨e1, r1, b1⟩ := x
      rw [hx] at h
      cases h
      exact (FetchPage_spec hb hx).1
  | unpin_page p d =>
    dsimp only [call] at h
    cases hx : b.UnpinPage p d with
    | error x => rw [hx] at h; cases h
    | ok x =>
      obtain ⟨r1, b1⟩ := x
      rw [hx] at h
      cases h
      rfl
  | flush_page p =>
    dsimp only [call] at h
    cases hx : b.FlushPage p with
    | error x => rw [hx] at h; cases h
    | ok x =>
      obtain ⟨r1, b1⟩ := x
      rw [hx] at h
      cases h
      rfl
  | flush_all =>
    cases h
    rfl
  | delete_page p =>
    dsimp only [call] at h
    cases hx : b.DeletePage p with
    | error x => rw [hx] at h; cases h
    | ok x =>
      obtain ⟨e1, r1, b1⟩ := x
      rw [hx] at h
      cases h
      exact (DeletePage_spec hb hx).1
  | write_data f0 d0 =>
    dsimp only [call] at h
    cases hx : b.WriteData f0 d0 with
    | error x => rw [hx] at h; cases h
    | ok b1 =>
      rw [hx] at h
      cases h
      rfl

/-- The call behind a one-call run. -/
theorem call_of_runCalls {b : BufferPoolManager} {c : Call} {r : Result} (hb : PoolInv b)
    (h : (b.runCalls [c]).1 = [r]) : b.call c = .ok (.returned, r, (b.runCalls [c]).2) := by
  unfold runCalls at h ⊢
  cases hc : b.call c with
  | error x =>
    rw [hc] at h
    cases h
  | ok x =>
    obtain ⟨e, r1, b1⟩ := x
    rw [hc] at h
    have he := call_returned hb hc
    subst he
    dsimp only [runCalls] at h ⊢
    cases h
    rfl

end BufferPoolManager

/-! ## The bytes of pages: what reuse of a frame writes and what `FetchPage` reads -/

namespace BufferPoolManager

theorem writeBack_disk (b : BufferPoolManager) (g : frame_id_t) :
    (b.writeBack g).disk_ = b.diskAfterReuse g := by
  unfold writeBack diskAfterReuse
  split_ifs <;> rfl

/-- The bytes and the disk after the frame-taking path that `NewPage` and
`FetchPage` share. -/
theorem acquire_data {b b0 b3 : BufferPoolManager} {g : frame_id_t} {page_id n : page_id_t}
    {e : Ending} (hb : PoolInv b) (hp : b.pickFrame = (some g, b0))
    (hi : ({ b0.writeBack g with next_page_id_ := n } : BufferPoolManager).install g page_id =
      .ok (e, b3)) :
    (b3.pages_ g).data_ = .zero ∧ b3.disk_ = b.diskAfterReuse g := by
  obtain ⟨hin, -, -, -, hpg, -, hdk, -, hsz0, -, -, hn0⟩ := pickFrame_some hb hp
  obtain ⟨-, -, -, -, wrp, -⟩ := writeBack_fields b0 g
  have hr2 : LRUKReplacer.SizeInv
      ({ b0.writeBack g with next_page_id_ := n } : BufferPoolManager).replacer_ := by
    show LRUKReplacer.SizeInv (b0.writeBack g).replacer_
    rw [wrp]
    exact hsz0
  have hg2 : g ≤ ((({ b0.writeBack g with next_page_id_ := n } :
      BufferPoolManager).replacer_.replacer_size_ : Nat) : Int) := by
    show g ≤ (((b0.writeBack g).replacer_.replacer_size_ : Nat) : Int)
    rw [wrp, hn0, hb.rep_size]
    exact Int.le_of_lt hin.2
  obtain ⟨-, -, -, -, idk, -, ipg, -⟩ := install_spec hr2 hg2 hi
  dsimp only at idk ipg
  constructor
  · rw [ipg, Function.update_same]
  · rw [idk, writeBack_disk]
    unfold diskAfterReuse
    rw [hpg, hdk]

theorem NewPage_pick {b b' : BufferPoolManager} {e : Ending} {g : frame_id_t} {pid : page_id_t}
    (hb : PoolInv b) (h : b.NewPage = .ok (e, some (g, pid), b')) :
    (∃ b0, b.pickFrame = (some g, b0)) ∧ (b'.pages_ g).data_ = .zero ∧
      b'.disk_ = b.diskAfterReuse g := by
  unfold NewPage at h
  cases hp : b.pickFrame with
  | mk o b0 =>
    rw [hp] at h
    cases o with
    | none =>
      dsimp only at h
      cases h
    | some g' =>
      dsimp only at h
      obtain ⟨hin, -, hps, hnx, -⟩ := pickFrame_some hb hp
      have hin0 : b0.inPool g' := (inPool_congr hps g').mpr hin
      rw [if_neg (not_not.mpr hin0)] at h
      cases hi : ({ b0.writeBack g' with next_page_id_ := (b0.writeBack g').next_page_id_ + 1 } :
          BufferPoolManager).install g' (b0.writeBack g').next_page_id_ with
      | error x =>
        rw [hi] at h
        cases h
      | ok x =>
        obtain ⟨e1, b3⟩ := x
        obtain ⟨he, -, -⟩ := acquire_spec hb hp hi
        obtain ⟨hd1, hd2⟩ := acquire_data hb hp hi
        subst he
        rw [hi] at h
        cases h
        exact ⟨⟨b0, rfl⟩, hd1, hd2⟩

theorem FetchPage_pick {b b' : BufferPoolManager} {e : Ending} {g : frame_id_t} {p : page_id_t}
    (hb : PoolInv b) (ht : b.page_table_ p = none) (h : b.FetchPage p = .ok (e, some g, b')) :
    (∃ b0, b.pickFrame = (some g, b0)) ∧ (b'.pages_ g).data_ = b'.disk_ p ∧
      b'.disk_ = b.diskAfterReuse g := by
  unfold FetchPage at h
  by_cases hp : p = INVALID_PAGE_ID
  · rw [if_pos hp] at h
    cases h
  · rw [if_neg hp, ht] at h
    dsimp only at h
    cases hpk : b.pickFrame with
    | mk o b0 =>
      rw [hpk] at h
      cases o with
      | none =>
        dsimp only at h
        cases h
      | some g' =>
        dsimp only at h
        obtain ⟨hin, -, hps, hnx, -⟩ := pickFrame_some hb hpk
        have hin0 : b0.inPool g' := (inPool_congr hps g').mpr hin
        rw [if_neg (not_not.mpr hin0)] at h
        have heta : ({ b0.writeBack g' with next_page_id_ := (b0.writeBack g').next_page_id_ } :
            BufferPoolManager) = b0.writeBack g' := rfl
        cases hi : (b0.writeBack g').install g' p with
        | error x =>
          rw [hi] at h
          cases h
        | ok x =>
          obtain ⟨e1, b3⟩ := x
          rw [← heta] at hi
          obtain ⟨he, hinst, -⟩ := acquire_spec hb hpk hi
          obtain ⟨-, hd2⟩ := acquire_data hb hpk hi
          subst he
          rw [heta] at hi
          rw [hi] at h
          cases h
          refine ⟨⟨b0, rfl⟩, ?_, hd2⟩
          show (Function.update b3.pages_ g _ g).data_ = _
          rw [Function.update_same]
          show b3.disk_ (b3.pages_ g).page_id_ = b3.disk_ p
          rw [hinst.page_id]

theorem pickFrame_evict {b b0 : BufferPoolManager} {o : Option frame_id_t}
    (hfree : b.free_list_ = []) (hp : b.pickFrame = (o, b0)) : b.replacer_.Evict.1 = o := by
  unfold pickFrame at hp
  have hl : b.free_list_.getLast? = none := by rw [hfree]; rfl
  rw [hl] at hp
  dsimp only at hp
  cases hE : b.replacer_.Evict with
  | mk o' r =>
    rw [hE] at hp
    cases o' with
    | none => cases hp; rfl
    | some g => cases hp; rfl

end BufferPoolManager

namespace BufferPoolManager

theorem DeletePage_returns {b : BufferPoolManager} {p : page_id_t} {f : frame_id_t}
    (hb : PoolInv b) (ht : b.page_table_ p = some f) (h0 : (b.pages_ f).pin_count_ = 0) :
    ∃ b', b.DeletePage p = .ok (.returned, true, b') := by
  obtain ⟨hin, hnf, hid⟩ := hb.table_ok p f ht
  obtain ⟨hc, hev, -, hne⟩ := hb.used_ok f hin hnf
  have hp : p ≠ INVALID_PAGE_ID := by rw [← hid]; exact hne
  obtain ⟨s', hs'⟩ := LRUKReplacer.Remove_tracked_evictable hb.rep hc (hev.mpr h0)
  unfold DeletePage
  rw [if_neg hp, ht]
  dsimp only
  rw [if_neg (not_not.mpr hin), if_neg (by rw [h0]; decide), hs']
  exact ⟨_, rfl⟩

theorem table_invalid {b : BufferPoolManager} (hb : PoolInv b) :
    b.page_table_ INVALID_PAGE_ID = none := by
  cases ht : b.page_table_ INVALID_PAGE_ID with
  | none => rfl
  | some f =>
    obtain ⟨hin, hnf, hid⟩ := hb.table_ok _ f ht
    exact absurd hid (hb.used_ok f hin hnf).2.2.2

theorem NewPage_of_call {b b' : BufferPoolManager} {e : Ending} {r : Option (frame_id_t × page_id_t)}
    (h : b.call .new_page = .ok (e, .new_page r, b')) : b.NewPage = .ok (e, r, b') := by
  dsimp only [call] at h
  cases hx : b.NewPage with
  | error x => rw [hx] at h; cases h
  | ok x =>
    obtain ⟨e1, r1, b1⟩ := x
    rw [hx] at h
    cases h
    rfl

theorem call_of_NewPage {b b' : BufferPoolManager} {e : Ending} {r : Option (frame_id_t × page_id_t)}
    (h : b.NewPage = .ok (e, r, b')) : b.call .new_page = .ok (e, .new_page r, b') := by
  dsimp only [call]
  rw [h]

/-- Only a `NewPage` that hands out a page moves `next_page_id_`. -/
theorem call_next_page_id {b b' : BufferPoolManager} {c : Call} {e : Ending} {r : Result}
    (hb : PoolInv b) (h : b.call c = .ok (e, r, b')) (hr : ∀ x, r ≠ .new_page (some x)) :
    b'.next_page_id_ = b.next_page_id_ := by
  cases c with
  | new_page =>
    dsimp only [call] at h
    cases hx : b.NewPage with
    | error x => rw [hx] at h; cases h
    | ok x =>
      obtain ⟨e1, r1, b1⟩ := x
      rw [hx] at h
      cases h
      rcases (NewPage_spec hb hx).2 with ⟨-, rfl, -⟩ | ⟨g, hr1, -, -⟩
      · rfl
      · exact absurd (congrArg Result.new_page hr1) (hr _)
  | fetch_page p =>
    dsimp only [call] at h
    cases hx : b.FetchPage p with
    | error x => rw [hx] at h; cases h
    | ok x =>
      obtain ⟨e1, r1, b1⟩ := x
      rw [hx] at h
      cases h
      rcases (FetchPage_spec hb hx).2 with ⟨-, -, rfl⟩ | ⟨-, f, -, -, hi⟩ | ⟨-, -, -, rfl, -⟩ |
        ⟨-, -, g, -, -, hn⟩
      · rfl
      · exact hi.next_page_id
      · rfl
      · exact hn
  | unpin_page p d =>
    dsimp only [call] at h
    cases hx : b.UnpinPage p d with
    | error x => rw [hx] at h; cases h
    | ok x =>
      obtain ⟨r1, b1⟩ := x
      rw [hx] at h
      cases h
      exact (UnpinPage_SameTable hb hx).next_page_id
  | flush_page p =>
    dsimp only [call] at h
    cases hx : b.FlushPage p with
    | error x => rw [hx] at h; cases h
    | ok x =>
      obtain ⟨r1, b1⟩ := x
      rw [hx] at h
      cases h
      exact (FlushPage_SameCore hx).next_page_id
  | flush_all =>
    cases h
    exact (FlushAllPages_SameCore b).next_page_id
  | delete_page p =>
    dsimp only [call] at h
    cases hx : b.DeletePage p with
    | error x => rw [hx] at h; cases h
    | ok x =>
      obtain ⟨e1, r1, b1⟩ := x
      rw [hx] at h
      cases h
      rcases (DeletePage_spec hb hx).2 with ⟨-, -, rfl⟩ | ⟨f, -, -, -, rfl⟩ | ⟨f, -, -, -, hi⟩
      · rfl
      · rfl
      · exact hi.next_page_id
  | write_data f0 d0 =>
    dsimp only [call] at h
    cases hx : b.WriteData f0 d0 with
    | error x => rw [hx] at h; cases h
    | ok b1 =>
      rw [hx] at h
      cases h
      exact (WriteData_SameCore hx).next_page_id

end BufferPoolManager

namespace BufferPoolManager

theorem emplace_keeps {table : page_id_t → Option frame_id_t} {page_id q : page_id_t}
    {g f : frame_id_t} (h : table q = some f) : emplace table page_id g q = some f := by
  unfold emplace
  cases ht : table page_id with
  | some x => exact h
  | none =>
    dsimp only
    by_cases hq : q = page_id
    · rw [hq, ht] at h
      cases h
    · rw [Function.update_noteq hq]
      exact h

theorem emplace_other {table : page_id_t → Option frame_id_t} {page_id q : page_id_t}
    {g : frame_id_t} (hq : q ≠ page_id) : emplace table page_id g q = table q := by
  unfold emplace
  cases ht : table page_id with
  | some x => rfl
  | none =>
    dsimp only
    rw [Function.update_noteq hq]

/-- The page id in a frame that `NewPage` or `FetchPage` is about to reuse. -/
theorem Installed_source_id {b b' : BufferPoolManager} {g : frame_id_t} {pid : page_id_t}
    (hb : PoolInv b) (hm : IdleMapped b) (hi : Installed b b' g pid) :
    (b.pages_ g).page_id_ = INVALID_PAGE_ID ∨ b.page_table_ (b.pages_ g).page_id_ = some g := by
  rcases hi.source with hfree | ⟨hnil, hev⟩
  · exact Or.inl (hb.free_ok g hfree).2.2.1
  · right
    have hnf : g ∉ b.free_list_ := by rw [hnil]; exact List.not_mem_nil g
    exact hm g hi.in_pool hnf ((hb.used_ok g hi.in_pool hnf).2.1.mp hev.1)

/-- A page in another frame than the reused one stays where it is. -/
theorem Installed_keeps {b b' : BufferPoolManager} {g f : frame_id_t} {pid q : page_id_t}
    (hb : PoolInv b) (hm : IdleMapped b) (hi : Installed b b' g pid)
    (ht : b.page_table_ q = some f) (hfg : f ≠ g) : b'.page_table_ q = some f := by
  rw [hi.page_table]
  apply emplace_keeps
  have hq : q ≠ (b.pages_ g).page_id_ := by
    intro hq
    rcases Installed_source_id hb hm hi with h1 | h1
    · rw [hq, h1, table_invalid hb] at ht
      cases ht
    · rw [hq, h1] at ht
      exact hfg (Option.some.inj ht).symm
  rw [Function.update_noteq hq]
  exact ht

theorem Installed_IdleMapped {b b' : BufferPoolManager} {g : frame_id_t} {pid : page_id_t}
    (hb : PoolInv b) (hm : IdleMapped b) (hi : Installed b b' g pid) : IdleMapped b' := by
  intro f hf hnf h0
  by_cases hfg : f = g
  · rw [hfg, hi.pin_count] at h0
    exact absurd h0 (by decide)
  · rw [hi.others f hfg] at h0 ⊢
    have hnf0 : f ∉ b.free_list_ := by
      intro hmem
      apply hnf
      rw [hi.free_list]
      exact hb.free_nodup.mem_erase_iff.mpr ⟨hfg, hmem⟩
    have hf0 : b.inPool f := (inPool_congr hi.pool_size f).mp hf
    exact Installed_keeps hb hm hi (hm f hf0 hnf0 h0) hfg

theorem Hit_IdleMapped {b b' : BufferPoolManager} {f0 : frame_id_t} {p : page_id_t}
    (hb : PoolInv b) (hm : IdleMapped b) (ht : b.page_table_ p = some f0) (hi : Hit b b' f0) :
    IdleMapped b' := by
  intro f hf hnf h0
  have hf0 : b.inPool f := (inPool_congr hi.pool_size f).mp hf
  rw [hi.free_list] at hnf
  rw [hi.page_table]
  by_cases hff : f = f0
  · subst hff
    rw [hi.pages, Function.update_same] at h0 ⊢
    have hpos := (hb.used_ok f hf0 hnf).2.2.1
    dsimp only at h0
    exfalso
    have h1 : (b.pages_ f).pin_count_ = -1 := by linarith
    rw [h1] at hpos
    exact absurd hpos (by decide)
  · rw [hi.pages, Function.update_noteq hff] at h0 ⊢
    exact hm f hf0 hnf h0

theorem SameCore_IdleMapped {b b' : BufferPoolManager} (hm : IdleMapped b) (hi : SameCore b b') :
    IdleMapped b' := by
  intro f hf hnf h0
  rw [hi.free_list] at hnf
  rw [hi.pin_count] at h0
  rw [hi.page_table, hi.page_id]
  exact hm f ((inPool_congr hi.pool_size f).mp hf) hnf h0

theorem UnpinPage_IdleMapped {b b' : BufferPoolManager} {p : page_id_t} {d r : Bool}
    (hb : PoolInv b) (hm : IdleMapped b) (h : b.UnpinPage p d = .ok (r, b')) : IdleMapped b' := by
  have hs := UnpinPage_SameTable hb h
  intro f hf hnf h0
  rw [hs.free_list] at hnf
  rw [hs.page_table, hs.page_id]
  have hf0 : b.inPool f := (inPool_congr hs.pool_size f).mp hf
  rcases UnpinPage_spec hb h with ⟨-, -, rfl⟩ | ⟨f0, ht, hp0, -, rfl⟩ | ⟨f0, ht, -, -, rfl⟩
  · exact hm f hf0 hnf h0
  · by_cases hff : f = f0
    · subst hff
      exact hm f hf0 hnf hp0
    · simp only [Function.update_noteq hff] at h0
      exact hm f hf0 hnf h0
  · by_cases hff : f = f0
    · subst hff
      rw [(hb.table_ok p f ht).2.2]
      exact ht
    · simp only [Function.update_noteq hff] at h0
      exact hm f hf0 hnf h0

theorem Freed_IdleMapped {b b' : BufferPoolManager} {f0 : frame_id_t} {p : page_id_t}
    (hm : IdleMapped b) (ht : b.page_table_ p = some f0) (hi : Freed b b' f0 p) :
    IdleMapped b' := by
  intro f hf hnf h0
  have hf0 : b.inPool f := (inPool_congr hi.pool_size f).mp hf
  rw [hi.free_list] at hnf
  have hff : f ≠ f0 := fun h => hnf (List.mem_append_right _ (by rw [h]; exact List.mem_singleton_self _))
  have hnf0 : f ∉ b.free_list_ := fun h => hnf (List.mem_append_left _ h)
  rw [hi.pages, Function.update_noteq hff] at h0 ⊢
  have h1 := hm f hf0 hnf0 h0
  rw [hi.page_table]
  have hq : (b.pages_ f).page_id_ ≠ p := by
    intro hq
    rw [hq, ht] at h1
    exact hff (Option.some.inj h1).symm
  rw [Function.update_noteq hq]
  exact h1

theorem new_IdleMapped (pool_size replacer_k : Nat) (h : pool_size < 2 ^ 31) :
    IdleMapped (BufferPoolManager.new pool_size replacer_k) :=
  fun f hf hnf _ => (new_MappedInv pool_size replacer_k h).mapped f hf hnf

theorem call_IdleMapped {b b' : BufferPoolManager} {c : Call} {e : Ending} {r : Result}
    (hb : PoolInv b) (hm : IdleMapped b) (h : b.call c = .ok (e, r, b')) : IdleMapped b' := by
  cases c with
  | new_page =>
    dsimp only [call] at h
    cases hx : b.NewPage with
    | error x => rw [hx] at h; cases h
    | ok x =>
      obtain ⟨e1, r1, b1⟩ := x
      rw [hx] at h
      cases h
      rcases (NewPage_spec hb hx).2 with ⟨-, rfl, -⟩ | ⟨g, -, hi, -⟩
      · exact hm
      · exact Installed_IdleMapped hb hm hi
  | fetch_page p =>
    dsimp only [call] at h
    cases hx : b.FetchPage p with
    | error x => rw [hx] at h; cases h
    | ok x =>
      obtain ⟨e1, r1, b1⟩ := x
      rw [hx] at h
      cases h
      rcases (FetchPage_spec hb hx).2 with ⟨-, -, rfl⟩ | ⟨-, f, ht, -, hi⟩ | ⟨-, -, -, rfl, -⟩ |
        ⟨-, -, g, -, hi, -⟩
      · exact hm
      · exact Hit_IdleMapped hb hm ht hi
      · exact hm
      · exact Installed_IdleMapped hb hm hi
  | unpin_page p d =>
    dsimp only [call] at h
    cases hx : b.UnpinPage p d with
    | error x => rw [hx] at h; cases h
    | ok x =>
      obtain ⟨r1, b1⟩ := x
      rw [hx] at h
      cases h
      exact UnpinPage_IdleMapped hb hm hx
  | flush_page p =>
    dsimp only [call] at h
    cases hx : b.FlushPage p with
    | error x => rw [hx] at h; cases h
    | ok x =>
      obtain ⟨r1, b1⟩ := x
      rw [hx] at h
      cases h
      exact SameCore_IdleMapped hm (FlushPage_SameCore hx)
  | flush_all =>
    cases h
    exact SameCore_IdleMapped hm (FlushAllPages_SameCore b)
  | delete_page p =>
    dsimp only [call] at h
    cases hx : b.DeletePage p with
    | error x => rw [hx] at h; cases h
    | ok x =>
      obtain ⟨e1, r1, b1⟩ := x
      rw [hx] at h
      cases h
      rcases (DeletePage_spec hb hx).2 with ⟨-, -, rfl⟩ | ⟨f, -, -, -, rfl⟩ | ⟨f, ht, -, -, hi⟩
      · exact hm
      · exact hm
      · exact Freed_IdleMapped hm ht hi
  | write_data f0 d0 =>
    dsimp only [call] at h
    cases hx : b.WriteData f0 d0 with
    | error x => rw [hx] at h; cases h
    | ok b1 =>
      rw [hx] at h
      cases h
      exact SameCore_IdleMapped hm (WriteData_SameCore hx)

theorem Reachable_IdleMapped {b : BufferPoolManager} (h : Reachable b) : IdleMapped b := by
  induction h with
  | new n k hn => exact new_IdleMapped n k hn
  | call c e r hr hc ih => exact call_IdleMapped (Reachable_PoolInv hr) ih hc

end BufferPoolManager

namespace BufferPoolManager

/-- The disk keeps what it has for a page that is not the one in the reused
frame. -/
theorem diskAfterReuse_other {b b' : BufferPoolManager} {g : frame_id_t} {pid p : page_id_t}
    (hb : PoolInv b) (hm : IdleMapped b) (hi : Installed b b' g pid) (hp : p ≠ INVALID_PAGE_ID)
    (ht : b.page_table_ p ≠ some g) : b.diskAfterReuse g p = b.disk_ p := by
  unfold diskAfterReuse
  split_ifs with hd
  · have hq : p ≠ (b.pages_ g).page_id_ := by
      intro hq
      rcases Installed_source_id hb hm hi with h1 | h1
      · exact hp (hq.trans h1)
      · rw [← hq] at h1
        exact ht h1
    rw [Function.update_noteq hq]
  · rfl

theorem Installed_Kept {b b' : BufferPoolManager} {g : frame_id_t} {pid p : page_id_t}
    {d : PageData} (hb : PoolInv b) (hm : IdleMapped b) (hi : Installed b b' g pid)
    (hdisk : b'.disk_ = b.diskAfterReuse g) (hp : p ≠ INVALID_PAGE_ID) (hpid : pid ≠ p)
    (hk : Kept b p d) : Kept b' p d := by
  rcases hk with ⟨f, ht, hdirty, hdata⟩ | ⟨ht, hdk⟩
  · by_cases hfg : f = g
    · subst hfg
      right
      have hid := (hb.table_ok p f ht).2.2
      constructor
      · rw [hi.page_table, emplace_other (Ne.symm hpid), hid, Function.update_same]
      · rw [hdisk]
        unfold diskAfterReuse
        rw [if_pos hdirty, hid, Function.update_same]
        exact hdata
    · left
      refine ⟨f, Installed_keeps hb hm hi ht hfg, ?_, ?_⟩
      · rw [hi.others f hfg]; exact hdirty
      · rw [hi.others f hfg]; exact hdata
  · right
    constructor
    · rw [hi.page_table, emplace_other (Ne.symm hpid)]
      by_cases hq : p = (b.pages_ g).page_id_
      · rw [hq, Function.update_same]
      · rw [Function.update_noteq hq]
        exact ht
    · rw [hdisk, diskAfterReuse_other hb hm hi hp (by rw [ht]; exact fun h => by cases h)]
      exact hdk

/-- A call on another page than `p` keeps the bytes of `p`. -/
theorem call_Kept {b b' : BufferPoolManager} {c : Call} {e : Ending} {r : Result} {p : page_id_t}
    {d : PageData} (hb : PoolInv b) (hm : IdleMapped b) (hp : p ≠ INVALID_PAGE_ID)
    (hk : Kept b p d) (ho : b.onOther p c = true) (h : b.call c = .ok (e, r, b')) :
    Kept b' p d := by
  cases c with
  | new_page =>
    have hne : b.next_page_id_ ≠ p := of_decide_eq_true ho
    dsimp only [call] at h
    cases hx : b.NewPage with
    | error x => rw [hx] at h; cases h
    | ok x =>
      obtain ⟨e1, r1, b1⟩ := x
      rw [hx] at h
      cases h
      rcases (NewPage_spec hb hx).2 with ⟨-, rfl, -⟩ | ⟨g, hr, hi, -⟩
      · exact hk
      · subst hr
        exact Installed_Kept hb hm hi (NewPage_pick hb hx).2.2 hp hne hk
  | fetch_page q =>
    have hne : q ≠ p := of_decide_eq_true ho
    dsimp only [call] at h
    cases hx : b.FetchPage q with
    | error x => rw [hx] at h; cases h
    | ok x =>
      obtain ⟨e1, r1, b1⟩ := x
      rw [hx] at h
      cases h
      rcases (FetchPage_spec hb hx).2 with ⟨-, -, rfl⟩ | ⟨-, f0, -, -, hi⟩ | ⟨-, -, -, rfl, -⟩ |
        ⟨-, htq, g, hr, hi, -⟩
      · exact hk
      · rcases hk with ⟨f, ht, hdirty, hdata⟩ | ⟨ht, hdk⟩
        · left
          refine ⟨f, by rw [hi.page_table]; exact ht, ?_, ?_⟩
          · rw [hi.pages]
            by_cases hff : f = f0
            · rw [hff, Function.update_same]
              rw [hff] at hdirty
              exact hdirty
            · rw [Function.update_noteq hff]
              exact hdirty
          · rw [hi.pages]
            by_cases hff : f = f0
            · rw [hff, Function.update_same]
              rw [hff] at hdata
              exact hdata
            · rw [Function.update_noteq hff]
              exact hdata
        · right
          exact ⟨by rw [hi.page_table]; exact ht, by rw [hi.disk]; exact hdk⟩
      · exact hk
      · subst hr
        exact Installed_Kept hb hm hi (FetchPage_pick hb htq hx).2.2 hp hne hk
  | unpin_page q dd =>
    have hne : q ≠ p := of_decide_eq_true ho
    dsimp only [call] at h
    cases hx : b.UnpinPage q dd with
    | error x => rw [hx] at h; cases h
    | ok x =>
      obtain ⟨r1, b1⟩ := x
      rw [hx] at h
      cases h
      have hother : ∀ f0 f, b.page_table_ q = some f0 → b.page_table_ p = some f → f ≠ f0 := by
        intro f0 f h1 h2 hff
        rw [hff] at h2
        exact hne (((hb.table_ok q f0 h1).2.2).symm.trans ((hb.table_ok p f0 h2).2.2))
      rcases UnpinPage_spec hb hx with ⟨-, -, rfl⟩ | ⟨f0, ht0, -, -, rfl⟩ | ⟨f0, ht0, -, -, rfl⟩
      · exact hk
      · rcases hk with ⟨f, ht, hdirty, hdata⟩ | ⟨ht, hdk⟩
        · left
          refine ⟨f, ht, ?_, ?_⟩
          · simp only [Function.update_noteq (hother f0 f ht0 ht)]
            exact hdirty
          · simp only [Function.update_noteq (hother f0 f ht0 ht)]
            exact hdata
        · exact Or.inr ⟨ht, hdk⟩
      · rcases hk with ⟨f, ht, hdirty, hdata⟩ | ⟨ht, hdk⟩
        · left
          refine ⟨f, ht, ?_, ?_⟩
          · simp only [Function.update_noteq (hother f0 f ht0 ht)]
            exact hdirty
          · simp only [Function.update_noteq (hother f0 f ht0 ht)]
            exact hdata
        · exact Or.inr ⟨ht, hdk⟩
  | flush_page q => cases ho
  | flush_all => cases ho
  | delete_page q => cases ho
  | write_data f0 d0 =>
    have hne : (b.pages_ f0).page_id_ ≠ p := of_decide_eq_true ho
    dsimp only [call] at h
    cases hx : b.WriteData f0 d0 with
    | error x => rw [hx] at h; cases h
    | ok b1 =>
      rw [hx] at h
      cases h
      unfold WriteData at hx
      split_ifs at hx
      cases hx
      rcases hk with ⟨f, ht, hdirty, hdata⟩ | ⟨ht, hdk⟩
      · have hff : f ≠ f0 := by
          intro hff
          rw [hff] at ht
          exact hne (hb.table_ok p f0 ht).2.2
        left
        refine ⟨f, ht, ?_, ?_⟩
        · simp only [Function.update_noteq hff]
          exact hdirty
        · simp only [Function.update_noteq hff]
          exact hdata
      · exact Or.inr ⟨ht, hdk⟩

theorem runCalls_error {b : BufferPoolManager} {c : Call} {x : Fault} (cs : List Call)
    (hc : b.call c = .error x) : b.runCalls (c :: cs) = b.runCalls cs := by
  rw [runCalls, hc]

theorem runCalls_ok {b b' : BufferPoolManager} {c : Call} {e : Ending} {r : Result} (cs : List Call)
    (hc : b.call c = .ok (e, r, b')) :
    b.runCalls (c :: cs) = ((b'.runCalls cs).1.cons r, (b'.runCalls cs).2) := by
  rw [runCalls, hc]

theorem runCalls_cons (b : BufferPoolManager) (c : Call) (cs : List Call) :
    (b.runCalls (c :: cs)).2 = ((b.runCalls [c]).2.runCalls cs).2 := by
  cases hc : b.call c with
  | error x => rw [runCalls_error cs hc, runCalls_error [] hc]; rfl
  | ok x =>
    obtain ⟨e, r, b'⟩ := x
    rw [runCalls_ok cs hc, runCalls_ok [] hc]
    rfl

theorem runCalls_one (b : BufferPoolManager) (c : Call) :
    (b.runCalls [c]).2 = b ∨ ∃ e r, b.call c = .ok (e, r, (b.runCalls [c]).2) := by
  cases hc : b.call c with
  | error x => left; rw [runCalls_error [] hc]; rfl
  | ok x =>
    obtain ⟨e, r, b'⟩ := x
    right
    rw [runCalls_ok [] hc]
    exact ⟨e, r, rfl⟩

theorem runCalls_Kept {p : page_id_t} {d : PageData} (hp : p ≠ INVALID_PAGE_ID) :
    ∀ (cs : List Call) (b : BufferPoolManager), Reachable b → Kept b p d →
      runsOnOthers p b cs = true → Kept (b.runCalls cs).2 p d
  | [], _, _, hk, _ => hk
  | c :: cs, b, hr, hk, ho => by
    rw [runCalls_cons]
    simp only [runsOnOthers, Bool.and_eq_true] at ho
    have hr1 : Reachable (b.runCalls [c]).2 := runCalls_reachable_pool hr [c]
    refine runCalls_Kept hp cs _ hr1 ?_ ho.2
    rcases runCalls_one b c with h1 | ⟨e, r, h1⟩
    · rw [h1]; exact hk
    · exact call_Kept (Reachable_PoolInv hr) (Reachable_IdleMapped hr) hp hk ho.1 h1

/-- `FetchPage` hands back the kept bytes. -/
theorem FetchPage_Kept {b b' : BufferPoolManager} {e : Ending} {g : frame_id_t} {p : page_id_t}
    {d : PageData} (hb : PoolInv b) (hm : IdleMapped b) (hk : Kept b p d)
    (h : b.FetchPage p = .ok (e, some g, b')) : (b'.pages_ g).data_ = d := by
  rcases (FetchPage_spec hb h).2 with ⟨-, hr, -⟩ | ⟨-, f0, ht0, hr, hi⟩ | ⟨-, -, hr, -⟩ |
    ⟨hp, htq, g', hr, hi, -⟩
  · cases hr
  · cases hr
    rcases hk with ⟨f, ht, -, hdata⟩ | ⟨ht, -⟩
    · rw [ht0] at ht
      cases ht
      rw [hi.pages, Function.update_same]
      exact hdata
    · rw [ht0] at ht
      cases ht
  · cases hr
  · cases hr
    rcases hk with ⟨f, ht, -, -⟩ | ⟨ht, hdk⟩
    · rw [htq] at ht
      cases ht
    · obtain ⟨-, h1, h2⟩ := FetchPage_pick hb htq h
      rw [h1, h2, diskAfterReuse_other hb hm hi hp (by rw [ht]; exact fun h => by cases h)]
      exact hdk

/-- `FetchPage` of a valid page id returns with a frame when the page is in a
frame or a frame is to be had. -/
theorem FetchPage_returns {b : BufferPoolManager} (hb : PoolInv b) (hk : 0 < b.replacer_.k_)
    {p : page_id_t} (hp : p ≠ INVALID_PAGE_ID)
    (h : b.page_table_ p ≠ none ∨ ¬ (b.free_list_ = [] ∧ ∀ f, ¬ b.replacer_.IsEvictable f)) :
    ∃ g b', b.FetchPage p = .ok (.returned, some g, b') := by
  cases ht : b.page_table_ p with
  | none =>
    rcases h with h | h
    · exact absurd ht h
    · exact (acquire_returns hb hk h).2 p hp ht
  | some f =>
    obtain ⟨hin, hnf, -⟩ := hb.table_ok p f ht
    have hf : f ≤ (b.replacer_.replacer_size_ : Int) := by
      rw [hb.rep_size]
      exact Int.le_of_lt hin.2
    obtain ⟨s', hs'⟩ := LRUKReplacer.RecordAccess_returns hb.rep.inv hf hk
      (fun h0 => absurd h0 (hb.used_ok f hin hnf).1)
    unfold FetchPage
    rw [if_neg hp, ht]
    dsimp only
    rw [if_neg (not_not.mpr hin), hs']
    exact ⟨_, _, rfl⟩

theorem UnpinPage_of_call {b b' : BufferPoolManager} {p : page_id_t} {d r : Bool} {e : Ending}
    (h : b.call (.unpin_page p d) = .ok (e, .bool r, b')) : b.UnpinPage p d = .ok (r, b') := by
  dsimp only [call] at h
  cases hx : b.UnpinPage p d with
  | error x => rw [hx] at h; cases h
  | ok x =>
    obtain ⟨r1, b1⟩ := x
    rw [hx] at h
    cases h
    rfl

end BufferPoolManager

namespace LRUKReplacer

theorem firstAccess_full {s : LRUKReplacer} (h : Inv s) {f : frame_id_t}
    (h0 : 0 < s.record_count_ f) (hk : s.k_ ≤ s.record_count_ f) :
    s.backwardKDistance f = some (s.current_timestamp_ - s.firstAccess f) := by
  obtain ⟨p, hp, rfl⟩ := List.mem_map.mp (h.cnt_full f h0 hk)
  rw [backwardKDistance_full h hp]
  have hh := (h.full_cnt p hp).2.2.2
  unfold firstAccess
  cases hl : s.alltime p.1 with
  | nil => rw [hl] at hh; cases hh
  | cons a l =>
    rw [hl] at hh
    cases hh
    rfl

/-- When every evictable frame has one recorded access, the victim is the one
whose access is the earliest. -/
theorem Evict_oldest {s : LRUKReplacer} (h : Inv s) (hk : 0 < s.k_) {g : frame_id_t}
    (he : s.Evict.1 = some g) (h1 : ∀ f, IsEvictable s f → s.record_count_ f = 1) :
    IsEvictable s g ∧
    (∀ f, IsEvictable s f → s.firstAccess g ≤ s.firstAccess f) ∧
    (1 < s.k_ → ∀ f, IsEvictable s f → f ≠ g → s.firstAccess g < s.firstAccess f) := by
  obtain ⟨hg, hdist, hfirst⟩ := Evict_policy h he
  refine ⟨hg, ?_, ?_⟩
  · intro f hf
    by_cases hk1 : 1 < s.k_
    · by_cases hfg : f = g
      · rw [hfg]
      · exact Nat.le_of_lt ((hfirst f hf (by rw [h1 f hf]; exact hk1)).2 hfg)
    · have hk' : s.k_ = 1 := by omega
      have hd := hdist f hf
      rw [firstAccess_full h (by rw [h1 f hf]; decide) (by rw [h1 f hf, hk']),
        firstAccess_full h (by rw [h1 g hg]; decide) (by rw [h1 g hg, hk'])] at hd
      have h2 := firstAccess_le h f
      have h3 := firstAccess_le h g
      have hd' : s.current_timestamp_ - s.firstAccess f ≤ s.current_timestamp_ - s.firstAccess g := hd
      omega
  · intro hk1 f hf hfg
    exact (hfirst f hf (by rw [h1 f hf]; exact hk1)).2 hfg

end LRUKReplacer

/-! ## Claims on the buffer pool -/

/-- C16 as stated fails: on a fresh pool of two frames, `FetchPage(0)` puts
page id 0 into frame 1, and the `NewPage` that follows hands out page id 0
again and puts it into frame 0, so that two frames hold page id 0. -/
theorem fetch_then_new_page_shares_page_id :
    ((BufferPoolManager.new 2 2).runCalls [.fetch_page 0, .new_page]).1 =
      [.page (some 1), .new_page (some (0, 0))] ∧
    (((BufferPoolManager.new 2 2).runCalls [.fetch_page 0, .new_page]).2.pages_ 0).page_id_ = 0 ∧
    (((BufferPoolManager.new 2 2).runCalls [.fetch_page 0, .new_page]).2.pages_ 1).page_id_ = 0 := by
  decide!

/-- C16 amended (BPM.1): in every state reachable from a fresh pool by
new_page, fetch_page, unpin_page, flush_page, flush_all and delete_page (and
by stores to the bytes of pages), where fetch_page is only asked for page ids
below `next_page_id_`, a page id other
than `INVALID_PAGE_ID` is a key of the page table iff some frame of the pool
holds it, the table maps it to a frame that holds it, and no two frames of
the pool hold it. -/
theorem page_table_exact_when_fetching_allocated {b : BufferPoolManager}
    (h : BufferPoolManager.ReachableAllocated b) (p : page_id_t) (hp : p ≠ INVALID_PAGE_ID) :
    ((∃ f, b.page_table_ p = some f) ↔ ∃ f, b.inPool f ∧ (b.pages_ f).page_id_ = p) ∧
    (∀ f, b.page_table_ p = some f → b.inPool f ∧ (b.pages_ f).page_id_ = p) ∧
    (∀ f g, b.inPool f → b.inPool g → (b.pages_ f).page_id_ = p → (b.pages_ g).page_id_ = p →
      f = g) :=
  BufferPoolManager.page_table_exact
    (BufferPoolManager.Reachable_PoolInv (BufferPoolManager.ReachableAllocated_Reachable h))
    (BufferPoolManager.ReachableAllocated_MappedInv h) p hp

/-- C16 amended, at a concrete input: page id 0 in the pool of three frames
after the churn calls. -/
theorem page_table_exact_when_fetching_allocated_witness :
    ((∃ f, ((BufferPoolManager.new 3 2).runCalls BufferPoolManager.churnCalls).2.page_table_ 0 =
        some f) ↔
      ∃ f, ((BufferPoolManager.new 3 2).runCalls BufferPoolManager.churnCalls).2.inPool f ∧
        (((BufferPoolManager.new 3 2).runCalls BufferPoolManager.churnCalls).2.pages_ f).page_id_ =
          0) ∧
    (∀ f, ((BufferPoolManager.new 3 2).runCalls BufferPoolManager.churnCalls).2.page_table_ 0 =
        some f →
      ((BufferPoolManager.new 3 2).runCalls BufferPoolManager.churnCalls).2.inPool f ∧
        (((BufferPoolManager.new 3 2).runCalls BufferPoolManager.churnCalls).2.pages_ f).page_id_ =
          0) ∧
    (∀ f g, ((BufferPoolManager.new 3 2).runCalls BufferPoolManager.churnCalls).2.inPool f →
      ((BufferPoolManager.new 3 2).runCalls BufferPoolManager.churnCalls).2.inPool g →
      (((BufferPoolManager.new 3 2).runCalls BufferPoolManager.churnCalls).2.pages_ f).page_id_ = 0 →
      (((BufferPoolManager.new 3 2).runCalls BufferPoolManager.churnCalls).2.pages_ g).page_id_ = 0 →
      f = g) :=
  page_table_exact_when_fetching_allocated
    (BufferPoolManager.runCalls_reachable_allocated
      (BufferPoolManager.ReachableAllocated.new 3 2 (by decide)) BufferPoolManager.churnCalls
      (by
        intro c hc p hp
        subst hp
        simp [BufferPoolManager.churnCalls] at hc))
    0 (by decide)

/-- C17 (BPM.2): in every state reachable from a fresh pool, each frame of the
pool is in exactly one of three sets: the free list, the frames that hold a
page with pin count above 0, and the frames the replacer tracks as evictable;
a frame of the third set holds a page with pin count 0. -/
theorem frames_partition {b : BufferPoolManager} (h : BufferPoolManager.Reachable b)
    (f : frame_id_t) (hf : b.inPool f) :
    (f ∈ b.free_list_ ∨
      ((b.pages_ f).page_id_ ≠ INVALID_PAGE_ID ∧ 0 < (b.pages_ f).pin_count_) ∨
      b.replacer_.IsEvictable f) ∧
    ¬ (f ∈ b.free_list_ ∧
      ((b.pages_ f).page_id_ ≠ INVALID_PAGE_ID ∧ 0 < (b.pages_ f).pin_count_)) ∧
    ¬ (f ∈ b.free_list_ ∧ b.replacer_.IsEvictable f) ∧
    ¬ (((b.pages_ f).page_id_ ≠ INVALID_PAGE_ID ∧ 0 < (b.pages_ f).pin_count_) ∧
      b.replacer_.IsEvictable f) ∧
    (b.replacer_.IsEvictable f →
      (b.pages_ f).page_id_ ≠ INVALID_PAGE_ID ∧ (b.pages_ f).pin_count_ = 0) :=
  BufferPoolManager.PoolInv_partition (BufferPoolManager.Reachable_PoolInv h) f hf

/-- C17 at a concrete input: frame 2 of the pool of three frames after the
churn calls is not both pinned and evictable. -/
theorem frames_partition_witness :
    ¬ (((((BufferPoolManager.new 3 2).runCalls BufferPoolManager.churnCalls).2.pages_ 2).page_id_ ≠
          INVALID_PAGE_ID ∧
        0 < (((BufferPoolManager.new 3 2).runCalls BufferPoolManager.churnCalls).2.pages_ 2).pin_count_) ∧
      ((BufferPoolManager.new 3 2).runCalls BufferPoolManager.churnCalls).2.replacer_.IsEvictable 2) :=
  (frames_partition
    (BufferPoolManager.runCalls_reachable_pool (BufferPoolManager.Reachable.new 3 2 (by decide)) _)
    2 (by decide!)).2.2.2.1

/-- C18: in every reachable state of the pool, a frame that `NewPage` hands
back, or that `FetchPage` hands back for a page that was not in the page
table, had pin count 0 right before the call; and when a call lowers the pin
count of a frame, the call is `UnpinPage`, the pin count goes down by one, and
if it is 0 afterwards the replacer has the frame as evictable. -/
theorem pinned_page_never_evicted {b b' : BufferPoolManager} {c : BufferPoolManager.Call}
    {e : Ending} {r : BufferPoolManager.Result} (h : BufferPoolManager.Reachable b)
    (hc : b.call c = .ok (e, r, b')) :
    (∀ g page_id, r = .new_page (some (g, page_id)) → (b.pages_ g).pin_count_ = 0) ∧
    (∀ g p, c = .fetch_page p → r = .page (some g) → b.page_table_ p = none →
      (b.pages_ g).pin_count_ = 0) ∧
    (∀ f, (b'.pages_ f).pin_count_ < (b.pages_ f).pin_count_ →
      (∃ p d, c = .unpin_page p d) ∧ (b'.pages_ f).pin_count_ = (b.pages_ f).pin_count_ - 1 ∧
      ((b'.pages_ f).pin_count_ = 0 → b'.replacer_.IsEvictable f)) := by
  have hb := BufferPoolManager.Reachable_PoolInv h
  obtain ⟨h1, h2⟩ := BufferPoolManager.call_reuse hb hc
  exact ⟨h1, h2, fun f hlt => BufferPoolManager.call_pins hb hc f hlt⟩

/-- C18 at a concrete input: after the churn calls on a pool of three frames,
`NewPage` hands back frame 2 with page id 3, and frame 2 had pin count 0. -/
theorem pinned_page_never_evicted_witness :
    (((BufferPoolManager.new 3 2).runCalls BufferPoolManager.churnCalls).2.pages_ 2).pin_count_ = 0 :=
  have hr := BufferPoolManager.runCalls_reachable_pool
    (BufferPoolManager.Reachable.new 3 2 (by decide)) BufferPoolManager.churnCalls
  have hc : ((BufferPoolManager.new 3 2).runCalls BufferPoolManager.churnCalls).2.call .new_page =
      .ok (.returned, .new_page (some (2, 3)),
        (((BufferPoolManager.new 3 2).runCalls BufferPoolManager.churnCalls).2.runCalls
          [.new_page]).2) :=
    BufferPoolManager.call_of_runCalls (BufferPoolManager.Reachable_PoolInv hr) (by decide!)
  (pinned_page_never_evicted hr hc).1 2 3 rfl

/-- C19 fails on the code: on a fresh pool of two frames, after `NewPage`
(page 0 in frame 1) and `UnpinPage(0, false)` the page has pin count 0 and is
not dirty; `UnpinPage(0, true)` then returns false, and the page is dirty
afterwards. -/
theorem unpin_of_unpinned_page_sets_dirty :
    ((BufferPoolManager.new 2 2).runCalls [.new_page, .unpin_page 0 false]).1 =
      [.new_page (some (1, 0)), .bool true] ∧
    (((BufferPoolManager.new 2 2).runCalls [.new_page, .unpin_page 0 false]).2.pages_ 1).pin_count_ =
      0 ∧
    (((BufferPoolManager.new 2 2).runCalls [.new_page, .unpin_page 0 false]).2.pages_ 1).is_dirty_ =
      false ∧
    ((BufferPoolManager.new 2 2).runCalls [.new_page, .unpin_page 0 false, .unpin_page 0 true]).1 =
      [.new_page (some (1, 0)), .bool true, .bool false] ∧
    (((BufferPoolManager.new 2 2).runCalls
      [.new_page, .unpin_page 0 false, .unpin_page 0 true]).2.pages_ 1).is_dirty_ = true := by
  decide!

/-- C20: in every reachable state of the pool, `NewPage`, and `FetchPage` of a
page id that is valid and not in the page table, hand back nothing exactly
when the free list is empty and the replacer has no evictable frame, and then
the pool is as before; when a frame is to be had (and the replacer's `k_` is
not 0) they return with a frame. -/
theorem new_page_none_iff_exhausted {b : BufferPoolManager} (h : BufferPoolManager.Reachable b) :
    ((b.free_list_ = [] ∧ ∀ f, ¬ b.replacer_.IsEvictable f) →
      b.NewPage = .ok (.returned, none, b)) ∧
    (∀ e b', b.NewPage = .ok (e, none, b') →
      (b.free_list_ = [] ∧ ∀ f, ¬ b.replacer_.IsEvictable f) ∧ b' = b) ∧
    (∀ p, p ≠ INVALID_PAGE_ID → b.page_table_ p = none →
      ((b.free_list_ = [] ∧ ∀ f, ¬ b.replacer_.IsEvictable f) →
        b.FetchPage p = .ok (.returned, none, b)) ∧
      (∀ e b', b.FetchPage p = .ok (e, none, b') →
        (b.free_list_ = [] ∧ ∀ f, ¬ b.replacer_.IsEvictable f) ∧ b' = b)) ∧
    (0 < b.replacer_.k_ → ¬ (b.free_list_ = [] ∧ ∀ f, ¬ b.replacer_.IsEvictable f) →
      (∃ g b', b.NewPage = .ok (.returned, some (g, b.next_page_id_), b')) ∧
      (∀ p, p ≠ INVALID_PAGE_ID → b.page_table_ p = none →
        ∃ g b', b.FetchPage p = .ok (.returned, some g, b'))) := by
  have hb := BufferPoolManager.Reachable_PoolInv h
  obtain ⟨h1, h2, h3⟩ := BufferPoolManager.exhausted_iff hb
  exact ⟨h1, h2, h3, fun hk hne => BufferPoolManager.acquire_returns hb hk hne⟩

/-- C20 at a concrete input: after the churn calls on a pool of three frames
the free list is empty, frame 2 is evictable, and `NewPage` returns a frame. -/
theorem new_page_none_iff_exhausted_witness :
    ∃ g b', ((BufferPoolManager.new 3 2).runCalls BufferPoolManager.churnCalls).2.NewPage =
      .ok (.returned,
        some (g, ((BufferPoolManager.new 3 2).runCalls BufferPoolManager.churnCalls).2.next_page_id_),
        b') :=
  ((new_page_none_iff_exhausted
    (BufferPoolManager.runCalls_reachable_pool (BufferPoolManager.Reachable.new 3 2 (by decide)) _)).2.2.2
    (by decide!) (fun hx => hx.2 2 ⟨by decide!, by decide!⟩)).1

/-- C21 as stated fails: on a fresh pool of two frames, `FetchPage(0)` puts
page id 0 into frame 1; the `NewPage` that follows succeeds with page id 0 in
frame 0, and afterwards the page table still gives frame 1 for page 0, while
frames 0 and 1 both hold page id 0. -/
theorem new_page_lands_beside_fetched_frame :
    ((BufferPoolManager.new 2 2).runCalls [.fetch_page 0, .new_page]).1 =
      [.page (some 1), .new_page (some (0, 0))] ∧
    ((BufferPoolManager.new 2 2).runCalls [.fetch_page 0, .new_page]).2.page_table_ 0 = some 1 ∧
    (((BufferPoolManager.new 2 2).runCalls [.fetch_page 0, .new_page]).2.pages_ 0).page_id_ = 0 ∧
    (((BufferPoolManager.new 2 2).runCalls [.fetch_page 0, .new_page]).2.pages_ 1).page_id_ = 0 := by
  decide!

/-- C21 amended: a fresh pool has `next_page_id_ = 0`, and only a `NewPage`
that hands out a page moves it; in every reachable state, when `NewPage`
hands out frame `g` and page id `pid`, `pid` is the old `next_page_id_`, which
is one larger afterwards, frame `g` holds `pid` with pin count 1, dirty flag
false and all bytes zero, and the replacer has `g` as not evictable with one
recorded access; when moreover `FetchPage` was only asked for page ids below
`next_page_id_`, the page table gives `g` for `pid` and no other frame of the
pool holds `pid`. -/
theorem new_page_post_state {b b' : BufferPoolManager} {e : Ending} {g : frame_id_t}
    {pid : page_id_t} (h : BufferPoolManager.Reachable b)
    (hn : b.NewPage = .ok (e, some (g, pid), b')) :
    (∀ n k, (BufferPoolManager.new n k).next_page_id_ = 0) ∧
    (∀ c e1 r1 b1, b.call c = .ok (e1, r1, b1) → (∀ x, r1 ≠ .new_page (some x)) →
      b1.next_page_id_ = b.next_page_id_) ∧
    e = .returned ∧ pid = b.next_page_id_ ∧ b'.next_page_id_ = b.next_page_id_ + 1 ∧
    b'.inPool g ∧ (b'.pages_ g).page_id_ = pid ∧ (b'.pages_ g).pin_count_ = 1 ∧
    (b'.pages_ g).is_dirty_ = false ∧ (b'.pages_ g).data_ = .zero ∧
    b'.replacer_.evictable_ g = false ∧ b'.replacer_.record_count_ g = 1 ∧
    (BufferPoolManager.ReachableAllocated b →
      b'.page_table_ pid = some g ∧ ∀ f, b'.inPool f → (b'.pages_ f).page_id_ = pid → f = g) := by
  have hb := BufferPoolManager.Reachable_PoolInv h
  obtain ⟨he, hspec⟩ := BufferPoolManager.NewPage_spec hb hn
  rcases hspec with ⟨hr, -⟩ | ⟨g', hr, hi, hnx⟩
  · cases hr
  · cases hr
    obtain ⟨-, hdata, -⟩ := BufferPoolManager.NewPage_pick hb hn
    have hin' : b'.inPool g := (BufferPoolManager.inPool_congr hi.pool_size g).mpr hi.in_pool
    refine ⟨fun _ _ => rfl, fun c e1 r1 b1 hc hr1 => BufferPoolManager.call_next_page_id hb hc hr1,
      he, rfl, hnx, hin', hi.page_id, hi.pin_count, hi.is_dirty, hdata, ?_, ?_, ?_⟩
    · rw [hi.evictable, Function.update_same]
    · rw [hi.record_count, Function.update_same]
    · intro ha
      have ha' : BufferPoolManager.ReachableAllocated b' :=
        BufferPoolManager.ReachableAllocated.call .new_page e _ ha (fun p hp => by cases hp)
          (BufferPoolManager.call_of_NewPage hn)
      have hb' := BufferPoolManager.Reachable_PoolInv (BufferPoolManager.ReachableAllocated_Reachable ha')
      have hm' := BufferPoolManager.ReachableAllocated_MappedInv ha'
      have hpid : b.next_page_id_ ≠ INVALID_PAGE_ID := by
        rw [← hi.page_id]
        have hnf : g ∉ b'.free_list_ := by
          rw [hi.free_list]
          exact fun hmem => (hb.free_nodup.mem_erase_iff.mp hmem).1 rfl
        exact (hb'.used_ok g hin' hnf).2.2.2
      obtain ⟨h1, -, h3⟩ := BufferPoolManager.page_table_exact hb' hm' b.next_page_id_ hpid
      obtain ⟨f, hf⟩ := h1.mpr ⟨g, hin', hi.page_id⟩
      obtain ⟨hfin, hfid⟩ := (BufferPoolManager.page_table_exact hb' hm' b.next_page_id_ hpid).2.1 f hf
      have hfg : f = g := h3 f g hfin hin' hfid hi.page_id
      rw [hfg] at hf
      exact ⟨hf, fun f' hf' hid' => h3 f' g hf' hin' hid' hi.page_id⟩

/-- C21 amended, at a concrete input: after the churn calls on a pool of three frames
`NewPage` hands out frame 2 with page id 3, and frame 2 then has pin count 1. -/
theorem new_page_post_state_witness :
    ((((BufferPoolManager.new 3 2).runCalls BufferPoolManager.churnCalls).2.runCalls
      [.new_page]).2.pages_ 2).pin_count_ = 1 :=
  have hr := BufferPoolManager.runCalls_reachable_pool
    (BufferPoolManager.Reachable.new 3 2 (by decide)) BufferPoolManager.churnCalls
  (new_page_post_state hr
    (BufferPoolManager.NewPage_of_call
      (BufferPoolManager.call_of_runCalls (r := .new_page (some (2, 3)))
        (BufferPoolManager.Reachable_PoolInv hr) (by decide!)))).2.2.2.2.2.2.2.1

/-- C22: in every reachable state, `DeletePage(p)` of a page that the page
table does not hold returns true and leaves the pool as it is; of a page in a
frame with pin count above 0 it returns false and leaves the pool as it is; of
a page in a frame `f` with pin count 0 it returns true (the replacer's
`Remove` does not throw), and afterwards the page table does not hold `p`,
frame `f` has page id `INVALID_PAGE_ID`, dirty flag false, pin count 0 and
zero bytes, `f` is at the back of the free list, and the replacer has no
recorded access of `f`. -/
theorem delete_page_result {b : BufferPoolManager} (h : BufferPoolManager.Reachable b)
    (p : page_id_t) :
    (b.page_table_ p = none → b.DeletePage p = .ok (.returned, true, b)) ∧
    (∀ f, b.page_table_ p = some f → 0 < (b.pages_ f).pin_count_ →
      b.DeletePage p = .ok (.returned, false, b)) ∧
    (∀ f, b.page_table_ p = some f → (b.pages_ f).pin_count_ = 0 →
      ∃ b', b.DeletePage p = .ok (.returned, true, b') ∧
        b'.page_table_ = Function.update b.page_table_ p none ∧
        b'.pages_ = Function.update b.pages_ f
          { data_ := .zero, page_id_ := INVALID_PAGE_ID, is_dirty_ := false, pin_count_ := 0 } ∧
        b'.free_list_ = b.free_list_ ++ [f] ∧
        b'.replacer_.record_count_ f = 0 ∧ b'.replacer_.alltime f = [] ∧
        ¬ b'.replacer_.IsEvictable f ∧
        b'.disk_ = b.disk_ ∧ b'.next_page_id_ = b.next_page_id_) := by
  have hb := BufferPoolManager.Reachable_PoolInv h
  refine ⟨?_, ?_, ?_⟩
  · intro ht
    unfold BufferPoolManager.DeletePage
    by_cases hp : p = INVALID_PAGE_ID
    · rw [if_pos hp]
    · rw [if_neg hp, ht]
  · intro f ht hpin
    obtain ⟨hin, hnf, hid⟩ := hb.table_ok p f ht
    have hp : p ≠ INVALID_PAGE_ID := by rw [← hid]; exact (hb.used_ok f hin hnf).2.2.2
    unfold BufferPoolManager.DeletePage
    rw [if_neg hp, ht]
    dsimp only
    rw [if_neg (not_not.mpr hin), if_pos hpin]
  · intro f ht h0
    obtain ⟨b', hd⟩ := BufferPoolManager.DeletePage_returns hb ht h0
    refine ⟨b', hd, ?_⟩
    rcases (BufferPoolManager.DeletePage_spec hb hd).2 with ⟨hnone, -, -⟩ | ⟨f', -, -, hr, -⟩ |
      ⟨f', ht', -, -, hi⟩
    · rcases hnone with hp | hnone
      · rw [hp, BufferPoolManager.table_invalid hb] at ht
        cases ht
      · rw [hnone] at ht
        cases ht
    · cases hr
    · rw [ht] at ht'
      cases ht'
      refine ⟨hi.page_table, hi.pages, hi.free_list, ?_, ?_, ?_, hi.disk, hi.next_page_id⟩
      · rw [hi.record_count, Function.update_same]
      · rw [hi.alltime, Function.update_same]
      · intro hev
        apply hev.2
        rw [hi.record_count, Function.update_same]

/-- C22 at a concrete input: after the churn calls on a pool of three frames
page 0 is in frame 2 with pin count 0, and `DeletePage(0)` returns true. -/
theorem delete_page_result_witness :
    ∃ b', ((BufferPoolManager.new 3 2).runCalls BufferPoolManager.churnCalls).2.DeletePage 0 =
      .ok (.returned, true, b') :=
  have hr := BufferPoolManager.runCalls_reachable_pool
    (BufferPoolManager.Reachable.new 3 2 (by decide)) BufferPoolManager.churnCalls
  let ⟨b', hb', _⟩ := (delete_page_result hr 0).2.2 2 (by decide!) (by decide!)
  ⟨b', hb'⟩

/-- C23: in every reachable state, let page `p` be in frame `f` with bytes `d`
when `UnpinPage(p, true)` returns true; after any sequence of `new_page`,
`fetch_page` and `unpin_page` calls on other page ids, and of stores to
frames holding other pages (whether or not the sequence evicts the frame of
`p`), a `FetchPage(p)` that hands back a frame hands back one with bytes `d`;
it returns with a frame when the replacer's `k_` is not 0 and the page is in
a frame or a frame is to be had.  And whenever `NewPage` or `FetchPage` reuses
a frame whose dirty flag is set, afterwards the disk has the frame's old bytes
under its old page id. -/
theorem dirty_page_round_trip {b0 b1 : BufferPoolManager} {p : page_id_t} {f : frame_id_t}
    (h : BufferPoolManager.Reachable b0) (ht : b0.page_table_ p = some f)
    (hu : b0.UnpinPage p true = .ok (true, b1)) (cs : List BufferPoolManager.Call)
    (hcs : BufferPoolManager.runsOnOthers p b1 cs = true) :
    (∀ e g b3, (b1.runCalls cs).2.FetchPage p = .ok (e, some g, b3) →
      (b3.pages_ g).data_ = (b0.pages_ f).data_) ∧
    (0 < (b1.runCalls cs).2.replacer_.k_ →
      ((b1.runCalls cs).2.page_table_ p ≠ none ∨
        ¬ ((b1.runCalls cs).2.free_list_ = [] ∧
          ∀ x, ¬ (b1.runCalls cs).2.replacer_.IsEvictable x)) →
      ∃ g b3, (b1.runCalls cs).2.FetchPage p = .ok (.returned, some g, b3)) ∧
    (∀ b b' : BufferPoolManager, BufferPoolManager.Reachable b →
      (∀ e g pid, b.NewPage = .ok (e, some (g, pid), b') → (b.pages_ g).is_dirty_ = true →
        b'.disk_ (b.pages_ g).page_id_ = (b.pages_ g).data_) ∧
      (∀ q e g, b.page_table_ q = none → b.FetchPage q = .ok (e, some g, b') →
        (b.pages_ g).is_dirty_ = true → b'.disk_ (b.pages_ g).page_id_ = (b.pages_ g).data_)) := by
  have hb0 := BufferPoolManager.Reachable_PoolInv h
  obtain ⟨hin, hnf, hid⟩ := hb0.table_ok p f ht
  have hp : p ≠ INVALID_PAGE_ID := by rw [← hid]; exact (hb0.used_ok f hin hnf).2.2.2
  have hr1 : BufferPoolManager.Reachable b1 := by
    refine BufferPoolManager.Reachable.call (.unpin_page p true) .returned (.bool true) h ?_
    dsimp only [BufferPoolManager.call]
    rw [hu]
  have hk1 : BufferPoolManager.Kept b1 p (b0.pages_ f).data_ := by
    left
    rcases BufferPoolManager.UnpinPage_spec hb0 hu with ⟨-, hr, -⟩ | ⟨f0, -, -, hr, -⟩ |
      ⟨f0, ht0, -, -, rfl⟩
    · cases hr
    · cases hr
    · rw [ht] at ht0
      cases ht0
      refine ⟨f, ht, ?_, ?_⟩
      · simp only [Function.update_same, Bool.true_or]
      · simp only [Function.update_same]
  have hr2 := BufferPoolManager.runCalls_reachable_pool hr1 cs
  have hb2 := BufferPoolManager.Reachable_PoolInv hr2
  have hk2 := BufferPoolManager.runCalls_Kept hp cs b1 hr1 hk1 hcs
  refine ⟨?_, ?_, ?_⟩
  · intro e g b3 hf
    exact BufferPoolManager.FetchPage_Kept hb2 (BufferPoolManager.Reachable_IdleMapped hr2) hk2 hf
  · intro hk hfr
    exact BufferPoolManager.FetchPage_returns hb2 hk hp hfr
  · intro b b' hr
    have hb := BufferPoolManager.Reachable_PoolInv hr
    constructor
    · intro e g pid hn hd
      rw [(BufferPoolManager.NewPage_pick hb hn).2.2]
      unfold BufferPoolManager.diskAfterReuse
      rw [if_pos hd, Function.update_same]
    · intro q e g htq hf hd
      rw [(BufferPoolManager.FetchPage_pick hb htq hf).2.2]
      unfold BufferPoolManager.diskAfterReuse
      rw [if_pos hd, Function.update_same]

/-- C23 at a concrete input: on a pool of two frames page 0 is created in
frame 1, written and unpinned as dirty; creating pages 1 and 2 takes frame 1
from page 0; `FetchPage(0)` then returns with a frame whose bytes are the
written ones. -/
theorem dirty_page_round_trip_witness :
    ((((BufferPoolManager.new 2 2).runCalls
        [.new_page, .write_data 1 BufferPoolManager.sampleData, .unpin_page 0 true]).2.runCalls
      [.new_page, .unpin_page 1 false, .new_page]).2.page_table_ 0 = none) ∧
    (∀ e g b3,
      (((BufferPoolManager.new 2 2).runCalls
          [.new_page, .write_data 1 BufferPoolManager.sampleData, .unpin_page 0 true]).2.runCalls
        [.new_page, .unpin_page 1 false, .new_page]).2.FetchPage 0 = .ok (e, some g, b3) →
      (b3.pages_ g).data_ = BufferPoolManager.sampleData) ∧
    ∃ g b3,
      (((BufferPoolManager.new 2 2).runCalls
          [.new_page, .write_data 1 BufferPoolManager.sampleData, .unpin_page 0 true]).2.runCalls
        [.new_page, .unpin_page 1 false, .new_page]).2.FetchPage 0 = .ok (.returned, some g, b3) :=
  have hr := BufferPoolManager.runCalls_reachable_pool
    (BufferPoolManager.Reachable.new 2 2 (by decide))
    [.new_page, .write_data 1 BufferPoolManager.sampleData]
  have hu := BufferPoolManager.UnpinPage_of_call
    (BufferPoolManager.call_of_runCalls (c := .unpin_page 0 true) (r := .bool true)
      (BufferPoolManager.Reachable_PoolInv hr) (by decide!))
  have ht : ((BufferPoolManager.new 2 2).runCalls
      [.new_page, .write_data 1 BufferPoolManager.sampleData]).2.page_table_ 0 = some 1 := by
    decide!
  ⟨by decide!,
   (dirty_page_round_trip hr ht hu [.new_page, .unpin_page 1 false, .new_page] (by decide!)).1,
   (dirty_page_round_trip hr ht hu [.new_page, .unpin_page 1 false, .new_page] (by decide!)).2.1
     (by decide!) (Or.inr (fun hx => hx.2 0 ⟨by decide!, by decide!⟩))⟩

/-- C24: on a pool of three frames with K = 2, after three pages are created
and each is unpinned, the fourth `NewPage` hands out page 3 in frame 2, the
frame that held page 0; afterwards page 0 is in no frame and pages 1, 2 and 3
are.  In every reachable state with an empty free list in which every
evictable frame has exactly one recorded access, the frame that `NewPage`
reuses is the evictable frame whose recorded access is the earliest (strictly
so when `k_` is above 1). -/
theorem churn_reuses_oldest_frame :
    (((BufferPoolManager.new 3 2).runCalls (BufferPoolManager.churnCalls ++ [.new_page])).1 =
      [.new_page (some (2, 0)), .bool true, .new_page (some (1, 1)), .bool true,
       .new_page (some (0, 2)), .bool true, .new_page (some (2, 3))] ∧
     (((BufferPoolManager.new 3 2).runCalls BufferPoolManager.churnCalls).2.pages_ 2).page_id_ = 0 ∧
     ((BufferPoolManager.new 3 2).runCalls
        (BufferPoolManager.churnCalls ++ [.new_page])).2.page_table_ 0 = none ∧
     ((BufferPoolManager.new 3 2).runCalls
        (BufferPoolManager.churnCalls ++ [.new_page])).2.page_table_ 1 = some 1 ∧
     ((BufferPoolManager.new 3 2).runCalls
        (BufferPoolManager.churnCalls ++ [.new_page])).2.page_table_ 2 = some 0 ∧
     ((BufferPoolManager.new 3 2).runCalls
        (BufferPoolManager.churnCalls ++ [.new_page])).2.page_table_ 3 = some 2) ∧
    ∀ (b b' : BufferPoolManager) (e : Ending) (g : frame_id_t) (pid : page_id_t),
      BufferPoolManager.Reachable b → b.free_list_ = [] → 0 < b.replacer_.k_ →
      (∀ f, b.replacer_.IsEvictable f → b.replacer_.record_count_ f = 1) →
      b.NewPage = .ok (e, some (g, pid), b') →
      b.replacer_.IsEvictable g ∧
      (∀ f, b.replacer_.IsEvictable f → b.replacer_.firstAccess g ≤ b.replacer_.firstAccess f) ∧
      (1 < b.replacer_.k_ → ∀ f, b.replacer_.IsEvictable f → f ≠ g →
        b.replacer_.firstAccess g < b.replacer_.firstAccess f) := by
  refine ⟨by decide!, ?_⟩
  intro b b' e g pid hr hfree hk h1 hn
  have hb := BufferPoolManager.Reachable_PoolInv hr
  obtain ⟨⟨b0, hp⟩, -⟩ := BufferPoolManager.NewPage_pick hb hn
  exact LRUKReplacer.Evict_oldest hb.rep.inv hk (BufferPoolManager.pickFrame_evict hfree hp) h1

/-- C24 at a concrete input: after the churn calls on a pool of three frames
with K = 2 every evictable frame has one recorded access, and frame 2, which
`NewPage` reuses, has an earlier recorded access than frame 1. -/
theorem churn_reuses_oldest_frame_witness :
    ((BufferPoolManager.new 3 2).runCalls BufferPoolManager.churnCalls).2.replacer_.firstAccess 2 <
      ((BufferPoolManager.new 3 2).runCalls BufferPoolManager.churnCalls).2.replacer_.firstAccess 1 :=
  have hr := BufferPoolManager.runCalls_reachable_pool
    (BufferPoolManager.Reachable.new 3 2 (by decide)) BufferPoolManager.churnCalls
  have hb := BufferPoolManager.Reachable_PoolInv hr
  have h1 : ∀ f, ((BufferPoolManager.new 3 2).runCalls
      BufferPoolManager.churnCalls).2.replacer_.IsEvictable f →
      ((BufferPoolManager.new 3 2).runCalls
        BufferPoolManager.churnCalls).2.replacer_.record_count_ f = 1 := by
    intro f hf
    have hin := (hb.tracked_ok f hf.2).1
    have h0 : 0 ≤ f := hin.1
    have hps : ((BufferPoolManager.new 3 2).runCalls BufferPoolManager.churnCalls).2.pool_size_ = 3 := by
      decide!
    have h3 : f < 3 := by
      have h2 := hin.2
      rw [hps] at h2
      exact_mod_cast h2
    interval_cases f <;> decide!
  ((churn_reuses_oldest_frame.2 _ _ .returned 2 3 hr (by decide!) (by decide!) h1
    (BufferPoolManager.NewPage_of_call
      (BufferPoolManager.call_of_runCalls (r := .new_page (some (2, 3))) hb (by decide!)))).2.2
    (by decide!) 1 ⟨by decide!, by decide!⟩ (by decide))

/-! ## Splitting and shrinking the directory, pins of the hash table -/

/-- C31: on a directory page of global depth 1 whose slots 0 and 1 have local
depth 1, `GetSplitImageIndex(1)` is `1 + (1 << 0) = 2`, which is not below
`2^global_depth = 2` and is not `1 XOR (1 << 0) = 0`; and the split image of
that result is 3, not 1. -/
theorem split_image_adds_instead_of_flipping :
    ExtendibleHTableDirectoryPage.sampleDirectory.Size = 2 ∧
    ExtendibleHTableDirectoryPage.sampleDirectory.local_depths_ 1 = 1 ∧
    ExtendibleHTableDirectoryPage.sampleDirectory.GetSplitImageIndex 1 = .ok 2 ∧
    (1 ^^^ (1 <<< (ExtendibleHTableDirectoryPage.sampleDirectory.local_depths_ 1 - 1)) = 0) ∧
    ExtendibleHTableDirectoryPage.sampleDirectory.GetSplitImageIndex 2 = .ok 3 := by
  refine ⟨rfl, rfl, rfl, rfl, rfl⟩

/-- C32: with `directory_max_depth = 3` and `bucket_max_size = 2`, after keys
0, 4, 8, 1, 5 are inserted the directory has global depth 3 and slots 1, 3, 5,
7 hold bucket page 3 with local depth 1; `insert(9)` splits that full bucket
into the new page 6 and returns true; afterwards slots 3 and 7 still have
local depth 1 and hold page 3, and page 6 is in slot 5, whose bit 1 is not
set. -/
theorem split_updates_two_slots_only :
    outputs Int.toNat 0 3 2 [.insert 0 100, .insert 4 104, .insert 8 108, .insert 1 101, .insert 5 105,
        .insert 9 109] =
      [.bool true, .bool true, .bool true, .bool true, .bool true, .bool true] ∧
    (after Int.toNat 0 3 2 [.insert 0 100, .insert 4 104, .insert 8 108, .insert 1 101,
        .insert 5 105]).bind (fun t => directoryView t 1 8) =
      some (3, [(3, 2), (1, 3), (2, 4), (1, 3), (3, 5), (1, 3), (2, 4), (1, 3)]) ∧
    (after Int.toNat 0 3 2 [.insert 0 100, .insert 4 104, .insert 8 108, .insert 1 101, .insert 5 105,
        .insert 9 109]).bind (fun t => directoryView t 1 8) =
      some (3, [(3, 2), (2, 3), (2, 4), (1, 3), (3, 5), (2, 6), (2, 4), (1, 3)]) := by
  decide!

/-- C33: the redistribution loop of `Insert` on the full bucket with entries
`(4, 104)`, `(0, 100)`, split index 4 and global depth 3 (identity hash): key
4 belongs in the new bucket; afterwards the original bucket holds `(0, 100)`
and the new bucket holds `(0, 100)` too, and `(4, 104)` is in neither. -/
theorem rehash_drops_and_duplicates :
    DiskExtendibleHashTable.splitDirectory.HashToBucketIndex
      (DiskExtendibleHashTable.identityHashed.Hash 4) = 4 ∧
    DiskExtendibleHashTable.splitDirectory.HashToBucketIndex
      (DiskExtendibleHashTable.identityHashed.Hash 0) = 0 ∧
    (DiskExtendibleHashTable.rehash DiskExtendibleHashTable.identityHashed
      DiskExtendibleHashTable.splitDirectory 4 DiskExtendibleHashTable.fullBucket
      (ExtendibleHTableBucketPage.zeroed.Init 2)).1.entries = [(0, 100)] ∧
    (DiskExtendibleHashTable.rehash DiskExtendibleHashTable.identityHashed
      DiskExtendibleHashTable.splitDirectory 4 DiskExtendibleHashTable.fullBucket
      (ExtendibleHTableBucketPage.zeroed.Init 2)).2.entries = [(0, 100)] := by
  decide!

/-- C36: with `header_max_depth = 0`, `bucket_max_size = 1` and
`directory_max_depth = 3`, after `insert(1)` the insert of key 3 (the hashes
differ in bit 1) returns false, and `get_value(3)` finds nothing. -/
theorem insert_of_separable_key_refused :
    outputs Int.toNat 0 3 1 [.insert 1 101, .insert 3 103, .get 1, .get 3] =
      [.bool true, .bool false, .value (some 101), .value none] := by
  decide!

/-- C37: on a fresh table all pin counts are 0; after `remove(5)` of an absent
key, which returns false, the bucket page 2 has pin count 1; after
`insert(0)` and a second, refused `insert(0)` it has pin count 2. -/
theorem failed_calls_leave_bucket_pinned :
    (after Int.toNat 0 1 1 []).map (fun t => pinView t 4) = some [0, 0, 0, 0] ∧
    outputs Int.toNat 0 1 1 [.remove 5] = [.bool false] ∧
    (after Int.toNat 0 1 1 [.remove 5]).map (fun t => pinView t 4) = some [0, 0, 1, 0] ∧
    outputs Int.toNat 0 1 1 [.insert 0 100, .insert 0 100] = [.bool true, .bool false] ∧
    (after Int.toNat 0 1 1 [.insert 0 100]).map (fun t => pinView t 4) = some [0, 0, 0, 0] ∧
    (after Int.toNat 0 1 1 [.insert 0 100, .insert 0 100]).map (fun t => pinView t 4) =
      some [0, 0, 2, 0] := by
  decide!

/-- C38: with `directory_max_depth = 1` and `bucket_max_size = 1`, after
`insert(0)` the global depth is 0, and `remove(0)`, which empties the bucket,
does not return: `GetSplitImageIndex` shifts by `global_depth_ - 1` with
`global_depth_ = 0`.  After `insert(0)` and `insert(1)` the global depth is 1
and slot 2, which is not below `2^1`, holds the local depth and the page id of
the new bucket that `Insert` wrote there. -/
theorem directory_access_past_global_depth :
    (after Int.toNat 0 1 1 [.insert 0 100]).bind (fun t => directoryView t 1 1) = some (0, [(0, 2)]) ∧
    outputs Int.toNat 0 1 1 [.insert 0 100, .remove 0] = [.bool true, .fault .bad_shift] ∧
    (after Int.toNat 0 1 1 [.insert 0 100, .insert 1 101]).bind (fun t => directoryView t 1 3) =
      some (1, [(0, 2), (1, 2), (1, 3)]) := by
  decide!

namespace ExtendibleHTableDirectoryPage

theorem HashToBucketIndex_eq_mod (d : ExtendibleHTableDirectoryPage) (hash : Nat) :
    d.HashToBucketIndex hash = hash % 2 ^ d.global_depth_ := by
  unfold HashToBucketIndex GetGlobalDepthMask
  rw [Nat.one_shiftLeft, Nat.and_pow_two_sub_one_eq_mod]

theorem array_size_eq : HTABLE_DIRECTORY_ARRAY_SIZE = 2 ^ 9 := by decide

theorem IncrGlobalDepth_returns {d : ExtendibleHTableDirectoryPage}
    (hmax : d.max_depth_ ≤ HTABLE_DIRECTORY_MAX_DEPTH) : ∃ d', d.IncrGlobalDepth = .ok d' := by
  unfold IncrGlobalDepth
  split_ifs with h1 h2
  · exact ⟨_, rfl⟩
  · exact ⟨_, rfl⟩
  · exfalso
    apply h2
    rw [Nat.one_shiftLeft, array_size_eq]
    apply Nat.pow_le_pow_right (by decide)
    have : HTABLE_DIRECTORY_MAX_DEPTH = 9 := rfl
    omega

end ExtendibleHTableDirectoryPage

/-- C34: on a directory page whose max depth is at most 9 (the arrays have
`2^9` slots), `IncrGlobalDepth` returns; with `global_depth_ = g` below the
max depth it sets the global depth to `g + 1`, copies the bucket page id and
the local depth of every slot `i < 2^g` to slot `i + 2^g`, leaves every other
slot as it is, and the bucket page id read at `HashToBucketIndex(hash)` is the
same before and after; with `g` at or above the max depth it changes nothing. -/
theorem incr_global_depth_result (d : ExtendibleHTableDirectoryPage)
    (hmax : d.max_depth_ ≤ HTABLE_DIRECTORY_MAX_DEPTH) :
    (d.global_depth_ < d.max_depth_ →
      ∃ d', d.IncrGlobalDepth = .ok d' ∧ d'.global_depth_ = d.global_depth_ + 1 ∧
        d'.max_depth_ = d.max_depth_ ∧
        (∀ i, i < 2 ^ d.global_depth_ →
          d'.bucket_page_ids_ (i + 2 ^ d.global_depth_) = d.bucket_page_ids_ i ∧
          d'.local_depths_ (i + 2 ^ d.global_depth_) = d.local_depths_ i ∧
          d'.bucket_page_ids_ i = d.bucket_page_ids_ i ∧ d'.local_depths_ i = d.local_depths_ i) ∧
        (∀ j, 2 ^ (d.global_depth_ + 1) ≤ j →
          d'.bucket_page_ids_ j = d.bucket_page_ids_ j ∧ d'.local_depths_ j = d.local_depths_ j) ∧
        ∀ hash, d'.GetBucketPageId (d'.HashToBucketIndex hash) =
            d.GetBucketPageId (d.HashToBucketIndex hash) ∧
          d.GetBucketPageId (d.HashToBucketIndex hash) =
            .ok (d.bucket_page_ids_ (d.HashToBucketIndex hash))) ∧
    (d.max_depth_ ≤ d.global_depth_ → d.IncrGlobalDepth = .ok d) := by
  constructor
  · intro hlt
    obtain ⟨d', hd'⟩ := ExtendibleHTableDirectoryPage.IncrGlobalDepth_returns hmax
    rcases ExtendibleHTableDirectoryPage.IncrGlobalDepth_ok hd' with ⟨hge, -⟩ | ⟨-, hg, hm, hl, hb⟩
    · omega
    · have h9 : d.global_depth_ + 1 ≤ 9 := by
        have : HTABLE_DIRECTORY_MAX_DEPTH = 9 := rfl
        omega
      have hpow : 2 ^ (d.global_depth_ + 1) = 2 ^ d.global_depth_ + 2 ^ d.global_depth_ := by
        rw [pow_succ]; omega
      have hpos : 0 < 2 ^ d.global_depth_ := by positivity
      have h512 : 2 ^ (d.global_depth_ + 1) ≤ HTABLE_DIRECTORY_ARRAY_SIZE := by
        rw [ExtendibleHTableDirectoryPage.array_size_eq]
        exact Nat.pow_le_pow_right (by decide) h9
      refine ⟨d', hd', hg, hm, ?_, ?_, ?_⟩
      · intro i hi
        refine ⟨?_, ?_, ?_, ?_⟩
        · rw [hb, if_pos ⟨by omega, by omega⟩]
          congr 1
          omega
        · rw [hl, if_pos ⟨by omega, by omega⟩]
          congr 1
          omega
        · rw [hb, if_neg (by omega)]
        · rw [hl, if_neg (by omega)]
      · intro j hj
        exact ⟨by rw [hb, if_neg (by omega)], by rw [hl, if_neg (by omega)]⟩
      · intro hash
        have h1 : d.HashToBucketIndex hash < 2 ^ d.global_depth_ :=
          ExtendibleHTableDirectoryPage.HashToBucketIndex_lt d hash
        have h2 : d'.HashToBucketIndex hash < 2 ^ (d.global_depth_ + 1) := by
          have := ExtendibleHTableDirectoryPage.HashToBucketIndex_lt d' hash
          rw [hg] at this
          exact this
        have e1 : d.GetBucketPageId (d.HashToBucketIndex hash) =
            .ok (d.bucket_page_ids_ (d.HashToBucketIndex hash)) := by
          unfold ExtendibleHTableDirectoryPage.GetBucketPageId
          rw [if_pos (by omega)]
        have e2 : d'.GetBucketPageId (d'.HashToBucketIndex hash) =
            .ok (d'.bucket_page_ids_ (d'.HashToBucketIndex hash)) := by
          unfold ExtendibleHTableDirectoryPage.GetBucketPageId
          rw [if_pos (by omega)]
        refine ⟨?_, e1⟩
        rw [e1, e2, hb]
        have m1 := ExtendibleHTableDirectoryPage.HashToBucketIndex_eq_mod d hash
        have m2 := ExtendibleHTableDirectoryPage.HashToBucketIndex_eq_mod d' hash
        rw [hg] at m2
        have hmm : hash % 2 ^ (d.global_depth_ + 1) % 2 ^ d.global_depth_ = hash % 2 ^ d.global_depth_ :=
          Nat.mod_mod_of_dvd hash (Dvd.intro _ (pow_succ 2 d.global_depth_).symm)
        by_cases hc : 2 ^ d.global_depth_ ≤ d'.HashToBucketIndex hash
        · rw [if_pos ⟨hc, h2⟩]
          congr 2
          rw [m1, ← hmm, ← m2]
          have hsub : d'.HashToBucketIndex hash - 2 ^ d.global_depth_ < 2 ^ d.global_depth_ := by omega
          have : d'.HashToBucketIndex hash =
              (d'.HashToBucketIndex hash - 2 ^ d.global_depth_) + 2 ^ d.global_depth_ := by omega
          conv_rhs => rw [this]
          rw [Nat.add_mod_right, Nat.mod_eq_of_lt hsub]
        · rw [if_neg (fun h => hc h.1)]
          congr 2
          rw [m1, ← hmm, ← m2, Nat.mod_eq_of_lt (by omega)]
  · intro hge
    unfold ExtendibleHTableDirectoryPage.IncrGlobalDepth
    rw [if_pos hge]

/-- C34 at a concrete input: the sample directory page (max depth 2, global
depth 1) grows to global depth 2. -/
theorem incr_global_depth_result_witness :
    ∃ d', ExtendibleHTableDirectoryPage.sampleDirectory.IncrGlobalDepth = .ok d' ∧
      d'.global_depth_ = 2 :=
  let ⟨d', h1, h2, _⟩ :=
    (incr_global_depth_result ExtendibleHTableDirectoryPage.sampleDirectory (by decide)).1 (by decide)
  ⟨d', h1, h2⟩

namespace ExtendibleHTableDirectoryPage

theorem CanShrink_loop_true {d : ExtendibleHTableDirectoryPage} :
    ∀ n, (∀ i, i < n → d.local_depths_ i ≠ d.global_depth_) →
      forLoop (fun i ok => ok && !(d.local_depths_ i == d.global_depth_)) n true = true
  | 0, _ => rfl
  | n + 1, h => by
    simp only [forLoop, Bool.and_eq_true, Bool.not_eq_true', beq_eq_false_iff_ne, ne_eq]
    exact ⟨CanShrink_loop_true n (fun i hi => h i (Nat.lt_succ_of_lt hi)), h n (Nat.lt_succ_self n)⟩

theorem CanShrink_iff (d : ExtendibleHTableDirectoryPage) :
    d.CanShrink = true ↔
      d.global_depth_ ≠ 0 ∧ ∀ i, i < 2 ^ d.global_depth_ → d.local_depths_ i ≠ d.global_depth_ := by
  constructor
  · exact CanShrink_true
  · rintro ⟨h0, hl⟩
    unfold CanShrink
    rw [if_neg h0]
    apply CanShrink_loop_true
    intro i hi
    apply hl
    simpa [Size, Nat.one_shiftLeft] using hi

end ExtendibleHTableDirectoryPage

namespace DiskExtendibleHashTable

/-- The directory page after `n` rounds of the loop that invalidates the
slots from `2^a` on. -/
theorem shrinkLoop_rounds (d : ExtendibleHTableDirectoryPage) (a : Nat) :
    ∀ (n : Nat) (d' : ExtendibleHTableDirectoryPage),
      forLoop
        (fun t (r : Except Fault ExtendibleHTableDirectoryPage) => do
          let directory_page ← r
          directory_page.SetBucketPageId ((1 <<< a) + t) INVALID_PAGE_ID)
        n (pure d) = .ok d' →
      d'.max_depth_ = d.max_depth_ ∧ d'.global_depth_ = d.global_depth_ ∧
      d'.local_depths_ = d.local_depths_ ∧
      ∀ j, d'.bucket_page_ids_ j =
        if 2 ^ a ≤ j ∧ j < 2 ^ a + n then INVALID_PAGE_ID else d.bucket_page_ids_ j
  | 0, d', h => by
    simp only [forLoop, pure, Except.pure, Except.ok.injEq] at h
    subst h
    refine ⟨rfl, rfl, rfl, fun j => ?_⟩
    rw [if_neg (by omega)]
  | n + 1, d', h => by
    simp only [forLoop, bind, Except.bind] at h
    cases hn : forLoop
        (fun t (r : Except Fault ExtendibleHTableDirectoryPage) => do
          let directory_page ← r
          directory_page.SetBucketPageId ((1 <<< a) + t) INVALID_PAGE_ID)
        n (pure d) with
    | error e =>
      simp only [bind, Except.bind] at hn
      rw [hn] at h
      cases h
    | ok dn =>
      obtain ⟨i1, i2, i3, i4⟩ := shrinkLoop_rounds d a n dn hn
      simp only [bind, Except.bind] at hn
      rw [hn] at h
      simp only at h
      obtain ⟨-, hd'⟩ := ExtendibleHTableDirectoryPage.SetBucketPageId_ok h
      subst hd'
      refine ⟨i1, i2, i3, fun j => ?_⟩
      show Function.update dn.bucket_page_ids_ (1 <<< a + n) INVALID_PAGE_ID j = _
      rw [Nat.one_shiftLeft]
      by_cases hj : j = 2 ^ a + n
      · subst hj
        rw [Function.update_same, if_pos ⟨by omega, by omega⟩]
      · rw [Function.update_noteq hj, i4]
        by_cases hc : 2 ^ a ≤ j ∧ j < 2 ^ a + n
        · rw [if_pos hc, if_pos ⟨hc.1, by omega⟩]
        · rw [if_neg hc, if_neg (by omega)]

theorem shrinkLoop_rounds_return (d : ExtendibleHTableDirectoryPage) (a : Nat) :
    ∀ (n : Nat), 2 ^ a + n ≤ HTABLE_DIRECTORY_ARRAY_SIZE →
      ∃ d', forLoop
        (fun t (r : Except Fault ExtendibleHTableDirectoryPage) => do
          let directory_page ← r
          directory_page.SetBucketPageId ((1 <<< a) + t) INVALID_PAGE_ID)
        n (pure d) = .ok d'
  | 0, _ => ⟨d, rfl⟩
  | n + 1, h => by
    obtain ⟨dn, hn⟩ := shrinkLoop_rounds_return d a n (by omega)
    simp only [forLoop, bind, Except.bind] at hn ⊢
    rw [hn]
    simp only
    unfold ExtendibleHTableDirectoryPage.SetBucketPageId
    rw [Nat.one_shiftLeft, if_pos (by omega)]
    exact ⟨_, rfl⟩

theorem shrinkBranch_Shrunk {d d' : ExtendibleHTableDirectoryPage} (hc : d.CanShrink = true)
    (h : shrinkBranch d = .ok d') : Shrunk d d' := by
  obtain ⟨h0, -⟩ := CanShrink_true hc
  unfold shrinkBranch shrinkLoop at h
  have hd1 : d.DecrGlobalDepth = { d with global_depth_ := d.global_depth_ - 1 } := by
    unfold ExtendibleHTableDirectoryPage.DecrGlobalDepth
    rw [if_neg (by omega)]
  rw [hd1] at h
  obtain ⟨i1, i2, i3, i4⟩ := shrinkLoop_rounds _ _ _ d' h
  have hle : 2 ^ (d.global_depth_ - 1) ≤ 2 ^ d.global_depth_ := Nat.pow_le_pow_right (by decide) (by omega)
  have hsum : 2 ^ (d.global_depth_ - 1) +
      (1 <<< d.global_depth_ - 1 <<< (d.global_depth_ - 1)) = 2 ^ d.global_depth_ := by
    rw [Nat.one_shiftLeft, Nat.one_shiftLeft]
    omega
  refine ⟨?_, i1, i3, ?_, ?_⟩
  · rw [i2]
    show d.global_depth_ - 1 + 1 = d.global_depth_
    omega
  · intro i h1 h2
    rw [i4]
    show (if 2 ^ (d.global_depth_ - 1) ≤ i ∧ i < 2 ^ (d.global_depth_ - 1) +
      (1 <<< d.global_depth_ - 1 <<< (d.global_depth_ - 1)) then INVALID_PAGE_ID
      else d.bucket_page_ids_ i) = _
    rw [hsum, if_pos ⟨h1, h2⟩]
  · intro i hi
    rw [i4]
    show (if 2 ^ (d.global_depth_ - 1) ≤ i ∧ i < 2 ^ (d.global_depth_ - 1) +
      (1 <<< d.global_depth_ - 1 <<< (d.global_depth_ - 1)) then INVALID_PAGE_ID
      else d.bucket_page_ids_ i) = _
    rw [hsum, if_neg hi]

theorem shrinkBranch_returns {d : ExtendibleHTableDirectoryPage} (hc : d.CanShrink = true)
    (h9 : d.global_depth_ ≤ HTABLE_DIRECTORY_MAX_DEPTH) : ∃ d', shrinkBranch d = .ok d' := by
  obtain ⟨h0, -⟩ := CanShrink_true hc
  unfold shrinkBranch shrinkLoop
  have hg : d.DecrGlobalDepth.GetGlobalDepth = d.global_depth_ - 1 := by
    unfold ExtendibleHTableDirectoryPage.DecrGlobalDepth ExtendibleHTableDirectoryPage.GetGlobalDepth
    rw [if_neg (by omega)]
  simp only [hg]
  apply shrinkLoop_rounds_return
  have hle : 2 ^ (d.global_depth_ - 1) ≤ 2 ^ d.global_depth_ := Nat.pow_le_pow_right (by decide) (by omega)
  have h512 : 2 ^ d.global_depth_ ≤ HTABLE_DIRECTORY_ARRAY_SIZE := by
    rw [ExtendibleHTableDirectoryPage.array_size_eq]
    exact Nat.pow_le_pow_right (by decide) h9
  rw [Nat.one_shiftLeft, Nat.one_shiftLeft]
  unfold ExtendibleHTableDirectoryPage.GetGlobalDepth
  omega

/-- `emptiedBucket` is `mergePhase` followed by the shrink branch when
`CanShrink` holds. -/
theorem emptiedBucket_phases {d0 d' : ExtendibleHTableDirectoryPage} {idx : Nat} {pid : page_id_t}
    {m : Bool} (h : emptiedBucket d0 idx pid = .ok (d', m)) :
    ∃ d1, mergePhase d0 idx pid = .ok (d1, m) ∧
      ((d1.CanShrink = true ∧ shrinkBranch d1 = .ok d') ∨ (d1.CanShrink = false ∧ d' = d1)) := by
  unfold emptiedBucket at h
  unfold mergePhase
  simp only [bind, Except.bind, pure, Except.pure] at h ⊢
  cases h1 : d0.DecrLocalDepth idx with
  | error e => rw [h1] at h; simp at h
  | ok a1 =>
    rw [h1] at h
    simp only at h ⊢
    cases h2 : a1.GetSplitImageIndex idx with
    | error e => rw [h2] at h; simp at h
    | ok split =>
      rw [h2] at h
      simp only at h ⊢
      cases h3 : a1.GetLocalDepth split with
      | error e => rw [h3] at h; simp at h
      | ok l1 =>
        rw [h3] at h
        simp only at h ⊢
        cases h4 : a1.GetLocalDepth idx with
        | error e => rw [h4] at h; simp at h
        | ok l2 =>
          rw [h4] at h
          simp only at h ⊢
          cases h5 : (if decide (l1 = l2 + 1) = true then mergeBranch a1 idx split pid else .ok a1) with
          | error e => rw [h5] at h; simp at h
          | ok a2 =>
            rw [h5] at h
            simp only at h ⊢
            by_cases hc : a2.CanShrink = true
            · rw [if_pos hc] at h
              cases h6 : shrinkBranch a2 with
              | error e => rw [h6] at h; simp at h
              | ok a3 =>
                rw [h6] at h
                simp only [Except.ok.injEq, Prod.mk.injEq] at h
                obtain ⟨rfl, rfl⟩ := h
                exact ⟨a2, rfl, Or.inl ⟨hc, h6⟩⟩
            · rw [if_neg hc] at h
              simp only [Except.ok.injEq, Prod.mk.injEq] at h
              obtain ⟨rfl, rfl⟩ := h
              exact ⟨a2, rfl, Or.inr ⟨by simpa using hc, rfl⟩⟩

end DiskExtendibleHashTable

namespace DiskExtendibleHashTable

theorem DecrLocalDepth_returns (d : ExtendibleHTableDirectoryPage) {i : Nat}
    (hi : i < HTABLE_DIRECTORY_ARRAY_SIZE) :
    ∃ d', d.DecrLocalDepth i = .ok d' ∧ d'.global_depth_ = d.global_depth_ := by
  unfold ExtendibleHTableDirectoryPage.DecrLocalDepth
  rw [if_pos hi]
  split_ifs
  · exact ⟨_, rfl, rfl⟩
  · exact ⟨_, rfl, rfl⟩

theorem mergeLoop_rounds_return (d : ExtendibleHTableDirectoryPage) (idx : Nat) (pid : page_id_t)
    (hidx : idx < HTABLE_DIRECTORY_ARRAY_SIZE) :
    ∀ n, n ≤ HTABLE_DIRECTORY_ARRAY_SIZE →
      ∃ d', forLoop
        (fun i (r : Except Fault ExtendibleHTableDirectoryPage) => do
          let directory_page ← r
          if (← directory_page.GetBucketPageId i) = pid then
            directory_page.SetBucketPageId i (← directory_page.GetBucketPageId idx)
          else pure directory_page)
        n (pure d) = .ok d' ∧ d'.global_depth_ = d.global_depth_
  | 0, _ => ⟨d, rfl, rfl⟩
  | n + 1, h => by
    obtain ⟨dn, hn, hg⟩ := mergeLoop_rounds_return d idx pid hidx n (by omega)
    simp only [forLoop]
    rw [hn]
    have hn' : n < HTABLE_DIRECTORY_ARRAY_SIZE := by omega
    simp only [bind, Except.bind, ExtendibleHTableDirectoryPage.GetBucketPageId, if_pos hn', if_pos hidx,
      ExtendibleHTableDirectoryPage.SetBucketPageId, pure, Except.pure]
    split_ifs
    · exact ⟨_, rfl, hg⟩
    · exact ⟨_, rfl, hg⟩

theorem mergeLoop_returns (d : ExtendibleHTableDirectoryPage) (idx : Nat) (pid : page_id_t)
    (hidx : idx < HTABLE_DIRECTORY_ARRAY_SIZE) (h9 : d.global_depth_ ≤ HTABLE_DIRECTORY_MAX_DEPTH) :
    ∃ d', mergeLoop d idx pid = .ok d' ∧ d'.global_depth_ = d.global_depth_ := by
  unfold mergeLoop
  apply mergeLoop_rounds_return d idx pid hidx
  rw [ExtendibleHTableDirectoryPage.GetGlobalDepth, Nat.one_shiftLeft,
    ExtendibleHTableDirectoryPage.array_size_eq]
  exact Nat.pow_le_pow_right (by decide) h9

/-- The merge handling of `Remove` returns when the global depth is between 1
and 9 and the index taken as split image is inside the arrays. -/
theorem mergePhase_returns (d : ExtendibleHTableDirectoryPage) (idx : Nat) (pid : page_id_t)
    (h0 : 0 < d.global_depth_) (h9 : d.global_depth_ ≤ HTABLE_DIRECTORY_MAX_DEPTH)
    (hs : idx + 2 ^ (d.global_depth_ - 1) < HTABLE_DIRECTORY_ARRAY_SIZE) :
    ∃ d1 m, mergePhase d idx pid = .ok (d1, m) ∧ d1.global_depth_ = d.global_depth_ := by
  have hidx : idx < HTABLE_DIRECTORY_ARRAY_SIZE := Nat.lt_of_le_of_lt (Nat.le_add_right _ _) hs
  have h9' : d.global_depth_ ≤ 9 := h9
  have h512 : HTABLE_DIRECTORY_ARRAY_SIZE = 512 := by decide
  obtain ⟨a1, ha1, hg1⟩ := DecrLocalDepth_returns d hidx
  have hsplit : a1.GetSplitImageIndex idx = .ok (idx + 2 ^ (d.global_depth_ - 1)) := by
    unfold ExtendibleHTableDirectoryPage.GetSplitImageIndex
    have hlt : idx + 2 ^ (d.global_depth_ - 1) < 2 ^ 32 :=
      Nat.lt_trans hs (by rw [h512]; decide)
    have hng : ¬ (d.global_depth_ = 0 ∨ 31 < d.global_depth_) := by omega
    rw [hg1, if_neg hng, Nat.one_shiftLeft, Nat.mod_eq_of_lt hlt]
  obtain ⟨a2, ha2, hg2⟩ := DecrLocalDepth_returns a1 hs
  obtain ⟨a3, ha3, hg3⟩ := mergeLoop_returns a2 idx pid hidx (by rw [hg2, hg1]; exact h9)
  unfold mergePhase
  simp only [bind, Except.bind, pure, Except.pure, ha1, hsplit,
    ExtendibleHTableDirectoryPage.GetLocalDepth, if_pos hs, if_pos hidx]
  split_ifs with hm
  · simp only [mergeBranch, bind, Except.bind, ha2, ha3, ExtendibleHTableDirectoryPage.SetBucketPageId,
      if_pos hidx]
    exact ⟨_, _, rfl, by simp only [hg3, hg2, hg1]⟩
  · exact ⟨_, _, rfl, hg1⟩

end DiskExtendibleHashTable

namespace DiskExtendibleHashTable

theorem directory_ne_bucket {x : PageData} {d : ExtendibleHTableDirectoryPage}
    {b : ExtendibleHTableBucketPage} {key : Int} (hd : x.asDirectory = .ok d) (hb : x.asBucket = .ok b)
    (hrem : (b.Remove key).1 = true) : False := by
  cases x with
  | zero =>
    simp only [PageData.asBucket, Except.ok.injEq] at hb
    subst hb
    simp [ExtendibleHTableBucketPage.Remove, ExtendibleHTableBucketPage.scan] at hrem
  | header p => simp [PageData.asDirectory] at hd
  | directory p => simp [PageData.asBucket] at hb
  | bucket p => simp [PageData.asDirectory] at hd

/-- `Remove` of a key whose removal empties its bucket: it returns true, and
the directory page is what `emptiedBucket` makes of it. -/
theorem Remove_emptied {t : DiskExtendibleHashTable} {key : Int} {hdr : ExtendibleHTableHeaderPage}
    {d d' : ExtendibleHTableDirectoryPage} {b : ExtendibleHTableBucketPage} {bid : page_id_t} {m : Bool}
    (hh : t.header_page_id_ ≠ INVALID_PAGE_ID)
    (hhdr : (t.bpm_.pages_ t.header_page_id_).asHeader = .ok hdr)
    (hdid : hdr.GetDirectoryPageId (hdr.HashToDirectoryIndex (t.Hash key)) ≠ INVALID_PAGE_ID)
    (hdir : (t.bpm_.pages_ (hdr.GetDirectoryPageId (hdr.HashToDirectoryIndex (t.Hash key)))).asDirectory = .ok d)
    (hbid : d.GetBucketPageId (d.HashToBucketIndex (t.Hash key)) = .ok bid)
    (hbne : bid ≠ INVALID_PAGE_ID)
    (hb : (t.bpm_.pages_ bid).asBucket = .ok b)
    (hrem : (b.Remove key).1 = true) (hemp : (b.Remove key).2.IsEmpty = true)
    (hm : emptiedBucket d (d.HashToBucketIndex (t.Hash key)) bid = .ok (d', m)) :
    ∃ t', t.Remove key = .ok (true, t') ∧
      t'.bpm_.pages_ =
        Function.update (Function.update t.bpm_.pages_ bid (.bucket (b.Remove key).2))
          (hdr.GetDirectoryPageId (hdr.HashToDirectoryIndex (t.Hash key))) (.directory d') := by
  have hne : hdr.GetDirectoryPageId (hdr.HashToDirectoryIndex (t.Hash key)) ≠ bid := by
    intro he
    rw [he] at hdir
    exact directory_ne_bucket hdir hb hrem
  have hrd : (Function.update t.bpm_.pages_ bid (PageData.bucket (b.Remove key).2)
      (hdr.GetDirectoryPageId (hdr.HashToDirectoryIndex (t.Hash key)))).asDirectory = .ok d := by
    rw [Function.update_noteq hne]
    exact hdir
  have hpair : b.Remove key = (true, (b.Remove key).2) := by
    rw [← hrem]
  unfold Remove
  simp only [bind, Except.bind, pure, Except.pure, PagePool.FetchPage_of_ne _ _ hh, hhdr, hdid, if_false,
    PagePool.UnpinPage_pages, PagePool.FetchPage_of_ne _ _ hdid, hdir, hbid, hbne,
    PagePool.FetchPage_of_ne _ _ hbne, hb]
  rw [hpair]
  simp only [if_true, hemp]
  rw [PagePool.DeletePage_pinned hbne (by simp [PagePool.write, PagePool.UnpinPage, hdid, hh])]
  simp only [PagePool.write_pages, PagePool.UnpinPage_pages, hrd, hm]
  cases m with
  | false =>
    refine ⟨_, rfl, ?_⟩
    simp [PagePool.write, PagePool.UnpinPage_pages]
  | true =>
    simp only [if_true]
    rw [PagePool.DeletePage_pinned hbne (by simp [PagePool.write, PagePool.UnpinPage, hdid, hh])]
    refine ⟨_, rfl, ?_⟩
    simp [PagePool.write, PagePool.UnpinPage_pages]

end DiskExtendibleHashTable

namespace DiskExtendibleHashTable

/-- What a successful lookup by `find` has read. -/
theorem find_some {t : DiskExtendibleHashTable} {key : Int} {r : Option Int}
    (h : (t.find key).toOption = some r) (hr : r ≠ none) :
    ∃ hdr d bid b,
      t.header_page_id_ ≠ INVALID_PAGE_ID ∧
      (t.bpm_.pages_ t.header_page_id_).asHeader = .ok hdr ∧
      hdr.GetDirectoryPageId (hdr.HashToDirectoryIndex (t.Hash key)) ≠ INVALID_PAGE_ID ∧
      (t.bpm_.pages_ (hdr.GetDirectoryPageId (hdr.HashToDirectoryIndex (t.Hash key)))).asDirectory = .ok d ∧
      dirFor t key = d ∧
      d.GetBucketPageId (d.HashToBucketIndex (t.Hash key)) = .ok bid ∧
      bid = d.bucket_page_ids_ (d.HashToBucketIndex (t.Hash key)) ∧
      bid ≠ INVALID_PAGE_ID ∧
      (t.bpm_.pages_ bid).asBucket = .ok b := by
  unfold find at h
  by_cases hh : t.header_page_id_ = INVALID_PAGE_ID
  · simp [hh, throw, throwThe, MonadExceptOf.throw, bind, Except.bind, Except.toOption] at h
  simp only [hh, if_false, bind, Except.bind, pure, Except.pure] at h
  cases hH : (t.bpm_.pages_ t.header_page_id_).asHeader with
  | error e => rw [hH] at h; simp [Except.toOption] at h
  | ok hdr =>
    rw [hH] at h
    simp only at h
    split_ifs at h with hdid
    · simp only [Except.toOption, Option.some.injEq] at h
      exact absurd h.symm hr
    cases hD : (t.bpm_.pages_ (hdr.GetDirectoryPageId (hdr.HashToDirectoryIndex (t.Hash key)))).asDirectory with
    | error e => rw [hD] at h; simp [Except.toOption] at h
    | ok d =>
      rw [hD] at h
      simp only at h
      cases hB : d.GetBucketPageId (d.HashToBucketIndex (t.Hash key)) with
      | error e => rw [hB] at h; simp [Except.toOption] at h
      | ok bid =>
        rw [hB] at h
        simp only at h
        split_ifs at h with hbid
        · simp only [Except.toOption, Option.some.injEq] at h
          exact absurd h.symm hr
        cases hb : (t.bpm_.pages_ bid).asBucket with
        | error e => rw [hb] at h; simp [Except.toOption] at h
        | ok b =>
          refine ⟨hdr, d, bid, b, hh, ?_, hdid, ?_, ?_, ?_,
            (ExtendibleHTableDirectoryPage.GetBucketPageId_ok hB).2, hbid, ?_⟩
          · rfl
          · first | rfl | exact hD
          · unfold dirFor
            simp only [hH, hD]
          · first | rfl | exact hB
          · first | rfl | exact hb

/-- A bucket page whose only entry has the key is emptied by `Remove`. -/
theorem Remove_single {t : DiskExtendibleHashTable} {bid : page_id_t} {b : ExtendibleHTableBucketPage}
    {key value : Int} (hv : bucketView t bid = some [(key, value)])
    (hb : (t.bpm_.pages_ bid).asBucket = .ok b) :
    (b.Remove key).1 = true ∧ (b.Remove key).2.IsEmpty = true := by
  unfold bucketView at hv
  cases hp : t.bpm_.pages_ bid with
  | zero => rw [hp] at hv; simp at hv
  | header p => rw [hp] at hv; simp at hv
  | directory p => rw [hp] at hv; simp at hv
  | bucket p =>
    rw [hp] at hv hb
    simp only [PageData.asBucket, Except.ok.injEq] at hb
    subst hb
    simp only [Option.some.injEq] at hv
    have hlen : p.size_ = 1 := by
      have := congrArg List.length hv
      simpa using this
    have h0 : p.array_ 0 = (key, value) := by
      rw [hlen] at hv
      simpa [List.range_succ] using hv
    have hscan : ExtendibleHTableBucketPage.scan p.array_ key p.size_ = some 0 := by
      rw [hlen]
      simp [ExtendibleHTableBucketPage.scan, h0]
    unfold ExtendibleHTableBucketPage.Remove
    rw [hscan]
    simp [ExtendibleHTableBucketPage.IsEmpty, hlen]

end DiskExtendibleHashTable

namespace DiskExtendibleHashTable

/-- `emptiedBucket` is the merge handling followed by the shrink step, which
runs exactly when `CanShrink` holds. -/
theorem emptiedBucket_of_mergePhase {d0 d1 : ExtendibleHTableDirectoryPage} {idx : Nat} {pid : page_id_t}
    {m : Bool} (h : mergePhase d0 idx pid = .ok (d1, m)) :
    emptiedBucket d0 idx pid =
      (if d1.CanShrink = true then (shrinkBranch d1).map (fun d' => (d', m)) else .ok (d1, m)) := by
  unfold mergePhase at h
  unfold emptiedBucket
  simp only [bind, Except.bind, pure, Except.pure] at h ⊢
  cases h1 : d0.DecrLocalDepth idx with
  | error e => rw [h1] at h; simp at h
  | ok a1 =>
    rw [h1] at h
    simp only at h ⊢
    cases h2 : a1.GetSplitImageIndex idx with
    | error e => rw [h2] at h; simp at h
    | ok split =>
      rw [h2] at h
      simp only at h ⊢
      cases h3 : a1.GetLocalDepth split with
      | error e => rw [h3] at h; simp at h
      | ok l1 =>
        rw [h3] at h
        simp only at h ⊢
        cases h4 : a1.GetLocalDepth idx with
        | error e => rw [h4] at h; simp at h
        | ok l2 =>
          rw [h4] at h
          simp only at h ⊢
          cases h5 : (if decide (l1 = l2 + 1) = true then mergeBranch a1 idx split pid else .ok a1) with
          | error e => rw [h5] at h; simp at h
          | ok a2 =>
            rw [h5] at h
            simp only [Except.ok.injEq, Prod.mk.injEq] at h
            obtain ⟨rfl, rfl⟩ := h
            simp only
            by_cases hc : a2.CanShrink = true
            · rw [if_pos hc, if_pos hc]
              cases shrinkBranch a2 <;> rfl
            · rw [if_neg hc, if_neg hc]

theorem header_ne_bucket {x : PageData} {hdr : ExtendibleHTableHeaderPage}
    {b : ExtendibleHTableBucketPage} {key : Int} (hd : x.asHeader = .ok hdr) (hb : x.asBucket = .ok b)
    (hrem : (b.Remove key).1 = true) : False := by
  cases x with
  | zero =>
    simp only [PageData.asBucket, Except.ok.injEq] at hb
    subst hb
    simp [ExtendibleHTableBucketPage.Remove, ExtendibleHTableBucketPage.scan] at hrem
  | header p => simp [PageData.asBucket] at hb
  | directory p => simp [PageData.asBucket] at hb
  | bucket p => simp [PageData.asHeader] at hd

end DiskExtendibleHashTable

/-- C35: on a directory page in which every slot below `2^global_depth` has a
local depth of at most the global depth, `CanShrink` returns true exactly when
the global depth is above 0 and every such slot has a local depth strictly
below the global depth.  What `Remove` does to the directory page once a
bucket has become empty is the merge handling followed by one test of
`CanShrink`, and the shrink step returns for a global depth of at most 9.
`Remove` of a key that is the only entry of its
bucket (with a global depth between 1 and 9 and the index taken as split image
inside the arrays) returns true, and the directory page is then the result of
the merge handling followed by one test of `CanShrink`: when it holds the
global depth goes down by exactly one and the slots `2^(g-1) .. 2^g - 1` are
set to `INVALID_PAGE_ID`, the other slots and the local depths staying as they
are; when it does not hold the directory page is as the merge handling left
it.  And a `Remove` that returns changes the directory page only when it
returns true and leaves the bucket of the key empty. -/
theorem can_shrink_result (d : ExtendibleHTableDirectoryPage) (hd : EHT1 d) :
    (d.CanShrink = true ↔
      0 < d.global_depth_ ∧ ∀ i, i < 2 ^ d.global_depth_ → d.local_depths_ i < d.global_depth_) ∧
    (∀ d0 idx pid d' m, DiskExtendibleHashTable.emptiedBucket d0 idx pid = .ok (d', m) →
      ∃ d1, DiskExtendibleHashTable.mergePhase d0 idx pid = .ok (d1, m) ∧
        ((d1.CanShrink = true ∧ DiskExtendibleHashTable.Shrunk d1 d') ∨
          (d1.CanShrink = false ∧ d' = d1))) ∧
    (∀ d1 : ExtendibleHTableDirectoryPage, d1.CanShrink = true →
      d1.global_depth_ ≤ HTABLE_DIRECTORY_MAX_DEPTH →
      ∃ d', DiskExtendibleHashTable.shrinkBranch d1 = .ok d' ∧ DiskExtendibleHashTable.Shrunk d1 d') ∧
    (∀ (t : DiskExtendibleHashTable) (key value : Int),
      (t.find key).toOption = some (some value) →
      bucketView t ((dirFor t key).bucket_page_ids_ ((dirFor t key).HashToBucketIndex (t.Hash key))) =
        some [(key, value)] →
      0 < (dirFor t key).global_depth_ →
      (dirFor t key).global_depth_ ≤ HTABLE_DIRECTORY_MAX_DEPTH →
      (dirFor t key).HashToBucketIndex (t.Hash key) + 2 ^ ((dirFor t key).global_depth_ - 1) <
        HTABLE_DIRECTORY_ARRAY_SIZE →
      ∃ d1 m t',
        DiskExtendibleHashTable.mergePhase (dirFor t key) ((dirFor t key).HashToBucketIndex (t.Hash key))
          ((dirFor t key).bucket_page_ids_ ((dirFor t key).HashToBucketIndex (t.Hash key))) = .ok (d1, m) ∧
        t.Remove key = .ok (true, t') ∧
        ((d1.CanShrink = true ∧ DiskExtendibleHashTable.Shrunk d1 (dirAt t' (dirIdFor t key))) ∨
          (d1.CanShrink = false ∧ dirAt t' (dirIdFor t key) = d1))) ∧
    (∀ (t t' : DiskExtendibleHashTable) (key : Int) (r : Bool), t.Remove key = .ok (r, t') →
      dirAt t' (dirIdFor t key) ≠ dirAt t (dirIdFor t key) →
      r = true ∧
      bucketView t'
        ((dirAt t (dirIdFor t key)).bucket_page_ids_
          ((dirAt t (dirIdFor t key)).HashToBucketIndex (t.Hash key))) = some []) := by
  refine ⟨?_, ?_, ?_, ?_, ?_⟩
  · rw [ExtendibleHTableDirectoryPage.CanShrink_iff]
    constructor
    · rintro ⟨h0, hl⟩
      refine ⟨Nat.pos_of_ne_zero h0, fun i hi => ?_⟩
      exact Nat.lt_of_le_of_ne (hd i hi) (hl i hi)
    · rintro ⟨h0, hl⟩
      exact ⟨Nat.pos_iff_ne_zero.mp h0, fun i hi => Nat.ne_of_lt (hl i hi)⟩
  · intro d0 idx pid d' m h
    obtain ⟨d1, h1, h2⟩ := DiskExtendibleHashTable.emptiedBucket_phases h
    refine ⟨d1, h1, ?_⟩
    rcases h2 with ⟨hc, hs⟩ | ⟨hc, rfl⟩
    · exact Or.inl ⟨hc, DiskExtendibleHashTable.shrinkBranch_Shrunk hc hs⟩
    · exact Or.inr ⟨hc, rfl⟩
  · intro d1 hc h9
    obtain ⟨d', h⟩ := DiskExtendibleHashTable.shrinkBranch_returns hc h9
    exact ⟨d', h, DiskExtendibleHashTable.shrinkBranch_Shrunk hc h⟩
  · intro t key value hfind hview h0 h9 hs
    obtain ⟨hdr, d0, bid, b, hh, hhdr, hdid, hdir, hdf, hbid, hbeq, hbne, hb⟩ :=
      DiskExtendibleHashTable.find_some hfind (by simp)
    rw [hdf] at hview h0 h9 hs ⊢
    rw [← hbeq] at hview ⊢
    obtain ⟨hrem, hemp⟩ := DiskExtendibleHashTable.Remove_single hview hb
    obtain ⟨d1, m, hmp, hg1⟩ := DiskExtendibleHashTable.mergePhase_returns d0 _ bid h0 h9 hs
    have hid : dirIdFor t key = hdr.GetDirectoryPageId (hdr.HashToDirectoryIndex (t.Hash key)) := by
      unfold dirIdFor
      rw [hhdr]
    have hE := DiskExtendibleHashTable.emptiedBucket_of_mergePhase hmp
    by_cases hc : d1.CanShrink = true
    · obtain ⟨d', hsb⟩ := DiskExtendibleHashTable.shrinkBranch_returns hc (by rw [hg1]; exact h9)
      rw [if_pos hc, hsb] at hE
      obtain ⟨t', hR, hp⟩ := DiskExtendibleHashTable.Remove_emptied hh hhdr hdid hdir hbid hbne hb hrem hemp hE
      refine ⟨d1, m, t', hmp, hR, Or.inl ⟨hc, ?_⟩⟩
      have : dirAt t' (dirIdFor t key) = d' := by
        unfold dirAt
        rw [hp, hid, Function.update_same]
        rfl
      rw [this]
      exact DiskExtendibleHashTable.shrinkBranch_Shrunk hc hsb
    · rw [if_neg hc] at hE
      obtain ⟨t', hR, hp⟩ := DiskExtendibleHashTable.Remove_emptied hh hhdr hdid hdir hbid hbne hb hrem hemp hE
      refine ⟨d1, m, t', hmp, hR, Or.inr ⟨by simpa using hc, ?_⟩⟩
      unfold dirAt
      rw [hp, hid, Function.update_same]
      rfl
  · intro t t' key r h hne
    obtain ⟨-, -, -, -, -, -, hc⟩ := Remove_ok h
    rcases hc with ⟨-, hp, -⟩ | ⟨hr, hdr, d0, bid, b, hh, hhdr, hdid, hdir, hbid, hbne, hb, hrem, hc2⟩
    · exfalso
      apply hne
      unfold dirAt
      rw [hp]
    · have hid : dirIdFor t key = hdr.GetDirectoryPageId (hdr.HashToDirectoryIndex (t.Hash key)) := by
        unfold dirIdFor
        rw [hhdr]
      have hdb : hdr.GetDirectoryPageId (hdr.HashToDirectoryIndex (t.Hash key)) ≠ bid := by
        intro he
        rw [he] at hdir
        exact DiskExtendibleHashTable.directory_ne_bucket hdir hb hrem
      rcases hc2 with ⟨he, hp⟩ | ⟨he, d2, d3, m, hD0, hE, hp⟩
      · exfalso
        apply hne
        unfold dirAt
        rw [hp, hid, Function.update_noteq hdb]
      · refine ⟨hr, ?_⟩
        have hda : dirAt t (dirIdFor t key) = d0 := by
          unfold dirAt
          rw [hid, hdir]
        rw [hda, ← (ExtendibleHTableDirectoryPage.GetBucketPageId_ok hbid).2]
        unfold bucketView
        rw [hp, Function.update_noteq hdb.symm, Function.update_same]
        simp only [ExtendibleHTableBucketPage.IsEmpty, beq_iff_eq] at he
        simp [he]
/-- C35 at a concrete input: with `directory_max_depth = 1` and
`bucket_max_size = 1`, after `insert(0)` and the refused `insert(1)` the
directory has global depth 1 and key 0 is the only entry of bucket page 2;
`remove(0)` returns true, the merge handling leaves a directory page that
can shrink, and the global depth goes down to 0 with slot 1 invalidated. -/
theorem can_shrink_result_witness :
    outputs Int.toNat 0 1 1 [.insert 0 100, .insert 1 101, .remove 0] =
      [.bool true, .bool false, .bool true] ∧
    (after Int.toNat 0 1 1 [.insert 0 100, .insert 1 101]).bind (fun t => directoryView t 1 2) =
      some (1, [(0, 2), (1, 2)]) ∧
    (after Int.toNat 0 1 1 [.insert 0 100, .insert 1 101, .remove 0]).bind (fun t => directoryView t 1 2) =
      some (0, [(0, -1), (0, -1)]) ∧
    ∃ d1 m t',
      DiskExtendibleHashTable.mergePhase (dirFor (stateAfter Int.toNat 0 1 1 [.insert 0 100, .insert 1 101]) 0)
        ((dirFor (stateAfter Int.toNat 0 1 1 [.insert 0 100, .insert 1 101]) 0).HashToBucketIndex
          ((stateAfter Int.toNat 0 1 1 [.insert 0 100, .insert 1 101]).Hash 0))
        ((dirFor (stateAfter Int.toNat 0 1 1 [.insert 0 100, .insert 1 101]) 0).bucket_page_ids_
          ((dirFor (stateAfter Int.toNat 0 1 1 [.insert 0 100, .insert 1 101]) 0).HashToBucketIndex
            ((stateAfter Int.toNat 0 1 1 [.insert 0 100, .insert 1 101]).Hash 0))) = .ok (d1, m) ∧
      (stateAfter Int.toNat 0 1 1 [.insert 0 100, .insert 1 101]).Remove 0 = .ok (true, t') ∧
      ((d1.CanShrink = true ∧
          DiskExtendibleHashTable.Shrunk d1
            (dirAt t' (dirIdFor (stateAfter Int.toNat 0 1 1 [.insert 0 100, .insert 1 101]) 0))) ∨
        (d1.CanShrink = false ∧
          dirAt t' (dirIdFor (stateAfter Int.toNat 0 1 1 [.insert 0 100, .insert 1 101]) 0) = d1)) :=
  have hd : EHT1 ExtendibleHTableDirectoryPage.sampleDirectory := by
    intro i hi
    have hi' : i < 2 := hi
    interval_cases i <;> decide
  ⟨by decide!, by decide!, by decide!,
    (can_shrink_result ExtendibleHTableDirectoryPage.sampleDirectory hd).2.2.2.1
      (stateAfter Int.toNat 0 1 1 [.insert 0 100, .insert 1 101]) 0 100
      (by decide!) (by decide!) (by decide!) (by decide!) (by decide!)⟩

/-! ## The replacer with frame ids in range -/

namespace LRUKReplacer

theorem ReachableInRange_Reachable {s : LRUKReplacer} (h : ReachableInRange s) : Reachable s := by
  induction h with
  | new n k hn => exact Reachable.new n k hn
  | call c e _ _ hc ih => exact Reachable.call c e ih hc

/-- Every tracked frame id is in `[0, replacer_size_)`. -/
theorem ReachableInRange_range {s : LRUKReplacer} (h : ReachableInRange s) :
    ∀ f, s.record_count_ f ≠ 0 → 0 ≤ f ∧ f < (s.replacer_size_ : Int) := by
  induction h with
  | new n k hn =>
    intro f hf
    exact absurd rfl hf
  | @call s s' c e hr hin hc ih =>
    intro f hf
    rw [call_replacer_size hc]
    by_cases hcf : c = .record_access f
    · subst hcf
      exact of_decide_eq_true hin
    · by_contra hout
      have h0 : s.record_count_ f = 0 := by
        by_contra h0
        exact hout (ih f h0)
      exact hf (call_keeps_untracked h0 hcf hc)

theorem tracked_card_le {s : LRUKReplacer} (h : ReachableInRange s) :
    (tracked s).card ≤ s.replacer_size_ ∧
    ∀ f, 0 ≤ f → f < (s.replacer_size_ : Int) → s.record_count_ f = 0 →
      (tracked s).card < s.replacer_size_ := by
  have hs := Reachable_SizeInv (ReachableInRange_Reachable h)
  have hr := ReachableInRange_range h
  have hsub : tracked s ⊆ Finset.Ico (0 : Int) s.replacer_size_ := by
    intro f hf
    rw [mem_tracked hs.inv] at hf
    exact Finset.mem_Ico.mpr (hr f hf)
  have hcard : (Finset.Ico (0 : Int) s.replacer_size_).card = s.replacer_size_ := by
    rw [Int.card_Ico]
    simp
  constructor
  · have := Finset.card_le_card hsub
    rw [hcard] at this
    exact this
  · intro f h0 h1 hcnt
    have hsub' : tracked s ⊆ (Finset.Ico (0 : Int) s.replacer_size_).erase f := by
      intro g hg
      have hg' := hg
      rw [mem_tracked hs.inv] at hg'
      refine Finset.mem_erase.mpr ⟨?_, hsub hg⟩
      intro hgf
      rw [hgf] at hg'
      exact hg' hcnt
    have := Finset.card_le_card hsub'
    rw [Finset.card_erase_of_mem (Finset.mem_Ico.mpr ⟨h0, h1⟩), hcard] at this
    have hpos : 0 < s.replacer_size_ := by
      have : (0 : Int) < s.replacer_size_ := lt_of_le_of_lt h0 h1
      exact_mod_cast this
    omega

theorem front_error {l : List Nat} {e : Fault} (h : front l = .error e) : e = .null_deref := by
  cases l with
  | nil => cases h; rfl
  | cons a l => cases h

theorem eraseFrame_error {f : frame_id_t} {l : List frame_id_t} {e : Fault}
    (h : eraseFrame f l = .error e) : e = .bad_iterator := by
  unfold eraseFrame at h
  split_ifs at h
  cases h
  rfl

theorem eraseEntry_error {f : frame_id_t} {l : List (frame_id_t × Nat)} {e : Fault}
    (h : eraseEntry f l = .error e) : e = .bad_iterator := by
  unfold eraseEntry at h
  cases hfind : l.find? (fun p => p.1 = f) with
  | none => rw [hfind] at h; cases h; rfl
  | some p => rw [hfind] at h; cases h

/-- `RecordAccess` reaches its call of `Evict` only for a frame without
history when `curr_size_ == MaxSize`. -/
theorem RecordAccess_deadlock {s : LRUKReplacer} {f : frame_id_t}
    (h : s.RecordAccess f = .error .deadlock) : s.record_count_ f = 0 ∧ s.curr_size_ = s.MaxSize := by
  unfold RecordAccess at h
  simp only [bind, Except.bind, pure, Except.pure] at h
  split_ifs at h with h1 h2 h3
  · exact ⟨by omega, h3⟩
  · exfalso
    dsimp only at h
    split_ifs at h with hk hgt
    · cases heu : eraseFrame f (f :: s.unfull_frame_) with
      | error e =>
        rw [heu] at h
        have := eraseFrame_error heu
        subst this
        cases h
      | ok l =>
        rw [heu] at h
        dsimp only at h
        cases hfr : front (Function.update s.alltime f (s.alltime f ++ [s.current_timestamp_ + 1]) f) with
        | error e =>
          rw [hfr] at h
          have := front_error hfr
          subst this
          cases h
        | ok t => rw [hfr] at h; cases h
    · cases he : eraseEntry f s.full_frame_ with
      | error e =>
        rw [he] at h
        have := eraseEntry_error he
        subst this
        cases h
      | ok l =>
        rw [he] at h
        dsimp only at h
        cases hfr : front (Function.update s.alltime f (s.alltime f ++ [s.current_timestamp_ + 1]) f).tail with
        | error e =>
          rw [hfr] at h
          have := front_error hfr
          subst this
          cases h
        | ok t => rw [hfr] at h; cases h
  · exfalso
    dsimp only at h
    split_ifs at h with hk hgt
    · cases heu : eraseFrame f s.unfull_frame_ with
      | error e =>
        rw [heu] at h
        have := eraseFrame_error heu
        subst this
        cases h
      | ok l =>
        rw [heu] at h
        dsimp only at h
        cases hfr : front (Function.update s.alltime f (s.alltime f ++ [s.current_timestamp_ + 1]) f) with
        | error e =>
          rw [hfr] at h
          have := front_error hfr
          subst this
          cases h
        | ok t => rw [hfr] at h; cases h
    · cases he : eraseEntry f s.full_frame_ with
      | error e =>
        rw [he] at h
        have := eraseEntry_error he
        subst this
        cases h
      | ok l =>
        rw [he] at h
        dsimp only at h
        cases hfr : front (Function.update s.alltime f (s.alltime f ++ [s.current_timestamp_ + 1]) f).tail with
        | error e =>
          rw [hfr] at h
          have := front_error hfr
          subst this
          cases h
        | ok t => rw [hfr] at h; cases h

theorem runCalls_ReachableInRange (cs : List Call) :
    ∀ s : LRUKReplacer, ReachableInRange s → (∀ c, c ∈ cs → c.inRange s.replacer_size_ = true) →
      ReachableInRange (s.runCalls cs) := by
  induction cs with
  | nil => intro s h _; exact h
  | cons c cs ih =>
    intro s h hcs
    unfold runCalls
    cases hx : s.call c with
    | error e => exact ih s h (fun c' hc' => hcs c' (List.mem_cons_of_mem _ hc'))
    | ok r =>
      obtain ⟨e, s'⟩ := r
      refine ih s' (ReachableInRange.call c e h (hcs c (List.mem_cons_self _ _)) hx) ?_
      intro c' hc'
      rw [call_replacer_size hx]
      exact hcs c' (List.mem_cons_of_mem _ hc')

end LRUKReplacer

/-- C39: in every state that a new replacer reaches by `record_access`,
`set_evictable`, `evict` and `remove` calls given frame ids in
`[0, num_frames)` only, the frames with a non-empty history are frames of
`[0, num_frames)` and `MaxSize - curr_size_` is `num_frames` less their number;
so for a frame id of `[0, num_frames)` without history `curr_size_ ≠ MaxSize`,
the branch of `RecordAccess` that calls `Evict` is not taken, `RecordAccess`
returns (when `k_` is not 0), and it leaves the history, the access count and
the evictable flag of every other frame as they are. -/
theorem record_access_never_evicts {s : LRUKReplacer} (h : LRUKReplacer.ReachableInRange s) :
    (∃ F : Finset frame_id_t, (∀ f, f ∈ F ↔ s.alltime f ≠ []) ∧
      (∀ f, f ∈ F → 0 ≤ f ∧ f < (s.replacer_size_ : Int)) ∧
      s.MaxSize + F.card = s.replacer_size_ + s.curr_size_ ∧ s.curr_size_ ≤ s.MaxSize) ∧
    ∀ f, 0 ≤ f → f < (s.replacer_size_ : Int) →
      (s.record_count_ f = 0 → s.curr_size_ ≠ s.MaxSize) ∧
      s.RecordAccess f ≠ .error .deadlock ∧
      (0 < s.k_ → ∃ s', s.RecordAccess f = .ok (.returned, s')) ∧
      ∀ e s', s.RecordAccess f = .ok (e, s') → ∀ g, g ≠ f →
        s'.alltime g = s.alltime g ∧ s'.record_count_ g = s.record_count_ g ∧
        s'.evictable_ g = s.evictable_ g := by
  have hs := LRUKReplacer.Reachable_SizeInv (LRUKReplacer.ReachableInRange_Reachable h)
  have hr := LRUKReplacer.ReachableInRange_range h
  obtain ⟨hle, hlt⟩ := LRUKReplacer.tracked_card_le h
  constructor
  · refine ⟨LRUKReplacer.tracked s, ?_, ?_, ?_, hs.le_max⟩
    · intro f
      rw [LRUKReplacer.mem_tracked hs.inv, LRUKReplacer.history_ne_nil_iff hs.inv]
    · intro f hf
      rw [LRUKReplacer.mem_tracked hs.inv] at hf
      exact hr f hf
    · have h1 := hs.size_eq
      have h2 := hs.max_eq
      have h3 := LRUKReplacer.trackedWith_card s
      omega
  · intro f h0 h1
    have hroom : s.record_count_ f = 0 → s.curr_size_ ≠ s.MaxSize :=
      fun hc => LRUKReplacer.room_of_card_lt hs (hlt f h0 h1 hc)
    refine ⟨hroom, ?_, ?_, ?_⟩
    · intro hd
      obtain ⟨hc, hm⟩ := LRUKReplacer.RecordAccess_deadlock hd
      exact hroom hc hm
    · intro hk
      exact LRUKReplacer.RecordAccess_returns hs.inv (Int.le_of_lt h1) hk hroom
    · intro e s' hra g hg
      rcases LRUKReplacer.RecordAccess_fields hra with ⟨-, rfl, -⟩ | ⟨-, -, hc, -, hev, -, -, -, -, -, hal⟩
      · exact ⟨rfl, rfl, rfl⟩
      · refine ⟨hal g hg, ?_, ?_⟩
        · rw [hc, Function.update_noteq hg]
        · rw [hev]
          split_ifs
          · rw [Function.update_noteq hg]
          · rfl

/-- C39 at a concrete input: after the sample calls on a replacer for 7 frames
(frame ids 1, 2 and 3), frame 4 has no history and `curr_size_ ≠ MaxSize`. -/
theorem record_access_never_evicts_witness :
    ((LRUKReplacer.new 7 2).runCalls LRUKReplacer.sampleCalls).curr_size_ ≠
      ((LRUKReplacer.new 7 2).runCalls LRUKReplacer.sampleCalls).MaxSize :=
  ((record_access_never_evicts
      (LRUKReplacer.runCalls_ReachableInRange LRUKReplacer.sampleCalls _
        (LRUKReplacer.ReachableInRange.new 7 2 (by decide))
        (by intro c hc; simp [LRUKReplacer.sampleCalls] at hc; rcases hc with rfl | rfl | rfl | rfl | rfl <;> decide))).2
    4 (by decide) (by decide!)).1 (by decide!)

/-! ## The observed-remove set: merge -/

namespace ORSet

theorem tupleLess_iff (a b : Int × Int) :
    tupleLess a b = true ↔ a.1 < b.1 ∨ (a.1 = b.1 ∧ a.2 < b.2) := by
  simp [tupleLess]

theorem tupleLess_trans {a b c : Int × Int} (h1 : tupleLess a b = true)
    (h2 : tupleLess b c = true) : tupleLess a c = true := by
  rw [tupleLess_iff] at *
  omega

theorem tupleLess_ne {a b : Int × Int} (h : tupleLess a b = true) : a ≠ b := by
  intro hab
  subst hab
  rw [tupleLess_iff] at h
  omega

theorem tupleLess_asymm {a b : Int × Int} (h1 : tupleLess a b = true)
    (h2 : tupleLess b a = true) : False := by
  rw [tupleLess_iff] at *
  omega

theorem eq_of_not_tupleLess {a b : Int × Int} (h1 : ¬ tupleLess a b = true)
    (h2 : ¬ tupleLess b a = true) : a = b := by
  rw [tupleLess_iff] at *
  obtain ⟨a1, a2⟩ := a
  obtain ⟨b1, b2⟩ := b
  simp only [Prod.mk.injEq]
  simp only at h1 h2
  omega

theorem mem_setInsert (x z : Int × Int) (l : List (Int × Int)) :
    z ∈ setInsert x l ↔ z = x ∨ z ∈ l := by
  induction l with
  | nil => simp [setInsert]
  | cons y ys ih =>
    unfold setInsert
    split_ifs with h1 h2
    · simp
    · simp only [List.mem_cons, ih]
      tauto
    · have hxy := eq_of_not_tupleLess h1 h2
      subst hxy
      simp

theorem setInsert_sorted (x : Int × Int) (l : List (Int × Int))
    (hl : l.Pairwise (fun a b => tupleLess a b = true)) :
    (setInsert x l).Pairwise (fun a b => tupleLess a b = true) := by
  induction l with
  | nil => simp [setInsert]
  | cons y ys ih =>
    rw [List.pairwise_cons] at hl
    unfold setInsert
    split_ifs with h1 h2
    · rw [List.pairwise_cons]
      refine ⟨?_, List.pairwise_cons.mpr hl⟩
      intro z hz
      rcases List.mem_cons.mp hz with rfl | hz
      · exact h1
      · exact tupleLess_trans h1 (hl.1 z hz)
    · rw [List.pairwise_cons]
      refine ⟨?_, ih hl.2⟩
      intro z hz
      rcases (mem_setInsert x z ys).mp hz with rfl | hz
      · exact h2
      · exact hl.1 z hz
    · exact List.pairwise_cons.mpr hl

theorem sorted_nodup {l : List (Int × Int)}
    (hl : l.Pairwise (fun a b => tupleLess a b = true)) : l.Nodup :=
  List.Pairwise.imp (fun h => tupleLess_ne h) hl

theorem setErase_sorted (x : Int × Int) (l : List (Int × Int))
    (hl : l.Pairwise (fun a b => tupleLess a b = true)) :
    (setErase x l).Pairwise (fun a b => tupleLess a b = true) :=
  List.Pairwise.sublist (List.erase_sublist x l) hl

theorem mem_setErase (x z : Int × Int) (l : List (Int × Int))
    (hl : l.Pairwise (fun a b => tupleLess a b = true)) :
    z ∈ setErase x l ↔ z ≠ x ∧ z ∈ l :=
  (sorted_nodup hl).mem_erase_iff

theorem insertLoop_sorted (ts acc : List (Int × Int))
    (hacc : acc.Pairwise (fun a b => tupleLess a b = true)) :
    (ts.foldl (fun acc t => setInsert t acc) acc).Pairwise (fun a b => tupleLess a b = true) := by
  induction ts generalizing acc with
  | nil => exact hacc
  | cons t ts ih => exact ih _ (setInsert_sorted t acc hacc)

theorem mem_insertLoop (z : Int × Int) (ts acc : List (Int × Int)) :
    z ∈ ts.foldl (fun acc t => setInsert t acc) acc ↔ z ∈ acc ∨ z ∈ ts := by
  induction ts generalizing acc with
  | nil => simp
  | cons t ts ih =>
    rw [List.foldl_cons, ih, mem_setInsert, List.mem_cons]
    tauto

theorem eraseLoop_sorted (ts acc : List (Int × Int))
    (hacc : acc.Pairwise (fun a b => tupleLess a b = true)) :
    (ts.foldl (fun acc t => setErase (t.1, t.2) acc) acc).Pairwise
      (fun a b => tupleLess a b = true) := by
  induction ts generalizing acc with
  | nil => exact hacc
  | cons t ts ih => exact ih _ (setErase_sorted _ acc hacc)

theorem mem_eraseLoop (z : Int × Int) (ts acc : List (Int × Int))
    (hacc : acc.Pairwise (fun a b => tupleLess a b = true)) :
    z ∈ ts.foldl (fun acc t => setErase (t.1, t.2) acc) acc ↔ z ∈ acc ∧ z ∉ ts := by
  induction ts generalizing acc with
  | nil => simp
  | cons t ts ih =>
    rw [List.foldl_cons, ih _ (setErase_sorted _ acc hacc), mem_setErase _ _ _ hacc,
      List.mem_cons]
    tauto

theorem containsLoop_iff (elem : Int) (l : List (Int × Int)) :
    containsLoop elem l = true ↔ ∃ uid, (elem, uid) ∈ l := by
  induction l with
  | nil => simp [containsLoop]
  | cons t ts ih =>
    unfold containsLoop
    split_ifs with h
    · refine ⟨fun _ => ⟨t.2, ?_⟩, fun _ => rfl⟩
      rw [h]
      exact List.mem_cons_self _ _
    · rw [ih]
      constructor
      · rintro ⟨uid, hu⟩
        exact ⟨uid, List.mem_cons_of_mem _ hu⟩
      · rintro ⟨uid, hu⟩
        rcases List.mem_cons.mp hu with rfl | hu
        · exact absurd rfl h
        · exact ⟨uid, hu⟩

theorem elementsLoop (l : List (Int × Int)) (vec : List Int) :
    l.foldl (fun vec t => vec ++ [t.1]) vec = vec ++ l.map Prod.fst := by
  induction l generalizing vec with
  | nil => simp
  | cons t ts ih => rw [List.foldl_cons, ih, List.map_cons, List.append_assoc, List.singleton_append]

theorem sorted_ext {l₁ l₂ : List (Int × Int)}
    (h1 : l₁.Pairwise (fun a b => tupleLess a b = true))
    (h2 : l₂.Pairwise (fun a b => tupleLess a b = true))
    (h : ∀ z, z ∈ l₁ ↔ z ∈ l₂) : l₁ = l₂ := by
  induction l₁ generalizing l₂ with
  | nil =>
    cases l₂ with
    | nil => rfl
    | cons b l₂ => exact absurd ((h b).mpr (List.mem_cons_self _ _)) (List.not_mem_nil _)
  | cons a l₁ ih =>
    cases l₂ with
    | nil => exact absurd ((h a).mp (List.mem_cons_self _ _)) (List.not_mem_nil _)
    | cons b l₂ =>
      rw [List.pairwise_cons] at h1 h2
      have hab : a = b := by
        rcases List.mem_cons.mp ((h a).mp (List.mem_cons_self _ _)) with hab | ha
        · exact hab
        · rcases List.mem_cons.mp ((h b).mpr (List.mem_cons_self _ _)) with hba | hb
          · exact hba.symm
          · exact (tupleLess_asymm (h1.1 b hb) (h2.1 a ha)).elim
      subst hab
      congr 1
      apply ih h1.2 h2.2
      intro z
      constructor
      · intro hz
        rcases List.mem_cons.mp ((h z).mp (List.mem_cons_of_mem _ hz)) with rfl | hz2
        · exact absurd (h1.1 z hz) (fun hh => tupleLess_ne hh rfl)
        · exact hz2
      · intro hz
        rcases List.mem_cons.mp ((h z).mpr (List.mem_cons_of_mem _ hz)) with rfl | hz2
        · exact absurd (h2.1 z hz) (fun hh => tupleLess_ne hh rfl)
        · exact hz2

theorem Merge_Ok {A B : ORSet} (hA : A.Ok) : (A.Merge B).Ok :=
  ⟨eraseLoop_sorted _ _ (insertLoop_sorted _ _ hA.add), insertLoop_sorted _ _ hA.remove⟩

theorem mem_Merge_set_add {A B : ORSet} (hA : A.Ok) (z : Int × Int) :
    z ∈ (A.Merge B).set_add ↔
      (z ∈ A.set_add ∨ z ∈ B.set_add) ∧ z ∉ A.set_remove ∧ z ∉ B.set_remove := by
  unfold Merge
  dsimp only
  rw [mem_eraseLoop _ _ _ (insertLoop_sorted _ _ hA.add), mem_insertLoop, mem_insertLoop]
  tauto

end ORSet

/-- C40: for replicas `A` and `B` whose two sets are strictly increasing (as a
`std::set` is), after `A.Merge(B)` the sets are again strictly increasing,
`Contains(e)` holds exactly when some tuple `(e, uid)` is in the added set of `A`
or of `B` and in neither removed set, and `A.Merge(B)` and `B.Merge(A)` give the
same `Elements()`, in the same order. -/
theorem merge_observed_remove (A B : ORSet) (hA : A.Ok) (hB : B.Ok) :
    (A.Merge B).Ok ∧
    (∀ e : Int, (A.Merge B).Contains e = true ↔
      ∃ uid : Int, ((e, uid) ∈ A.set_add ∨ (e, uid) ∈ B.set_add) ∧
        (e, uid) ∉ A.set_remove ∧ (e, uid) ∉ B.set_remove) ∧
    (A.Merge B).Elements = (B.Merge A).Elements := by
  refine ⟨ORSet.Merge_Ok hA, ?_, ?_⟩
  · intro e
    rw [ORSet.Contains, ORSet.containsLoop_iff]
    constructor
    · rintro ⟨uid, hu⟩
      exact ⟨uid, (ORSet.mem_Merge_set_add hA _).mp hu⟩
    · rintro ⟨uid, hu⟩
      exact ⟨uid, (ORSet.mem_Merge_set_add hA _).mpr hu⟩
  · have hset : (A.Merge B).set_add = (B.Merge A).set_add := by
      apply ORSet.sorted_ext (ORSet.Merge_Ok hA).add (ORSet.Merge_Ok hB).add
      intro z
      rw [ORSet.mem_Merge_set_add hA, ORSet.mem_Merge_set_add hB]
      tauto
    rw [ORSet.Elements, ORSet.Elements, hset]

/-- C40 at a concrete input: the two sample replicas merge, either way round, to
the elements `[2, 2]` (the tuples `(2, 20)` and `(2, 21)`), and the merged
replica contains 2 and neither 1 nor 3. -/
theorem merge_observed_remove_witness :
    ORSet.replicaA.Ok ∧ ORSet.replicaB.Ok ∧
    (ORSet.replicaA.Merge ORSet.replicaB).Elements = [2, 2] ∧
    (ORSet.replicaA.Merge ORSet.replicaB).Elements =
      (ORSet.replicaB.Merge ORSet.replicaA).Elements ∧
    (ORSet.replicaA.Merge ORSet.replicaB).Contains 2 = true ∧
    (ORSet.replicaA.Merge ORSet.replicaB).Contains 1 = false ∧
    (ORSet.replicaA.Merge ORSet.replicaB).Contains 3 = false :=
  ⟨⟨by decide, by decide⟩, ⟨by decide, by decide⟩, by decide,
    (merge_observed_remove ORSet.replicaA ORSet.replicaB
      ⟨by decide, by decide⟩ ⟨by decide, by decide⟩).2.2,
    by decide, by decide, by decide⟩

/-! ## The hash table over the buffer pool manager

### What the calls on the pool keep -/

/-! ## The calls on the pool that the hash table makes -/

namespace LRUKReplacer

theorem SetEvictable_k (s : LRUKReplacer) (f : frame_id_t) (b : Bool) : (s.SetEvictable f b).k_ = s.k_ := by
  unfold SetEvictable
  split_ifs
  · rfl
  · dsimp only
    split_ifs <;> rfl

theorem RecordAccess_k {s s' : LRUKReplacer} {e : Ending} {f : frame_id_t}
    (h : s.RecordAccess f = .ok (e, s')) : s'.k_ = s.k_ := by
  rcases RecordAccess_fields h with ⟨-, rfl, -⟩ | ⟨-, -, -, -, -, -, -, hk, -⟩
  · rfl
  · exact hk

end LRUKReplacer

namespace BufferPoolManager

theorem install_k {b b' : BufferPoolManager} {g : frame_id_t} {p : page_id_t} {e : Ending}
    (h : b.install g p = .ok (e, b')) : b'.replacer_.k_ = b.replacer_.k_ := by
  unfold install at h
  dsimp only at h
  split at h
  · cases h
  · rename_i r hr
    cases h
    exact LRUKReplacer.RecordAccess_k hr
  · rename_i r hr
    cases h
    simp only [LRUKReplacer.SetEvictable_k]
    exact LRUKReplacer.RecordAccess_k hr

theorem writeBack_replacer (b : BufferPoolManager) (g : frame_id_t) :
    (b.writeBack g).replacer_ = b.replacer_ := (writeBack_fields b g).2.2.2.2.1

theorem NewPage_k {b b' : BufferPoolManager} {e : Ending} {r : Option (frame_id_t × page_id_t)}
    (h : b.NewPage = .ok (e, r, b')) : b'.replacer_.k_ = b.replacer_.k_ := by
  unfold NewPage at h
  cases hp : b.pickFrame with
  | mk o b0 =>
    have hk0 := pickFrame_k hp
    rw [hp] at h
    cases o with
    | none =>
      simp only [Except.ok.injEq, Prod.mk.injEq] at h
      rw [← h.2.2]; exact hk0
    | some g =>
      dsimp only at h
      split_ifs at h with hin
      cases hi : ({ b0.writeBack g with next_page_id_ := (b0.writeBack g).next_page_id_ + 1 } :
          BufferPoolManager).install g (b0.writeBack g).next_page_id_ with
      | error e' => rw [hi] at h; cases h
      | ok x =>
        obtain ⟨e', b3⟩ := x
        rw [hi] at h
        have hk3 := install_k hi
        dsimp only at hk3
        rw [writeBack_replacer] at hk3
        cases e' <;> simp only [Except.ok.injEq, Prod.mk.injEq] at h <;> rw [← h.2.2, hk3, hk0]

theorem FetchPage_k {b b' : BufferPoolManager} {e : Ending} {r : Option frame_id_t} {p : page_id_t}
    (h : b.FetchPage p = .ok (e, r, b')) : b'.replacer_.k_ = b.replacer_.k_ := by
  unfold FetchPage at h
  split_ifs at h with hp
  · simp only [Except.ok.injEq, Prod.mk.injEq] at h
    rw [← h.2.2]
  · cases ht : b.page_table_ p with
    | some f =>
      rw [ht] at h
      dsimp only at h
      split_ifs at h with hin
      cases hr : b.replacer_.RecordAccess f with
      | error e' => rw [hr] at h; cases h
      | ok x =>
        obtain ⟨e', s'⟩ := x
        rw [hr] at h
        have hk := LRUKReplacer.RecordAccess_k hr
        cases e' <;> simp only [Except.ok.injEq, Prod.mk.injEq] at h <;> rw [← h.2.2]
        · simp only [LRUKReplacer.SetEvictable_k]; exact hk
        · exact hk
    | none =>
      rw [ht] at h
      dsimp only at h
      cases hp' : b.pickFrame with
      | mk o b0 =>
        have hk0 := pickFrame_k hp'
        rw [hp'] at h
        cases o with
        | none =>
          simp only [Except.ok.injEq, Prod.mk.injEq] at h
          rw [← h.2.2]; exact hk0
        | some g =>
          dsimp only at h
          split_ifs at h with hin
          cases hi : (b0.writeBack g).install g p with
          | error e' => rw [hi] at h; cases h
          | ok x =>
            obtain ⟨e', b3⟩ := x
            rw [hi] at h
            have hk3 := install_k hi
            rw [writeBack_replacer] at hk3
            cases e' <;> simp only [Except.ok.injEq, Prod.mk.injEq] at h <;> rw [← h.2.2]
            · exact hk3.trans hk0
            · exact hk3.trans hk0

theorem UnpinPage_k {b b' : BufferPoolManager} {p : page_id_t} {d r : Bool}
    (h : b.UnpinPage p d = .ok (r, b')) : b'.replacer_.k_ = b.replacer_.k_ := by
  unfold UnpinPage at h
  split_ifs at h with hp
  · simp only [Except.ok.injEq, Prod.mk.injEq] at h
    rw [← h.2]
  · cases ht : b.page_table_ p with
    | none =>
      rw [ht] at h
      simp only [Except.ok.injEq, Prod.mk.injEq] at h
      rw [← h.2]
    | some f =>
      rw [ht] at h
      dsimp only at h
      split_ifs at h <;> simp only [Except.ok.injEq, Prod.mk.injEq] at h <;> rw [← h.2]
      exact LRUKReplacer.SetEvictable_k _ _ _

theorem MappedInv_IdleMapped {b : BufferPoolManager} (h : MappedInv b) : IdleMapped b :=
  fun f hf hnf _ => h.mapped f hf hnf

end BufferPoolManager

namespace Pooled

open BufferPoolManager

theorem IdOk_mono {n m p : page_id_t} (h : IdOk n p) (hnm : n ≤ m) : IdOk m p := by
  rcases h with h | ⟨h0, h1⟩
  · exact Or.inl h
  · exact Or.inr ⟨h0, lt_of_lt_of_le h1 hnm⟩

theorem PageOk_mono {n m : page_id_t} {d : PageData} (h : PageOk n d) (hnm : n ≤ m) : PageOk m d :=
  ⟨fun hd hh i => IdOk_mono (h.1 hd hh i) hnm,
   fun dir hh => ⟨(h.2 dir hh).1, fun i => IdOk_mono ((h.2 dir hh).2 i) hnm⟩⟩

theorem PageOk_zero {n : page_id_t} (hn : 0 < n) : PageOk n .zero := by
  constructor
  · intro h hh i
    simp only [PageData.asHeader, Except.ok.injEq] at hh
    subst hh
    exact Or.inr ⟨le_refl _, hn⟩
  · intro d hd
    simp only [PageData.asDirectory, Except.ok.injEq] at hd
    subst hd
    exact ⟨fun i _ => Nat.le_refl _, fun i => Or.inr ⟨le_refl _, hn⟩⟩

theorem PageOk_bucket (n : page_id_t) (b : ExtendibleHTableBucketPage) : PageOk n (.bucket b) := by
  constructor
  · intro h hh
    simp [PageData.asHeader] at hh
  · intro d hd
    simp [PageData.asDirectory] at hd

theorem PageOk_directory {n : page_id_t} {d : ExtendibleHTableDirectoryPage} (he : EHT1 d)
    (hi : ∀ i, IdOk n (d.bucket_page_ids_ i)) : PageOk n (.directory d) := by
  constructor
  · intro h hh
    simp [PageData.asHeader] at hh
  · intro d' hd
    simp only [PageData.asDirectory, Except.ok.injEq] at hd
    subst hd
    exact ⟨he, hi⟩

theorem PageOk_header {n : page_id_t} {h : ExtendibleHTableHeaderPage}
    (hi : ∀ i, IdOk n (h.directory_page_ids_ i)) : PageOk n (.header h) := by
  constructor
  · intro h' hh
    simp only [PageData.asHeader, Except.ok.injEq] at hh
    subst hh
    exact hi
  · intro d' hd
    simp [PageData.asDirectory] at hd

/-! ### The wrappers -/

theorem fetch_ok {b b' : BufferPoolManager} {p : page_id_t} {r : Option frame_id_t}
    (h : fetch b p = .ok (r, b')) : b.FetchPage p = .ok (.returned, r, b') := by
  unfold fetch at h
  split at h
  · cases h
  · cases h
  · rename_i r1 b1 heq
    cases h
    exact heq

theorem newPage_ok {b b' : BufferPoolManager} {r : Option (frame_id_t × page_id_t)}
    (h : newPage b = .ok (r, b')) : b.NewPage = .ok (.returned, r, b') := by
  unfold newPage at h
  split at h
  · cases h
  · cases h
  · rename_i r1 b1 heq
    cases h
    exact heq

theorem unpin_ok {b b' : BufferPoolManager} {p : page_id_t} {d : Bool}
    (h : unpin b p d = .ok b') : ∃ r, b.UnpinPage p d = .ok (r, b') := by
  unfold unpin at h
  split at h
  · cases h
  · rename_i r1 b1 heq
    cases h
    exact ⟨_, heq⟩

theorem deletePage_ok {b b' : BufferPoolManager} {p : page_id_t}
    (h : deletePage b p = .ok b') : ∃ r, b.DeletePage p = .ok (.returned, r, b') := by
  unfold deletePage at h
  split at h
  · cases h
  · cases h
  · rename_i r1 b1 heq
    cases h
    exact ⟨_, heq⟩

theorem call_fetch {b b' : BufferPoolManager} {p : page_id_t} {r : Option frame_id_t}
    (h : fetch b p = .ok (r, b')) : b.call (.fetch_page p) = .ok (.returned, .page r, b') := by
  dsimp only [call]
  rw [fetch_ok h]

theorem call_newPage {b b' : BufferPoolManager} {r : Option (frame_id_t × page_id_t)}
    (h : newPage b = .ok (r, b')) : b.call .new_page = .ok (.returned, .new_page r, b') := by
  dsimp only [call]
  rw [newPage_ok h]

theorem call_unpin {b b' : BufferPoolManager} {p : page_id_t} {d : Bool}
    (h : unpin b p d = .ok b') : ∃ r, b.call (.unpin_page p d) = .ok (.returned, .bool r, b') := by
  obtain ⟨r, hr⟩ := unpin_ok h
  refine ⟨r, ?_⟩
  dsimp only [call]
  rw [hr]

theorem call_write {b b' : BufferPoolManager} {f : frame_id_t} {d : PageData}
    (h : b.WriteData f d = .ok b') : b.call (.write_data f d) = .ok (.returned, .unit, b') := by
  dsimp only [call]
  rw [h]

theorem reach_fetch {b b' : BufferPoolManager} {p : page_id_t} {r : Option frame_id_t}
    (hr : ReachableAllocated b) (hp : p < b.next_page_id_) (h : fetch b p = .ok (r, b')) :
    ReachableAllocated b' :=
  ReachableAllocated.call _ _ _ hr (fun q hq => by cases hq; exact hp) (call_fetch h)

theorem reach_newPage {b b' : BufferPoolManager} {r : Option (frame_id_t × page_id_t)}
    (hr : ReachableAllocated b) (h : newPage b = .ok (r, b')) : ReachableAllocated b' :=
  ReachableAllocated.call _ _ _ hr (fun q hq => by cases hq) (call_newPage h)

theorem reach_unpin {b b' : BufferPoolManager} {p : page_id_t} {d : Bool}
    (hr : ReachableAllocated b) (h : unpin b p d = .ok b') : ReachableAllocated b' := by
  obtain ⟨r, hc⟩ := call_unpin h
  exact ReachableAllocated.call _ _ _ hr (fun q hq => by cases hq) hc

theorem reach_write {b b' : BufferPoolManager} {f : frame_id_t} {d : PageData}
    (hr : ReachableAllocated b) (h : b.WriteData f d = .ok b') : ReachableAllocated b' :=
  ReachableAllocated.call _ _ _ hr (fun q hq => by cases hq) (call_write h)

theorem reach_PoolInv {b : BufferPoolManager} (hr : ReachableAllocated b) : PoolInv b :=
  Reachable_PoolInv (ReachableAllocated_Reachable hr)

theorem IdOk_lt {n p : page_id_t} (h : IdOk n p) (hn : 0 < n) : p < n := by
  rcases h with h | ⟨-, h⟩
  · rw [h]
    have hn' : (0 : Int) < n := hn
    show (-1 : Int) < n
    omega
  · exact h

end Pooled

namespace Pooled

open BufferPoolManager

/-- The four ways `FetchPage` returns. -/
theorem fetch_cases {b b' : BufferPoolManager} {p : page_id_t} {r : Option frame_id_t}
    (hb : PoolInv b) (h : fetch b p = .ok (r, b')) :
    (p = INVALID_PAGE_ID ∧ r = none ∧ b' = b) ∨
    (p ≠ INVALID_PAGE_ID ∧ ∃ f, b.page_table_ p = some f ∧ r = some f ∧ Hit b b' f) ∨
    (p ≠ INVALID_PAGE_ID ∧ b.page_table_ p = none ∧ r = none ∧ b' = b ∧ b.free_list_ = [] ∧
      ∀ f, ¬ b.replacer_.IsEvictable f) ∨
    (p ≠ INVALID_PAGE_ID ∧ b.page_table_ p = none ∧ ∃ g, r = some g ∧ Installed b b' g p ∧
      b'.next_page_id_ = b.next_page_id_ ∧ (b'.pages_ g).data_ = b'.disk_ p ∧
      b'.disk_ = b.diskAfterReuse g) := by
  have h' := fetch_ok h
  rcases (FetchPage_spec hb h').2 with h1 | h1 | h1 | ⟨hp, ht, g, hr, hi, hn⟩
  · exact Or.inl h1
  · exact Or.inr (Or.inl h1)
  · exact Or.inr (Or.inr (Or.inl h1))
  · subst hr
    obtain ⟨-, h2, h3⟩ := FetchPage_pick hb ht h'
    exact Or.inr (Or.inr (Or.inr ⟨hp, ht, g, rfl, hi, hn, h2, h3⟩))

theorem diskAfterReuse_cases (b : BufferPoolManager) (g : frame_id_t) (q : page_id_t) :
    b.diskAfterReuse g q = b.disk_ q ∨
      (q = (b.pages_ g).page_id_ ∧ (b.pages_ g).is_dirty_ = true ∧
        b.diskAfterReuse g q = (b.pages_ g).data_) := by
  unfold diskAfterReuse
  split_ifs with hd
  · by_cases hq : q = (b.pages_ g).page_id_
    · right
      refine ⟨hq, hd, ?_⟩
      rw [hq, Function.update_same]
    · left
      rw [Function.update_noteq hq]
  · exact Or.inl rfl

theorem Installed_table_new {b b' : BufferPoolManager} {g : frame_id_t} {pid : page_id_t}
    (hi : Installed b b' g pid) (ht : b.page_table_ pid = none) : b'.page_table_ pid = some g := by
  rw [hi.page_table]
  unfold emplace
  have : Function.update b.page_table_ (b.pages_ g).page_id_ none pid = none := by
    by_cases hq : pid = (b.pages_ g).page_id_
    · rw [hq, Function.update_same]
    · rw [Function.update_noteq hq]; exact ht
  rw [this]
  dsimp only
  rw [Function.update_same]

/-- The pool holds the bytes of a page through a `NewPage` or a `FetchPage`
that takes a frame. -/
theorem Holds_Installed {b b' : BufferPoolManager} {g : frame_id_t} {pid q : page_id_t}
    {d : PageData} (hb : PoolInv b) (hm : IdleMapped b) (hi : Installed b b' g pid)
    (hdisk : b'.disk_ = b.diskAfterReuse g) (hdata : pid = q → (b'.pages_ g).data_ = b'.disk_ q)
    (hnew : b.page_table_ pid = none) (hq : q ≠ INVALID_PAGE_ID) (hk : Holds b q d) :
    Holds b' q d := by
  rcases hk with ⟨f, ht, hdat, hsync⟩ | ⟨ht, hdk⟩
  · have hne : pid ≠ q := by
      intro h
      rw [h, ht] at hnew
      cases hnew
    by_cases hfg : f = g
    · subst hfg
      right
      have hid := (hb.table_ok q f ht).2.2
      constructor
      · rw [hi.page_table, emplace_other (Ne.symm hne), hid, Function.update_same]
      · rw [hdisk]
        unfold diskAfterReuse
        split_ifs with hdirty
        · rw [hid, Function.update_same]
          exact hdat
        · rcases hsync with h1 | h1
          · exact absurd h1 hdirty
          · exact h1
    · left
      refine ⟨f, Installed_keeps hb hm hi ht hfg, ?_, ?_⟩
      · rw [hi.others f hfg]; exact hdat
      · rw [hi.others f hfg]
        rcases hsync with h1 | h1
        · exact Or.inl h1
        · right
          rw [hdisk, diskAfterReuse_other hb hm hi hq (by rw [ht]; intro h; exact hfg (Option.some.inj h))]
          exact h1
  · have hd' : b'.disk_ q = d := by
      rw [hdisk, diskAfterReuse_other hb hm hi hq (by rw [ht]; exact fun h => by cases h)]
      exact hdk
    by_cases hne : pid = q
    · left
      subst hne
      exact ⟨g, Installed_table_new hi hnew, (hdata rfl).trans hd', Or.inr hd'⟩
    · right
      constructor
      · rw [hi.page_table, emplace_other (Ne.symm hne)]
        by_cases hq' : q = (b.pages_ g).page_id_
        · rw [hq', Function.update_same]
        · rw [Function.update_noteq hq']
          exact ht
      · exact hd'

theorem Holds_Hit {b b' : BufferPoolManager} {f : frame_id_t} {q : page_id_t} {d : PageData}
    (hi : Hit b b' f) (hk : Holds b q d) : Holds b' q d := by
  have hpg : ∀ x, (b'.pages_ x).data_ = (b.pages_ x).data_ ∧
      (b'.pages_ x).is_dirty_ = (b.pages_ x).is_dirty_ := by
    intro x
    rw [hi.pages]
    by_cases hx : x = f
    · rw [hx, Function.update_same]
      exact ⟨rfl, rfl⟩
    · rw [Function.update_noteq hx]
      exact ⟨rfl, rfl⟩
  unfold Holds
  rw [hi.page_table, hi.disk]
  rcases hk with ⟨x, ht, hdat, hsync⟩ | h2
  · left
    refine ⟨x, ht, ?_, ?_⟩
    · rw [(hpg x).1]; exact hdat
    · rw [(hpg x).2]; exact hsync
  · exact Or.inr h2

end Pooled

namespace Pooled

open BufferPoolManager

theorem Eased_refl (b : BufferPoolManager) : Eased b b :=
  ⟨rfl, rfl, rfl, rfl, rfl, fun _ => rfl, fun _ => rfl, fun _ h => h, fun _ => le_refl _⟩

/-- The three ways `UnpinPage` returns. -/
theorem unpin_cases {b b' : BufferPoolManager} {p : page_id_t} {d : Bool} (hb : PoolInv b)
    (h : unpin b p d = .ok b') :
    ((p = INVALID_PAGE_ID ∨ b.page_table_ p = none) ∧ b' = b) ∨
    (∃ f, b.page_table_ p = some f ∧ (b.pages_ f).pin_count_ = 0 ∧
      b' =
        { b with
          pages_ := Function.update b.pages_ f
            { b.pages_ f with is_dirty_ := d || (b.pages_ f).is_dirty_ } }) ∨
    (∃ f, b.page_table_ p = some f ∧ (b.pages_ f).pin_count_ ≠ 0 ∧
      b' =
        { b with
          pages_ := Function.update b.pages_ f
            { b.pages_ f with
              is_dirty_ := d || (b.pages_ f).is_dirty_,
              pin_count_ := (b.pages_ f).pin_count_ - 1 },
          replacer_ :=
            if (b.pages_ f).pin_count_ - 1 = 0 then b.replacer_.SetEvictable f true
            else b.replacer_ }) := by
  obtain ⟨r, hr⟩ := unpin_ok h
  rcases UnpinPage_spec hb hr with ⟨h1, -, h2⟩ | ⟨f, h1, h2, -, h3⟩ | ⟨f, h1, h2, -, h3⟩
  · exact Or.inl ⟨h1, h2⟩
  · exact Or.inr (Or.inl ⟨f, h1, h2, h3⟩)
  · exact Or.inr (Or.inr ⟨f, h1, h2, h3⟩)

theorem unpin_Eased {b b' : BufferPoolManager} {p : page_id_t} {d : Bool} (hb : PoolInv b)
    (h : unpin b p d = .ok b') : Eased b b' := by
  rcases unpin_cases hb h with ⟨-, rfl⟩ | ⟨f, ht, hpin, rfl⟩ | ⟨f, ht, hpin, rfl⟩
  · exact Eased_refl _
  · refine ⟨rfl, rfl, rfl, rfl, rfl, ?_, ?_, ?_, ?_⟩
    · intro x
      show (Function.update b.pages_ f _ x).data_ = _
      by_cases hx : x = f
      · rw [hx, Function.update_same]
      · rw [Function.update_noteq hx]
    · intro x
      show (Function.update b.pages_ f _ x).page_id_ = _
      by_cases hx : x = f
      · rw [hx, Function.update_same]
      · rw [Function.update_noteq hx]
    · intro x hx'
      show (Function.update b.pages_ f _ x).is_dirty_ = _
      by_cases hx : x = f
      · rw [hx, Function.update_same]
        show (d || (b.pages_ f).is_dirty_) = true
        rw [← hx, hx']
        exact Bool.or_true d
      · rw [Function.update_noteq hx]; exact hx'
    · intro x
      show (Function.update b.pages_ f _ x).pin_count_ ≤ _
      by_cases hx : x = f
      · rw [hx, Function.update_same]
      · rw [Function.update_noteq hx]
  · obtain ⟨hin, hnf, -⟩ := hb.table_ok p f ht
    obtain ⟨-, -, hpos, -⟩ := hb.used_ok f hin hnf
    refine ⟨rfl, rfl, rfl, rfl, rfl, ?_, ?_, ?_, ?_⟩
    · intro x
      show (Function.update b.pages_ f _ x).data_ = _
      by_cases hx : x = f
      · rw [hx, Function.update_same]
      · rw [Function.update_noteq hx]
    · intro x
      show (Function.update b.pages_ f _ x).page_id_ = _
      by_cases hx : x = f
      · rw [hx, Function.update_same]
      · rw [Function.update_noteq hx]
    · intro x hx'
      show (Function.update b.pages_ f _ x).is_dirty_ = _
      by_cases hx : x = f
      · rw [hx, Function.update_same]
        show (d || (b.pages_ f).is_dirty_) = true
        rw [← hx, hx']
        exact Bool.or_true d
      · rw [Function.update_noteq hx]; exact hx'
    · intro x
      show (Function.update b.pages_ f _ x).pin_count_ ≤ _
      by_cases hx : x = f
      · rw [hx, Function.update_same]
        show (b.pages_ f).pin_count_ - 1 ≤ (b.pages_ f).pin_count_
        exact Int.sub_le_self _ (by decide)
      · rw [Function.update_noteq hx]

/-- `UnpinPage(page_id, true)` of a page that is in a frame leaves the frame
dirty. -/
theorem unpin_dirty {b b' : BufferPoolManager} {p : page_id_t} {f : frame_id_t} (hb : PoolInv b)
    (ht : b.page_table_ p = some f) (h : unpin b p true = .ok b') :
    (b'.pages_ f).is_dirty_ = true := by
  have hp : p ≠ INVALID_PAGE_ID := by
    intro hp
    rw [hp, table_invalid hb] at ht
    cases ht
  rcases unpin_cases hb h with ⟨h1, -⟩ | ⟨f', ht', -, rfl⟩ | ⟨f', ht', -, rfl⟩
  · rcases h1 with h1 | h1
    · exact absurd h1 hp
    · rw [h1] at ht; cases ht
  · rw [ht] at ht'
    cases ht'
    show (Function.update b.pages_ f _ f).is_dirty_ = true
    rw [Function.update_same]
    rfl
  · rw [ht] at ht'
    cases ht'
    show (Function.update b.pages_ f _ f).is_dirty_ = true
    rw [Function.update_same]
    rfl

theorem Holds_Eased {b b' : BufferPoolManager} {q : page_id_t} {d : PageData}
    (he : Eased b b') (hk : Holds b q d) : Holds b' q d := by
  unfold Holds
  rw [he.page_table, he.disk]
  rcases hk with ⟨x, ht, hdat, hsync⟩ | h2
  · left
    refine ⟨x, ht, ?_, ?_⟩
    · rw [he.data x]; exact hdat
    · rcases hsync with h1 | h1
      · exact Or.inl (he.dirty x h1)
      · exact Or.inr h1
  · exact Or.inr h2

/-- No page id from `next_page_id_` on is in the page table. -/
theorem table_fresh {b : BufferPoolManager} (hb : PoolInv b) (hm : MappedInv b) (p : page_id_t)
    (hp : b.next_page_id_ ≤ p) : b.page_table_ p = none := by
  cases ht : b.page_table_ p with
  | none => rfl
  | some f =>
    obtain ⟨h1, h2, h3⟩ := hb.table_ok _ f ht
    have := hm.below f h1 h2
    rw [h3] at this
    exact absurd hp (not_le.mpr this)

/-- The two ways `NewPage` returns. -/
theorem newPage_cases {b b' : BufferPoolManager} {r : Option (frame_id_t × page_id_t)}
    (hb : PoolInv b) (h : newPage b = .ok (r, b')) :
    (r = none ∧ b' = b ∧ b.free_list_ = [] ∧ ∀ f, ¬ b.replacer_.IsEvictable f) ∨
    (∃ g, r = some (g, b.next_page_id_) ∧ Installed b b' g b.next_page_id_ ∧
      b'.next_page_id_ = b.next_page_id_ + 1 ∧ (b'.pages_ g).data_ = .zero ∧
      b'.disk_ = b.diskAfterReuse g) := by
  have h' := newPage_ok h
  rcases (NewPage_spec hb h').2 with h1 | ⟨g, hr, hi, hn⟩
  · exact Or.inl h1
  · subst hr
    obtain ⟨-, h2, h3⟩ := NewPage_pick hb h'
    exact Or.inr ⟨g, rfl, hi, hn, h2, h3⟩

theorem WriteData_ok {b b' : BufferPoolManager} {f : frame_id_t} {d : PageData}
    (h : b.WriteData f d = .ok b') :
    b.inPool f ∧
      b' = { b with pages_ := Function.update b.pages_ f { b.pages_ f with data_ := d } } := by
  unfold WriteData at h
  split_ifs at h with hin
  cases h
  exact ⟨hin, rfl⟩

theorem Holds_write {b b' : BufferPoolManager} {f : frame_id_t} {d0 d : PageData} {q : page_id_t}
    (h : b.WriteData f d0 = .ok b') (hne : (b.pages_ f).data_ ≠ d) (hk : Holds b q d) :
    Holds b' q d := by
  obtain ⟨-, rfl⟩ := WriteData_ok h
  rcases hk with ⟨x, ht, hdat, hsync⟩ | h2
  · left
    have hx : x ≠ f := by
      intro hx
      rw [hx] at hdat
      exact hne hdat
    refine ⟨x, ht, ?_, ?_⟩
    · show (Function.update b.pages_ f _ x).data_ = d
      rw [Function.update_noteq hx]; exact hdat
    · show (Function.update b.pages_ f _ x).is_dirty_ = true ∨ _
      rw [Function.update_noteq hx]; exact hsync
  · exact Or.inr h2

end Pooled

namespace Pooled

open BufferPoolManager

theorem Sound.inv {b : BufferPoolManager} (hs : Sound b) : PoolInv b := reach_PoolInv hs.reach

theorem Sound.mapped {b : BufferPoolManager} (hs : Sound b) : MappedInv b :=
  ReachableAllocated_MappedInv hs.reach

theorem Sound.idle {b : BufferPoolManager} (hs : Sound b) : IdleMapped b :=
  MappedInv_IdleMapped hs.mapped

theorem Sound_Eased {b b' : BufferPoolManager} (hs : Sound b) (he : Eased b b')
    (hr : ReachableAllocated b') (hk : b'.replacer_.k_ = b.replacer_.k_) : Sound b' := by
  obtain ⟨h, hh⟩ := hs.header
  refine ⟨hr, by rw [hk]; exact hs.k_pos, by rw [he.next_page_id]; exact hs.next_pos, ?_, ?_, ?_, ?_,
    ⟨h, Holds_Eased he hh⟩⟩
  · intro f
    rw [he.next_page_id, he.data]
    exact hs.frames f
  · intro p
    rw [he.next_page_id, he.disk]
    exact hs.disk p
  · intro f h' hf
    rw [he.data] at hf
    rw [he.page_id]
    exact hs.header_frame f h' hf
  · intro p h' hp
    rw [he.disk] at hp
    exact hs.header_disk p h' hp

theorem Sound_unpin {b b' : BufferPoolManager} {p : page_id_t} {d : Bool} (hs : Sound b)
    (h : unpin b p d = .ok b') : Sound b' := by
  obtain ⟨r, hr⟩ := unpin_ok h
  exact Sound_Eased hs (unpin_Eased hs.inv h) (reach_unpin hs.reach h) (UnpinPage_k hr)

theorem Hit_Eased_data {b b' : BufferPoolManager} {f : frame_id_t} (hi : Hit b b' f) :
    (∀ x, (b'.pages_ x).data_ = (b.pages_ x).data_) ∧
    (∀ x, (b'.pages_ x).page_id_ = (b.pages_ x).page_id_) ∧
    (∀ x, (b'.pages_ x).is_dirty_ = (b.pages_ x).is_dirty_) := by
  refine ⟨?_, ?_, ?_⟩ <;> intro x <;> rw [hi.pages] <;> by_cases hx : x = f
  · rw [hx, Function.update_same]
  · rw [Function.update_noteq hx]
  · rw [hx, Function.update_same]
  · rw [Function.update_noteq hx]
  · rw [hx, Function.update_same]
  · rw [Function.update_noteq hx]

/-- The pages after a frame was taken: the page in the frame has the bytes
`d0`, which satisfy `PageOk` and are a header page only for page 0. -/
theorem Sound_Installed {b b' : BufferPoolManager} {g : frame_id_t} {pid : page_id_t}
    (hs : Sound b) (hi : Installed b b' g pid) (hdisk : b'.disk_ = b.diskAfterReuse g)
    (hr : ReachableAllocated b') (hk : b'.replacer_.k_ = b.replacer_.k_)
    (hn : b.next_page_id_ ≤ b'.next_page_id_) (hnew : b.page_table_ pid = none)
    (hdata : pid = 0 → (b'.pages_ g).data_ = b'.disk_ 0)
    (hok : PageOk b'.next_page_id_ (b'.pages_ g).data_)
    (hhd : ∀ h, (b'.pages_ g).data_ = .header h → pid = 0) : Sound b' := by
  obtain ⟨h, hh⟩ := hs.header
  have hdk : ∀ q, b'.disk_ q = b.disk_ q ∨
      (q = (b.pages_ g).page_id_ ∧ b'.disk_ q = (b.pages_ g).data_) := by
    intro q
    rw [hdisk]
    rcases diskAfterReuse_cases b g q with h1 | ⟨h1, -, h2⟩
    · exact Or.inl h1
    · exact Or.inr ⟨h1, h2⟩
  refine ⟨hr, by rw [hk]; exact hs.k_pos, lt_of_lt_of_le hs.next_pos hn, ?_, ?_, ?_, ?_,
    ⟨h, Holds_Installed hs.inv hs.idle hi hdisk hdata hnew
      (by unfold INVALID_PAGE_ID; decide) hh⟩⟩
  · intro f
    by_cases hfg : f = g
    · rw [hfg]; exact hok
    · rw [hi.others f hfg]
      exact PageOk_mono (hs.frames f) hn
  · intro p
    rcases hdk p with h1 | ⟨-, h1⟩
    · rw [h1]; exact PageOk_mono (hs.disk p) hn
    · rw [h1]; exact PageOk_mono (hs.frames g) hn
  · intro f h' hf
    by_cases hfg : f = g
    · rw [hfg] at hf ⊢
      rw [hi.page_id]
      exact hhd h' hf
    · rw [hi.others f hfg] at hf ⊢
      exact hs.header_frame f h' hf
  · intro p h' hp
    rcases hdk p with h1 | ⟨h0, h1⟩
    · rw [h1] at hp
      exact hs.header_disk p h' hp
    · rw [h1] at hp
      rw [h0]
      exact hs.header_frame g h' hp

theorem Sound_fetch {b b' : BufferPoolManager} {p : page_id_t} {r : Option frame_id_t}
    (hs : Sound b) (hp : IdOk b.next_page_id_ p) (h : fetch b p = .ok (r, b')) : Sound b' := by
  have hr := reach_fetch hs.reach (IdOk_lt hp hs.next_pos) h
  have hk := FetchPage_k (fetch_ok h)
  rcases fetch_cases hs.inv h with ⟨-, -, rfl⟩ | ⟨-, f, -, -, hi⟩ | ⟨-, -, -, rfl, -⟩ |
    ⟨-, ht, g, -, hi, hn, hdat, hdisk⟩
  · exact hs
  · obtain ⟨h1, h2, h3⟩ := Hit_Eased_data hi
    obtain ⟨h, hh⟩ := hs.header
    refine ⟨hr, by rw [hk]; exact hs.k_pos, by rw [hi.next_page_id]; exact hs.next_pos, ?_, ?_, ?_, ?_,
      ⟨h, Holds_Hit hi hh⟩⟩
    · intro x
      rw [hi.next_page_id, h1]
      exact hs.frames x
    · intro q
      rw [hi.next_page_id, hi.disk]
      exact hs.disk q
    · intro x h' hx
      rw [h1] at hx
      rw [h2]
      exact hs.header_frame x h' hx
    · intro q h' hq
      rw [hi.disk] at hq
      exact hs.header_disk q h' hq
  · exact hs
  · have hdk : ∀ q, b'.disk_ q = b.disk_ q ∨
        (q = (b.pages_ g).page_id_ ∧ b'.disk_ q = (b.pages_ g).data_) := by
      intro q
      rw [hdisk]
      rcases diskAfterReuse_cases b g q with h1 | ⟨h1, -, h2⟩
      · exact Or.inl h1
      · exact Or.inr ⟨h1, h2⟩
    refine Sound_Installed hs hi hdisk hr hk (le_of_eq hn.symm) ht
      (fun hq => by rw [← hq]; exact hdat) ?_ ?_
    · rw [hdat, hn]
      rcases hdk p with h1 | ⟨-, h1⟩
      · rw [h1]; exact hs.disk p
      · rw [h1]; exact hs.frames g
    · intro h' hh'
      rw [hdat] at hh'
      rcases hdk p with h1 | ⟨h0, h1⟩
      · rw [h1] at hh'
        exact hs.header_disk p h' hh'
      · rw [h1] at hh'
        rw [h0]
        exact hs.header_frame g h' hh'

theorem Sound_newPage {b b' : BufferPoolManager} {r : Option (frame_id_t × page_id_t)}
    (hs : Sound b) (h : newPage b = .ok (r, b')) : Sound b' := by
  have hr := reach_newPage hs.reach h
  have hk := NewPage_k (newPage_ok h)
  rcases newPage_cases hs.inv h with ⟨-, rfl, -⟩ | ⟨g, -, hi, hn, hdat, hdisk⟩
  · exact hs
  · have hnp := hs.next_pos
    have hlt : b.next_page_id_ ≤ b'.next_page_id_ := by
      rw [hn]
      exact Int.le_add_one (le_refl _)
    have hne : b.next_page_id_ ≠ 0 := Ne.symm (ne_of_lt hnp)
    refine Sound_Installed hs hi hdisk hr hk hlt
      (table_fresh hs.inv hs.mapped _ (le_refl _)) ?_ ?_ ?_
    · intro hq
      exact absurd hq hne
    · rw [hdat]
      exact PageOk_zero (lt_of_lt_of_le hnp hlt)
    · intro h' hh'
      rw [hdat] at hh'
      cases hh'

theorem Sound_write {b b' : BufferPoolManager} {f : frame_id_t} {d : PageData} (hs : Sound b)
    (hok : PageOk b.next_page_id_ d) (hold : ∀ h, (b.pages_ f).data_ ≠ .header h)
    (hnew : ∀ h, d ≠ .header h) (h : b.WriteData f d = .ok b') : Sound b' := by
  have hr := reach_write hs.reach h
  obtain ⟨h0, hh⟩ := hs.header
  have hh' := Holds_write h (hold h0) hh
  obtain ⟨-, rfl⟩ := WriteData_ok h
  refine ⟨hr, hs.k_pos, hs.next_pos, ?_, hs.disk, ?_, hs.header_disk, ⟨h0, hh'⟩⟩
  · intro x
    show PageOk _ (Function.update b.pages_ f _ x).data_
    by_cases hx : x = f
    · rw [hx, Function.update_same]; exact hok
    · rw [Function.update_noteq hx]; exact hs.frames x
  · intro x h' hx'
    change (Function.update b.pages_ f _ x).data_ = _ at hx'
    show (Function.update b.pages_ f _ x).page_id_ = 0
    by_cases hx : x = f
    · rw [hx, Function.update_same] at hx'
      exact absurd hx' (hnew h')
    · rw [Function.update_noteq hx] at hx' ⊢
      exact hs.header_frame x h' hx'

end Pooled

/-! ### The invariant is kept by `GetValue`, `Insert` and `Remove` -/

namespace Pooled

open BufferPoolManager

theorem bind_eq_ok {α β : Type} {x : Except Fault α} {f : α → Except Fault β} {r : β} :
    (x >>= f) = .ok r ↔ ∃ a, x = .ok a ∧ f a = .ok r := by
  cases x with
  | error e => simp [bind, Except.bind]
  | ok a => simp [bind, Except.bind]

theorem IdOk_zero {n : page_id_t} (hn : 0 < n) : IdOk n 0 := Or.inr ⟨le_refl _, hn⟩

theorem IdOk_header {b : BufferPoolManager} (hs : Sound b) {f : frame_id_t}
    {h : ExtendibleHTableHeaderPage} (hh : headerAt b f = .ok h) (i : Nat) :
    IdOk b.next_page_id_ (h.GetDirectoryPageId i) := by
  unfold ExtendibleHTableHeaderPage.GetDirectoryPageId
  split_ifs
  · exact Or.inl rfl
  · exact (hs.frames f).1 h hh i

theorem IdOk_directory {b : BufferPoolManager} (hs : Sound b) {f : frame_id_t}
    {d : ExtendibleHTableDirectoryPage} (hd : directoryAt b f = .ok d) {i : Nat} {p : page_id_t}
    (hp : d.GetBucketPageId i = .ok p) : IdOk b.next_page_id_ p := by
  obtain ⟨-, rfl⟩ := ExtendibleHTableDirectoryPage.GetBucketPageId_ok hp
  exact ((hs.frames f).2 d hd).2 i

theorem GetValue_Sound {t t' : DiskExtendibleHashTable} {key : Int} {v : Option Int}
    (ht : TableOk t) (h : t.GetValue key = .ok (v, t')) : TableOk t' := by
  obtain ⟨hid, hs⟩ := ht
  unfold DiskExtendibleHashTable.GetValue at h
  simp only [bind_eq_ok] at h
  obtain ⟨⟨hg, b1⟩, h1, h⟩ := h
  rw [hid] at h1
  have s1 := Sound_fetch hs (IdOk_zero hs.next_pos) h1
  cases hg with
  | none => simp [throw, throwThe, MonadExceptOf.throw] at h
  | some hf =>
    simp only [bind_eq_ok] at h
    obtain ⟨hp, h2, h⟩ := h
    split_ifs at h with hinv
    · simp only [bind_eq_ok] at h
      obtain ⟨b2, h3, h⟩ := h
      simp only [pure, Except.pure, Except.ok.injEq, Prod.mk.injEq] at h
      obtain ⟨-, rfl⟩ := h
      exact ⟨hid, Sound_unpin s1 h3⟩
    · simp only [bind_eq_ok] at h
      obtain ⟨b2, h3, ⟨dg, b3⟩, h4, h⟩ := h
      have s2 := Sound_unpin s1 h3
      have s3 := Sound_fetch s2 (by rw [(unpin_Eased s1.inv h3).next_page_id]; exact IdOk_header s1 h2 _) h4
      cases dg with
      | none => simp [throw, throwThe, MonadExceptOf.throw] at h
      | some df =>
        simp only [bind_eq_ok] at h
        obtain ⟨dp, h5, bid, h6, h⟩ := h
        split_ifs at h with hinv2
        · simp only [bind_eq_ok] at h
          obtain ⟨b4, h7, h⟩ := h
          simp only [pure, Except.pure, Except.ok.injEq, Prod.mk.injEq] at h
          obtain ⟨-, rfl⟩ := h
          exact ⟨hid, Sound_unpin s3 h7⟩
        · simp only [bind_eq_ok] at h
          obtain ⟨⟨bg, b4⟩, h7, b5, h8, h⟩ := h
          have s4 := Sound_fetch s3 (IdOk_directory s3 h5 h6) h7
          have s5 := Sound_unpin s4 h8
          cases bg with
          | none => simp [throw, throwThe, MonadExceptOf.throw] at h
          | some bf =>
            simp only [bind_eq_ok] at h
            obtain ⟨bp, h9, b6, h10, h⟩ := h
            simp only [pure, Except.pure, Except.ok.injEq, Prod.mk.injEq] at h
            obtain ⟨-, rfl⟩ := h
            exact ⟨hid, Sound_unpin s5 h10⟩

end Pooled

namespace Pooled

open BufferPoolManager

theorem Ids_IncrGlobalDepth {n : page_id_t} {d d' : ExtendibleHTableDirectoryPage}
    (h : d.IncrGlobalDepth = .ok d') (hd : Ids n d) : Ids n d' := by
  rcases ExtendibleHTableDirectoryPage.IncrGlobalDepth_ok h with ⟨-, rfl⟩ | ⟨-, -, -, -, hb⟩
  · exact hd
  · intro i
    rw [hb i]
    split_ifs
    · exact hd _
    · exact hd _

theorem Ids_IncrLocalDepth {n : page_id_t} {d d' : ExtendibleHTableDirectoryPage} {i : Nat}
    (h : d.IncrLocalDepth i = .ok d') (hd : Ids n d) : Ids n d' := by
  obtain ⟨-, ⟨-, rfl⟩ | ⟨-, rfl⟩⟩ := ExtendibleHTableDirectoryPage.IncrLocalDepth_ok h
  · exact hd
  · exact hd

theorem Ids_DecrLocalDepth {n : page_id_t} {d d' : ExtendibleHTableDirectoryPage} {i : Nat}
    (h : d.DecrLocalDepth i = .ok d') (hd : Ids n d) : Ids n d' := by
  obtain ⟨-, ⟨-, rfl⟩ | ⟨-, rfl⟩⟩ := ExtendibleHTableDirectoryPage.DecrLocalDepth_ok h
  · exact hd
  · exact hd

theorem Ids_SetLocalDepth {n : page_id_t} {d d' : ExtendibleHTableDirectoryPage} {i v : Nat}
    (h : d.SetLocalDepth i v = .ok d') (hd : Ids n d) : Ids n d' := by
  obtain ⟨-, rfl⟩ := ExtendibleHTableDirectoryPage.SetLocalDepth_ok h
  exact hd

theorem Ids_SetBucketPageId {n : page_id_t} {d d' : ExtendibleHTableDirectoryPage} {i : Nat}
    {v : page_id_t} (h : d.SetBucketPageId i v = .ok d') (hd : Ids n d) (hv : IdOk n v) :
    Ids n d' := by
  obtain ⟨-, rfl⟩ := ExtendibleHTableDirectoryPage.SetBucketPageId_ok h
  intro j
  show IdOk n (Function.update d.bucket_page_ids_ i v j)
  by_cases hj : j = i
  · rw [hj, Function.update_same]; exact hv
  · rw [Function.update_noteq hj]; exact hd j

theorem Ids_UpdateDirectoryMapping {n : page_id_t} {d d' : ExtendibleHTableDirectoryPage}
    {idx : Nat} {pid : page_id_t} {nld mask : Nat}
    (h : bustub.DiskExtendibleHashTable.UpdateDirectoryMapping d idx pid nld mask = .ok d')
    (hd : Ids n d) (hv : IdOk n pid) : Ids n d' := by
  unfold bustub.DiskExtendibleHashTable.UpdateDirectoryMapping at h
  refine forLoop_except_invariant (fun s => Ids n s) _ ?_ _ d hd d' h
  intro i r hr s' hs'
  cases r with
  | error e => simp [bind, Except.bind] at hs'
  | ok s =>
    have hs := hr s rfl
    simp only [bind_eq_ok] at hs'
    obtain ⟨s0, h0, a, -, c, -, hs'⟩ := hs'
    cases h0
    split_ifs at hs'
    · simp only [bind_eq_ok] at hs'
      obtain ⟨s1, h1, h2⟩ := hs'
      exact Ids_SetLocalDepth h2 (Ids_SetBucketPageId h1 hs hv)
    · exact Ids_SetLocalDepth hs' hs
    · simp only [pure, Except.pure, Except.ok.injEq] at hs'
      subst hs'
      exact hs

theorem Ids_mergeLoop {n : page_id_t} {d d' : ExtendibleHTableDirectoryPage} {idx : Nat}
    {pid : page_id_t} (h : bustub.DiskExtendibleHashTable.mergeLoop d idx pid = .ok d')
    (hd : Ids n d) : Ids n d' := by
  unfold bustub.DiskExtendibleHashTable.mergeLoop at h
  refine forLoop_except_invariant (fun s => Ids n s) _ ?_ _ d hd d' h
  intro i r hr s' hs'
  cases r with
  | error e => simp [bind, Except.bind] at hs'
  | ok s =>
    have hs := hr s rfl
    simp only [bind_eq_ok] at hs'
    obtain ⟨s0, h0, a, -, hs'⟩ := hs'
    cases h0
    split_ifs at hs'
    · simp only [bind_eq_ok] at hs'
      obtain ⟨c, h1, h2⟩ := hs'
      obtain ⟨-, rfl⟩ := ExtendibleHTableDirectoryPage.GetBucketPageId_ok h1
      exact Ids_SetBucketPageId h2 hs (hs idx)
    · simp only [pure, Except.pure, Except.ok.injEq] at hs'
      subst hs'
      exact hs

theorem Ids_shrinkLoop {n : page_id_t} {d d' : ExtendibleHTableDirectoryPage} {a b : Nat}
    (h : bustub.DiskExtendibleHashTable.shrinkLoop d a b = .ok d') (hd : Ids n d) : Ids n d' := by
  unfold bustub.DiskExtendibleHashTable.shrinkLoop at h
  refine forLoop_except_invariant (fun s => Ids n s) _ ?_ _ d hd d' h
  intro i r hr s' hs'
  cases r with
  | error e => simp [bind, Except.bind] at hs'
  | ok s =>
    have hs := hr s rfl
    simp only [bind_eq_ok] at hs'
    obtain ⟨s1, h1, h2⟩ := hs'
    cases h1
    exact Ids_SetBucketPageId h2 hs (Or.inl rfl)

theorem Ids_shrinkBranch {n : page_id_t} {d d' : ExtendibleHTableDirectoryPage}
    (h : bustub.DiskExtendibleHashTable.shrinkBranch d = .ok d') (hd : Ids n d) : Ids n d' := by
  unfold bustub.DiskExtendibleHashTable.shrinkBranch at h
  refine Ids_shrinkLoop h ?_
  unfold ExtendibleHTableDirectoryPage.DecrGlobalDepth
  split_ifs
  · exact hd
  · exact hd

theorem Ids_mergePhase {n : page_id_t} {d d' : ExtendibleHTableDirectoryPage} {idx : Nat}
    {pid : page_id_t} {m : Bool}
    (h : bustub.DiskExtendibleHashTable.mergePhase d idx pid = .ok (d', m)) (hd : Ids n d) :
    Ids n d' := by
  unfold bustub.DiskExtendibleHashTable.mergePhase at h
  simp only [bind_eq_ok] at h
  obtain ⟨d1, h1, split, -, l1, -, l2, -, d2, h2, h⟩ := h
  simp only [pure, Except.pure, Except.ok.injEq, Prod.mk.injEq] at h
  obtain ⟨rfl, -⟩ := h
  have e1 := Ids_DecrLocalDepth h1 hd
  split_ifs at h2
  · unfold bustub.DiskExtendibleHashTable.mergeBranch at h2
    simp only [bind_eq_ok] at h2
    obtain ⟨c1, h3, c2, h4, h5⟩ := h2
    exact Ids_SetBucketPageId h5 (Ids_mergeLoop h4 (Ids_DecrLocalDepth h3 e1)) (Or.inl rfl)
  · cases h2
    exact e1

theorem EHT1_mergePhase {d d' : ExtendibleHTableDirectoryPage} {idx : Nat}
    {pid : page_id_t} {m : Bool}
    (h : bustub.DiskExtendibleHashTable.mergePhase d idx pid = .ok (d', m)) (hd : EHT1 d) :
    EHT1 d' := by
  unfold bustub.DiskExtendibleHashTable.mergePhase at h
  simp only [bind_eq_ok] at h
  obtain ⟨d1, h1, split, -, l1, -, l2, -, d2, h2, h⟩ := h
  simp only [pure, Except.pure, Except.ok.injEq, Prod.mk.injEq] at h
  obtain ⟨rfl, -⟩ := h
  obtain ⟨e1, -⟩ := ExtendibleHTableDirectoryPage.DecrLocalDepth_EHT1 h1 hd
  split_ifs at h2
  · unfold bustub.DiskExtendibleHashTable.mergeBranch at h2
    simp only [bind_eq_ok] at h2
    obtain ⟨c1, h3, c2, h4, h5⟩ := h2
    obtain ⟨f1, -⟩ := ExtendibleHTableDirectoryPage.DecrLocalDepth_EHT1 h3 e1
    obtain ⟨f2, -⟩ := mergeLoop_EHT1 h4 f1
    exact (ExtendibleHTableDirectoryPage.SetBucketPageId_EHT1 h5 f2).1
  · cases h2
    exact e1

theorem EHT1_shrinkBranch {d d' : ExtendibleHTableDirectoryPage} (hc : d.CanShrink = true)
    (h : bustub.DiskExtendibleHashTable.shrinkBranch d = .ok d') (hd : EHT1 d) : EHT1 d' := by
  unfold bustub.DiskExtendibleHashTable.shrinkBranch at h
  exact (shrinkLoop_EHT1 h (DecrGlobalDepth_EHT1 hd hc)).1

theorem Ids_mono {n m : page_id_t} {d : ExtendibleHTableDirectoryPage} (h : Ids n d)
    (hnm : n ≤ m) : Ids m d := fun i => IdOk_mono (h i) hnm

theorem Ids_Init {n : page_id_t} {d d' : ExtendibleHTableDirectoryPage} {m : Nat}
    (h : d.Init m = .ok d') (hd : Ids n d) : Ids n d' := by
  unfold ExtendibleHTableDirectoryPage.Init at h
  split_ifs at h
  simp only [Except.ok.injEq] at h
  subst h
  intro i
  show IdOk n (forLoop (fun i a => Function.update a i INVALID_PAGE_ID) (1 <<< m) d.bucket_page_ids_ i)
  rw [forLoop_update_const]
  split_ifs
  · exact Or.inl rfl
  · exact hd i

end Pooled

namespace Pooled

open BufferPoolManager

theorem notHeader_of_bucket {b : BufferPoolManager} {f : frame_id_t}
    {p : ExtendibleHTableBucketPage} (h : bucketAt b f = .ok p) (h' : ExtendibleHTableHeaderPage) :
    (b.pages_ f).data_ ≠ .header h' := by
  intro hh
  unfold bucketAt at h
  rw [hh] at h
  simp [PageData.asBucket] at h

theorem notHeader_of_directory {b : BufferPoolManager} {f : frame_id_t}
    {p : ExtendibleHTableDirectoryPage} (h : directoryAt b f = .ok p)
    (h' : ExtendibleHTableHeaderPage) : (b.pages_ f).data_ ≠ .header h' := by
  intro hh
  unfold directoryAt at h
  rw [hh] at h
  simp [PageData.asDirectory] at h

theorem InsertToNewBucket_Sound {t t1 : DiskExtendibleHashTable} {df : frame_id_t} {idx : Nat}
    {key value : Int} {r : Bool} (hs : Sound t.bpm_)
    (h : t.InsertToNewBucket df idx key value = .ok (r, t1)) :
    ∃ b, t1 = { t with bpm_ := b } ∧ Sound b := by
  unfold DiskExtendibleHashTable.InsertToNewBucket at h
  simp only [bind_eq_ok] at h
  obtain ⟨d, h1, bid, h2, ⟨bg, b1⟩, h3, h⟩ := h
  have s1 := Sound_fetch hs (IdOk_directory hs h1 h2) h3
  cases bg with
  | none => simp [throw, throwThe, MonadExceptOf.throw] at h
  | some bf =>
    simp only [bind_eq_ok] at h
    obtain ⟨bp, h4, h⟩ := h
    cases hi : bp.Insert key value with
    | mk res bp' =>
      rw [hi] at h
      simp only [bind_eq_ok] at h
      obtain ⟨b2, h5, b3, h6, h⟩ := h
      simp only [pure, Except.pure, Except.ok.injEq, Prod.mk.injEq] at h
      obtain ⟨-, rfl⟩ := h
      have s2 : Sound b2 := by
        split_ifs at h5
        · exact Sound_write s1 (PageOk_bucket _ _) (notHeader_of_bucket h4)
            (fun h' hh => by cases hh) h5
        · cases h5
          exact s1
      exact ⟨b3, rfl, Sound_unpin s2 h6⟩

theorem InsertToNewDirectory_Sound {t t1 : DiskExtendibleHashTable} {hf : frame_id_t} {hash : Nat}
    {key value : Int} {r : Bool} (hs : Sound t.bpm_)
    (h : t.InsertToNewDirectory hf hash key value = .ok (r, t1)) :
    ∃ b, t1 = { t with bpm_ := b } ∧ Sound b := by
  unfold DiskExtendibleHashTable.InsertToNewDirectory at h
  simp only [bind_eq_ok] at h
  obtain ⟨hp, h1, ⟨dg, b1⟩, h2, h⟩ := h
  have s1 := Sound_fetch hs (IdOk_header hs h1 _) h2
  cases dg with
  | none => simp [throw, throwThe, MonadExceptOf.throw] at h
  | some df =>
    simp only [bind_eq_ok] at h
    obtain ⟨dp, h3, ⟨r1, t2⟩, h4, b2, h5, h⟩ := h
    simp only [pure, Except.pure, Except.ok.injEq, Prod.mk.injEq] at h
    obtain ⟨-, rfl⟩ := h
    obtain ⟨b3, rfl, s3⟩ := InsertToNewBucket_Sound (t := { t with bpm_ := b1 }) s1 h4
    exact ⟨b2, rfl, Sound_unpin s3 h5⟩

theorem dropGuard_Sound {b b' : BufferPoolManager} {g : Option frame_id_t} {p : page_id_t}
    {d : Bool} (hs : Sound b) (h : dropGuard b g p d = .ok b') : Sound b' := by
  unfold dropGuard at h
  cases g with
  | none => cases h; exact hs
  | some f => exact Sound_unpin hs h

theorem next_fetch {b b' : BufferPoolManager} {p : page_id_t} {r : Option frame_id_t}
    (hb : PoolInv b) (h : fetch b p = .ok (r, b')) : b'.next_page_id_ = b.next_page_id_ := by
  rcases fetch_cases hb h with ⟨-, -, rfl⟩ | ⟨-, f, -, -, hi⟩ | ⟨-, -, -, rfl, -⟩ |
    ⟨-, ht, g, -, hi, hn, -⟩
  · rfl
  · exact hi.next_page_id
  · rfl
  · exact hn

theorem next_unpin {b b' : BufferPoolManager} {p : page_id_t} {d : Bool}
    (hb : PoolInv b) (h : unpin b p d = .ok b') : b'.next_page_id_ = b.next_page_id_ :=
  (unpin_Eased hb h).next_page_id

theorem next_dropGuard {b b' : BufferPoolManager} {g : Option frame_id_t} {p : page_id_t}
    {d : Bool} (hb : PoolInv b) (h : dropGuard b g p d = .ok b') :
    b'.next_page_id_ = b.next_page_id_ := by
  unfold dropGuard at h
  cases g with
  | none => cases h; rfl
  | some f => exact next_unpin hb h

theorem locate_Sound {t : DiskExtendibleHashTable} {key : Int} {loc : DiskExtendibleHashTable.Located}
    (hid : t.header_page_id_ = 0) (hs : Sound t.bpm_) (h : t.locate key = .ok loc) :
    Sound loc.bpm := by
  unfold DiskExtendibleHashTable.locate at h
  simp only [bind_eq_ok] at h
  obtain ⟨⟨g1, b1⟩, h1, ⟨g2, b2⟩, h2, h⟩ := h
  rw [hid] at h1 h2
  have s1 := Sound_fetch hs (IdOk_zero hs.next_pos) h1
  have s2 := Sound_fetch s1 (IdOk_zero s1.next_pos) h2
  cases g2 with
  | none => simp [throw, throwThe, MonadExceptOf.throw] at h
  | some hf =>
    simp only [bind_eq_ok] at h
    obtain ⟨hp, h3, b3, h4, b4, h5, ⟨g3, b5⟩, h6, ⟨g4, b6⟩, h7, h⟩ := h
    have s3 := dropGuard_Sound s2 h4
    have s4 := Sound_unpin s3 h5
    have n3 := next_dropGuard s2.inv h4
    have n4 := next_unpin s3.inv h5
    have hD : IdOk b4.next_page_id_ (hp.GetDirectoryPageId (hp.HashToDirectoryIndex (t.Hash key))) := by
      rw [n4, n3]
      exact IdOk_header s2 h3 _
    have s5 := Sound_fetch s4 hD h6
    have s6 := Sound_fetch s5 (by rw [next_fetch s4.inv h6]; exact hD) h7
    cases g4 with
    | none => simp [throw, throwThe, MonadExceptOf.throw] at h
    | some df =>
      simp only [bind_eq_ok] at h
      obtain ⟨dp, h8, bid, h9, b7, h10, b8, h11, ⟨g5, b9⟩, h12, h⟩ := h
      have s7 := dropGuard_Sound s6 h10
      have s8 := Sound_unpin s7 h11
      have n7 := next_dropGuard s6.inv h10
      have n8 := next_unpin s7.inv h11
      have s9 := Sound_fetch s8 (by rw [n8, n7]; exact IdOk_directory s6 h8 h9) h12
      cases g5 with
      | none => simp [throw, throwThe, MonadExceptOf.throw] at h
      | some bf =>
        simp only [pure, Except.pure, Except.ok.injEq] at h
        subst h
        exact s9

end Pooled

namespace Pooled

open BufferPoolManager

/-- After a `FetchPage` that returns a frame the page table gives this frame
for the page, the frame holds the page and is pinned. -/
theorem fetch_pinned {b b' : BufferPoolManager} {p : page_id_t} {f : frame_id_t}
    (hb : PoolInv b) (h : fetch b p = .ok (some f, b')) :
    p ≠ INVALID_PAGE_ID ∧ b'.page_table_ p = some f ∧ b'.inPool f ∧
      0 < (b'.pages_ f).pin_count_ ∧ (b'.pages_ f).page_id_ = p := by
  rcases fetch_cases hb h with ⟨-, hr, -⟩ | ⟨hp, f', ht, hr, hi⟩ | ⟨-, -, hr, -⟩ |
    ⟨hp, ht, g, hr, hi, hn, -⟩
  · cases hr
  · cases hr
    obtain ⟨hin, hnf, hid⟩ := hb.table_ok p f ht
    obtain ⟨-, -, hpos, -⟩ := hb.used_ok f hin hnf
    refine ⟨hp, by rw [hi.page_table]; exact ht, (inPool_congr hi.pool_size f).mpr hin, ?_, ?_⟩
    · rw [hi.pages, Function.update_same]
      show 0 < (b.pages_ f).pin_count_ + 1
      exact Int.lt_add_one_iff.mpr hpos
    · rw [hi.pages, Function.update_same]
      exact hid
  · cases hr
  · cases hr
    refine ⟨hp, Installed_table_new hi ht, (inPool_congr hi.pool_size f).mpr hi.in_pool, ?_, hi.page_id⟩
    rw [hi.pin_count]
    decide

theorem deletePage_pinned {b b' : BufferPoolManager} {p : page_id_t} {f : frame_id_t}
    (ht : b.page_table_ p = some f) (hin : b.inPool f) (hpin : 0 < (b.pages_ f).pin_count_)
    (hp : p ≠ INVALID_PAGE_ID) (h : deletePage b p = .ok b') : b' = b := by
  obtain ⟨r, hr⟩ := deletePage_ok h
  unfold DeletePage at hr
  rw [if_neg hp, ht] at hr
  dsimp only at hr
  rw [if_neg (not_not.mpr hin), if_pos hpin] at hr
  cases hr
  rfl

theorem notHeader_write {b b' : BufferPoolManager} {f x : frame_id_t} {d : PageData}
    (h : b.WriteData f d = .ok b') (hd : ∀ h', d ≠ .header h')
    (hx : ∀ h', (b.pages_ x).data_ ≠ .header h') (h' : ExtendibleHTableHeaderPage) :
    (b'.pages_ x).data_ ≠ .header h' := by
  obtain ⟨-, rfl⟩ := WriteData_ok h
  show (Function.update b.pages_ f _ x).data_ ≠ _
  by_cases hxf : x = f
  · rw [hxf, Function.update_same]
    exact hd h'
  · rw [Function.update_noteq hxf]
    exact hx h'

theorem data_write_same {b b' : BufferPoolManager} {f : frame_id_t} {d : PageData}
    (h : b.WriteData f d = .ok b') : (b'.pages_ f).data_ = d := by
  obtain ⟨-, rfl⟩ := WriteData_ok h
  show (Function.update b.pages_ f _ f).data_ = d
  rw [Function.update_same]

theorem data_write_other {b b' : BufferPoolManager} {f x : frame_id_t} {d : PageData}
    (h : b.WriteData f d = .ok b') (hx : x ≠ f) : b'.pages_ x = b.pages_ x := by
  obtain ⟨-, rfl⟩ := WriteData_ok h
  show Function.update b.pages_ f _ x = _
  rw [Function.update_noteq hx]

theorem next_write {b b' : BufferPoolManager} {f : frame_id_t} {d : PageData}
    (h : b.WriteData f d = .ok b') : b'.next_page_id_ = b.next_page_id_ := by
  obtain ⟨-, rfl⟩ := WriteData_ok h
  rfl

theorem map_eq_ok {α β : Type} {x : Except Fault α} {f : α → β} {r : β} :
    (f <$> x) = .ok r ↔ ∃ a, x = .ok a ∧ f a = r := by
  cases x with
  | error e => simp [Functor.map, Except.map]
  | ok a => simp [Functor.map, Except.map]

theorem splitPhase_Sound {t : DiskExtendibleHashTable} {b1 b : BufferPoolManager}
    {df bf : frame_id_t} {idx hash : Nat} {nid : page_id_t} (hs : Sound b1)
    (h : t.splitPhase b1 df bf idx hash = .ok (some (nid, b))) : Sound b := by
  unfold DiskExtendibleHashTable.splitPhase at h
  simp only [bind_eq_ok] at h
  obtain ⟨d0, h0, ld0, h1, h⟩ := h
  by_cases hmax : ld0 = d0.GetGlobalDepth ∧ d0.GetGlobalDepth = t.directory_max_depth_
  · rw [if_pos hmax] at h
    simp [pure, Except.pure] at h
  rw [if_neg hmax] at h
  simp only [bind_eq_ok] at h
  obtain ⟨d1, h2, split, h3, b2, h4, ⟨ng, b3⟩, h5, h⟩ := h
  have hd0 := (hs.frames df).2 d0 h0
  have e1 : EHT1 d1 ∧ Ids b1.next_page_id_ d1 := by
    split_ifs at h2
    · exact ⟨ExtendibleHTableDirectoryPage.IncrGlobalDepth_EHT1 h2 hd0.1, Ids_IncrGlobalDepth h2 hd0.2⟩
    · cases h2
      exact hd0
  have s2 := Sound_write hs (PageOk_directory e1.1 e1.2) (notHeader_of_directory h0)
    (fun h' hh => by cases hh) h4
  have s3 := Sound_newPage s2 h5
  cases ng with
  | none => simp [throw, throwThe, MonadExceptOf.throw] at h
  | some pr =>
    obtain ⟨nf, nid'⟩ := pr
    simp only at h
    split_ifs at h with halias
    simp only [bind_eq_ok, map_eq_ok] at h
    obtain ⟨nb0, h6, d1', h7, d2, h8, ld2, h9, d3, h10, ld3, h11, mask, h12, d4, h13, d5, h14, bp, h15,
      b4, h16, b5, h17, b6, h18, h⟩ := h
    simp only [pure, Except.pure, Except.ok.injEq, Option.some.injEq, Prod.mk.injEq] at h
    obtain ⟨rfl, rfl⟩ := h
    · rcases newPage_cases s2.inv h5 with ⟨hr, -⟩ | ⟨g, hr, hi, hn, hdat, hdisk⟩
      · cases hr
      simp only [Option.some.injEq, Prod.mk.injEq] at hr
      obtain ⟨rfl, rfl⟩ := hr
      have hdf : nf ≠ df := fun hx => halias (Or.inl hx)
      have hd1' : d1' = d1 := by
        unfold directoryAt at h7
        rw [hi.others df (Ne.symm hdf), data_write_same h4] at h7
        simp only [PageData.asDirectory, Except.ok.injEq] at h7
        exact h7.symm
      subst hd1'
      have hn2 : b2.next_page_id_ = b1.next_page_id_ := next_write h4
      have hlt : b1.next_page_id_ ≤ b3.next_page_id_ := by
        rw [hn, hn2]
        exact Int.le_add_one (le_refl _)
      have hnid : IdOk b3.next_page_id_ b2.next_page_id_ := by
        refine Or.inr ⟨le_of_lt s2.next_pos, ?_⟩
        rw [hn]
        exact Int.lt_succ_self _
      obtain ⟨e2, g2⟩ := ExtendibleHTableDirectoryPage.IncrLocalDepth_EHT1 h8 e1.1
      have i2 := Ids_IncrLocalDepth h8 (Ids_mono e1.2 hlt)
      obtain ⟨-, rfl⟩ := ExtendibleHTableDirectoryPage.GetLocalDepth_ok h9
      have hld : d2.local_depths_ (d1'.HashToBucketIndex hash) ≤ d2.global_depth_ :=
        e2 _ (by rw [g2]; exact ExtendibleHTableDirectoryPage.HashToBucketIndex_lt d1' hash)
      obtain ⟨e3, g3⟩ := ExtendibleHTableDirectoryPage.SetLocalDepth_EHT1 h10 e2 hld
      have i3 := Ids_SetLocalDepth h10 i2
      obtain ⟨-, rfl⟩ := ExtendibleHTableDirectoryPage.GetLocalDepth_ok h11
      have hld3 : d3.local_depths_ (d1'.HashToBucketIndex hash) ≤ d3.global_depth_ :=
        e3 _ (by rw [g3, g2]; exact ExtendibleHTableDirectoryPage.HashToBucketIndex_lt d1' hash)
      obtain ⟨e4, g4⟩ := ExtendibleHTableDirectoryPage.SetBucketPageId_EHT1 h13 e3
      have i4 := Ids_SetBucketPageId h13 i3 hnid
      obtain ⟨e5, -⟩ := UpdateDirectoryMapping_EHT1 h14 e4 (by omega)
      have i5 := Ids_UpdateDirectoryMapping h14 i4 hnid
      have s4 := Sound_write s3 (PageOk_directory e5 i5) (notHeader_of_directory h7)
        (fun h' hh => by cases hh) h16
      have s5 := Sound_write s4 (PageOk_bucket _ _)
        (notHeader_write h16 (fun h' hh => by cases hh) (notHeader_of_bucket h15))
        (fun h' hh => by cases hh) h17
      exact Sound_write s5 (PageOk_bucket _ _)
        (notHeader_write h17 (fun h' hh => by cases hh)
          (notHeader_write h16 (fun h' hh => by cases hh) (notHeader_of_bucket h6)))
        (fun h' hh => by cases hh) h18

end Pooled

namespace Pooled

open BufferPoolManager

/-- The three ways one round of `Insert` returns. -/
theorem Insert_round {fuel : Nat} {t t' : DiskExtendibleHashTable} {key value : Int} {r : Bool}
    (h : DiskExtendibleHashTable.Insert (fuel + 1) t key value = .ok (r, t')) :
    ∃ loc r1 t1, t.locate key = .ok loc ∧
      DiskExtendibleHashTable.InsertToNewDirectory { t with bpm_ := loc.bpm } loc.header_frame
        (t.Hash key) key value = .ok (r1, t1) ∧
      ((r1 = true ∧ r = true ∧ ∃ b, unpin t1.bpm_ loc.bucket_page_id true = .ok b ∧
          t' = { t1 with bpm_ := b }) ∨
       (r1 = false ∧ r = false ∧ t' = t1 ∧
          t.splitPhase t1.bpm_ loc.directory_frame loc.bucket_frame loc.bucket_index (t.Hash key) =
            .ok none) ∨
       (r1 = false ∧ ∃ nid bpm t2 b,
          t.splitPhase t1.bpm_ loc.directory_frame loc.bucket_frame loc.bucket_index (t.Hash key) =
            .ok (some (nid, bpm)) ∧
          DiskExtendibleHashTable.Insert fuel { t with bpm_ := bpm } key value = .ok (r, t2) ∧
          unpin t2.bpm_ nid true = .ok b ∧ t' = { t2 with bpm_ := b })) := by
  rw [DiskExtendibleHashTable.Insert] at h
  cases hl : t.locate key with
  | error e => rw [hl] at h; simp at h
  | ok loc =>
    rw [hl] at h
    simp only at h
    cases hi : DiskExtendibleHashTable.InsertToNewDirectory { t with bpm_ := loc.bpm } loc.header_frame
        (t.Hash key) key value with
    | error e => rw [hi] at h; simp at h
    | ok res =>
      obtain ⟨r1, t1⟩ := res
      rw [hi] at h
      refine ⟨loc, r1, t1, rfl, hi, ?_⟩
      cases r1 with
      | true =>
        simp only at h
        cases hu : unpin t1.bpm_ loc.bucket_page_id true with
        | error e => rw [hu] at h; simp at h
        | ok b =>
          rw [hu] at h
          simp only [Except.ok.injEq, Prod.mk.injEq] at h
          exact Or.inl ⟨rfl, h.1.symm, b, rfl, h.2.symm⟩
      | false =>
        simp only at h
        cases hs : t.splitPhase t1.bpm_ loc.directory_frame loc.bucket_frame loc.bucket_index
            (t.Hash key) with
        | error e => rw [hs] at h; simp at h
        | ok res =>
          rw [hs] at h
          cases res with
          | none =>
            simp only [Except.ok.injEq, Prod.mk.injEq] at h
            exact Or.inr (Or.inl ⟨rfl, h.1.symm, h.2.symm, rfl⟩)
          | some pr =>
            obtain ⟨nid, bpm⟩ := pr
            simp only at h
            cases hr : DiskExtendibleHashTable.Insert fuel { t with bpm_ := bpm } key value with
            | error e => rw [hr] at h; simp at h
            | ok res2 =>
              obtain ⟨r2, t2⟩ := res2
              rw [hr] at h
              simp only at h
              cases hu : unpin t2.bpm_ nid true with
              | error e => rw [hu] at h; simp at h
              | ok b =>
                rw [hu] at h
                simp only [Except.ok.injEq, Prod.mk.injEq] at h
                obtain ⟨rfl, rfl⟩ := h
                exact Or.inr (Or.inr ⟨rfl, nid, bpm, t2, b, rfl, hr, hu, rfl⟩)

theorem Insert_Sound (fuel : Nat) :
    ∀ (t t' : DiskExtendibleHashTable) (key value : Int) (r : Bool),
      DiskExtendibleHashTable.Insert fuel t key value = .ok (r, t') → TableOk t → TableOk t' := by
  induction fuel with
  | zero =>
    intro t t' key value r h
    simp [DiskExtendibleHashTable.Insert, throw, throwThe, MonadExceptOf.throw] at h
  | succ fuel ih =>
    intro t t' key value r h ht
    obtain ⟨hid, hs⟩ := ht
    obtain ⟨loc, r1, t1, hl, hi, hc⟩ := Insert_round h
    have sl := locate_Sound hid hs hl
    obtain ⟨b1, rfl, s1⟩ := InsertToNewDirectory_Sound (t := { t with bpm_ := loc.bpm }) sl hi
    rcases hc with ⟨-, -, b, hu, rfl⟩ | ⟨-, -, rfl, -⟩ | ⟨-, nid, bpm, t2, b, hsp, hr, hu, rfl⟩
    · exact ⟨hid, Sound_unpin s1 hu⟩
    · exact ⟨hid, s1⟩
    · have s2 := splitPhase_Sound s1 hsp
      obtain ⟨hid2, s3⟩ := ih _ _ _ _ _ hr ⟨hid, s2⟩
      exact ⟨hid2, Sound_unpin s3 hu⟩

theorem Remove_Sound {t t' : DiskExtendibleHashTable} {key : Int} {r : Bool}
    (ht : TableOk t) (h : t.Remove key = .ok (r, t')) : TableOk t' := by
  obtain ⟨hid, hs⟩ := ht
  unfold DiskExtendibleHashTable.Remove at h
  simp only [bind_eq_ok] at h
  obtain ⟨⟨hg, b1⟩, h1, h⟩ := h
  rw [hid] at h1
  have s1 := Sound_fetch hs (IdOk_zero hs.next_pos) h1
  cases hg with
  | none => simp [throw, throwThe, MonadExceptOf.throw] at h
  | some hf =>
    simp only [bind_eq_ok] at h
    obtain ⟨hp, h2, h⟩ := h
    split_ifs at h with hinv
    · simp only [pure, Except.pure, Except.ok.injEq, Prod.mk.injEq] at h
      obtain ⟨-, rfl⟩ := h
      exact ⟨hid, s1⟩
    · simp only [bind_eq_ok] at h
      obtain ⟨b2, h3, ⟨dg, b3⟩, h4, h⟩ := h
      have s2 := Sound_unpin s1 h3
      have s3 := Sound_fetch s2 (by rw [next_unpin s1.inv h3]; exact IdOk_header s1 h2 _) h4
      cases dg with
      | none => simp [throw, throwThe, MonadExceptOf.throw] at h
      | some df =>
        simp only [bind_eq_ok] at h
        obtain ⟨dp, h5, bid, h6, h⟩ := h
        split_ifs at h with hinv2
        · simp only [pure, Except.pure, Except.ok.injEq, Prod.mk.injEq] at h
          obtain ⟨-, rfl⟩ := h
          exact ⟨hid, s3⟩
        · simp only [bind_eq_ok] at h
          obtain ⟨b4, h7, ⟨bg, b5⟩, h8, h⟩ := h
          have s4 := Sound_unpin s3 h7
          have s5 := Sound_fetch s4 (by rw [next_unpin s3.inv h7]; exact IdOk_directory s3 h5 h6) h8
          cases bg with
          | none => simp [throw, throwThe, MonadExceptOf.throw] at h
          | some bf =>
            simp only [bind_eq_ok] at h
            obtain ⟨bp, h9, h⟩ := h
            obtain ⟨hbid, htb, hinb, hpinb, -⟩ := fetch_pinned s4.inv h8
            split_ifs at h with hrm hem
            · simp only [bind_eq_ok] at h
              obtain ⟨b6, h10, b7, h11, d1, h12, ⟨d2, m⟩, h13, b8, h14, b9, h15, d3, h16, d4, h17, b10, h18,
                b11, h19, h⟩ := h
              simp only [pure, Except.pure, Except.ok.injEq, Prod.mk.injEq] at h
              obtain ⟨-, rfl⟩ := h
              have s6 := Sound_write s5 (PageOk_bucket _ _) (notHeader_of_bucket h9)
                (fun h' hh => by cases hh) h10
              have c6 := WriteData_SameCore h10
              have e7 : b7 = b6 := deletePage_pinned (by rw [c6.page_table]; exact htb)
                ((inPool_congr c6.pool_size bf).mpr hinb) (by rw [c6.pin_count]; exact hpinb) hbid h11
              subst e7
              have hd1 := (s6.frames df).2 d1 h12
              have s8 := Sound_write s6
                (PageOk_directory (EHT1_mergePhase h13 hd1.1) (Ids_mergePhase h13 hd1.2))
                (notHeader_of_directory h12) (fun h' hh => by cases hh) h14
              have c8 := WriteData_SameCore h14
              have s9 : Sound b9 := by
                split_ifs at h15
                · simp only [bind_eq_ok] at h15
                  obtain ⟨x, hx1, hx2⟩ := h15
                  have ex : x = b8 := deletePage_pinned
                    (by rw [c8.page_table, c6.page_table]; exact htb)
                    ((inPool_congr (c8.pool_size.trans c6.pool_size) bf).mpr hinb)
                    (by rw [c8.pin_count, c6.pin_count]; exact hpinb) hbid hx1
                  subst ex
                  exact Sound_unpin s8 hx2
                · cases h15
                  exact s8
              have hd3 := (s9.frames df).2 d3 h16
              have hd4 : EHT1 d4 ∧ Ids b9.next_page_id_ d4 := by
                split_ifs at h17 with hc
                · exact ⟨EHT1_shrinkBranch hc h17 hd3.1, Ids_shrinkBranch h17 hd3.2⟩
                · cases h17
                  exact hd3
              have s10 := Sound_write s9 (PageOk_directory hd4.1 hd4.2) (notHeader_of_directory h16)
                (fun h' hh => by cases hh) h18
              exact ⟨hid, Sound_unpin s10 h19⟩
            · simp only [bind_eq_ok] at h
              obtain ⟨b6, h10, b7, h11, h⟩ := h
              simp only [pure, Except.pure, Except.ok.injEq, Prod.mk.injEq] at h
              obtain ⟨-, rfl⟩ := h
              have s6 := Sound_write s5 (PageOk_bucket _ _) (notHeader_of_bucket h9)
                (fun h' hh => by cases hh) h10
              exact ⟨hid, Sound_unpin s6 h11⟩
            · simp only [pure, Except.pure, Except.ok.injEq, Prod.mk.injEq] at h
              obtain ⟨-, rfl⟩ := h
              exact ⟨hid, s5⟩

end Pooled

/-! ### The constructor -/

namespace Pooled

open BufferPoolManager

theorem Pinned_newPage {b b' : BufferPoolManager} {p q : page_id_t} {f g : frame_id_t}
    {d : PageData} (hb : PoolInv b) (hm : IdleMapped b) (hp : Pinned b p f d)
    (h : newPage b = .ok (some (g, q), b')) : g ≠ f ∧ Pinned b' p f d := by
  rcases newPage_cases hb h with ⟨hr, -⟩ | ⟨g', hr, hi, hn, hdat, hdisk⟩
  · cases hr
  · simp only [Option.some.injEq, Prod.mk.injEq] at hr
    obtain ⟨rfl, rfl⟩ := hr
    have hne : f ≠ g := by
      intro hfg
      have := Installed_unpinned hb hi
      rw [← hfg] at this
      have hpin := hp.pin
      rw [this] at hpin
      exact absurd hpin (lt_irrefl _)
    refine ⟨Ne.symm hne, Installed_keeps hb hm hi hp.table hne, ?_, ?_⟩
    · rw [hi.others f hne]; exact hp.data
    · rw [hi.others f hne]; exact hp.pin

theorem Pinned_write_other {b b' : BufferPoolManager} {p : page_id_t} {f g : frame_id_t}
    {d d' : PageData} (hp : Pinned b p f d) (hne : f ≠ g) (h : b.WriteData g d' = .ok b') :
    Pinned b' p f d := by
  have c := WriteData_SameCore h
  refine ⟨by rw [c.page_table]; exact hp.table, ?_, by rw [c.pin_count]; exact hp.pin⟩
  rw [data_write_other h hne]
  exact hp.data

theorem Pinned_write_same {b b' : BufferPoolManager} {p : page_id_t} {f : frame_id_t}
    {d d' : PageData} (hp : Pinned b p f d) (h : b.WriteData f d' = .ok b') :
    Pinned b' p f d' := by
  have c := WriteData_SameCore h
  exact ⟨by rw [c.page_table]; exact hp.table, data_write_same h, by rw [c.pin_count]; exact hp.pin⟩

theorem Pinned_of_newPage {b b' : BufferPoolManager} {q : page_id_t} {g : frame_id_t}
    (hb : PoolInv b) (hm : MappedInv b) (h : newPage b = .ok (some (g, q), b')) :
    q = b.next_page_id_ ∧ b'.next_page_id_ = b.next_page_id_ + 1 ∧ Pinned b' q g .zero := by
  rcases newPage_cases hb h with ⟨hr, -⟩ | ⟨g', hr, hi, hn, hdat, hdisk⟩
  · cases hr
  · simp only [Option.some.injEq, Prod.mk.injEq] at hr
    obtain ⟨rfl, rfl⟩ := hr
    refine ⟨rfl, hn, Installed_table_new hi (table_fresh hb hm _ (le_refl _)), hdat, ?_⟩
    rw [hi.pin_count]
    decide

theorem Pinned.resident {b : BufferPoolManager} {p : page_id_t} {f : frame_id_t} {d : PageData}
    (h : Pinned b p f d) : Resident b p f d := ⟨h.table, h.data⟩

theorem Resident_Eased {b b' : BufferPoolManager} {p : page_id_t} {f : frame_id_t} {d : PageData}
    (he : Eased b b') (h : Resident b p f d) : Resident b' p f d :=
  ⟨by rw [he.page_table]; exact h.table, by rw [he.data]; exact h.data⟩

end Pooled

namespace Pooled

open BufferPoolManager

theorem Rest_refl (b : BufferPoolManager) : Rest b b [] :=
  ⟨fun _ _ => rfl, fun _ => Or.inl rfl⟩

theorem Rest_newPage {b0 b b' : BufferPoolManager} {l : List frame_id_t} {q : page_id_t}
    {g : frame_id_t} (hb : PoolInv b) (hr : Rest b0 b l) (hg : g ∉ l)
    (h : newPage b = .ok (some (g, q), b')) : Rest b0 b' (g :: l) := by
  rcases newPage_cases hb h with ⟨hr', -⟩ | ⟨g', hr', hi, hn, hdat, hdisk⟩
  · cases hr'
  · simp only [Option.some.injEq, Prod.mk.injEq] at hr'
    obtain ⟨rfl, rfl⟩ := hr'
    constructor
    · intro f hf
      rw [List.mem_cons, not_or] at hf
      rw [hi.others f hf.1]
      exact hr.frames f hf.2
    · intro p
      rw [hdisk]
      rcases diskAfterReuse_cases b g p with h1 | ⟨-, -, h1⟩
      · rw [h1]; exact hr.disk p
      · rw [h1]
        exact Or.inr ⟨g, hr.frames g hg⟩

theorem pool_size_newPage {b b' : BufferPoolManager} {r : Option (frame_id_t × page_id_t)}
    (hb : PoolInv b) (h : newPage b = .ok (r, b')) : b'.pool_size_ = b.pool_size_ := by
  rcases newPage_cases hb h with ⟨-, rfl, -⟩ | ⟨g, -, hi, -⟩
  · rfl
  · exact hi.pool_size

theorem disk_write {b b' : BufferPoolManager} {f : frame_id_t} {d : PageData}
    (h : b.WriteData f d = .ok b') : b'.disk_ = b.disk_ := by
  obtain ⟨-, rfl⟩ := WriteData_ok h
  rfl

theorem dirty_write {b b' : BufferPoolManager} {f x : frame_id_t} {d : PageData}
    (h : b.WriteData f d = .ok b') : (b'.pages_ x).is_dirty_ = (b.pages_ x).is_dirty_ := by
  obtain ⟨-, rfl⟩ := WriteData_ok h
  show (Function.update b.pages_ f _ x).is_dirty_ = _
  by_cases hx : x = f
  · rw [hx, Function.update_same]
  · rw [Function.update_noteq hx]

theorem Rest_write {b0 b b' : BufferPoolManager} {l : List frame_id_t} {f : frame_id_t}
    {d : PageData} (hr : Rest b0 b l) (hf : f ∈ l) (h : b.WriteData f d = .ok b') :
    Rest b0 b' l := by
  constructor
  · intro x hx
    have hne : x ≠ f := fun hxf => hx (hxf ▸ hf)
    rw [data_write_other h hne]
    exact hr.frames x hx
  · intro p
    rw [disk_write h]
    exact hr.disk p

theorem Rest_Eased {b0 b b' : BufferPoolManager} {l : List frame_id_t} (hr : Rest b0 b l)
    (he : Eased b b') : Rest b0 b' l :=
  ⟨fun f hf => by rw [he.data]; exact hr.frames f hf, fun p => by rw [he.disk]; exact hr.disk p⟩

/-- What the constructor has done when it returns: the three pages are in
three frames with the bytes written last, each frame dirty; the rest of the
pool is as `Rest` says. -/
theorem new_spec {bpm : BufferPoolManager} {hash_fn : Int → Nat} {hmd dmd bms : Nat}
    {t : DiskExtendibleHashTable} (hr : ReachableAllocated bpm)
    (h : DiskExtendibleHashTable.new bpm hash_fn hmd dmd bms = .ok t) :
    ∃ hf df bf H0 D0 D,
      zeroHeader.Init hmd = .ok H0 ∧ zeroDirectory.Init dmd = .ok D0 ∧
      D0.SetBucketPageId 0 (bpm.next_page_id_ + 2) = .ok D ∧
      t.hash_fn_ = hash_fn ∧ t.header_max_depth_ = hmd ∧ t.directory_max_depth_ = dmd ∧
      t.bucket_max_size_ = bms ∧ t.header_page_id_ = bpm.next_page_id_ ∧
      t.bpm_.next_page_id_ = bpm.next_page_id_ + 3 ∧
      ReachableAllocated t.bpm_ ∧ t.bpm_.replacer_.k_ = bpm.replacer_.k_ ∧
      t.bpm_.pool_size_ = bpm.pool_size_ ∧
      Resident t.bpm_ bpm.next_page_id_ hf
        (.header (H0.SetDirectoryPageId 0 (bpm.next_page_id_ + 1))) ∧
      Resident t.bpm_ (bpm.next_page_id_ + 1) df (.directory D) ∧
      Resident t.bpm_ (bpm.next_page_id_ + 2) bf
        (.bucket (zeroBucket.Init bms)) ∧
      (t.bpm_.pages_ hf).is_dirty_ = true ∧ (t.bpm_.pages_ df).is_dirty_ = true ∧
      (t.bpm_.pages_ bf).is_dirty_ = true ∧
      Rest bpm t.bpm_ [bf, df, hf] := by
  have hb0 := reach_PoolInv hr
  have hm0 := ReachableAllocated_MappedInv hr
  unfold DiskExtendibleHashTable.new at h
  simp only [bind_eq_ok] at h
  obtain ⟨⟨g1, b1⟩, h1, h⟩ := h
  have r1 := reach_newPage hr h1
  have k1 := NewPage_k (newPage_ok h1)
  cases g1 with
  | none => simp [throw, throwThe, MonadExceptOf.throw] at h
  | some pr1 =>
    obtain ⟨hf, hid⟩ := pr1
    simp only [bind_eq_ok] at h
    obtain ⟨z1, h2, H0, h3, b2, h4, ⟨g2, b3⟩, h5, h⟩ := h
    obtain ⟨rfl, n1, p1⟩ := Pinned_of_newPage hb0 hm0 h1
    have q1 := Rest_newPage hb0 (Rest_refl bpm) (List.not_mem_nil _) h1
    have hz1 : z1 = zeroHeader := by
      unfold headerAt at h2
      rw [p1.data] at h2
      simp only [PageData.asHeader, Except.ok.injEq] at h2
      exact h2.symm
    subst hz1
    have r2 := reach_write r1 h4
    have p2 := Pinned_write_same p1 h4
    have q2 := Rest_write q1 (List.mem_cons_self _ _) h4
    have r3 := reach_newPage r2 h5
    have k3 := NewPage_k (newPage_ok h5)
    cases g2 with
    | none => simp [throw, throwThe, MonadExceptOf.throw] at h
    | some pr2 =>
      obtain ⟨df, did⟩ := pr2
      simp only [bind_eq_ok] at h
      obtain ⟨z2, h6, D0, h7, b4, h8, ⟨g3, b5⟩, h9, h⟩ := h
      have hb2 := reach_PoolInv r2
      have hm2 := ReachableAllocated_MappedInv r2
      obtain ⟨rfl, n3, pd3⟩ := Pinned_of_newPage hb2 hm2 h5
      obtain ⟨hdf, p3⟩ := Pinned_newPage hb2 (MappedInv_IdleMapped hm2) p2 h5
      have q3 := Rest_newPage hb2 q2 (by simpa using hdf) h5
      have hz2 : z2 = zeroDirectory := by
        unfold directoryAt at h6
        rw [pd3.data] at h6
        simp only [PageData.asDirectory, Except.ok.injEq] at h6
        exact h6.symm
      subst hz2
      have r4 := reach_write r3 h8
      have pd4 := Pinned_write_same pd3 h8
      have p4 := Pinned_write_other p3 (Ne.symm hdf) h8
      have q4 := Rest_write q3 (List.mem_cons_self _ _) h8
      have r5 := reach_newPage r4 h9
      have k5 := NewPage_k (newPage_ok h9)
      cases g3 with
      | none => simp [throw, throwThe, MonadExceptOf.throw] at h
      | some pr3 =>
        obtain ⟨bf, bid⟩ := pr3
        simp only [bind_eq_ok] at h
        obtain ⟨z3, h10, b6, h11, H1, h12, b7, h13, D1, h14, D, h15, b8, h16, b9, h17, b10, h18,
          b11, h19, h⟩ := h
        simp only [pure, Except.pure, Except.ok.injEq] at h
        subst h
        have hb4 := reach_PoolInv r4
        have hm4 := ReachableAllocated_MappedInv r4
        obtain ⟨rfl, n5, pb5⟩ := Pinned_of_newPage hb4 hm4 h9
        obtain ⟨hbf, p5⟩ := Pinned_newPage hb4 (MappedInv_IdleMapped hm4) p4 h9
        obtain ⟨hbd, pd5⟩ := Pinned_newPage hb4 (MappedInv_IdleMapped hm4) pd4 h9
        have q5 := Rest_newPage hb4 q4 (by simp [hbf, hbd]) h9
        have hz3 : z3 = zeroBucket := by
          unfold bucketAt at h10
          rw [pb5.data] at h10
          simp only [PageData.asBucket, Except.ok.injEq] at h10
          exact h10.symm
        subst hz3
        have r6 := reach_write r5 h11
        have pb6 := Pinned_write_same pb5 h11
        have p6 := Pinned_write_other p5 (Ne.symm hbf) h11
        have pd6 := Pinned_write_other pd5 (Ne.symm hbd) h11
        have q6 := Rest_write q5 (List.mem_cons_self _ _) h11
        have hH1 : H1 = H0 := by
          unfold headerAt at h12
          rw [p6.data] at h12
          simp only [PageData.asHeader, Except.ok.injEq] at h12
          exact h12.symm
        subst hH1
        have r7 := reach_write r6 h13
        have p7 := Pinned_write_same p6 h13
        have pd7 := Pinned_write_other pd6 hdf h13
        have pb7 := Pinned_write_other pb6 hbf h13
        have q7 := Rest_write q6 (by simp) h13
        have hD1 : D1 = D0 := by
          unfold directoryAt at h14
          rw [pd7.data] at h14
          simp only [PageData.asDirectory, Except.ok.injEq] at h14
          exact h14.symm
        subst hD1
        have r8 := reach_write r7 h16
        have pd8 := Pinned_write_same pd7 h16
        have p8 := Pinned_write_other p7 (Ne.symm hdf) h16
        have pb8 := Pinned_write_other pb7 hbd h16
        have q8 := Rest_write q7 (by simp) h16
        have hb8 := reach_PoolInv r8
        have r9 := reach_unpin r8 h17
        have hb9 := reach_PoolInv r9
        have r10 := reach_unpin r9 h18
        have hb10 := reach_PoolInv r10
        have r11 := reach_unpin r10 h19
        have e9 := unpin_Eased hb8 h17
        have e10 := unpin_Eased hb9 h18
        have e11 := unpin_Eased hb10 h19
        have x8 := Resident_Eased e11 (Resident_Eased e10 (Resident_Eased e9 p8.resident))
        have xd8 := Resident_Eased e11 (Resident_Eased e10 (Resident_Eased e9 pd8.resident))
        have xb8 := Resident_Eased e11 (Resident_Eased e10 (Resident_Eased e9 pb8.resident))
        have db := e11.dirty bf (e10.dirty bf (unpin_dirty hb8 pb8.table h17))
        have dd := e11.dirty df (unpin_dirty hb9 (Resident_Eased e9 pd8.resident).table h18)
        have dh := unpin_dirty hb10 (Resident_Eased e10 (Resident_Eased e9 p8.resident)).table h19
        obtain ⟨u1, hu1⟩ := unpin_ok h17
        obtain ⟨u2, hu2⟩ := unpin_ok h18
        obtain ⟨u3, hu3⟩ := unpin_ok h19
        have n2 := next_write h4
        have n4 := next_write h8
        have n6 := next_write h11
        have n7 := next_write h13
        have n8 := next_write h16
        have c2 := WriteData_SameCore h4
        have c4 := WriteData_SameCore h8
        have c6 := WriteData_SameCore h11
        have c7 := WriteData_SameCore h13
        have c8 := WriteData_SameCore h16
        have hdid : b2.next_page_id_ = bpm.next_page_id_ + 1 := by rw [n2, n1]
        have hbid : b4.next_page_id_ = bpm.next_page_id_ + 2 := by
          rw [n4, n3, hdid]
          ring
        rw [hdid] at x8 xd8
        rw [hbid] at xb8 h15
        refine ⟨hf, df, bf, _, _, D, h3, h7, h15, rfl, rfl, rfl, rfl, rfl, ?_, r11, ?_, ?_, x8, xd8, xb8,
          dh, dd, db, Rest_Eased (Rest_Eased (Rest_Eased q8 e9) e10) e11⟩
        · show b11.next_page_id_ = _
          rw [e11.next_page_id, e10.next_page_id, e9.next_page_id, n8, n7, n6, n5, hbid]
          ring
        · show b11.replacer_.k_ = _
          rw [UnpinPage_k hu3, UnpinPage_k hu2, UnpinPage_k hu1, c8.replacer, c7.replacer, c6.replacer, k5,
            c4.replacer, k3, c2.replacer, k1]
        · show b11.pool_size_ = _
          rw [e11.pool_size, e10.pool_size, e9.pool_size, c8.pool_size, c7.pool_size, c6.pool_size,
            pool_size_newPage hb4 h9, c4.pool_size, pool_size_newPage hb2 h5, c2.pool_size,
            pool_size_newPage hb0 h1]

end Pooled

namespace Pooled

open BufferPoolManager

theorem fresh_TableOk {pool_size replacer_k : Nat} {hash_fn : Int → Nat} {hmd dmd bms : Nat}
    {t : DiskExtendibleHashTable} (hp : pool_size < 2 ^ 31) (hk : 0 < replacer_k)
    (h : fresh pool_size replacer_k hash_fn hmd dmd bms = .ok t) : TableOk t := by
  unfold fresh at h
  obtain ⟨hf, df, bf, H0, D0, D, h1, h2, h3, -, -, -, -, hid, hn, hr, hkk, -, xh, xd, xb, dh, dd, db, hrest⟩ :=
    new_spec (ReachableAllocated.new pool_size replacer_k hp) h
  have hn0 : (BufferPoolManager.new pool_size replacer_k).next_page_id_ = 0 := rfl
  rw [hn0] at hid hn xh xd xb h3
  have hz : ∀ f, ((BufferPoolManager.new pool_size replacer_k).pages_ f).data_ = .zero := fun _ => rfl
  have hzd : ∀ p, (BufferPoolManager.new pool_size replacer_k).disk_ p = .zero := fun _ => rfl
  have hn3 : (0 : Int) < t.bpm_.next_page_id_ := by rw [hn]; decide
  have hdisk : ∀ p, t.bpm_.disk_ p = .zero := by
    intro p
    rcases hrest.disk p with h4 | ⟨f, h4⟩
    · rw [h4, hzd]
    · rw [h4, hz]
  have hframes : ∀ f, f = hf ∨ f = df ∨ f = bf ∨ (t.bpm_.pages_ f).data_ = .zero := by
    intro f
    by_cases h4 : f = hf
    · exact Or.inl h4
    by_cases h5 : f = df
    · exact Or.inr (Or.inl h5)
    by_cases h6 : f = bf
    · exact Or.inr (Or.inr (Or.inl h6))
    right; right; right
    rw [hrest.frames f (by simp [h4, h5, h6]), hz]
  have hb := reach_PoolInv hr
  refine ⟨hid, hr, by rw [hkk]; exact hk, hn3, ?_, ?_, ?_, ?_, ⟨_, Or.inl ⟨hf, xh.table, xh.data, Or.inl dh⟩⟩⟩
  · intro f
    rcases hframes f with rfl | rfl | rfl | h4
    · rw [xh.data]
      apply PageOk_header
      intro i
      unfold ExtendibleHTableHeaderPage.Init at h1
      split_ifs at h1
      simp only [Except.ok.injEq] at h1
      subst h1
      unfold ExtendibleHTableHeaderPage.SetDirectoryPageId
      split_ifs
      · show IdOk _ (forLoop (fun i ids => Function.update ids i INVALID_PAGE_ID) (1 <<< hmd)
          zeroHeader.directory_page_ids_ i)
        rw [forLoop_update_const]
        split_ifs
        · exact Or.inl rfl
        · exact Or.inr ⟨le_refl _, hn3⟩
      · show IdOk _ (Function.update (forLoop (fun i ids => Function.update ids i INVALID_PAGE_ID)
          (1 <<< hmd) zeroHeader.directory_page_ids_) 0 (0 + 1) i)
        by_cases hi : i = 0
        · rw [hi, Function.update_same, hn]
          exact Or.inr ⟨by decide, by decide⟩
        · rw [Function.update_noteq hi, forLoop_update_const]
          split_ifs
          · exact Or.inl rfl
          · exact Or.inr ⟨le_refl _, hn3⟩
    · rw [xd.data]
      have e0 : EHT1 D0 := ExtendibleHTableDirectoryPage.Init_EHT1 h2 (fun _ => rfl)
      have i0 : Ids t.bpm_.next_page_id_ D0 := Ids_Init h2 (fun _ => Or.inr ⟨le_refl _, hn3⟩)
      exact PageOk_directory (ExtendibleHTableDirectoryPage.SetBucketPageId_EHT1 h3 e0).1
        (Ids_SetBucketPageId h3 i0 (by rw [hn]; exact Or.inr ⟨by decide, by decide⟩))
    · rw [xb.data]
      exact PageOk_bucket _ _
    · rw [h4]
      exact PageOk_zero hn3
  · intro p
    rw [hdisk]
    exact PageOk_zero hn3
  · intro f h' hh
    rcases hframes f with rfl | rfl | rfl | h4
    · exact (hb.table_ok _ _ xh.table).2.2
    · rw [xd.data] at hh
      cases hh
    · rw [xb.data] at hh
      cases hh
    · rw [h4] at hh
      cases hh
  · intro p h' hh
    rw [hdisk] at hh
    cases hh

theorem step_TableOk {fuel : Nat} {t t' : DiskExtendibleHashTable} {op : Op} {o : Out}
    (h : step fuel t op = .ok (o, t')) (ht : TableOk t) : TableOk t' := by
  cases op with
  | insert k v =>
    simp only [step] at h
    cases hr : DiskExtendibleHashTable.Insert fuel t k v with
    | error e => rw [hr] at h; simp [Except.map] at h
    | ok res =>
      obtain ⟨r, t''⟩ := res
      rw [hr] at h
      simp only [Except.map, Except.ok.injEq, Prod.mk.injEq] at h
      obtain ⟨-, rfl⟩ := h
      exact Insert_Sound fuel _ _ _ _ _ hr ht
  | remove k =>
    simp only [step] at h
    cases hr : DiskExtendibleHashTable.Remove t k with
    | error e => rw [hr] at h; simp [Except.map] at h
    | ok res =>
      obtain ⟨r, t''⟩ := res
      rw [hr] at h
      simp only [Except.map, Except.ok.injEq, Prod.mk.injEq] at h
      obtain ⟨-, rfl⟩ := h
      exact Remove_Sound ht hr
  | get k =>
    simp only [step] at h
    cases hr : DiskExtendibleHashTable.GetValue t k with
    | error e => rw [hr] at h; simp [Except.map] at h
    | ok res =>
      obtain ⟨r, t''⟩ := res
      rw [hr] at h
      simp only [Except.map, Except.ok.injEq, Prod.mk.injEq] at h
      obtain ⟨-, rfl⟩ := h
      exact GetValue_Sound ht hr

theorem Reachable_TableOk {t : DiskExtendibleHashTable} (h : Reachable t) : TableOk t := by
  induction h with
  | fresh hp hk hf => exact fresh_TableOk hp hk hf
  | step _ hs ih => exact step_TableOk hs ih

end Pooled

/-! ### Where `Insert` leaves the entry, and what `GetValue` then finds -/

namespace Pooled

open BufferPoolManager

theorem unpin_returns {b : BufferPoolManager} (hb : PoolInv b) (p : page_id_t) (d : Bool) :
    ∃ b', unpin b p d = .ok b' := by
  unfold unpin UnpinPage
  split_ifs with hp
  · exact ⟨_, rfl⟩
  · cases ht : b.page_table_ p with
    | none => exact ⟨_, rfl⟩
    | some f =>
      dsimp only
      obtain ⟨hin, -, -⟩ := hb.table_ok p f ht
      rw [if_neg (not_not.mpr hin)]
      split_ifs <;> exact ⟨_, rfl⟩

theorem fetch_returns {b : BufferPoolManager} (hb : PoolInv b) (hk : 0 < b.replacer_.k_)
    {p : page_id_t} (hp : p ≠ INVALID_PAGE_ID) (h : b.page_table_ p ≠ none ∨ Spare b) :
    ∃ g b', fetch b p = .ok (some g, b') := by
  have h' : b.page_table_ p ≠ none ∨ ¬ (b.free_list_ = [] ∧ ∀ f, ¬ b.replacer_.IsEvictable f) := by
    rcases h with h | ⟨f, hin, hnf, hpin⟩
    · exact Or.inl h
    · right
      rintro ⟨-, hne⟩
      obtain ⟨hc, hev, -, -⟩ := hb.used_ok f hin hnf
      exact hne f ⟨hev.mpr hpin, hc⟩
  obtain ⟨g, b', hf⟩ := FetchPage_returns hb hk hp h'
  refine ⟨g, b', ?_⟩
  unfold fetch
  rw [hf]

end Pooled

namespace Pooled

open BufferPoolManager

end Pooled

namespace Pooled

open BufferPoolManager

end Pooled

namespace Pooled

open BufferPoolManager

end Pooled

namespace Pooled

open BufferPoolManager

end Pooled

/-! ### Claims on the hash table over the buffer pool manager -/

namespace Pooled

open BufferPoolManager

theorem returns_eq_ok {r : Except Fault (Bool × DiskExtendibleHashTable)} {b : Bool}
    (h : returns r b = true) : r = .ok (b, tableOf r) := by
  cases r with
  | error e => simp [returns] at h
  | ok res =>
    obtain ⟨b', t⟩ := res
    simp only [returns, beq_iff_eq] at h
    subst h
    rfl

theorem run_keeps_Reachable (fuel : Nat) : ∀ (ops : List Op) (t : DiskExtendibleHashTable),
    Reachable t → Reachable (run fuel t ops).2
  | [], _, h => h
  | op :: ops, t, h => by
    simp only [run]
    cases hs : step fuel t op with
    | error e => exact h
    | ok res =>
      obtain ⟨o, t'⟩ := res
      exact run_keeps_Reachable fuel ops t' (Reachable.step h hs)

theorem stateAfter_reachable {pool_size replacer_k : Nat} {hash_fn : Int → Nat} {hmd dmd bms : Nat}
    {ops : List Op} (hp : pool_size < 2 ^ 31) (hk : 0 < replacer_k)
    (h : (after pool_size replacer_k hash_fn hmd dmd bms ops).isSome = true) :
    Reachable (stateAfter pool_size replacer_k hash_fn hmd dmd bms ops) := by
  unfold stateAfter
  unfold after at h ⊢
  cases hf : fresh pool_size replacer_k hash_fn hmd dmd bms with
  | error e => rw [hf] at h; simp at h
  | ok t =>
    simp only [Option.getD_some]
    exact run_keeps_Reachable 16 ops t (Reachable.fresh hp hk hf)

theorem fresh_eq_stateAfter {pool_size replacer_k : Nat} {hash_fn : Int → Nat} {hmd dmd bms : Nat}
    (h : (after pool_size replacer_k hash_fn hmd dmd bms []).isSome = true) :
    DiskExtendibleHashTable.new (BufferPoolManager.new pool_size replacer_k) hash_fn hmd dmd bms =
      .ok (stateAfter pool_size replacer_k hash_fn hmd dmd bms []) := by
  unfold stateAfter
  unfold after at h ⊢
  unfold fresh at h ⊢
  cases hf : DiskExtendibleHashTable.new (BufferPoolManager.new pool_size replacer_k) hash_fn hmd dmd bms with
  | error e => rw [hf] at h; simp at h
  | ok t => rfl

end Pooled

namespace Pooled

open BufferPoolManager

theorem Still_refl (b : BufferPoolManager) : Still b b := ⟨rfl, rfl, rfl, rfl, fun _ => rfl⟩

theorem Still_trans {b1 b2 b3 : BufferPoolManager} (h1 : Still b1 b2) (h2 : Still b2 b3) :
    Still b1 b3 :=
  ⟨h2.pool_size.trans h1.pool_size, h2.next_page_id.trans h1.next_page_id,
    h2.page_table.trans h1.page_table, h2.disk.trans h1.disk,
    fun x => (h2.data x).trans (h1.data x)⟩

theorem Still_of_Eased {b b' : BufferPoolManager} (h : Eased b b') : Still b b' :=
  ⟨h.pool_size, h.next_page_id, h.page_table, h.disk, h.data⟩

theorem Still_of_Hit {b b' : BufferPoolManager} {f : frame_id_t} (h : Hit b b' f) : Still b b' :=
  ⟨h.pool_size, h.next_page_id, h.page_table, h.disk, (Hit_Eased_data h).1⟩

theorem Resident_Still {b b' : BufferPoolManager} {p : page_id_t} {f : frame_id_t} {d : PageData}
    (he : Still b b') (h : Resident b p f d) : Resident b' p f d :=
  ⟨by rw [he.page_table]; exact h.table, by rw [he.data]; exact h.data⟩

theorem served_Still {b b' : BufferPoolManager} (he : Still b b') (p : page_id_t) :
    served b' p = served b p := by
  unfold served
  rw [he.page_table, he.disk]
  cases b.page_table_ p with
  | none => rfl
  | some f => exact he.data f

theorem served_Resident {b : BufferPoolManager} {p : page_id_t} {f : frame_id_t} {d : PageData}
    (h : Resident b p f d) : served b p = d := by
  unfold served
  rw [h.table]
  exact h.data

/-- A replacer that tracks a frame has `k_` at least 1: with `k_ = 0` the
first `RecordAccess` of a frame looks for it in the list of the frames with
`k_` accesses, where it is not. -/
theorem k_pos_of_mapped {b : BufferPoolManager} (hb : PoolInv b) {p : page_id_t} {f : frame_id_t}
    (ht : b.page_table_ p = some f) : 0 < b.replacer_.k_ := by
  obtain ⟨hin, hnf, -⟩ := hb.table_ok p f ht
  have hc := (hb.used_ok f hin hnf).1
  have hi := hb.rep.inv
  by_contra hk
  have hk0 : b.replacer_.k_ = 0 := by omega
  have hm := hi.cnt_full f (Nat.pos_of_ne_zero hc) (by rw [hk0]; exact Nat.zero_le _)
  obtain ⟨q, hq, hqf⟩ := List.mem_map.mp hm
  obtain ⟨-, -, hlen, hhead⟩ := hi.full_cnt q hq
  rw [hk0] at hlen
  rw [List.length_eq_zero.mp hlen] at hhead
  cases hhead

theorem mapped_valid {b : BufferPoolManager} (hb : PoolInv b) {p : page_id_t} {f : frame_id_t}
    (ht : b.page_table_ p = some f) : p ≠ INVALID_PAGE_ID := by
  obtain ⟨hin, hnf, hid⟩ := hb.table_ok p f ht
  rw [← hid]
  exact (hb.used_ok f hin hnf).2.2.2

theorem mapped_lt_next {b : BufferPoolManager} (hb : PoolInv b) (hm : MappedInv b) {p : page_id_t}
    {f : frame_id_t} (ht : b.page_table_ p = some f) : p < b.next_page_id_ := by
  obtain ⟨hin, hnf, hid⟩ := hb.table_ok p f ht
  rw [← hid]
  exact hm.below f hin hnf

/-- A `FetchPage` of a page that is in a frame hands back that frame. -/
theorem fetch_resident {b b' : BufferPoolManager} {p : page_id_t} {f : frame_id_t}
    {r : Option frame_id_t} (hb : PoolInv b) (ht : b.page_table_ p = some f)
    (h : fetch b p = .ok (r, b')) : r = some f ∧ Hit b b' f := by
  rcases fetch_cases hb h with ⟨hp, -, -⟩ | ⟨-, g, hg, hr, hh⟩ | ⟨-, hn, -⟩ | ⟨-, hn, -⟩
  · exact absurd hp (mapped_valid hb ht)
  · rw [ht] at hg
    cases hg
    exact ⟨hr, hh⟩
  · rw [ht] at hn
    cases hn
  · rw [ht] at hn
    cases hn

theorem fetch_resident_returns {b : BufferPoolManager} {p : page_id_t} {f : frame_id_t}
    (hb : PoolInv b) (ht : b.page_table_ p = some f) :
    ∃ b', fetch b p = .ok (some f, b') ∧ Hit b b' f := by
  obtain ⟨g, b', h⟩ := fetch_returns hb (k_pos_of_mapped hb ht) (mapped_valid hb ht)
    (Or.inl (by rw [ht]; exact Option.some_ne_none f))
  obtain ⟨hr, hh⟩ := fetch_resident hb ht h
  cases hr
  exact ⟨b', h, hh⟩

/-- `GetValue` on a table whose header page, directory page and bucket page
for the key are in frames: it returns what the bucket page holds for the key. -/
theorem GetValue_resident {t : DiskExtendibleHashTable} {key : Int}
    {H : ExtendibleHTableHeaderPage} {D : ExtendibleHTableDirectoryPage}
    {B : ExtendibleHTableBucketPage} {Bid : page_id_t} {hf df bf : frame_id_t}
    (hr : ReachableAllocated t.bpm_)
    (hH : Resident t.bpm_ t.header_page_id_ hf (.header H))
    (hD : Resident t.bpm_ (H.GetDirectoryPageId (H.HashToDirectoryIndex (t.Hash key))) df (.directory D))
    (hB : D.GetBucketPageId (D.HashToBucketIndex (t.Hash key)) = .ok Bid)
    (hBk : Resident t.bpm_ Bid bf (.bucket B)) :
    ∃ t', t.GetValue key = .ok (B.Lookup key, t') := by
  have hb := reach_PoolInv hr
  have hm := ReachableAllocated_MappedInv hr
  obtain ⟨b1, f1, i1⟩ := fetch_resident_returns hb hH.table
  have r1 := reach_fetch hr (mapped_lt_next hb hm hH.table) f1
  have s1 := Still_of_Hit i1
  obtain ⟨b2, u2⟩ := unpin_returns (reach_PoolInv r1) t.header_page_id_ false
  have r2 := reach_unpin r1 u2
  have s2 := Still_trans s1 (Still_of_Eased (unpin_Eased (reach_PoolInv r1) u2))
  have hD2 := Resident_Still s2 hD
  obtain ⟨b3, f3, i3⟩ := fetch_resident_returns (reach_PoolInv r2) hD2.table
  have r3 := reach_fetch r2 (mapped_lt_next (reach_PoolInv r2) (ReachableAllocated_MappedInv r2) hD2.table) f3
  have s3 := Still_trans s2 (Still_of_Hit i3)
  have hB3 := Resident_Still s3 hBk
  obtain ⟨b4, f4, i4⟩ := fetch_resident_returns (reach_PoolInv r3) hB3.table
  have r4 := reach_fetch r3 (mapped_lt_next (reach_PoolInv r3) (ReachableAllocated_MappedInv r3) hB3.table) f4
  have s4 := Still_trans s3 (Still_of_Hit i4)
  obtain ⟨b5, u5⟩ := unpin_returns (reach_PoolInv r4)
    (H.GetDirectoryPageId (H.HashToDirectoryIndex (t.Hash key))) false
  have r5 := reach_unpin r4 u5
  have s5 := Still_trans s4 (Still_of_Eased (unpin_Eased (reach_PoolInv r4) u5))
  obtain ⟨b6, u6⟩ := unpin_returns (reach_PoolInv r5) Bid false
  have e1 : headerAt b1 hf = .ok H := by
    unfold headerAt
    rw [(Resident_Still s1 hH).data]
    rfl
  have e3 : directoryAt b3 df = .ok D := by
    unfold directoryAt
    rw [(Resident_Still s3 hD).data]
    rfl
  have e5 : bucketAt b5 bf = .ok B := by
    unfold bucketAt
    rw [(Resident_Still s5 hBk).data]
    rfl
  have v1 : ¬ H.GetDirectoryPageId (H.HashToDirectoryIndex (t.Hash key)) = INVALID_PAGE_ID :=
    mapped_valid hb hD.table
  have v2 : ¬ Bid = INVALID_PAGE_ID := mapped_valid hb hBk.table
  refine ⟨{ t with bpm_ := b6 }, ?_⟩
  unfold DiskExtendibleHashTable.GetValue
  simp only [bind, Except.bind, pure, Except.pure, f1, e1, if_neg v1, u2, f3, e3, hB, if_neg v2, f4, u5,
    e5, u6]

end Pooled

namespace Pooled

open BufferPoolManager

theorem header_slot_zero {hmd : Nat} {H0 : ExtendibleHTableHeaderPage} (x : page_id_t)
    (h : zeroHeader.Init hmd = .ok H0) : (H0.SetDirectoryPageId 0 x).GetDirectoryPageId 0 = x := by
  unfold ExtendibleHTableHeaderPage.Init at h
  split_ifs at h
  cases h
  have p1 : 0 < 1 <<< hmd := by rw [Nat.one_shiftLeft]; positivity
  simp only [ExtendibleHTableHeaderPage.SetDirectoryPageId, ExtendibleHTableHeaderPage.GetDirectoryPageId,
    ExtendibleHTableHeaderPage.MaxSize, ge_iff_le, Nat.le_zero_eq, Nat.ne_of_gt p1, if_false,
    Function.update_same]

theorem directory_after_init {dmd : Nat} {D0 D : ExtendibleHTableDirectoryPage} {x : page_id_t}
    (h : zeroDirectory.Init dmd = .ok D0) (hs : D0.SetBucketPageId 0 x = .ok D) :
    D.max_depth_ = dmd ∧ D.global_depth_ = 0 ∧ (∀ i, D.local_depths_ i = 0) ∧
      D.bucket_page_ids_ 0 = x := by
  unfold ExtendibleHTableDirectoryPage.Init at h
  split_ifs at h
  cases h
  unfold ExtendibleHTableDirectoryPage.SetBucketPageId at hs
  split_ifs at hs
  cases hs
  refine ⟨rfl, rfl, ?_, ?_⟩
  · intro i
    show forLoop (fun i a => Function.update a i 0) (1 <<< dmd) zeroDirectory.local_depths_ i = 0
    rw [forLoop_update_const]
    split_ifs
    · rfl
    · rfl
  · simp only [Function.update_same]

theorem Lookup_empty (B : ExtendibleHTableBucketPage) (key : Int) (h : B.size_ = 0) :
    B.Lookup key = none := by
  unfold ExtendibleHTableBucketPage.Lookup
  rw [h]
  rfl

/-- C26, amended: when the constructor returns on a pool on which `FetchPage`
has only been asked for page ids that `NewPage` had handed out, the pool
serves for the header page a header whose slot 0 holds the id of a directory
page with max depth `directory_max_depth`, global depth 0 and local depths all
0; directory slot 0 holds the id of a bucket page with size 0 and max size
`bucket_max_size`; the three page ids are distinct and none is
`INVALID_PAGE_ID`; `GetValue` of a key whose hash maps to header slot 0
returns and finds nothing. -/
theorem constructor_post_state (bpm : BufferPoolManager) (hash_fn : Int → Nat) (hmd dmd bms : Nat)
    (t : DiskExtendibleHashTable) (hr : ReachableAllocated bpm)
    (h : DiskExtendibleHashTable.new bpm hash_fn hmd dmd bms = .ok t) :
    ∃ hdr dir bkt,
      served t.bpm_ t.header_page_id_ = .header hdr ∧
      served t.bpm_ (hdr.GetDirectoryPageId 0) = .directory dir ∧
      dir.max_depth_ = dmd ∧ dir.global_depth_ = 0 ∧ (∀ i, dir.local_depths_ i = 0) ∧
      dir.GetBucketPageId 0 = .ok (dir.bucket_page_ids_ 0) ∧
      served t.bpm_ (dir.bucket_page_ids_ 0) = .bucket bkt ∧
      bkt.size_ = 0 ∧ bkt.max_size_ = bms ∧
      t.header_page_id_ ≠ hdr.GetDirectoryPageId 0 ∧ t.header_page_id_ ≠ dir.bucket_page_ids_ 0 ∧
      hdr.GetDirectoryPageId 0 ≠ dir.bucket_page_ids_ 0 ∧
      t.header_page_id_ ≠ INVALID_PAGE_ID ∧ hdr.GetDirectoryPageId 0 ≠ INVALID_PAGE_ID ∧
      dir.bucket_page_ids_ 0 ≠ INVALID_PAGE_ID ∧
      ∀ key, hdr.HashToDirectoryIndex (t.Hash key) = 0 → ∃ t', t.GetValue key = .ok (none, t') := by
  obtain ⟨hf, df, bf, H0, D0, D, hH0, hD0, hD, -, -, -, -, hid, -, hrt, -, -, rH, rD, rB, -, -, -, -⟩ :=
    new_spec hr h
  have n0 : (0 : Int) ≤ bpm.next_page_id_ := (reach_PoolInv hr).next_nonneg
  have hs := header_slot_zero (bpm.next_page_id_ + 1) hH0
  obtain ⟨d1, d2, d3, d4⟩ := directory_after_init hD0 hD
  have hg : D.GetBucketPageId 0 = .ok (D.bucket_page_ids_ 0) := by
    unfold ExtendibleHTableDirectoryPage.GetBucketPageId
    rw [if_pos (by decide)]
  refine ⟨H0.SetDirectoryPageId 0 (bpm.next_page_id_ + 1), D, zeroBucket.Init bms, ?_, ?_, d1, d2, d3, hg,
    ?_, rfl, rfl, ?_⟩
  · rw [hid]
    exact served_Resident rH
  · rw [hs]
    exact served_Resident rD
  · rw [d4]
    exact served_Resident rB
  · rw [hs, d4, hid]
    refine ⟨by intro h; linarith, by intro h; linarith, by intro h; linarith,
      by intro h; rw [INVALID_PAGE_ID] at h; linarith, by intro h; rw [INVALID_PAGE_ID] at h; linarith,
      by intro h; rw [INVALID_PAGE_ID] at h; linarith, ?_⟩
    intro key hk
    have hB : D.GetBucketPageId (D.HashToBucketIndex (t.Hash key)) = .ok (bpm.next_page_id_ + 2) := by
      have : D.HashToBucketIndex (t.Hash key) = 0 := by
        unfold ExtendibleHTableDirectoryPage.HashToBucketIndex
          ExtendibleHTableDirectoryPage.GetGlobalDepthMask
        rw [d2]
        simp
      rw [this, hg, d4]
    have hgv : ∃ t', t.GetValue key = .ok ((zeroBucket.Init bms).Lookup key, t') :=
      GetValue_resident hrt (by rw [hid]; exact rH) (by rw [hk, hs]; exact rD) hB rB
    rw [Lookup_empty _ key rfl] at hgv
    exact hgv

/-- C26, as stated, fails: on a pool of five frames on which `FetchPage(0)`
was called (and the page unpinned) before any `NewPage`, the constructor with
`directory_max_depth = 3` returns with header page id 0, and the pool serves
for page 0 the zeroed frame of the earlier fetch: header slot 0 reads 0, the
id of the header page itself, and that page read as a directory page has max
depth 0. -/
theorem constructor_on_fetched_pool :
    (DiskExtendibleHashTable.new
        ((BufferPoolManager.new 5 2).runCalls [.fetch_page 0, .unpin_page 0 false]).2 Int.toNat 0 3 2).toOption.map
      (fun t => (t.header_page_id_, slotZero t)) = some (0, some (0, 0)) := by
  decide!

/-- C26, amended, at a concrete input: the constructor with
`directory_max_depth = 3` and `bucket_max_size = 2` returns on a new pool of
five frames. -/
theorem constructor_post_state_witness :
    ReachableAllocated (BufferPoolManager.new 5 2) ∧
      DiskExtendibleHashTable.new (BufferPoolManager.new 5 2) Int.toNat 0 3 2 = .ok (stateAfter 5 2 Int.toNat 0 3 2 []) ∧
      ∃ hdr dir bkt,
        served (stateAfter 5 2 Int.toNat 0 3 2 []).bpm_ (stateAfter 5 2 Int.toNat 0 3 2 []).header_page_id_ =
          .header hdr ∧
        served (stateAfter 5 2 Int.toNat 0 3 2 []).bpm_ (hdr.GetDirectoryPageId 0) = .directory dir ∧
        dir.max_depth_ = 3 ∧ dir.global_depth_ = 0 ∧ (∀ i, dir.local_depths_ i = 0) ∧
        dir.GetBucketPageId 0 = .ok (dir.bucket_page_ids_ 0) ∧
        served (stateAfter 5 2 Int.toNat 0 3 2 []).bpm_ (dir.bucket_page_ids_ 0) = .bucket bkt ∧
        bkt.size_ = 0 ∧ bkt.max_size_ = 2 ∧
        (stateAfter 5 2 Int.toNat 0 3 2 []).header_page_id_ ≠ hdr.GetDirectoryPageId 0 ∧
        (stateAfter 5 2 Int.toNat 0 3 2 []).header_page_id_ ≠ dir.bucket_page_ids_ 0 ∧
        hdr.GetDirectoryPageId 0 ≠ dir.bucket_page_ids_ 0 ∧
        (stateAfter 5 2 Int.toNat 0 3 2 []).header_page_id_ ≠ INVALID_PAGE_ID ∧
        hdr.GetDirectoryPageId 0 ≠ INVALID_PAGE_ID ∧
        dir.bucket_page_ids_ 0 ≠ INVALID_PAGE_ID ∧
        ∀ key, hdr.HashToDirectoryIndex ((stateAfter 5 2 Int.toNat 0 3 2 []).Hash key) = 0 →
          ∃ t', (stateAfter 5 2 Int.toNat 0 3 2 []).GetValue key = .ok (none, t') :=
  have hr : ReachableAllocated (BufferPoolManager.new 5 2) := ReachableAllocated.new 5 2 (by decide)
  have h : DiskExtendibleHashTable.new (BufferPoolManager.new 5 2) Int.toNat 0 3 2 =
      .ok (stateAfter 5 2 Int.toNat 0 3 2 []) := fresh_eq_stateAfter (by decide!)
  ⟨hr, h, constructor_post_state _ Int.toNat 0 3 2 _ hr h⟩

end Pooled

namespace Pooled

open BufferPoolManager

theorem AllResident_Still {b b' : BufferPoolManager} (he : Still b b') (ha : AllResident b) :
    AllResident b' := by
  intro p h0 h1
  rw [he.page_table]
  rw [he.next_page_id] at h1
  exact ha p h0 h1

theorem dropGuard_Still {b b' : BufferPoolManager} {g : Option frame_id_t} {p : page_id_t}
    {d : Bool} (hb : PoolInv b) (h : dropGuard b g p d = .ok b') : Still b b' := by
  unfold dropGuard at h
  cases g with
  | none => cases h; exact Still_refl _
  | some f => exact Still_of_Eased (unpin_Eased hb h)

/-- While every page is in a frame, `FetchPage` changes neither the page
table, nor the disk, nor the bytes of a frame. -/
theorem fetch_Still {b b' : BufferPoolManager} {p : page_id_t} {r : Option frame_id_t}
    (hs : Sound b) (ha : AllResident b) (hp : IdOk b.next_page_id_ p)
    (h : fetch b p = .ok (r, b')) :
    Still b b' ∧ ∀ f, r = some f → b.page_table_ p = some f := by
  have hres : p ≠ INVALID_PAGE_ID → b.page_table_ p ≠ none := by
    intro hne
    rcases hp with hp | ⟨h0, h1⟩
    · exact absurd hp hne
    · exact ha p h0 h1
  rcases fetch_cases hs.inv h with ⟨-, hr, hb⟩ | ⟨-, g, hg, hr, hh⟩ | ⟨hne, hn, -⟩ | ⟨hne, hn, -⟩
  · subst hb
    refine ⟨Still_refl _, ?_⟩
    intro f hf
    rw [hr] at hf
    cases hf
  · refine ⟨Still_of_Hit hh, ?_⟩
    intro f hf
    rw [hr] at hf
    cases hf
    exact hg
  · exact absurd hn (hres hne)
  · exact absurd hn (hres hne)

theorem locate_Still {t : DiskExtendibleHashTable} {key : Int} {loc : DiskExtendibleHashTable.Located}
    (hid : t.header_page_id_ = 0) (hs : Sound t.bpm_) (ha : AllResident t.bpm_)
    (h : t.locate key = .ok loc) :
    Still t.bpm_ loc.bpm ∧ directoryAt loc.bpm loc.directory_frame = .ok (dirFor t key) ∧
      loc.bucket_index = (dirFor t key).HashToBucketIndex (t.Hash key) := by
  unfold DiskExtendibleHashTable.locate at h
  simp only [bind_eq_ok] at h
  obtain ⟨⟨g1, b1⟩, h1, ⟨g2, b2⟩, h2, h⟩ := h
  rw [hid] at h1 h2
  obtain ⟨e1, -⟩ := fetch_Still hs ha (IdOk_zero hs.next_pos) h1
  have s1 := Sound_fetch hs (IdOk_zero hs.next_pos) h1
  have a1 := AllResident_Still e1 ha
  obtain ⟨e2, t2⟩ := fetch_Still s1 a1 (IdOk_zero s1.next_pos) h2
  have s2 := Sound_fetch s1 (IdOk_zero s1.next_pos) h2
  have a2 := AllResident_Still e2 a1
  have E2 := Still_trans e1 e2
  cases g2 with
  | none => simp [throw, throwThe, MonadExceptOf.throw] at h
  | some hf =>
    simp only [bind_eq_ok] at h
    obtain ⟨hp, h3, b3, h4, b4, h5, ⟨g3, b5⟩, h6, ⟨g4, b6⟩, h7, h⟩ := h
    have s3 := dropGuard_Sound s2 h4
    have e3 := dropGuard_Still s2.inv h4
    have a3 := AllResident_Still e3 a2
    have s4 := Sound_unpin s3 h5
    have e4 := Still_of_Eased (unpin_Eased s3.inv h5)
    have a4 := AllResident_Still e4 a3
    have E4 := Still_trans (Still_trans E2 e3) e4
    have hD : IdOk b4.next_page_id_ (hp.GetDirectoryPageId (hp.HashToDirectoryIndex (t.Hash key))) := by
      rw [e4.next_page_id, e3.next_page_id]
      exact IdOk_header s2 h3 _
    obtain ⟨e5, -⟩ := fetch_Still s4 a4 hD h6
    have s5 := Sound_fetch s4 hD h6
    have a5 := AllResident_Still e5 a4
    have hD5 : IdOk b5.next_page_id_ (hp.GetDirectoryPageId (hp.HashToDirectoryIndex (t.Hash key))) := by
      rw [e5.next_page_id]
      exact hD
    obtain ⟨e6, t6⟩ := fetch_Still s5 a5 hD5 h7
    have s6 := Sound_fetch s5 hD5 h7
    have a6 := AllResident_Still e6 a5
    have E5 := Still_trans E4 e5
    have E6 := Still_trans E5 e6
    cases g4 with
    | none => simp [throw, throwThe, MonadExceptOf.throw] at h
    | some df =>
      simp only [bind_eq_ok] at h
      obtain ⟨dp, h8, bid, h9, b7, h10, b8, h11, ⟨g5, b9⟩, h12, h⟩ := h
      have s7 := dropGuard_Sound s6 h10
      have e7 := dropGuard_Still s6.inv h10
      have a7 := AllResident_Still e7 a6
      have s8 := Sound_unpin s7 h11
      have e8 := Still_of_Eased (unpin_Eased s7.inv h11)
      have a8 := AllResident_Still e8 a7
      have hB : IdOk b8.next_page_id_ bid := by
        rw [e8.next_page_id, e7.next_page_id]
        exact IdOk_directory s6 h8 h9
      obtain ⟨e9, -⟩ := fetch_Still s8 a8 hB h12
      have E69 := Still_trans (Still_trans e7 e8) e9
      cases g5 with
      | none => simp [throw, throwThe, MonadExceptOf.throw] at h
      | some bf =>
        simp only [pure, Except.pure, Except.ok.injEq] at h
        subst h
        have tH : t.bpm_.page_table_ 0 = some hf := by
          rw [← e1.page_table]
          exact t2 hf rfl
        have dH : (t.bpm_.pages_ hf).data_.asHeader = .ok hp := by
          rw [← E2.data]
          exact h3
        have tD : t.bpm_.page_table_ (hp.GetDirectoryPageId (hp.HashToDirectoryIndex (t.Hash key))) =
            some df := by
          rw [← E5.page_table]
          exact t6 df rfl
        have dD : (t.bpm_.pages_ df).data_.asDirectory = .ok dp := by
          rw [← E6.data]
          exact h8
        have hdir : dirFor t key = dp := by
          unfold dirFor served
          rw [hid, tH]
          simp only [dH, tD, dD]
        refine ⟨Still_trans E6 E69, ?_, ?_⟩
        · show directoryAt b9 df = .ok (dirFor t key)
          unfold directoryAt
          rw [E69.data, hdir]
          exact h8
        · show dp.HashToBucketIndex (t.Hash key) = _
          rw [hdir]

theorem InsertToNewBucket_Still {t t1 : DiskExtendibleHashTable} {df : frame_id_t} {idx : Nat}
    {key value : Int} (hs : Sound t.bpm_) (ha : AllResident t.bpm_)
    (h : t.InsertToNewBucket df idx key value = .ok (false, t1)) : Still t.bpm_ t1.bpm_ := by
  unfold DiskExtendibleHashTable.InsertToNewBucket at h
  simp only [bind_eq_ok] at h
  obtain ⟨d, h1, bid, h2, ⟨bg, b1⟩, h3, h⟩ := h
  obtain ⟨e1, -⟩ := fetch_Still hs ha (IdOk_directory hs h1 h2) h3
  have s1 := Sound_fetch hs (IdOk_directory hs h1 h2) h3
  cases bg with
  | none => simp [throw, throwThe, MonadExceptOf.throw] at h
  | some bf =>
    simp only [bind_eq_ok] at h
    obtain ⟨bp, h4, h⟩ := h
    cases hi : bp.Insert key value with
    | mk res bp' =>
      rw [hi] at h
      simp only [bind_eq_ok] at h
      obtain ⟨b2, h5, b3, h6, h⟩ := h
      simp only [pure, Except.pure, Except.ok.injEq, Prod.mk.injEq] at h
      obtain ⟨rfl, rfl⟩ := h
      simp only [Bool.false_eq_true, if_false, Except.ok.injEq] at h5
      subst h5
      exact Still_trans e1 (Still_of_Eased (unpin_Eased s1.inv h6))

theorem InsertToNewDirectory_Still {t t1 : DiskExtendibleHashTable} {hf : frame_id_t} {hash : Nat}
    {key value : Int} (hs : Sound t.bpm_) (ha : AllResident t.bpm_)
    (h : t.InsertToNewDirectory hf hash key value = .ok (false, t1)) : Still t.bpm_ t1.bpm_ := by
  unfold DiskExtendibleHashTable.InsertToNewDirectory at h
  simp only [bind_eq_ok] at h
  obtain ⟨hp, h1, ⟨dg, b1⟩, h2, h⟩ := h
  obtain ⟨e1, -⟩ := fetch_Still hs ha (IdOk_header hs h1 _) h2
  have s1 := Sound_fetch hs (IdOk_header hs h1 _) h2
  have a1 := AllResident_Still e1 ha
  cases dg with
  | none => simp [throw, throwThe, MonadExceptOf.throw] at h
  | some df =>
    simp only [bind_eq_ok] at h
    obtain ⟨d, h3, ⟨r1, t2⟩, h4, bF, h5, h⟩ := h
    simp only [pure, Except.pure, Except.ok.injEq, Prod.mk.injEq] at h
    obtain ⟨rfl, rfl⟩ := h
    have e2 := InsertToNewBucket_Still (t := { t with bpm_ := b1 }) s1 a1 h4
    obtain ⟨b, eb, s2⟩ := InsertToNewBucket_Sound (t := { t with bpm_ := b1 }) s1 h4
    exact Still_trans (Still_trans e1 e2) (Still_of_Eased (unpin_Eased (by rw [eb]; exact s2.inv) h5))

/-- At the maximum depth, with the local depth of the slot equal to the global
depth, the split is refused. -/
theorem splitPhase_refused {t : DiskExtendibleHashTable} {b1 : BufferPoolManager}
    {df bf : frame_id_t} {idx hash : Nat} {d : ExtendibleHTableDirectoryPage}
    {r : Option (page_id_t × BufferPoolManager)}
    (hd : directoryAt b1 df = .ok d) (hg : d.global_depth_ = t.directory_max_depth_)
    (hl : d.local_depths_ idx = d.global_depth_)
    (h : t.splitPhase b1 df bf idx hash = .ok r) : r = none := by
  unfold DiskExtendibleHashTable.splitPhase at h
  simp only [bind_eq_ok] at h
  obtain ⟨d', h1, ld, h2, h⟩ := h
  rw [hd] at h1
  cases h1
  have hld : ld = d.local_depths_ idx := by
    unfold ExtendibleHTableDirectoryPage.GetLocalDepth at h2
    split_ifs at h2
    cases h2
    rfl
  have hc : ld = d.GetGlobalDepth ∧ d.GetGlobalDepth = t.directory_max_depth_ := by
    unfold ExtendibleHTableDirectoryPage.GetGlobalDepth
    exact ⟨hld.trans hl, hg⟩
  rw [if_pos hc] at h
  cases h
  rfl

theorem Insert_false_Still {fuel : Nat} {t t' : DiskExtendibleHashTable} {key value : Int}
    (ht : TableOk t) (ha : AllResident t.bpm_)
    (hg : (dirFor t key).global_depth_ = t.directory_max_depth_)
    (hl : (dirFor t key).local_depths_ ((dirFor t key).HashToBucketIndex (t.Hash key)) =
      (dirFor t key).global_depth_)
    (h : DiskExtendibleHashTable.Insert fuel t key value = .ok (false, t')) :
    Still t.bpm_ t'.bpm_ := by
  cases fuel with
  | zero => simp [DiskExtendibleHashTable.Insert, throw, throwThe, MonadExceptOf.throw] at h
  | succ fuel =>
    obtain ⟨hid, hs⟩ := ht
    obtain ⟨loc, r1, t1, hloc, hi, hc⟩ := Insert_round h
    obtain ⟨e1, hd, hidx⟩ := locate_Still hid hs ha hloc
    have sl := locate_Sound hid hs hloc
    have al := AllResident_Still e1 ha
    rcases hc with ⟨-, hr, -⟩ | ⟨rfl, -, rfl, -⟩ | ⟨rfl, nid, bpm, t2, b, hsp, -⟩
    · cases hr
    · exact Still_trans e1 (InsertToNewDirectory_Still (t := { t with bpm_ := loc.bpm }) sl al hi)
    · have e2 := InsertToNewDirectory_Still (t := { t with bpm_ := loc.bpm }) sl al hi
      have hd1 : directoryAt t1.bpm_ loc.directory_frame = .ok (dirFor t key) := by
        unfold directoryAt at hd ⊢
        rw [e2.data]
        exact hd
      have := splitPhase_refused hd1 hg (by rw [hidx]; exact hl) hsp
      cases this

end Pooled

namespace Pooled

open BufferPoolManager

theorem AllResident_of_check {b : BufferPoolManager} (h : allResident b = true) : AllResident b := by
  intro p h0 h1
  unfold allResident at h
  rw [List.all_eq_true] at h
  have hp : p.toNat ∈ List.range b.next_page_id_.toNat := by
    rw [List.mem_range]
    have h0' : (0 : Int) ≤ p := h0
    have h1' : (p : Int) < (b.next_page_id_ : Int) := h1
    exact (Int.toNat_lt_toNat (lt_of_le_of_lt h0' h1')).mpr h1'
  have := h p.toNat hp
  rw [Int.toNat_of_nonneg h0] at this
  intro hn
  rw [hn] at this
  cases this

/-- C5, as stated, fails: on a pool of 10 frames, with `bucket_max_size = 1`
and `directory_max_depth = 1`, after `insert(0)` the directory has global
depth 0 and slot 0 holds bucket page 2 with local depth 0; `insert(2)` returns
false, and afterwards the global depth is 1, both local depths are 1 and slot
1 holds a new bucket page 3. -/
theorem failed_insert_changes_directory :
    outputs 10 2 16 Int.toNat 0 1 1 [.insert 0 0, .insert 2 20] = [.bool true, .bool false] ∧
    (after 10 2 Int.toNat 0 1 1 [.insert 0 0]).bind (fun t => directoryView t 1 2) =
      some (0, [(0, 2), (0, -1)]) ∧
    (after 10 2 Int.toNat 0 1 1 [.insert 0 0, .insert 2 20]).bind (fun t => directoryView t 1 2) =
      some (1, [(1, 2), (1, 3)]) := by
  decide!

/-- C5, amended: in a state reachable from a freshly constructed table in
which every page that the pool has handed out is in a frame, if `insert(k, v)`
returns false and, when it is called, the directory consulted for `k` is at
`directory_max_depth` and the local depth of `k`'s slot equals the global
depth, then the page table, the disk and the bytes of every frame are the same
as before the call, so the pool serves the same bytes for every page: the
directory's global depth, every local depth and bucket page id, and the
contents of every bucket. -/
theorem failed_insert_at_max_depth_unchanged (fuel : Nat) (t t' : DiskExtendibleHashTable)
    (key value : Int) (hr : Reachable t) (ha : AllResident t.bpm_)
    (hg : (dirFor t key).global_depth_ = t.directory_max_depth_)
    (hl : (dirFor t key).local_depths_ ((dirFor t key).HashToBucketIndex (t.Hash key)) =
      (dirFor t key).global_depth_)
    (h : DiskExtendibleHashTable.Insert fuel t key value = .ok (false, t')) :
    t'.bpm_.page_table_ = t.bpm_.page_table_ ∧ t'.bpm_.disk_ = t.bpm_.disk_ ∧
      (∀ frame_id, (t'.bpm_.pages_ frame_id).data_ = (t.bpm_.pages_ frame_id).data_) ∧
      ∀ page_id, served t'.bpm_ page_id = served t.bpm_ page_id := by
  have e := Insert_false_Still (Reachable_TableOk hr) ha hg hl h
  exact ⟨e.page_table, e.disk, e.data, served_Still e⟩

/-- C5, amended, at a concrete input: on a pool of 10 frames, with
`directory_max_depth = 0` and `bucket_max_size = 1`, after `insert(0)` the
call `insert(1, 10)` returns false and leaves every page as it was. -/
theorem failed_insert_at_max_depth_unchanged_witness :
    Reachable (stateAfter 10 2 Int.toNat 0 0 1 [.insert 0 0]) ∧
      AllResident (stateAfter 10 2 Int.toNat 0 0 1 [.insert 0 0]).bpm_ ∧
      (dirFor (stateAfter 10 2 Int.toNat 0 0 1 [.insert 0 0]) 1).global_depth_ =
        (stateAfter 10 2 Int.toNat 0 0 1 [.insert 0 0]).directory_max_depth_ ∧
      (dirFor (stateAfter 10 2 Int.toNat 0 0 1 [.insert 0 0]) 1).local_depths_
          ((dirFor (stateAfter 10 2 Int.toNat 0 0 1 [.insert 0 0]) 1).HashToBucketIndex
            ((stateAfter 10 2 Int.toNat 0 0 1 [.insert 0 0]).Hash 1)) =
        (dirFor (stateAfter 10 2 Int.toNat 0 0 1 [.insert 0 0]) 1).global_depth_ ∧
      DiskExtendibleHashTable.Insert 16 (stateAfter 10 2 Int.toNat 0 0 1 [.insert 0 0]) 1 10 =
        .ok (false,
          tableOf (DiskExtendibleHashTable.Insert 16 (stateAfter 10 2 Int.toNat 0 0 1 [.insert 0 0]) 1 10)) ∧
      ((tableOf (DiskExtendibleHashTable.Insert 16 (stateAfter 10 2 Int.toNat 0 0 1 [.insert 0 0]) 1 10)).bpm_.page_table_ =
          (stateAfter 10 2 Int.toNat 0 0 1 [.insert 0 0]).bpm_.page_table_ ∧
        (tableOf (DiskExtendibleHashTable.Insert 16 (stateAfter 10 2 Int.toNat 0 0 1 [.insert 0 0]) 1 10)).bpm_.disk_ =
          (stateAfter 10 2 Int.toNat 0 0 1 [.insert 0 0]).bpm_.disk_ ∧
        (∀ frame_id,
          ((tableOf (DiskExtendibleHashTable.Insert 16 (stateAfter 10 2 Int.toNat 0 0 1 [.insert 0 0]) 1
              10)).bpm_.pages_ frame_id).data_ =
            ((stateAfter 10 2 Int.toNat 0 0 1 [.insert 0 0]).bpm_.pages_ frame_id).data_) ∧
        ∀ page_id,
          served (tableOf (DiskExtendibleHashTable.Insert 16 (stateAfter 10 2 Int.toNat 0 0 1 [.insert 0 0]) 1
              10)).bpm_ page_id =
            served (stateAfter 10 2 Int.toNat 0 0 1 [.insert 0 0]).bpm_ page_id) :=
  have hr : Reachable (stateAfter 10 2 Int.toNat 0 0 1 [.insert 0 0]) :=
    stateAfter_reachable (by decide) (by decide) (by decide!)
  have ha : AllResident (stateAfter 10 2 Int.toNat 0 0 1 [.insert 0 0]).bpm_ :=
    AllResident_of_check (by decide!)
  have hg : (dirFor (stateAfter 10 2 Int.toNat 0 0 1 [.insert 0 0]) 1).global_depth_ =
      (stateAfter 10 2 Int.toNat 0 0 1 [.insert 0 0]).directory_max_depth_ := by decide!
  have hl : (dirFor (stateAfter 10 2 Int.toNat 0 0 1 [.insert 0 0]) 1).local_depths_
        ((dirFor (stateAfter 10 2 Int.toNat 0 0 1 [.insert 0 0]) 1).HashToBucketIndex
          ((stateAfter 10 2 Int.toNat 0 0 1 [.insert 0 0]).Hash 1)) =
      (dirFor (stateAfter 10 2 Int.toNat 0 0 1 [.insert 0 0]) 1).global_depth_ := by decide!
  have h : DiskExtendibleHashTable.Insert 16 (stateAfter 10 2 Int.toNat 0 0 1 [.insert 0 0]) 1 10 =
      .ok (false,
        tableOf (DiskExtendibleHashTable.Insert 16 (stateAfter 10 2 Int.toNat 0 0 1 [.insert 0 0]) 1 10)) :=
    returns_eq_ok (by decide!)
  ⟨hr, ha, hg, hl, h, failed_insert_at_max_depth_unchanged 16 _ _ 1 10 hr ha hg hl h⟩

end Pooled

end bustub
